import Mathlib

/-! Parsimony front end: CYK recogniser, colorizer and constraint graphs.

A shallow embedding of `src/cpp/parser.cpp` and `src/cpp/inference.cpp`.

Conventions of the embedding.

* The C++ `int`s that index tables (symbols, positions, lengths, slots) are
  natural numbers; the `Score` fields, which the code makes negative, are
  integers.  No arithmetic of the embedded code comes near the 32-bit range
  unless a table of more than `2^31` cells has been allocated.
* A heap table (`table3d`, `table2d`) is a total function of its indices and an
  assignment to a cell is a functional update.  Theorems state the index ranges
  of the C++ loops as hypotheses.
* A plain `for` loop over an index range is a `List.foldl` over that range; a
  loop with `break` or an early `return` is a recursive function that takes the
  current index and the number of iterations left.
* The `std::map<VertexInfo, vertex_t>` of a `ConstraintState` is an association
  list that `map_find`, `map_set` and `map_erase_find` search by equality of
  keys.  `VertexInfo::operator<` (`VertexInfo.lt`) is the strict lexicographic
  order on position lists of one length; across lengths it may read past the
  end of the shorter vector.  So the list is what the map does when the stored
  keys and the looked-up key have one number of positions, which
  `ConstraintState.KeyLen` states for the stored keys.
-/

namespace Parsimony

/-! ## Grammar (`parser.cpp`, lines 54-92) -/

/-- The grammar: an `n` by `m` by 3 table; `table l j` is the `j`-th slot of
row `l`, whose fields 0, 1, 2 hold the left-hand side and the two right-hand
symbols.  A slot whose field 0 is zero is unused. -/
structure Grammar where
  n : Nat
  m : Nat
  table : Nat → Nat → Nat → Nat

/-- The constructor `Grammar::Grammar(n, m)`: a zero-filled table. -/
def Grammar.new (n m : Nat) : Grammar :=
  { n := n, m := m, table := fun _ _ _ => 0 }

/-- The search loop of `Grammar::add`:
`for (i = 0; i < m; i++) if (row[i][0] == 0) { empty_col = i; break; }`
started at slot `i` with `r` iterations left; `empty_col` is initialised to 0
and keeps that value when the loop ends without a `break`. -/
def Grammar.empty_col (row : Nat → Nat → Nat) : Nat → Nat → Nat
  | _, 0 => 0
  | i, r + 1 => if row i 0 = 0 then i else Grammar.empty_col row (i + 1) r

/-- The method `Grammar::add(l, r1, r2)`: writes `(l, r1, r2)` into the slot
found by the search loop. -/
def Grammar.add (g : Grammar) (l r1 r2 : Nat) : Grammar :=
  let c := Grammar.empty_col (g.table l) 0 g.m
  { g with table := fun a j f =>
      if a = l ∧ j = c then
        (if f = 0 then l else if f = 1 then r1 else if f = 2 then r2 else g.table a j f)
      else g.table a j f }

/-- The method `Grammar::productions_with_lhs(l)`: the row of `l`. -/
def Grammar.productions_with_lhs (g : Grammar) (l : Nat) : Nat → Nat → Nat :=
  g.table l

/-! ## ColorSet (`parser.cpp`, lines 98-129) -/

/-- A colour set: three parallel vectors. -/
structure ColorSet where
  nts : List Nat
  is : List Nat
  ls : List Nat
deriving DecidableEq, Repr

/-- The constructor `ColorSet::ColorSet()`. -/
def ColorSet.empty : ColorSet := { nts := [], is := [], ls := [] }

/-- The accessor `ColorSet::size()`. -/
def ColorSet.size (cs : ColorSet) : Nat := cs.nts.length

/-- The accessor `ColorSet::nt(i)`. -/
def ColorSet.nt (cs : ColorSet) (j : Nat) : Nat := cs.nts.getD j 0

/-- The accessor `ColorSet::i(j)`. -/
def ColorSet.i (cs : ColorSet) (j : Nat) : Nat := cs.is.getD j 0

/-- The accessor `ColorSet::l(i)`. -/
def ColorSet.l (cs : ColorSet) (j : Nat) : Nat := cs.ls.getD j 0

/-- The search loop of `ColorSet::add`: whether some index `j' ≥ j` among the
next `r` holds the triple `(nt, i, l)`. -/
def ColorSet.found (cs : ColorSet) (nt i l : Nat) : Nat → Nat → Bool
  | _, 0 => false
  | j, r + 1 =>
    if cs.nts.getD j 0 = nt ∧ cs.is.getD j 0 = i ∧ cs.ls.getD j 0 = l then true
    else ColorSet.found cs nt i l (j + 1) r

/-- The method `ColorSet::add(nt, i, l)`: returns at once when the triple is
stored already, appends it to the three vectors otherwise. -/
def ColorSet.add (cs : ColorSet) (nt i l : Nat) : ColorSet :=
  if cs.found nt i l 0 cs.nts.length then cs
  else { nts := cs.nts ++ [nt], is := cs.is ++ [i], ls := cs.ls ++ [l] }

/-- The stored triples, as a caller reads them through the accessors:
`(nt(j), i(j), l(j))` for `j < size()`. -/
def ColorSet.triples (cs : ColorSet) : List (Nat × Nat × Nat) :=
  (List.range cs.size).map (fun j => (cs.nt j, cs.i j, cs.l j))

/-- The three vectors of a ColorSet have the same length. -/
def ColorSet.Par (cs : ColorSet) : Prop :=
  cs.is.length = cs.nts.length ∧ cs.ls.length = cs.nts.length

/-- The method `ColorSet::add` called for each triple of a list in turn. -/
def ColorSet.addAll (cs : ColorSet) (ts : List (Nat × Nat × Nat)) : ColorSet :=
  ts.foldl (fun acc t => acc.add t.1 t.2.1 t.2.2) cs

/-- A list with `x` appended unless `x` occurs in it. -/
def addNew (acc : List (Nat × Nat × Nat)) (x : Nat × Nat × Nat) : List (Nat × Nat × Nat) :=
  if x ∈ acc then acc else acc ++ [x]

/-- Deduplication that keeps the first occurrence of every element, in the
order of the first occurrences. -/
def dedupFirst (xs : List (Nat × Nat × Nat)) : List (Nat × Nat × Nat) :=
  xs.foldl addNew []

/-! ## Score (`parser.cpp`, lines 135-156) -/

/-- A score `(coverage, largest, num)`. -/
structure Score where
  coverage : Int
  largest : Int
  num : Int
deriving DecidableEq, Repr

/-- The default constructor `Score::Score()`. -/
def Score.zero : Score := { coverage := 0, largest := 0, num := 0 }

/-- The method `Score::better_than`. -/
def Score.better_than (s other : Score) : Bool :=
  if s.coverage > other.coverage then true
  else if s.coverage < other.coverage then false
  else if s.largest > other.largest then true
  else if s.largest < other.largest then false
  else if s.num > other.num then true
  else false

/-- The method `Score::equals`. -/
def Score.equals (s other : Score) : Bool :=
  s.coverage == other.coverage && s.largest == other.largest && s.num == other.num

/-- The triple `(coverage, largest, num)` in the lexicographic order. -/
def Score.key (s : Score) : Int ×ₗ Int ×ₗ Int := toLex (s.coverage, toLex (s.largest, s.num))

/-- The combined score of two child spans, in the words of the specification:
the coverages add up, `largest` is the maximum, the numbers add up. -/
def Score.combine (a b : Score) : Score :=
  { coverage := a.coverage + b.coverage, largest := max a.largest b.largest, num := a.num + b.num }

/-- The shape of every score that the colorizer stores: coverage and largest
are not negative, and a score without coverage is the default score. -/
def Score.Inv (s : Score) : Prop :=
  0 ≤ s.coverage ∧ 0 ≤ s.largest ∧ (s.coverage = 0 → s.largest = 0 ∧ s.num = 0)

/-! ## CYK (`parser.cpp`, lines 166-410) -/

/-- The recogniser object. -/
structure CYK where
  n : Nat
  m : Nat
  lmax : Nat
  cyk_table : Nat → Nat → Nat → Bool
  col_table : Nat → Nat → ColorSet
  score_table : Nat → Nat → Score
  ignored : List Nat
  grammar : Grammar

/-- The constructor `CYK::CYK(n, m, g)`: `lmax = 1 + m` and zero-initialised
tables. -/
def CYK.new (n m : Nat) (g : Grammar) : CYK :=
  { n := n, m := m, lmax := 1 + m,
    cyk_table := fun _ _ _ => false,
    col_table := fun _ _ => ColorSet.empty,
    score_table := fun _ _ => Score.zero,
    ignored := [],
    grammar := g }

/-- The assignment `cyk_table[nt][i][l] = v`. -/
def CYK.write_cyk (c : CYK) (nt i l : Nat) (v : Bool) : CYK :=
  { c with cyk_table := fun a b d => if a = nt ∧ b = i ∧ d = l then v else c.cyk_table a b d }

/-- The method `CYK::set_cyk`. -/
def CYK.set_cyk (c : CYK) (nt i l : Nat) : CYK := c.write_cyk nt i l true

/-- The method `CYK::unset_cyk`. -/
def CYK.unset_cyk (c : CYK) (nt i l : Nat) : CYK := c.write_cyk nt i l false

/-- The method `CYK::get_cyk`. -/
def CYK.get_cyk (c : CYK) (nt i l : Nat) : Bool := c.cyk_table nt i l

/-- The method `CYK::get_lmax`. -/
def CYK.get_lmax (c : CYK) : Nat := c.lmax

/-- The split loop of `CYK::match`: `for (k = 1; k < l; ++k)` for the rule
`nt -> a b`, at split `k` with `r` iterations left; true as soon as a split
has both halves set. -/
def CYK.match_split (c : CYK) (a b i l : Nat) : Nat → Nat → Bool
  | _, 0 => false
  | k, r + 1 =>
    if c.cyk_table a i k && c.cyk_table b (i + k) (l - k) then true
    else CYK.match_split c a b i l (k + 1) r

/-- The production loop of `CYK::match`: `for (j = 0; j < grammar.m; ++j)`,
at slot `j` with `r` iterations left; it stops at the end sentinel
`p[0] == 0`. -/
def CYK.match_prod (c : CYK) (nt i l : Nat) : Nat → Nat → Bool
  | _, 0 => false
  | j, r + 1 =>
    let p := c.grammar.productions_with_lhs nt j
    if p 0 = 0 then false
    else if c.match_split (p 1) (p 2) i l 1 (l - 1) then true
    else CYK.match_prod c nt i l (j + 1) r

/-- The method `CYK::match(nt, i, l)`. -/
def CYK.match_ (c : CYK) (nt i l : Nat) : Bool :=
  if c.cyk_table nt i l then false
  else c.match_prod nt i l 0 c.grammar.m

/-- The body of the `l` loop of `parse` and of `parse_partial`:
`for (nt = 1; nt < n; ++nt) for (i = 0; i <= m-l; ++i)
   cyk_table[nt][i][l] = match(nt, i, l);` -/
def CYK.parse_level (c : CYK) (l : Nat) : CYK :=
  (List.range' 1 (c.n - 1)).foldl
    (fun c1 nt =>
      (List.range (c.m + 1 - l)).foldl
        (fun c2 i => c2.write_cyk nt i l (c2.match_ nt i l)) c1)
    c

/-- The method `CYK::parse()`: `for (l = 2; l < lmax; ++l)`. -/
def CYK.parse (c : CYK) : CYK :=
  (List.range' 2 (c.lmax - 2)).foldl CYK.parse_level c

/-- The loop `for (; l < lmax && l < next_l; ++l)` of `parse_partial`, with
`f` iterations allowed; it returns the final value of `l` with the state. -/
def CYK.parse_chunk (next_l : Nat) : Nat → Nat → CYK → Nat × CYK
  | 0, l, c => (l, c)
  | f + 1, l, c =>
    if l < c.lmax ∧ l < next_l then CYK.parse_chunk next_l f (l + 1) (c.parse_level l)
    else (l, c)

/-- The method `CYK::parse_partial(l)`: the returned `int` and the state.
The loop leaves after at most 10 rounds, when `l` has reached `next_l`. -/
def CYK.parse_partial (c : CYK) (l : Nat) : Nat × CYK :=
  let next_l := l + 10
  let r := CYK.parse_chunk next_l 10 l c
  if r.1 = r.2.lmax then (0, r.2) else (next_l, r.2)

/-- The caller's loop `l := 2; repeat l := parse_partial(l) until l = 0`, at
`l`, with `f` calls allowed: `none` when the calls are used up before a call
returns 0. -/
def CYK.parse_driver : Nat → Nat → CYK → Option CYK
  | 0, _, _ => none
  | f + 1, l, c =>
    let r := c.parse_partial l
    if r.1 = 0 then some r.2 else CYK.parse_driver f r.1 r.2

/-- Two recogniser states that differ in the colour and score tables only. -/
def ColFrame (c c1 : CYK) : Prop :=
  c1.n = c.n ∧ c1.m = c.m ∧ c1.lmax = c.lmax ∧ c1.grammar = c.grammar ∧
    c1.cyk_table = c.cyk_table ∧ c1.ignored = c.ignored

/-- Every score of the score table has the shape `Score.Inv`. -/
def ScoresOk (c : CYK) : Prop := ∀ a b, (c.score_table a b).Inv

/-- Two recogniser states that differ in the recognition table only. -/
def SameFrame (c c1 : CYK) : Prop :=
  c1.n = c.n ∧ c1.m = c.m ∧ c1.lmax = c.lmax ∧ c1.grammar = c.grammar ∧
    c1.col_table = c.col_table ∧ c1.score_table = c.score_table ∧ c1.ignored = c.ignored

/-- Scenario 1 of the specification: the grammar `S -> A B` with `S = 1`,
`A = 2`, `B = 3` (`N = 4`, `M = 1`) on two tokens, with `R[A][0][1]` and
`R[B][1][1]` pre-seeded. -/
def scenario1 : CYK :=
  ((CYK.new 4 2 ((Grammar.new 4 1).add 1 2 3)).set_cyk 2 0 1).set_cyk 3 1 1

/-- The method `CYK::get_colors`. -/
def CYK.get_colors (c : CYK) (i l : Nat) : ColorSet := c.col_table i l

/-- The method `CYK::set_color`: `col_table[i][l].add(nt, ci, cl)`. -/
def CYK.set_color (c : CYK) (i l nt ci cl : Nat) : CYK :=
  { c with col_table := fun a b =>
      if a = i ∧ b = l then (c.col_table i l).add nt ci cl else c.col_table a b }

/-- The method `CYK::set_colors(i, l, colors)`:
`for (j = 0; j < colors.size(); ++j) set_color(i, l, colors.nt(j), colors.i(j), colors.l(j))`.
The C++ parameter is a reference; `compute_color` passes cells of spans
shorter than `l` only, which the loop does not write, so that the referenced
ColorSet keeps the value it has at the call. -/
def CYK.set_colors (c : CYK) (i l : Nat) (colors : ColorSet) : CYK :=
  (List.range colors.size).foldl
    (fun c1 j => c1.set_color i l (colors.nt j) (colors.i j) (colors.l j)) c

/-- The method `CYK::ignore`: insertion into the set of ignored symbols. -/
def CYK.ignore (c : CYK) (nt : Nat) : CYK :=
  { c with ignored := c.ignored.insert nt }

/-- The method `CYK::is_ignored`. -/
def CYK.is_ignored (c : CYK) (nt : Nat) : Bool := decide (nt ∈ c.ignored)

/-- The method `CYK::get_score`. -/
def CYK.get_score (c : CYK) (i l : Nat) : Score := c.score_table i l

/-- The method `CYK::set_score`. -/
def CYK.set_score (c : CYK) (i l : Nat) (coverage largest num : Int) : CYK :=
  { c with score_table := fun a b =>
      if a = i ∧ b = l then { coverage := coverage, largest := largest, num := num }
      else c.score_table a b }

/-- The score `combined` that `compute_color(i, l)` forms at the split `k`. -/
def CYK.combined (c : CYK) (i l k : Nat) : Score :=
  let lscore := c.get_score i k
  let rscore := c.get_score (i + k) (l - k)
  { coverage := lscore.coverage + rscore.coverage,
    largest := if lscore.largest > rscore.largest then lscore.largest else rscore.largest,
    num := lscore.num + rscore.num }

/-- The two conditional `push_back`s of `compute_color` at the split `k`: the
vector `best` holds pointers to cells of the colour table, here the indices of
these cells. -/
def CYK.push_children (c : CYK) (i l k : Nat) (best : List (Nat × Nat)) : List (Nat × Nat) :=
  let best1 := if (c.get_colors i k).size > 0 then best ++ [(i, k)] else best
  if (c.get_colors (i + k) (l - k)).size > 0 then best1 ++ [(i + k, l - k)] else best1

/-- The pointers that `compute_color(i, l)` pushes at the split `k`. -/
def CYK.children (c : CYK) (i l k : Nat) : List (Nat × Nat) := c.push_children i l k []

/-- The initial value `Score score_so_far(0, 0, -1000000)` of `compute_color`. -/
def Score.floor : Score := { coverage := 0, largest := 0, num := -1000000 }

/-- One round of the split loop of `compute_color`, on the pair
`(score_so_far, best)`. -/
def CYK.split_step (c : CYK) (i l : Nat) (st : Score × List (Nat × Nat)) (k : Nat) :
    Score × List (Nat × Nat) :=
  let combined := c.combined i l k
  if combined.better_than st.1 then (combined, c.push_children i l k [])
  else if combined.equals st.1 then (st.1, c.push_children i l k st.2)
  else st

/-- The first loop of `compute_color(i, l)`: the vector `nts` of the symbols
`nt` in `[1, n)`, in increasing order, that are not ignored and have
`R[nt][i][l]`. -/
def CYK.full_nts (c : CYK) (i l : Nat) : List Nat :=
  (List.range' 1 (c.n - 1)).filter (fun nt => !c.is_ignored nt && c.get_cyk nt i l)

/-- The split loop of `compute_color(i, l)`, `for (k = 1; k < l; ++k)`: the
pair `(score_so_far, best)` when the loop ends. -/
def CYK.best_split (c : CYK) (i l : Nat) : Score × List (Nat × Nat) :=
  (List.range' 1 (l - 1)).foldl (c.split_step i l) (Score.floor, [])

/-- The method `CYK::compute_color(i, l)`. -/
def CYK.compute_color (c : CYK) (i l : Nat) : CYK :=
  let nts := c.full_nts i l
  if nts.length > 0 then
    nts.foldl (fun c1 nt => (c1.set_color i l nt i l).set_score i l l l (-1)) c
  else
    let r := c.best_split i l
    let c1 := r.2.foldl (fun c1 p => c1.set_colors i l (c1.get_colors p.1 p.2)) c
    c1.set_score i l r.1.coverage r.1.largest r.1.num

/-- The body of the `l` loop of `colorize` and of `colorize_partial`:
`for (i = 0; i <= m-l; ++i) compute_color(i, l);` -/
def CYK.colorize_level (c : CYK) (l : Nat) : CYK :=
  (List.range (c.m + 1 - l)).foldl (fun c1 i => c1.compute_color i l) c

/-- The method `CYK::colorize()`: the initialisation for `l = 1`, then
`for (l = 2; l < lmax; ++l)`. -/
def CYK.colorize (c : CYK) : CYK :=
  let c0 := (List.range c.m).foldl
    (fun c1 i => (List.range' 1 (c.n - 1)).foldl
      (fun c2 nt =>
        if !c2.is_ignored nt && c2.get_cyk nt i 1 then
          (c2.set_color i 1 nt i 1).set_score i 1 1 1 (-1)
        else c2) c1) c
  (List.range' 2 (c.lmax - 2)).foldl CYK.colorize_level c0

/-- The method `CYK::init_colorize_partial()`. -/
def CYK.init_colorize_partial (c : CYK) : CYK :=
  (List.range c.m).foldl
    (fun c1 i => (List.range' 1 (c.n - 1)).foldl
      (fun c2 nt =>
        if !c2.is_ignored nt && c2.get_cyk nt i 1 then
          (c2.set_color i 1 nt i 1).set_score i 1 1 1 (-1)
        else c2) c1) c

/-- The loop `for (; l < lmax && l < next_l; ++l)` of `colorize_partial`, with
`f` iterations allowed; it returns the final value of `l` with the state. -/
def CYK.colorize_chunk (next_l : Nat) : Nat → Nat → CYK → Nat × CYK
  | 0, l, c => (l, c)
  | f + 1, l, c =>
    if l < c.lmax ∧ l < next_l then CYK.colorize_chunk next_l f (l + 1) (c.colorize_level l)
    else (l, c)

/-- The method `CYK::colorize_partial(l)`: the returned `int` and the state. -/
def CYK.colorize_partial (c : CYK) (l : Nat) : Nat × CYK :=
  let next_l := l + 10
  let r := CYK.colorize_chunk next_l 10 l c
  if r.1 = r.2.lmax then (0, r.2) else (next_l, r.2)

/-- The caller's loop `l := 2; repeat l := colorize_partial(l) until l = 0`,
at `l`, with `f` calls allowed: `none` when the calls are used up before a call
returns 0. -/
def CYK.colorize_driver : Nat → Nat → CYK → Option CYK
  | 0, _, _ => none
  | f + 1, l, c =>
    let r := c.colorize_partial l
    if r.1 = 0 then some r.2 else CYK.colorize_driver f r.1 r.2

/-- Scenario 2 of the specification: scenario 1 after `parse()`, nothing
ignored. -/
def scenario2 : CYK := scenario1.parse

/-- Scenario 3 of the specification: scenario 1 after `parse()`, with `S = 1`
ignored. -/
def scenario3 : CYK := scenario1.parse.ignore 1

/-! ## Constraint graphs (`inference.h`, `inference.cpp`)

Conventions of this part.

* `pos_t` and `sym_t` are C++ `int`s: integers.
* The graph type is `boost::adjacency_list<setS, vecS, bidirectionalS,
  VertexInfo, EdgeInfo>`.  With `vecS` a vertex descriptor is an index into the
  vertex vector and vertices are never removed (`clear_vertex` only removes the
  incident edges).  With `setS` the out-edges and in-edges of a vertex are
  `std::set`s ordered by the opposite endpoint: there is at most one edge per
  ordered pair of vertices, `add_edge` on an existing pair returns the existing
  edge, `out_edges` lists by increasing target and `in_edges` by increasing
  source.  `edges` lists the edge list in insertion order.
* A `std::set` is a sorted list without repetition, built by sorted insertion.
* `std::map<VertexInfo, vertex_t>` is an association list whose keys are
  compared by equality: on position lists of one length `operator<` is the
  lexicographic order, for which two keys are equivalent exactly when they are
  equal (`vi_lt_equiv_iff`).
* A step with undefined behaviour in C++ (`erase` of the `end()` iterator, an
  index past the end of a vector) makes the embedded function return `none`.
-/

/-- The type `pos_t`. -/
abbrev pos_t := Int

/-- The type `sym_t`. -/
abbrev sym_t := Int

/-- The class `VertexInfo`: a vector of positions. -/
structure VertexInfo where
  positions : List pos_t
deriving DecidableEq, Repr

/-- The method `VertexInfo::add_position`. -/
def VertexInfo.add_position (vi : VertexInfo) (position : pos_t) : VertexInfo :=
  { positions := vi.positions ++ [position] }

/-- The loop of `VertexInfo::operator<` on the remaining positions of the left
and right sides: `none` when `right_positions[i]` is read past its end. -/
def VertexInfo.lt_loop : List pos_t → List pos_t → Option Bool
  | [], _ => some false
  | _ :: _, [] => none
  | l :: ls, r :: rs =>
    if l < r then some true
    else if r < l then some false
    else VertexInfo.lt_loop ls rs

/-- The operator `VertexInfo::operator<`. -/
def VertexInfo.lt (left right : VertexInfo) : Option Bool :=
  VertexInfo.lt_loop left.positions right.positions

/-- The class `EdgeInfo`: a vector of symbols. -/
structure EdgeInfo where
  syms : List sym_t
deriving DecidableEq, Repr

/-- The method `EdgeInfo::add_sym`. -/
def EdgeInfo.add_sym (ei : EdgeInfo) (sym : sym_t) : EdgeInfo :=
  { syms := ei.syms ++ [sym] }

/-- The class `ProvenanceElement`. -/
structure ProvenanceElement where
  sample_id : Int
  nt : sym_t
  i : pos_t
  l : Int
deriving DecidableEq, Repr

/-- The class `Provenance`. -/
structure Provenance where
  elems : List ProvenanceElement
deriving DecidableEq, Repr

/-- The method `Provenance::add_provenance`. -/
def Provenance.add_provenance (p : Provenance) (sample_id : Int) (nt : sym_t) (i : pos_t)
    (l : Int) : Provenance :=
  { elems := p.elems ++ [{ sample_id := sample_id, nt := nt, i := i, l := l }] }

/-- Insertion into a `std::set` ordered by `lt`. -/
def set_insert {α : Type} (lt : α → α → Bool) (x : α) : List α → List α
  | [] => [x]
  | y :: ys =>
    if lt x y then x :: y :: ys
    else if lt y x then y :: set_insert lt x ys
    else y :: ys

/-- The order of `std::set<int>` and of `std::set<vertex_t>`. -/
def int_lt (a b : Int) : Bool := decide (a < b)

/-- The order of `std::set<vertex_t>`. -/
def nat_lt (a b : Nat) : Bool := decide (a < b)

/-- The order of `std::set<vertex_pair_t>`: `std::pair` compares
lexicographically. -/
def pair_lt (a b : Nat × Nat) : Bool :=
  decide (a.1 < b.1) || (decide (a.1 = b.1) && decide (a.2 < b.2))

/-- An edge of the graph with its `EdgeInfo`. -/
structure Edge where
  src : Nat
  tgt : Nat
  info : EdgeInfo
deriving DecidableEq, Repr

/-- The type `Graph`: the vertex vector with the `VertexInfo` of each vertex,
and the edge list in insertion order. -/
structure Graph where
  verts : List VertexInfo
  edges : List Edge
deriving DecidableEq, Repr

/-- A default-constructed graph. -/
def Graph.empty : Graph := { verts := [], edges := [] }

/-- The function `boost::num_vertices`. -/
def Graph.num_vertices (g : Graph) : Nat := g.verts.length

/-- The function `boost::num_edges`. -/
def Graph.num_edges (g : Graph) : Nat := g.edges.length

/-- The function `boost::vertices`: the descriptors `0, ..., n - 1`. -/
def Graph.vertices (g : Graph) : List Nat := List.range g.verts.length

/-- The vertex property `g[v]`. -/
def Graph.vinfo (g : Graph) (v : Nat) : VertexInfo := g.verts.getD v { positions := [] }

/-- The function `boost::add_vertex`: a new vertex with a default `VertexInfo`;
its descriptor is the former number of vertices. -/
def Graph.add_vertex (g : Graph) : Graph × Nat :=
  ({ g with verts := g.verts ++ [{ positions := [] }] }, g.verts.length)

/-- The assignment `g[v].positions = ps`. -/
def Graph.set_positions (g : Graph) (v : Nat) (ps : List pos_t) : Graph :=
  { g with verts := g.verts.set v { positions := ps } }

/-- The function `boost::lookup_edge(u, v, g)`: the edge from `u` to `v`, if any. -/
def Graph.lookup_edge (g : Graph) (u v : Nat) : Option Edge :=
  g.edges.find? (fun e => e.src = u ∧ e.tgt = v)

/-- The function `boost::add_edge(u, v, g)` for a `vecS` vertex vector and
`setS` edge sets: the vertex vector is first grown to hold `max u v`; when the
edge from `u` to `v` exists nothing else changes (the flag is `false`),
otherwise an edge with a default `EdgeInfo` is appended to the edge list. -/
def Graph.add_edge (g : Graph) (u v : Nat) : Graph × Bool :=
  let x := max u v
  let verts :=
    if x ≥ g.verts.length then
      g.verts ++ List.replicate (x + 1 - g.verts.length) { positions := [] }
    else g.verts
  match g.lookup_edge u v with
  | some _ => ({ g with verts := verts }, false)
  | none => ({ verts := verts, edges := g.edges ++ [{ src := u, tgt := v, info := { syms := [] } }] },
      true)

/-- The assignment to the edge property `g[e]` of the edge from `u` to `v`. -/
def Graph.set_info (g : Graph) (u v : Nat) (info : EdgeInfo) : Graph :=
  { g with edges := g.edges.map (fun e => if e.src = u ∧ e.tgt = v then { e with info := info } else e) }

/-- The edge property `g[e]` of the edge from `u` to `v`. -/
def Graph.info (g : Graph) (u v : Nat) : EdgeInfo :=
  match g.lookup_edge u v with
  | some e => e.info
  | none => { syms := [] }

/-- The function `boost::out_edges(u, g)`: the edges leaving `u`, by
increasing target. -/
def Graph.out_edges (g : Graph) (u : Nat) : List Edge :=
  (g.edges.filter (fun e => e.src = u)).insertionSort (fun a b => a.tgt ≤ b.tgt)

/-- The function `boost::in_edges(v, g)`: the edges entering `v`, by
increasing source. -/
def Graph.in_edges (g : Graph) (v : Nat) : List Edge :=
  (g.edges.filter (fun e => e.tgt = v)).insertionSort (fun a b => a.src ≤ b.src)

/-- The function `boost::degree(u, g)`: in-degree plus out-degree. -/
def Graph.degree (g : Graph) (u : Nat) : Nat :=
  (g.in_edges u).length + (g.out_edges u).length

/-- The function `boost::remove_edge(e, g)` for the edge from `u` to `v`. -/
def Graph.remove_edge (g : Graph) (u v : Nat) : Graph :=
  { g with edges := g.edges.filter (fun e => ¬ (e.src = u ∧ e.tgt = v)) }

/-- The function `boost::clear_vertex(v, g)`: removes the edges to and from
`v`; the vertex stays. -/
def Graph.clear_vertex (g : Graph) (v : Nat) : Graph :=
  { g with edges := g.edges.filter (fun e => ¬ (e.src = v ∨ e.tgt = v)) }

/-- The method `ConstraintState::has_vertex_descriptor(u, g)`: a scan of
`boost::vertices(g)` for `u`. -/
def has_vertex_descriptor (u : Nat) (g : Graph) : Bool :=
  g.vertices.any (fun x => x = u)

/-- The lookup `vertex_map.find(k)`: the mapped descriptor, `none` for `end()`.
The association list is searched by equality of keys.  This is what
`std::map::find` does when the keys of the map and `k` have one number of
positions: there `VertexInfo::operator<` is the strict lexicographic order and
two keys are equivalent exactly when they are equal.  When a stored key and `k`
of different lengths share the shorter one as a beginning, `std::map::find`
may run `VertexInfo.lt` where it is `none` (a read past the end of the shorter
vector); such lookups are outside this definition, and the statements that
use it keep to keys of one length (`ConstraintState.KeyLen`). -/
def map_find : List (VertexInfo × Nat) → VertexInfo → Option Nat
  | [], _ => none
  | (k1, v) :: rest, k => if k1 = k then some v else map_find rest k

/-- The assignment `vertex_map[k] = v`, the key being searched by equality as
in `map_find`, and under the same condition: the keys of the map and `k` have
one number of positions. -/
def map_set : List (VertexInfo × Nat) → VertexInfo → Nat → List (VertexInfo × Nat)
  | [], k, v => [(k, v)]
  | (k1, v1) :: rest, k, v => if k1 = k then (k1, v) :: rest else (k1, v1) :: map_set rest k v

/-- The call `vertex_map.erase(vertex_map.find(k))`: undefined when `k` is not
a key (`erase(end())`).  The key is searched by equality as in `map_find`, and
under the same condition: the keys of the map and `k` have one number of
positions. -/
def map_erase_find : List (VertexInfo × Nat) → VertexInfo → Option (List (VertexInfo × Nat))
  | [], _ => none
  | (k1, v1) :: rest, k =>
    if k1 = k then some rest
    else (map_erase_find rest k).map (fun r => (k1, v1) :: r)

/-- The breadth-first search with a `BFSPredGraphVisitor`: the queue, the
vertices that are no longer white, and the visitor's graph `p` and set
`active`. -/
structure BFSState where
  queue : List Nat
  seen : List Nat
  p : Graph
  active : List Nat
deriving DecidableEq, Repr

/-- The method `BFSPredGraphVisitor::examine_vertex(s, g)`: for each out-edge of
`s` with target `u`, `add_edge(u, s, p)`, `active.insert(u)`,
`active.insert(s)`. -/
def examine_vertex (g : Graph) (s : Nat) (p : Graph) (active : List Nat) : Graph × List Nat :=
  (g.out_edges s).foldl
    (fun st e => ((st.1.add_edge e.tgt s).1, set_insert nat_lt s (set_insert nat_lt e.tgt st.2)))
    (p, active)

/-- One round of the loop of `boost::breadth_first_visit`: the front of the
queue is popped and examined, and each white target of its out-edges is
coloured and pushed. -/
def bfs_step (g : Graph) (st : BFSState) : BFSState :=
  match st.queue with
  | [] => st
  | s :: q =>
    let r := examine_vertex g s st.p st.active
    let qs := (g.out_edges s).foldl
      (fun (x : List Nat × List Nat) e =>
        if e.tgt ∈ x.2 then x else (x.1 ++ [e.tgt], x.2 ++ [e.tgt]))
      (q, st.seen)
    { queue := qs.1, seen := qs.2, p := r.1, active := r.2 }

/-- The loop of `boost::breadth_first_visit`, for `f` rounds. -/
def bfs_loop (g : Graph) : Nat → BFSState → BFSState
  | 0, st => st
  | f + 1, st => bfs_loop g f (bfs_step g st)

/-- The call `breadth_first_search(g, s, boost::visitor(visitor))` with a
`BFSPredGraphVisitor` on an empty graph `p` and an empty set `active`.  Every
vertex enters the queue at most once, so that `num_vertices(g)` rounds empty
the queue (`bfs_queue_empty`). -/
def breadth_first_search (g : Graph) (s : Nat) : BFSState :=
  bfs_loop g g.num_vertices { queue := [s], seen := [s], p := Graph.empty, active := [] }

/-- The class `Solution`. -/
structure Solution where
  raws : List (List (List pos_t))
  paths : List (List (List sym_t))
  compressed_path : List (List sym_t)
deriving DecidableEq, Repr

/-- The constructor `Solution::Solution()`. -/
def Solution.fresh : Solution := { raws := [], paths := [], compressed_path := [] }

/-- The statement `staging[j].insert(syms.begin(), syms.end())` of
`Solution::compress`: undefined when `j` is past the end of `staging`. -/
def staging_insert (staging : List (List sym_t)) (j : Nat) (syms : List sym_t) :
    Option (List (List sym_t)) :=
  if j < staging.length then
    some (staging.set j (syms.foldl (fun st x => set_insert int_lt x st) (staging.getD j [])))
  else none

/-- The inner loop of `Solution::compress` over one path, from index `j`. -/
def staging_path : List (List sym_t) → Nat → List (List sym_t) → Option (List (List sym_t))
  | staging, _, [] => some staging
  | staging, j, syms :: rest =>
    match staging_insert staging j syms with
    | some st => staging_path st (j + 1) rest
    | none => none

/-- The outer loop of `Solution::compress` over the paths. -/
def staging_paths : List (List sym_t) → List (List (List sym_t)) → Option (List (List sym_t))
  | staging, [] => some staging
  | staging, path :: rest =>
    match staging_path staging 0 path with
    | some st => staging_paths st rest
    | none => none

/-- The method `Solution::compress()`. -/
def Solution.compress (sol : Solution) : Option Solution :=
  match sol.paths with
  | [] => some sol
  | first_path :: _ =>
    match staging_paths (first_path.map (fun _ => [])) sol.paths with
    | some staging => some { sol with compressed_path := staging }
    | none => none

/-- The class `ConstraintState`. -/
structure ConstraintState where
  provenance : Provenance
  table : Graph
  vertex_map : List (VertexInfo × Nat)
  terminal_set : List sym_t
deriving DecidableEq, Repr

/-- The constructor `ConstraintState::ConstraintState()`. -/
def ConstraintState.fresh : ConstraintState :=
  { provenance := { elems := [] }, table := Graph.empty, vertex_map := [], terminal_set := [] }

/-- The method `ConstraintState::add_provenance`. -/
def ConstraintState.add_provenance (cs : ConstraintState) (sample_id : Int) (nt : sym_t)
    (i : pos_t) (l : Int) : ConstraintState :=
  { cs with provenance := cs.provenance.add_provenance sample_id nt i l }

/-- The method `ConstraintState::has_vertex`. -/
def ConstraintState.has_vertex (cs : ConstraintState) (vi : VertexInfo) : Bool :=
  (map_find cs.vertex_map vi).isSome

/-- The read `vertex_map[vi]` of a key that `has_vertex` has found. -/
def ConstraintState.vertex_of (cs : ConstraintState) (vi : VertexInfo) : Nat :=
  (map_find cs.vertex_map vi).getD 0

/-- The method `ConstraintState::_add_vertex`. -/
def ConstraintState._add_vertex (cs : ConstraintState) (vi : VertexInfo) : ConstraintState × Nat :=
  if cs.has_vertex vi then (cs, cs.vertex_of vi)
  else
    let r := cs.table.add_vertex
    ({ cs with table := r.1.set_positions r.2 vi.positions,
               vertex_map := map_set cs.vertex_map vi r.2 }, r.2)

/-- The method `ConstraintState::_add_edge`: the state and the end points of
the returned edge descriptor. -/
def ConstraintState._add_edge (cs : ConstraintState) (from_ to_ : VertexInfo) :
    ConstraintState × Nat × Nat :=
  let r1 := cs._add_vertex from_
  let r2 := r1.1._add_vertex to_
  ({ r2.1 with table := (r2.1.table.add_edge r1.2 r2.2).1 }, r1.2, r2.2)

/-- The method `ConstraintState::add_edge`. -/
def ConstraintState.add_edge (cs : ConstraintState) (from_ to_ : VertexInfo) : ConstraintState :=
  (cs._add_edge from_ to_).1

/-- The method `ConstraintState::add_edge_sym`. -/
def ConstraintState.add_edge_sym (cs : ConstraintState) (from_ to_ : VertexInfo) (sym : sym_t) :
    ConstraintState :=
  if cs.has_vertex from_ && cs.has_vertex to_ then
    let u := cs.vertex_of from_
    let v := cs.vertex_of to_
    let g := (cs.table.add_edge u v).1
    let ei := (g.info u v).add_sym sym
    { cs with table := g.set_info u v { syms := ei.syms.insertionSort (fun a b => a ≤ b) } }
  else cs

/-- The method `ConstraintState::mark_as_terminal`. -/
def ConstraintState.mark_as_terminal (cs : ConstraintState) (sym : sym_t) : ConstraintState :=
  { cs with terminal_set := set_insert int_lt sym cs.terminal_set }

/-- The method `ConstraintState::start_node`. -/
def ConstraintState.start_node (cs : ConstraintState) : VertexInfo :=
  cs.provenance.elems.foldl (fun vi elem => vi.add_position elem.i) { positions := [] }

/-- The method `ConstraintState::end_node`. -/
def ConstraintState.end_node (cs : ConstraintState) : VertexInfo :=
  cs.provenance.elems.foldl (fun vi elem => vi.add_position (elem.i + elem.l)) { positions := [] }

/-- The range `root_begin() .. root_end()`: the vertices without in-edge. -/
def ConstraintState.roots (cs : ConstraintState) : List Nat :=
  cs.table.vertices.filter (fun v => (cs.table.in_edges v).isEmpty)

/-- The method `ConstraintState::empty`. -/
def ConstraintState.empty (cs : ConstraintState) : Bool := cs.table.num_edges = 0

/-- The method `ConstraintState::num_provenance_elements`. -/
def ConstraintState.num_provenance_elements (cs : ConstraintState) : Nat :=
  cs.provenance.elems.length

/-- The method `ConstraintState::get_edges`: the three output vectors. -/
def ConstraintState.get_edges (cs : ConstraintState) :
    List (List pos_t) × List (List pos_t) × List (List sym_t) :=
  (cs.table.edges.map (fun e => (cs.table.vinfo e.src).positions),
   cs.table.edges.map (fun e => (cs.table.vinfo e.tgt).positions),
   cs.table.edges.map (fun e => e.info.syms))

/-- The method `ConstraintState::init_node_pairs`. -/
def init_node_pairs (c1 c2 : ConstraintState) (node_pairs : List (Nat × Nat)) : List (Nat × Nat) :=
  c1.roots.foldl
    (fun np u => c2.roots.foldl (fun np1 v => set_insert pair_lt (u, v) np1) np) node_pairs

/-- The algorithm `std::set_intersection` on two ranges, with `f` steps
allowed; every step drops an element of one of the ranges. -/
def set_intersection_loop : Nat → List sym_t → List sym_t → List sym_t
  | 0, _, _ => []
  | _ + 1, [], _ => []
  | _ + 1, _ :: _, [] => []
  | f + 1, a :: as, b :: bs =>
    if a < b then set_intersection_loop f as (b :: bs)
    else if b < a then set_intersection_loop f (a :: as) bs
    else a :: set_intersection_loop f as bs

/-- The set `sym_intersection` that `intersect_iterate` fills through
`std::set_intersection` and `std::inserter`. -/
def sym_intersection (e1_syms e2_syms : List sym_t) : List sym_t :=
  (set_intersection_loop (e1_syms.length + e2_syms.length) e1_syms e2_syms).foldl
    (fun st x => set_insert int_lt x st) []

/-- The body of the two nested loops of `intersect_iterate` for the out-edge
`e1` of `u` and the out-edge `e2` of `v`, on the pair `(dest, node_pairs)`. -/
def intersect_edge_pair (c1 c2 : ConstraintState) (u v : Nat) (e1 e2 : Edge)
    (st : ConstraintState × List (Nat × Nat)) : ConstraintState × List (Nat × Nat) :=
  let usucc := e1.tgt
  let vsucc := e2.tgt
  let inter := sym_intersection e1.info.syms e2.info.syms
  if inter.isEmpty then st
  else
    let from_ : VertexInfo :=
      { positions := (c1.table.vinfo u).positions ++ (c2.table.vinfo v).positions }
    let to_ : VertexInfo :=
      { positions := (c1.table.vinfo usucc).positions ++ (c2.table.vinfo vsucc).positions }
    let r := st.1._add_edge from_ to_
    let ei := inter.foldl EdgeInfo.add_sym (r.1.table.info r.2.1 r.2.2)
    ({ r.1 with table := r.1.table.set_info r.2.1 r.2.2 ei },
     set_insert pair_lt (usucc, vsucc) st.2)

/-- The method `ConstraintState::intersect_iterate`: the returned flag, `dest`
and `node_pairs`.  The pair taken is `*node_pairs.begin()`, the least one. -/
def intersect_iterate (c1 c2 dest : ConstraintState) (node_pairs : List (Nat × Nat)) :
    Bool × ConstraintState × List (Nat × Nat) :=
  match node_pairs with
  | [] => (false, dest, [])
  | (u, v) :: rest =>
    let r := (c1.table.out_edges u).foldl
      (fun st e1 => (c2.table.out_edges v).foldl
        (fun st1 e2 => intersect_edge_pair c1 c2 u v e1 e2 st1) st)
      (dest, rest)
    (true, r.1, r.2)

/-- The loop `while (intersect_iterate(c1, c2, dest, node_pairs)) {}` with `f`
calls allowed: `none` when the calls are used up before the set is empty. -/
def intersect_loop (c1 c2 : ConstraintState) :
    Nat → ConstraintState → List (Nat × Nat) → Option ConstraintState
  | 0, _, _ => none
  | f + 1, dest, node_pairs =>
    let r := intersect_iterate c1 c2 dest node_pairs
    if r.1 then intersect_loop c1 c2 f r.2.1 r.2.2 else some r.2.1

/-- The method `ConstraintState::intersect_provenance`. -/
def intersect_provenance (c1 c2 dest : ConstraintState) : ConstraintState :=
  let d1 := c1.provenance.elems.foldl
    (fun (d : ConstraintState) elem =>
      { d with provenance := { elems := d.provenance.elems ++ [elem] } }) dest
  c2.provenance.elems.foldl
    (fun (d : ConstraintState) elem =>
      { d with provenance := { elems := d.provenance.elems ++ [elem] } }) d1

/-- The method `ConstraintState::intersect_terminal_set`. -/
def intersect_terminal_set (c1 c2 dest : ConstraintState) : ConstraintState :=
  let d1 := c1.terminal_set.foldl
    (fun (d : ConstraintState) sym =>
      { d with terminal_set := set_insert int_lt sym d.terminal_set }) dest
  c2.terminal_set.foldl
    (fun (d : ConstraintState) sym =>
      { d with terminal_set := set_insert int_lt sym d.terminal_set }) d1

/-- The method `ConstraintState::compute_all_path_nodes(path_nodes)`. -/
def ConstraintState.compute_all_path_nodes (cs : ConstraintState) (path_nodes : List Nat) :
    List Nat :=
  let from_ := cs.start_node
  let to_ := cs.end_node
  if !cs.has_vertex from_ || !cs.has_vertex to_ then path_nodes
  else
    let u := cs.vertex_of from_
    let v := cs.vertex_of to_
    let b1 := breadth_first_search cs.table u
    if !has_vertex_descriptor v b1.p then path_nodes
    else
      let b2 := breadth_first_search b1.p v
      b2.active.foldl (fun pn x => set_insert nat_lt x pn) path_nodes

/-- The last loop of `remove_non_solution_nodes`: for each vertex `v` of
`non_path_nodes`, `vertex_map.erase(vertex_map.find(table[v]))` and
`clear_vertex(v, table)`. -/
def remove_nodes : List Nat → ConstraintState → Option ConstraintState
  | [], cs => some cs
  | v :: rest, cs =>
    match map_erase_find cs.vertex_map (cs.table.vinfo v) with
    | none => none
    | some m => remove_nodes rest { cs with vertex_map := m, table := cs.table.clear_vertex v }

/-- The method `ConstraintState::remove_non_solution_nodes`. -/
def ConstraintState.remove_non_solution_nodes (cs : ConstraintState) : Option ConstraintState :=
  let path_nodes := cs.compute_all_path_nodes []
  let non_path_nodes := cs.table.vertices.foldl
    (fun np v => if v ∈ path_nodes then np else set_insert nat_lt v np) []
  remove_nodes non_path_nodes cs

/-- The method `ConstraintState::intersect(c1, c2, dest)`, with `f` calls of
`intersect_iterate` allowed. -/
def intersect (f : Nat) (c1 c2 dest : ConstraintState) : Option ConstraintState :=
  match intersect_loop c1 c2 f dest (init_node_pairs c1 c2 []) with
  | none => none
  | some d =>
    (intersect_terminal_set c1 c2 (intersect_provenance c1 c2 d)).remove_non_solution_nodes

/-- The method `ConstraintState::remove_unit_paths`. -/
def ConstraintState.remove_unit_paths (cs : ConstraintState) : Option ConstraintState :=
  let from_ := cs.start_node
  let to_ := cs.end_node
  if !cs.has_vertex from_ || !cs.has_vertex to_ then some cs
  else
    let u := cs.vertex_of from_
    let v := cs.vertex_of to_
    match cs.table.lookup_edge u v with
    | none => some cs
    | some e =>
      let is_nonterminal := fun (sym : sym_t) => decide (sym ∉ cs.terminal_set)
      let syms := e.info.syms.filter (fun sym => !is_nonterminal sym)
      if syms.length = 0 then
        let cs1 := { cs with table := cs.table.remove_edge u v }
        let r2 : Option ConstraintState :=
          if cs1.table.degree u = 0 then
            (map_erase_find cs1.vertex_map (cs1.table.vinfo u)).map
              (fun m => { cs1 with vertex_map := m, table := cs1.table.clear_vertex u })
          else some cs1
        match r2 with
        | none => none
        | some cs2 =>
          if cs2.table.degree v = 0 then
            (map_erase_find cs2.vertex_map (cs2.table.vinfo v)).map
              (fun m => { cs2 with vertex_map := m, table := cs2.table.clear_vertex v })
          else some cs2
      else some cs

/-- The loop over the in-edges of the front `n` of `path` in
`shortest_paths_iterate`. -/
def extend_path (u : Nat) (path : List Nat) (ins : List Edge)
    (st : List (List Nat) × Bool) : List (List Nat) × Bool :=
  ins.foldl
    (fun st1 e => (st1.1 ++ [e.src :: path], if e.src = u then true else st1.2)) st

/-- The loop over `paths` in `shortest_paths_iterate`: undefined when the
front of a path is not a vertex of `g` (`in_edges` indexes the vertex vector)
or when a path is empty. -/
def extend_paths (g : Graph) (u : Nat) :
    List (List Nat) → List (List Nat) × Bool → Option (List (List Nat) × Bool)
  | [], st => some st
  | path :: rest, st =>
    match path with
    | [] => none
    | n :: _ =>
      if n < g.num_vertices then extend_paths g u rest (extend_path u path (g.in_edges n) st)
      else none

/-- The method `ConstraintState::shortest_paths_iterate(g, u, paths,
solution_found)`: the returned paths and the flag. -/
def shortest_paths_iterate (g : Graph) (u : Nat) (paths : List (List Nat))
    (solution_found : Bool) : Option (List (List Nat) × Bool) :=
  if paths.isEmpty then some (paths, solution_found)
  else
    match extend_paths g u paths ([], solution_found) with
    | none => none
    | some r =>
      if r.2 then some (r.1.filter (fun path => !decide (path.head? ≠ some u)), r.2)
      else some r

/-- The loop of `shortest_paths` with the counter `limit`. -/
def shortest_paths_loop (g : Graph) (u : Nat) : Nat → List (List Nat) → Option (List (List Nat))
  | limit, paths =>
    match shortest_paths_iterate g u paths false with
    | none => none
    | some r =>
      if r.2 then some r.1
      else if r.1.isEmpty then some r.1
      else
        match limit with
        | 0 => some r.1
        | limit1 + 1 => shortest_paths_loop g u limit1 r.1

/-- The method `ConstraintState::shortest_paths(g, u, v)`. -/
def shortest_paths (g : Graph) (u v : Nat) : Option (List (List Nat)) :=
  shortest_paths_loop g u 100 [[v]]

/-- The inner loop of `solve_shortest` that collects the symbol lists of the
consecutive vertex pairs of a path, looked up in `table`; a pair without edge
is skipped. -/
def path_solution (table : Graph) : List Nat → List (List sym_t)
  | [] => []
  | [_] => []
  | j :: k :: rest =>
    match table.lookup_edge j k with
    | none => path_solution table (k :: rest)
    | some e => e.info.syms :: path_solution table (k :: rest)

/-- The method `ConstraintState::solve_shortest(solution)`; the state itself is
not written. -/
def ConstraintState.solve_shortest (cs : ConstraintState) (solution : Solution) :
    Option Solution :=
  let from_ := cs.start_node
  let to_ := cs.end_node
  if !cs.has_vertex from_ || !cs.has_vertex to_ then some solution
  else
    let u := cs.vertex_of from_
    let v := cs.vertex_of to_
    let b1 := breadth_first_search cs.table u
    if !has_vertex_descriptor v b1.p then some solution
    else
      let b2 := breadth_first_search b1.p v
      match shortest_paths b2.p u v with
      | none => none
      | some paths =>
        let sol := paths.foldl
          (fun (sol : Solution) path =>
            { sol with
              raws := sol.raws ++ [path.map (fun x => (cs.table.vinfo x).positions)],
              paths := sol.paths ++ [path_solution cs.table path] })
          solution
        sol.compress

/-- The method `ConstraintState::solve_shortest_non_unit(solution)`: the state
after `remove_unit_paths` and the solution. -/
def ConstraintState.solve_shortest_non_unit (cs : ConstraintState) (solution : Solution) :
    Option (ConstraintState × Solution) :=
  match cs.remove_unit_paths with
  | none => none
  | some cs1 =>
    match cs1.solve_shortest solution with
    | none => none
    | some sol => some (cs1, sol)

/-- The helper of the scenarios: a `VertexInfo` from its positions. -/
def vinfo_of (l : List pos_t) : VertexInfo := { positions := l }

/-- Scenarios 4 and 5 of the specification: a state with one provenance
element `(0, 1, 0, 2)` and the chain `[0] -> [1] -> [2]` whose two edges are
labelled `[x]` and `[y]`. -/
def chain_state (x y : sym_t) : ConstraintState :=
  ((((ConstraintState.fresh.add_provenance 0 1 0 2).add_edge (vinfo_of [0]) (vinfo_of [1])).add_edge_sym
      (vinfo_of [0]) (vinfo_of [1]) x).add_edge (vinfo_of [1]) (vinfo_of [2])).add_edge_sym
    (vinfo_of [1]) (vinfo_of [2]) y

/-- Scenario 6 of the specification: one provenance element `(0, 1, 0, 1)`
and the direct edge `[0] -> [1]` labelled `[5]`, with 5 marked as terminal. -/
def unit_terminal_state : ConstraintState :=
  (((ConstraintState.fresh.add_provenance 0 1 0 1).add_edge (vinfo_of [0]) (vinfo_of [1])).add_edge_sym
    (vinfo_of [0]) (vinfo_of [1]) 5).mark_as_terminal 5

/-- The state of scenario 6 without terminal: the direct edge `[0] -> [1]` is
labelled by the non-terminal 5 alone. -/
def unit_nonterminal_state : ConstraintState :=
  ((ConstraintState.fresh.add_provenance 0 1 0 1).add_edge (vinfo_of [0]) (vinfo_of [1])).add_edge_sym
    (vinfo_of [0]) (vinfo_of [1]) 5

/-- A state with the provenance element `(0, 1, 0, 3)` and, in this order of
construction, the edges `[0] -> [2]`, `[0] -> [1]`, `[1] -> [2]`, `[2] -> [3]`,
each labelled `[7]`: the vertices `[0]`, `[2]`, `[1]`, `[3]` get the
descriptors 0, 1, 2, 3. -/
def diamond_state : ConstraintState :=
  ((((((((ConstraintState.fresh.add_provenance 0 1 0 3).add_edge (vinfo_of [0]) (vinfo_of [2])).add_edge_sym
    (vinfo_of [0]) (vinfo_of [2]) 7).add_edge (vinfo_of [0]) (vinfo_of [1])).add_edge_sym
    (vinfo_of [0]) (vinfo_of [1]) 7).add_edge (vinfo_of [1]) (vinfo_of [2])).add_edge_sym
    (vinfo_of [1]) (vinfo_of [2]) 7).add_edge (vinfo_of [2]) (vinfo_of [3])).add_edge_sym
    (vinfo_of [2]) (vinfo_of [3]) 7

/-- A state with the provenance element `(0, 1, 0, 5)` and the unlabelled
edges `[5] -> [7]` and `[0] -> [3]`, added in this order: the end node `[5]` is
vertex 0, the start node `[0]` is vertex 2, and `[5]` cannot be reached from
`[0]`. -/
def unreachable_state : ConstraintState :=
  ((ConstraintState.fresh.add_provenance 0 1 0 5).add_edge (vinfo_of [5]) (vinfo_of [7])).add_edge
    (vinfo_of [0]) (vinfo_of [3])

/-- The graph has an edge from `a` to `b`. -/
def Graph.HasEdge (g : Graph) (a b : Nat) : Prop := ∃ e ∈ g.edges, e.src = a ∧ e.tgt = b

/-- The vertex `b` can be reached from `a` along edges of the graph. -/
def Graph.Reach (g : Graph) (a b : Nat) : Prop := Relation.ReflTransGen g.HasEdge a b

/-- What every `boost::adjacency_list<setS, vecS, ...>` satisfies: the end
points of the edges are vertices, and no two edges join the same ordered pair. -/
structure Graph.WF (g : Graph) : Prop where
  src_lt : ∀ e ∈ g.edges, e.src < g.verts.length
  tgt_lt : ∀ e ∈ g.edges, e.tgt < g.verts.length
  no_parallel : g.edges.Pairwise (fun e1 e2 => ¬ (e1.src = e2.src ∧ e1.tgt = e2.tgt))

/-- The invariant of the breadth-first search of `g` from `s`: the queue holds
discovered vertices, every discovered vertex is a vertex of `g` that can be
reached from `s`, the successors of the examined vertices (discovered, no
longer in the queue) are discovered, the visitor's graph `p` holds the
reversed out-edges of the examined vertices, without parallel edge and with a
vertex vector just long enough for them, and `active` holds their end points. -/
structure BFSInv (g : Graph) (s : Nat) (st : BFSState) : Prop where
  queue_seen : ∀ x ∈ st.queue, x ∈ st.seen
  seen_nodup : st.seen.Nodup
  queue_nodup : st.queue.Nodup
  seen_lt : ∀ x ∈ st.seen, x < g.verts.length
  seen_reach : ∀ x ∈ st.seen, g.Reach s x
  start_seen : s ∈ st.seen
  closed : ∀ x ∈ st.seen, x ∉ st.queue → ∀ y, g.HasEdge x y → y ∈ st.seen
  p_edges : ∀ a b, st.p.HasEdge a b ↔ (b ∈ st.seen ∧ b ∉ st.queue ∧ g.HasEdge b a)
  active_iff : ∀ x, x ∈ st.active ↔ ∃ a b, st.p.HasEdge a b ∧ (x = a ∨ x = b)
  p_verts : ∀ x, x < st.p.verts.length ↔ ∃ a b, st.p.HasEdge a b ∧ x ≤ max a b
  p_no_parallel : st.p.edges.Pairwise (fun e1 e2 => ¬ (e1.src = e2.src ∧ e1.tgt = e2.tgt))

/-- What every `ConstraintState` built through its methods satisfies: the
graph is well formed; the vertex map sends a key to a vertex of the graph that
carries this key; the map has no key twice; the end points of every edge are
addressed by the map. -/
structure ConstraintState.WF (cs : ConstraintState) : Prop where
  graph : cs.table.WF
  map_range : ∀ k v, map_find cs.vertex_map k = some v →
    v < cs.table.verts.length ∧ cs.table.vinfo v = k
  keys_nodup : (cs.vertex_map.map Prod.fst).Nodup
  live : ∀ e ∈ cs.table.edges,
    map_find cs.vertex_map (cs.table.vinfo e.src) = some e.src ∧
    map_find cs.vertex_map (cs.table.vinfo e.tgt) = some e.tgt

/-- The vertex map addresses every vertex of the graph: no vertex has been
removed from the map yet. -/
def ConstraintState.Total (cs : ConstraintState) : Prop :=
  ∀ v, v < cs.table.verts.length → map_find cs.vertex_map (cs.table.vinfo v) = some v

/-- The edge from `a` to `b` lies on a walk of the graph from `u` to `v`. -/
def Graph.EdgeOnWalk (g : Graph) (u v a b : Nat) : Prop :=
  g.Reach u a ∧ g.HasEdge a b ∧ g.Reach b v

/-- The vertex `x` lies on a walk of the graph from `u` to `v`. -/
def Graph.OnWalk (g : Graph) (u v x : Nat) : Prop := g.Reach u x ∧ g.Reach x v

/-- The list `w` is a walk of the graph that ends at `v`: it is not empty,
consecutive vertices are joined by an edge, and the last vertex is `v`. -/
def Graph.Walk (g : Graph) (v : Nat) : List Nat → Prop
  | [] => False
  | [x] => x = v
  | x :: y :: rest => g.HasEdge x y ∧ Graph.Walk g v (y :: rest)

/-- The list `w` is a walk of the graph from `u` to `v` with `d` edges. -/
def Graph.WalkOf (g : Graph) (u v d : Nat) (w : List Nat) : Prop :=
  w.head? = some u ∧ w.length = d + 1 ∧ g.Walk v w

/-- The paths that one round of `shortest_paths_iterate` builds from `paths`:
each path, in order, extended at the front by the sources of the in-edges of
its front. -/
def extended (g : Graph) (paths : List (List Nat)) : List (List Nat) :=
  paths.flatMap (fun path =>
    match path with
    | [] => []
    | n :: _ => (g.in_edges n).map (fun e => e.src :: path))

/-- Scenario 1 with the entry `R[S][0][2]`, which the grammar derives, set
before `parse()`. -/
def scenario_pinned : CYK := scenario1.set_cyk 1 0 2

/-- The caller's loop `l := 2; repeat l := parse_partial(l) until l = 0`
cancelled after at most `k` calls: the state that the calls made leave. -/
def CYK.parse_cancelled : Nat → Nat → CYK → CYK
  | 0, _, c => c
  | k + 1, l, c =>
    let r := c.parse_partial l
    if r.1 = 0 then r.2 else CYK.parse_cancelled k r.1 r.2

/-- The productions of a row as `Grammar::print` and `CYK::match` read them:
`for (j = 0; j < m; ++j) { if (rule[0] != 0) ... else break; }`, at slot `j`
with `r` iterations left. -/
def Grammar.row_list (row : Nat → Nat → Nat) : Nat → Nat → List (Nat × Nat × Nat)
  | _, 0 => []
  | j, r + 1 =>
    if row j 0 = 0 then []
    else (row j 0, row j 1, row j 2) :: Grammar.row_list row (j + 1) r

/-- The production list of row `l`: the slots of `productions_with_lhs(l)`
before its first zero entry. -/
def Grammar.productions (g : Grammar) (l : Nat) : List (Nat × Nat × Nat) :=
  Grammar.row_list (g.productions_with_lhs l) 0 g.m

/-- No row has a non-zero slot after a zero slot. -/
def Grammar.NoGap (g : Grammar) : Prop :=
  ∀ a j j2, j ≤ j2 → j2 < g.m → g.table a j 0 = 0 → g.table a j2 0 = 0

/-- The grammars built from `new(n, m)` by calls of `add` with a row index
inside the table. -/
inductive Grammar.Built : Grammar → Prop
  | new (n m : Nat) : Grammar.Built (Grammar.new n m)
  | add (g : Grammar) (l r1 r2 : Nat) : Grammar.Built g → l < g.n →
      Grammar.Built (g.add l r1 r2)

/-- A grammar with one slot per row whose row 1 is full: `1 -> 2 3`. -/
def full_row_grammar : Grammar := (Grammar.new 2 1).add 1 2 3

/-- The states that a caller builds from a fresh one with `add_provenance`,
`add_edge`, `add_edge_sym` and `mark_as_terminal`, the position lists passed
having `k` positions each (one per example), which is where the lookups in the
vertex map are defined. -/
inductive ConstraintState.Reachable (k : Nat) : ConstraintState → Prop
  | fresh : ConstraintState.Reachable k ConstraintState.fresh
  | add_provenance (cs : ConstraintState) (sample_id : Int) (nt : sym_t) (i : pos_t) (l : Int) :
      ConstraintState.Reachable k cs →
      ConstraintState.Reachable k (cs.add_provenance sample_id nt i l)
  | add_edge (cs : ConstraintState) (from_ to_ : VertexInfo) :
      ConstraintState.Reachable k cs → from_.positions.length = k → to_.positions.length = k →
      ConstraintState.Reachable k (cs.add_edge from_ to_)
  | add_edge_sym (cs : ConstraintState) (from_ to_ : VertexInfo) (sym : sym_t) :
      ConstraintState.Reachable k cs → from_.positions.length = k → to_.positions.length = k →
      ConstraintState.Reachable k (cs.add_edge_sym from_ to_ sym)
  | mark_as_terminal (cs : ConstraintState) (sym : sym_t) :
      ConstraintState.Reachable k cs → ConstraintState.Reachable k (cs.mark_as_terminal sym)

/-- A state with the single edge `[0] -> [1]`, not labelled yet. -/
def edge_state : ConstraintState :=
  ConstraintState.fresh.add_edge (vinfo_of [0]) (vinfo_of [1])

/-- The state with the single edge `[0] -> [1]` after `add_edge_sym` with 5 and
then with 3. -/
def labelled_state : ConstraintState :=
  (edge_state.add_edge_sym (vinfo_of [0]) (vinfo_of [1]) 5).add_edge_sym
    (vinfo_of [0]) (vinfo_of [1]) 3

/-- The sequence `xs` with every repeated element dropped after its first
occurrence. -/
def keep_first : List (Nat × Nat × Nat) → List (Nat × Nat × Nat)
  | [] => []
  | x :: xs => x :: (keep_first xs).filter (fun y => decide (y ≠ x))

/-- The Solutions that the constructor, the two `push_back`s of
`solve_shortest` and `compress` produce. -/
inductive Solution.Built : Solution → Prop
  | fresh : Solution.Built Solution.fresh
  | push (sol : Solution) (raw : List (List pos_t)) (path : List (List sym_t)) :
      Solution.Built sol →
      Solution.Built { sol with raws := sol.raws ++ [raw], paths := sol.paths ++ [path] }
  | compress (sol s2 : Solution) : Solution.Built sol → sol.compress = some s2 →
      Solution.Built s2

/-- A Solution with two symbol paths of length 2. -/
def two_path_solution : Solution :=
  { raws := [], paths := [[[3, 1], [5]], [[2, 3], [4, 5]]], compressed_path := [] }

/-- The graph of `diamond_state` built in another order: provenance
`(0, 1, 0, 3)` and the edges `[0] -> [1]`, `[1] -> [2]`, `[0] -> [2]`,
`[2] -> [3]`, each labelled `[7]`; the vertices `[0]`, `[1]`, `[2]`, `[3]` get
the descriptors 0, 1, 2, 3. -/
def natural_diamond : ConstraintState :=
  ((((((((ConstraintState.fresh.add_provenance 0 1 0 3).add_edge (vinfo_of [0]) (vinfo_of [1])).add_edge_sym
    (vinfo_of [0]) (vinfo_of [1]) 7).add_edge (vinfo_of [1]) (vinfo_of [2])).add_edge_sym
    (vinfo_of [1]) (vinfo_of [2]) 7).add_edge (vinfo_of [0]) (vinfo_of [2])).add_edge_sym
    (vinfo_of [0]) (vinfo_of [2]) 7).add_edge (vinfo_of [2]) (vinfo_of [3])).add_edge_sym
    (vinfo_of [2]) (vinfo_of [3]) 7

/-- A state with the provenance `(0, 1, 0, 1)`, the edge `[0] -> [1]` and the
dead end `[0] -> [2]`. -/
def dead_end_state : ConstraintState :=
  ((ConstraintState.fresh.add_provenance 0 1 0 1).add_edge (vinfo_of [0]) (vinfo_of [1])).add_edge
    (vinfo_of [0]) (vinfo_of [2])

/-- A state with the provenance `(0, 1, 0, 2)` and the single edge
`[5] -> [6]`: the start node `[0]` is no key of the vertex map. -/
def absent_start_state : ConstraintState :=
  (ConstraintState.fresh.add_provenance 0 1 0 2).add_edge (vinfo_of [5]) (vinfo_of [6])

/-- A chain of `n` edges: the provenance `(0, 1, 0, n)` and the edges
`[i] -> [i + 1]` for `i < n`, added in this order. -/
def long_chain (n : Nat) : ConstraintState :=
  (List.range n).foldl
    (fun cs (i : Nat) => cs.add_edge (vinfo_of [(i : Int)]) (vinfo_of [(i : Int) + 1]))
    (ConstraintState.fresh.add_provenance 0 1 0 n)

/-- The state that `long_chain n` builds, written out: vertex `i` carries
`[i]`, and edge `i` goes from vertex `i` to vertex `i + 1`. -/
def closed_chain (n : Nat) : ConstraintState :=
  { provenance := { elems := [{ sample_id := 0, nt := 1, i := 0, l := n }] },
    table :=
      { verts := (List.range (n + 1)).map
          (fun (i : Nat) => ({ positions := [(i : Int)] } : VertexInfo)),
        edges := (List.range n).map
          (fun (i : Nat) => ({ src := i, tgt := i + 1, info := { syms := [] } } : Edge)) },
    vertex_map := (List.range (n + 1)).map
      (fun (i : Nat) => (({ positions := [(i : Int)] } : VertexInfo), i)),
    terminal_set := [] }

/-- The loop of `shortest_paths` with the counter `limit`, together with the
number of calls of `shortest_paths_iterate` that it has made when it
returns. -/
def shortest_paths_rounds (g : Graph) (u : Nat) :
    Nat → List (List Nat) → Option (List (List Nat) × Nat)
  | limit, paths =>
    match shortest_paths_iterate g u paths false with
    | none => none
    | some r =>
      if r.2 then some (r.1, 1)
      else if r.1.isEmpty then some (r.1, 1)
      else
        match limit with
        | 0 => some (r.1, 1)
        | limit1 + 1 =>
          (shortest_paths_rounds g u limit1 r.1).map (fun q => (q.1, q.2 + 1))

/-- The span `(i, l)` is colourable: some non-ignored `nt` in `[1, N)` has
`R[nt][i][l]`. -/
def CYK.Colourable (c : CYK) (i l : Nat) : Prop :=
  ∃ nt, 1 ≤ nt ∧ nt < c.n ∧ nt ∉ c.ignored ∧ c.cyk_table nt i l = true

/-- The list `sp` of spans `(start, length)` is a set of pairwise disjoint
colourable sub-spans contained in `[i, i + l)`. -/
def CYK.Packing (c : CYK) (i l : Nat) (sp : List (Nat × Nat)) : Prop :=
  (∀ p ∈ sp, 1 ≤ p.2 ∧ i ≤ p.1 ∧ p.1 + p.2 ≤ i + l ∧ c.Colourable p.1 p.2) ∧
  sp.Pairwise (fun p q => p.1 + p.2 ≤ q.1 ∨ q.1 + q.2 ≤ p.1)

/-- The total length of a list of spans. -/
def total_length (sp : List (Nat × Nat)) : Nat := (sp.map Prod.snd).sum

/-- The graph has no cycle: no vertex reaches itself along one edge or more. -/
def Graph.Acyclic (g : Graph) : Prop := ∀ v, ¬ Relation.TransGen g.HasEdge v v

/-- The graph has an edge from `a` to `b` whose symbol list holds `z`. -/
def Graph.HasSym (g : Graph) (a b : Nat) (z : sym_t) : Prop :=
  ∃ e ∈ g.edges, e.src = a ∧ e.tgt = b ∧ z ∈ e.info.syms

/-- The symbol sequence `s` labels a walk of the graph from `a` to `b`: the
`j`-th symbol is taken from the symbol list of the `j`-th edge of the walk. -/
def Graph.LWalk (g : Graph) : Nat → List sym_t → Nat → Prop
  | a, [], b => a = b
  | a, z :: s, b => ∃ m, g.HasSym a m z ∧ Graph.LWalk g m s b

/-- The symbol sequence `s` labels some walk of the state from the vertex of
its start node to the vertex of its end node. -/
def ConstraintState.Accepts (cs : ConstraintState) (s : List sym_t) : Prop :=
  ∃ u v, map_find cs.vertex_map cs.start_node = some u ∧
    map_find cs.vertex_map cs.end_node = some v ∧ cs.table.LWalk u s v

/-- The state has an edge labelled with `z` from a vertex that carries `A`
to a vertex that carries `B`. -/
def ConstraintState.Has (cs : ConstraintState) (A B : VertexInfo) (z : sym_t) : Prop :=
  ∃ a b, cs.table.HasSym a b z ∧ cs.table.vinfo a = A ∧ cs.table.vinfo b = B

/-- The VertexInfo that `intersect_iterate` forms for the vertex pair `p`. -/
def pair_key (c1 c2 : ConstraintState) (p : Nat × Nat) : VertexInfo :=
  { positions := (c1.table.vinfo p.1).positions ++ (c2.table.vinfo p.2).positions }

/-- The pair `q` follows the pair `p` in the product of the two graphs along
edges that both carry `z`. -/
def ProductEdge (c1 c2 : ConstraintState) (z : sym_t) (p q : Nat × Nat) : Prop :=
  c1.table.HasSym p.1 q.1 z ∧ c2.table.HasSym p.2 q.2 z

/-- Every labelled edge of `d` comes from a pair of edges of `c1` and `c2`
that both carry the symbol. -/
def ProductSound (c1 c2 d : ConstraintState) : Prop :=
  ∀ A B z, d.Has A B z →
    ∃ p q, A = pair_key c1 c2 p ∧ B = pair_key c1 c2 q ∧ ProductEdge c1 c2 z p q

/-- The invariant of the working-set loop of `intersect` for the set `D` of
the pairs that have been processed: every initial pair is in the working set
or processed, and every labelled product edge that leaves a processed pair is
in `d`, its target being in the working set or processed. -/
def ProductClosed (c1 c2 d : ConstraintState) (np : List (Nat × Nat))
    (D : Nat × Nat → Prop) : Prop :=
  (∀ p ∈ init_node_pairs c1 c2 [], p ∈ np ∨ D p) ∧
  ∀ p, D p → ∀ q z, ProductEdge c1 c2 z p q →
    d.Has (pair_key c1 c2 p) (pair_key c1 c2 q) z ∧ (q ∈ np ∨ D q)

/-- The symbol sequence `s` labels a walk of the state from a vertex that
carries `A` to a vertex that carries `B`, each edge leaving a vertex with the
VertexInfo that the edge before has reached. -/
def ConstraintState.KWalk (cs : ConstraintState) : VertexInfo → List sym_t → VertexInfo → Prop
  | A, [], B => A = B
  | A, z :: s, B => ∃ M, cs.Has A M z ∧ ConstraintState.KWalk cs M s B

/-- Every key of the vertex map has `k` positions.  On such a map, and for a
looked-up key of `k` positions, `VertexInfo::operator<` never reads past the
end of a vector, and `map_find`, `map_set` and `map_erase_find` are what
`std::map::find`, `operator[]` and `erase` do. -/
def ConstraintState.KeyLen (cs : ConstraintState) (k : Nat) : Prop :=
  ∀ q ∈ cs.vertex_map, q.1.positions.length = k

/-- A state with the provenance element `(0, 1, 0, 0)`, whose start node and
end node are both `[0]`, and the self-loop `[0] -> [0]` labelled by the
non-terminal 5. -/
def self_loop_state : ConstraintState :=
  ((ConstraintState.fresh.add_provenance 0 1 0 0).add_edge (vinfo_of [0]) (vinfo_of [0])).add_edge_sym
    (vinfo_of [0]) (vinfo_of [0]) 5

/-- A state with the single edge `[0, 5] -> [1, 6]`: its keys have two
positions. -/
def wide_state : ConstraintState :=
  ConstraintState.fresh.add_edge (vinfo_of [0, 5]) (vinfo_of [1, 6])

/-- A state with the provenance element `(0, 1, 0, 2)` and the edges
`[0] -> [1]`, `[1] -> [1]`, `[1] -> [2]`, each labelled `[7]`: the graph has a
cycle through `[1]`. -/
def cyclic_state : ConstraintState :=
  ((((((ConstraintState.fresh.add_provenance 0 1 0 2).add_edge (vinfo_of [0]) (vinfo_of [1])).add_edge_sym
    (vinfo_of [0]) (vinfo_of [1]) 7).add_edge (vinfo_of [1]) (vinfo_of [1])).add_edge_sym
    (vinfo_of [1]) (vinfo_of [1]) 7).add_edge (vinfo_of [1]) (vinfo_of [2])).add_edge_sym
    (vinfo_of [1]) (vinfo_of [2]) 7

/-- A state with the provenance element `(0, 1, 0, 1)` and the edges
`[0] -> [1]` and `[1] -> [1]`, each labelled `[7]`: the end vertex carries a
self-loop. -/
def lasso_state : ConstraintState :=
  ((((ConstraintState.fresh.add_provenance 0 1 0 1).add_edge (vinfo_of [0]) (vinfo_of [1])).add_edge_sym
    (vinfo_of [0]) (vinfo_of [1]) 7).add_edge (vinfo_of [1]) (vinfo_of [1])).add_edge_sym
    (vinfo_of [1]) (vinfo_of [1]) 7

/-! # Properties of the recogniser -/

section Recogniser

@[simp] theorem write_cyk_n (c : CYK) (nt i l : Nat) (v : Bool) : (c.write_cyk nt i l v).n = c.n := rfl
@[simp] theorem write_cyk_m (c : CYK) (nt i l : Nat) (v : Bool) : (c.write_cyk nt i l v).m = c.m := rfl
@[simp] theorem write_cyk_lmax (c : CYK) (nt i l : Nat) (v : Bool) :
    (c.write_cyk nt i l v).lmax = c.lmax := rfl
@[simp] theorem write_cyk_grammar (c : CYK) (nt i l : Nat) (v : Bool) :
    (c.write_cyk nt i l v).grammar = c.grammar := rfl
@[simp] theorem write_cyk_col (c : CYK) (nt i l : Nat) (v : Bool) :
    (c.write_cyk nt i l v).col_table = c.col_table := rfl
@[simp] theorem write_cyk_score (c : CYK) (nt i l : Nat) (v : Bool) :
    (c.write_cyk nt i l v).score_table = c.score_table := rfl
@[simp] theorem write_cyk_ignored (c : CYK) (nt i l : Nat) (v : Bool) :
    (c.write_cyk nt i l v).ignored = c.ignored := rfl

theorem write_cyk_table (c : CYK) (nt i l : Nat) (v : Bool) (a b d : Nat) :
    (c.write_cyk nt i l v).cyk_table a b d
      = if a = nt ∧ b = i ∧ d = l then v else c.cyk_table a b d := rfl

theorem SameFrame.sf_refl (c : CYK) : SameFrame c c := ⟨rfl, rfl, rfl, rfl, rfl, rfl, rfl⟩

theorem SameFrame.sf_trans {c c1 c2 : CYK} (h1 : SameFrame c c1) (h2 : SameFrame c1 c2) :
    SameFrame c c2 := by
  obtain ⟨a1, a2, a3, a4, a5, a6, a7⟩ := h1
  obtain ⟨b1, b2, b3, b4, b5, b6, b7⟩ := h2
  exact ⟨b1.trans a1, b2.trans a2, b3.trans a3, b4.trans a4, b5.trans a5, b6.trans a6,
    b7.trans a7⟩

/-- A state is determined by its frame and its recognition table. -/
theorem cyk_ext {c c1 : CYK} (h : SameFrame c c1) (ht : c1.cyk_table = c.cyk_table) : c1 = c := by
  obtain ⟨a1, a2, a3, a4, a5, a6, a7⟩ := h
  cases c; cases c1; simp_all

/-- What the split loop computes. -/
theorem match_split_iff (c : CYK) (a b i l : Nat) (r k : Nat) :
    c.match_split a b i l k r = true ↔
      ∃ k1, k ≤ k1 ∧ k1 < k + r ∧ c.cyk_table a i k1 = true ∧
        c.cyk_table b (i + k1) (l - k1) = true := by
  induction r generalizing k with
  | zero => simp [CYK.match_split]; intro x hx; omega
  | succ r ih =>
    rw [CYK.match_split]
    split_ifs with h
    · simp only [true_iff]
      simp only [Bool.and_eq_true] at h
      exact ⟨k, le_refl _, by omega, h.1, h.2⟩
    · rw [ih]
      constructor
      · rintro ⟨k1, h1, h2, h3, h4⟩
        exact ⟨k1, by omega, by omega, h3, h4⟩
      · rintro ⟨k1, h1, h2, h3, h4⟩
        have hne : k1 ≠ k := by
          rintro rfl
          exact h (by simp [h3, h4])
        exact ⟨k1, by omega, by omega, h3, h4⟩

/-- What the production loop computes: some slot `j1`, reached before any end
sentinel, holds a rule that the split loop accepts. -/
theorem match_prod_iff (c : CYK) (nt i l : Nat) (r j : Nat) :
    c.match_prod nt i l j r = true ↔
      ∃ j1, j ≤ j1 ∧ j1 < j + r ∧ (∀ j2, j ≤ j2 → j2 ≤ j1 → c.grammar.table nt j2 0 ≠ 0) ∧
        c.match_split (c.grammar.table nt j1 1) (c.grammar.table nt j1 2) i l 1 (l - 1) = true := by
  induction r generalizing j with
  | zero => simp [CYK.match_prod]; intro x hx; omega
  | succ r ih =>
    rw [CYK.match_prod]
    simp only [Grammar.productions_with_lhs]
    split_ifs with h0 hs
    · constructor
      · intro h; cases h
      · rintro ⟨j1, h1, _, h3, _⟩
        exact absurd h0 (h3 j (le_refl _) h1)
    · simp only [true_iff]
      refine ⟨j, le_refl _, by omega, ?_, hs⟩
      intro j2 h1 h2
      have : j2 = j := by omega
      subst this; exact h0
    · rw [ih]
      constructor
      · rintro ⟨j1, h1, h2, h3, h4⟩
        refine ⟨j1, by omega, by omega, ?_, h4⟩
        intro j2 h5 h6
        by_cases hj : j2 = j
        · subst hj; exact h0
        · exact h3 j2 (by omega) h6
      · rintro ⟨j1, h1, h2, h3, h4⟩
        have hne : j1 ≠ j := by
          rintro rfl
          exact hs h4
        exact ⟨j1, by omega, by omega, fun j2 h5 h6 => h3 j2 (by omega) h6, h4⟩

/-- What `match` computes. -/
theorem match_iff (c : CYK) (nt i l : Nat) :
    c.match_ nt i l = true ↔
      c.cyk_table nt i l = false ∧
      ∃ j k, j < c.grammar.m ∧ (∀ j2, j2 ≤ j → c.grammar.table nt j2 0 ≠ 0) ∧
        1 ≤ k ∧ k < l ∧
        c.cyk_table (c.grammar.table nt j 1) i k = true ∧
        c.cyk_table (c.grammar.table nt j 2) (i + k) (l - k) = true := by
  unfold CYK.match_
  by_cases h : c.cyk_table nt i l = true
  · simp [h]
  · simp only [h, if_false, Bool.false_eq_true]
    simp only [Bool.not_eq_true] at h
    simp only [h, true_and, match_prod_iff, match_split_iff]
    constructor
    · rintro ⟨j1, _, h2, h3, k1, h4, h5, h6, h7⟩
      exact ⟨j1, k1, by omega, fun j2 hj => h3 j2 (Nat.zero_le _) hj, h4, by omega, h6, h7⟩
    · rintro ⟨j, k, h1, h2, h3, h4, h5, h6⟩
      exact ⟨j, Nat.zero_le _, by omega, fun j2 _ hj => h2 j2 hj, k, h3, by omega, h5, h6⟩

/-- The value of `match(nt, i, l)` depends on the grammar, on the cell itself
and on the cells of shorter spans only. -/
theorem match_congr {c c1 : CYK} (nt i l : Nat) (hg : c1.grammar = c.grammar)
    (hself : c1.cyk_table nt i l = c.cyk_table nt i l)
    (hshort : ∀ a b d, d < l → c1.cyk_table a b d = c.cyk_table a b d) :
    c1.match_ nt i l = c.match_ nt i l := by
  rw [Bool.eq_iff_iff, match_iff, match_iff, hg, hself]
  constructor
  · rintro ⟨h0, j, k, h1, h2, h3, h4, h5, h6⟩
    refine ⟨h0, j, k, h1, h2, h3, h4, ?_, ?_⟩
    · rw [← hshort _ _ _ h4]; exact h5
    · rw [← hshort _ _ _ (by omega)]; exact h6
  · rintro ⟨h0, j, k, h1, h2, h3, h4, h5, h6⟩
    refine ⟨h0, j, k, h1, h2, h3, h4, ?_, ?_⟩
    · rw [hshort _ _ _ h4]; exact h5
    · rw [hshort _ _ _ (by omega)]; exact h6

/-- The `i` loop of one level, run for the first `cnt` positions. -/
theorem iloop_spec (c : CYK) (nt l cnt : Nat) :
    SameFrame c ((List.range cnt).foldl (fun c2 i => c2.write_cyk nt i l (c2.match_ nt i l)) c) ∧
    ∀ a b d,
      ((List.range cnt).foldl (fun c2 i => c2.write_cyk nt i l (c2.match_ nt i l)) c).cyk_table a b d
        = if a = nt ∧ d = l ∧ b < cnt then c.match_ nt b l else c.cyk_table a b d := by
  induction cnt with
  | zero => exact ⟨SameFrame.sf_refl c, fun a b d => by simp⟩
  | succ cnt ih =>
    obtain ⟨hf, ht⟩ := ih
    rw [List.range_succ, List.foldl_append]
    simp only [List.foldl_cons, List.foldl_nil]
    refine ⟨?_, ?_⟩
    · obtain ⟨a1, a2, a3, a4, a5, a6, a7⟩ := hf
      exact ⟨a1, a2, a3, a4, a5, a6, a7⟩
    · intro a b d
      rw [write_cyk_table, ht]
      have hm : ((List.range cnt).foldl
          (fun c2 i => c2.write_cyk nt i l (c2.match_ nt i l)) c).match_ nt cnt l
          = c.match_ nt cnt l := by
        apply match_congr _ _ _ hf.2.2.2.1
        · rw [ht, if_neg (by omega)]
        · intro a b d hd
          rw [ht, if_neg (by omega)]
      rw [hm]
      by_cases h1 : a = nt ∧ b = cnt ∧ d = l
      · have h3 : a = nt ∧ d = l ∧ b < cnt + 1 := ⟨h1.1, h1.2.2, by omega⟩
        rw [if_pos h1, if_pos h3, h1.2.1]
      · by_cases h2 : a = nt ∧ d = l ∧ b < cnt
        · have h3 : a = nt ∧ d = l ∧ b < cnt + 1 := ⟨h2.1, h2.2.1, by omega⟩
          rw [if_neg h1, if_pos h2, if_pos h3]
        · have h3 : ¬ (a = nt ∧ d = l ∧ b < cnt + 1) := by
            rintro ⟨e1, e2, e3⟩
            by_cases e4 : b = cnt
            · exact h1 ⟨e1, e4, e2⟩
            · exact h2 ⟨e1, e2, by omega⟩
          rw [if_neg h1, if_neg h2, if_neg h3]

/-- The `nt` loop of one level, run for the symbols `1, ..., cnt`. -/
theorem ntloop_spec (c : CYK) (l M cnt : Nat) :
    SameFrame c ((List.range' 1 cnt).foldl
      (fun c1 nt => (List.range M).foldl
        (fun c2 i => c2.write_cyk nt i l (c2.match_ nt i l)) c1) c) ∧
    ∀ a b d,
      ((List.range' 1 cnt).foldl
        (fun c1 nt => (List.range M).foldl
          (fun c2 i => c2.write_cyk nt i l (c2.match_ nt i l)) c1) c).cyk_table a b d
        = if d = l ∧ 1 ≤ a ∧ a < 1 + cnt ∧ b < M then c.match_ a b l else c.cyk_table a b d := by
  induction cnt with
  | zero =>
    refine ⟨SameFrame.sf_refl c, fun a b d => ?_⟩
    have : ¬ (d = l ∧ 1 ≤ a ∧ a < 1 + 0 ∧ b < M) := by omega
    rw [if_neg this]
    rfl
  | succ cnt ih =>
    obtain ⟨hf, ht⟩ := ih
    rw [List.range'_concat, List.foldl_append]
    simp only [List.foldl_cons, List.foldl_nil, Nat.one_mul]
    obtain ⟨hf2, ht2⟩ := iloop_spec ((List.range' 1 cnt).foldl
      (fun c1 nt => (List.range M).foldl
        (fun c2 i => c2.write_cyk nt i l (c2.match_ nt i l)) c1) c) (1 + cnt) l M
    refine ⟨hf.sf_trans hf2, ?_⟩
    intro a b d
    rw [ht2, ht]
    by_cases h1 : a = 1 + cnt ∧ d = l ∧ b < M
    · have h3 : d = l ∧ 1 ≤ a ∧ a < 1 + (cnt + 1) ∧ b < M := ⟨h1.2.1, by omega, by omega, h1.2.2⟩
      rw [if_pos h1, if_pos h3, h1.1]
      apply match_congr _ _ _ hf.2.2.2.1
      · rw [ht, if_neg (by omega)]
      · intro a1 b1 d1 hd
        rw [ht, if_neg (by omega)]
    · rw [if_neg h1]
      by_cases h2 : d = l ∧ 1 ≤ a ∧ a < 1 + cnt ∧ b < M
      · have h3 : d = l ∧ 1 ≤ a ∧ a < 1 + (cnt + 1) ∧ b < M := ⟨h2.1, h2.2.1, by omega, h2.2.2.2⟩
        rw [if_pos h2, if_pos h3]
      · have h3 : ¬ (d = l ∧ 1 ≤ a ∧ a < 1 + (cnt + 1) ∧ b < M) := by
          rintro ⟨e1, e2, e3, e4⟩
          by_cases e5 : a = 1 + cnt
          · exact h1 ⟨e5, e1, e4⟩
          · exact h2 ⟨e1, e2, by omega, e4⟩
        rw [if_neg h2, if_neg h3]

/-- One level leaves everything but the recognition table alone. -/
theorem parse_level_frame (c : CYK) (l : Nat) : SameFrame c (c.parse_level l) :=
  (ntloop_spec c l (c.m + 1 - l) (c.n - 1)).1

/-- One level in closed form: the cells of length `l` in the range of the loops
receive `match` evaluated in the state before the level; nothing else changes. -/
theorem parse_level_table (c : CYK) (l a b d : Nat) :
    (c.parse_level l).cyk_table a b d
      = if d = l ∧ 1 ≤ a ∧ a < c.n ∧ b + l ≤ c.m then c.match_ a b l else c.cyk_table a b d := by
  have h := (ntloop_spec c l (c.m + 1 - l) (c.n - 1)).2 a b d
  unfold CYK.parse_level
  rw [h]
  by_cases e : d = l ∧ 1 ≤ a ∧ a < c.n ∧ b + l ≤ c.m
  · rw [if_pos e, if_pos (by omega)]
  · rw [if_neg e, if_neg (by omega)]

/-- A run of levels leaves everything but the recognition table alone. -/
theorem levels_frame (c : CYK) (s cnt : Nat) :
    SameFrame c ((List.range' s cnt).foldl CYK.parse_level c) := by
  induction cnt with
  | zero => exact SameFrame.sf_refl c
  | succ cnt ih =>
    rw [List.range'_concat, List.foldl_append]
    exact ih.sf_trans (parse_level_frame _ _)

/-- A run of the levels `s, ..., s + cnt - 1` changes cells of these lengths only. -/
theorem levels_table_other (c : CYK) (s cnt a b d : Nat) (hd : d < s ∨ s + cnt ≤ d) :
    ((List.range' s cnt).foldl CYK.parse_level c).cyk_table a b d = c.cyk_table a b d := by
  induction cnt with
  | zero => rfl
  | succ cnt ih =>
    rw [List.range'_concat, List.foldl_append]
    simp only [List.foldl_cons, List.foldl_nil, Nat.one_mul]
    rw [parse_level_table, if_neg (by omega)]
    exact ih (by omega)

/-- Cells shorter than the next level are final: later levels keep them. -/
theorem levels_table_stable (c : CYK) (s cnt cnt1 a b d : Nat) (hd : d < s + cnt)
    (hc : cnt ≤ cnt1) :
    ((List.range' s cnt1).foldl CYK.parse_level c).cyk_table a b d
      = ((List.range' s cnt).foldl CYK.parse_level c).cyk_table a b d := by
  induction cnt1 with
  | zero =>
    have : cnt = 0 := by omega
    subst this; rfl
  | succ cnt1 ih =>
    by_cases h : cnt = cnt1 + 1
    · subst h; rfl
    · rw [List.range'_concat, List.foldl_append]
      simp only [List.foldl_cons, List.foldl_nil, Nat.one_mul]
      rw [parse_level_table, if_neg (by omega)]
      exact ih (by omega)

/-- The cell `(nt, i, l)` after `parse` is `match` evaluated just before level `l`. -/
theorem parse_cell (c : CYK) (hlmax : c.lmax = 1 + c.m) (nt i l : Nat)
    (hnt : 1 ≤ nt ∧ nt < c.n) (hl : 2 ≤ l ∧ l ≤ c.m) (hi : i + l ≤ c.m) :
    c.parse.cyk_table nt i l
      = ((List.range' 2 (l - 2)).foldl CYK.parse_level c).match_ nt i l := by
  unfold CYK.parse
  rw [levels_table_stable c 2 (l - 2 + 1) (c.lmax - 2) nt i l (by omega) (by omega)]
  rw [List.range'_concat, List.foldl_append]
  simp only [List.foldl_cons, List.foldl_nil, Nat.one_mul]
  rw [parse_level_table]
  obtain ⟨a1, a2, _⟩ := levels_frame c 2 (l - 2)
  rw [a1, a2]
  have e : 2 + (l - 2) = l := by omega
  rw [if_pos (by omega), e]

/-- C1 (CYK recurrence).  With `lmax = 1 + m` and production symbols in
`[0, N)`, a cell `(nt, i, l)` in the range of the loops of `parse`
(`1 ≤ nt < N`, `2 ≤ l ≤ m`, `i ≤ m - l`) that was false on entry is true after
`parse()` exactly when a production `nt -> a b` in a slot `j` of row `nt`
before the first zero slot and a split `k` in `[1, l)` have `R[a][i][k]` and
`R[b][i+k][l-k]` in the resulting table. -/
theorem parse_recurrence (c : CYK) (hlmax : c.lmax = 1 + c.m)
    (_hsym : ∀ a < c.n, ∀ j < c.grammar.m,
      c.grammar.table a j 1 < c.n ∧ c.grammar.table a j 2 < c.n)
    (nt i l : Nat) (hnt : 1 ≤ nt ∧ nt < c.n) (hl : 2 ≤ l ∧ l ≤ c.m) (hi : i + l ≤ c.m)
    (hentry : c.cyk_table nt i l = false) :
    c.parse.cyk_table nt i l = true ↔
      ∃ j a b k, j < c.grammar.m ∧ (∀ j2, j2 ≤ j → c.grammar.table nt j2 0 ≠ 0) ∧
        c.grammar.table nt j 1 = a ∧ c.grammar.table nt j 2 = b ∧
        1 ≤ k ∧ k < l ∧
        c.parse.cyk_table a i k = true ∧ c.parse.cyk_table b (i + k) (l - k) = true := by
  rw [parse_cell c hlmax nt i l hnt hl hi, match_iff]
  have hg := (levels_frame c 2 (l - 2)).2.2.2.1
  have hself : ((List.range' 2 (l - 2)).foldl CYK.parse_level c).cyk_table nt i l = false := by
    rw [levels_table_other c 2 (l - 2) nt i l (by omega)]; exact hentry
  have hshort : ∀ a b d, d < l →
      ((List.range' 2 (l - 2)).foldl CYK.parse_level c).cyk_table a b d
        = c.parse.cyk_table a b d := by
    intro a b d hd
    unfold CYK.parse
    rw [levels_table_stable c 2 (l - 2) (c.lmax - 2) a b d (by omega) (by omega)]
  rw [hg]
  constructor
  · rintro ⟨_, j, k, h1, h2, h3, h4, h5, h6⟩
    refine ⟨j, _, _, k, h1, h2, rfl, rfl, h3, h4, ?_, ?_⟩
    · rw [← hshort _ _ _ h4]; exact h5
    · rw [← hshort _ _ _ (by omega)]; exact h6
  · rintro ⟨j, a, b, k, h1, h2, rfl, rfl, h3, h4, h5, h6⟩
    refine ⟨hself, j, k, h1, h2, h3, h4, ?_, ?_⟩
    · rw [hshort _ _ _ h4]; exact h5
    · rw [hshort _ _ _ (by omega)]; exact h6

/-- Scenario 1 evaluated: after `parse()`, `R[S][0][2]` is true and every other
entry of length 2 is false. -/
theorem scenario1_parse :
    scenario1.parse.cyk_table 1 0 2 = true ∧
    ∀ nt < 4, ∀ i < 2, (nt, i) ≠ (1, 0) → scenario1.parse.cyk_table nt i 2 = false := by
  decide

/-- C1 at scenario 1: the hypotheses hold there and the recurrence, applied to
the cell `(S, 0, 2)`, has a true right-hand side. -/
theorem parse_recurrence_witness :
    scenario1.parse.cyk_table 1 0 2 = true ∧
    (scenario1.parse.cyk_table 1 0 2 = true ↔
      ∃ j a b k, j < scenario1.grammar.m ∧
        (∀ j2, j2 ≤ j → scenario1.grammar.table 1 j2 0 ≠ 0) ∧
        scenario1.grammar.table 1 j 1 = a ∧ scenario1.grammar.table 1 j 2 = b ∧
        1 ≤ k ∧ k < 2 ∧
        scenario1.parse.cyk_table a 0 k = true ∧
        scenario1.parse.cyk_table b (0 + k) (2 - k) = true) :=
  ⟨by decide,
   parse_recurrence scenario1 rfl (by decide) 1 0 2 (by decide) (by decide) (by decide)
     (by decide)⟩

/-- The chunk loop runs the levels `l, ..., l + cnt - 1`, where `cnt` is the
number of rounds its guard and its allowance permit. -/
theorem parse_chunk_eq (next_l : Nat) (f l : Nat) (c : CYK) :
    CYK.parse_chunk next_l f l c
      = (l + min f (min c.lmax next_l - l),
         (List.range' l (min f (min c.lmax next_l - l))).foldl CYK.parse_level c) := by
  induction f generalizing l c with
  | zero => simp [CYK.parse_chunk]
  | succ f ih =>
    rw [CYK.parse_chunk]
    split_ifs with h
    · rw [ih, (parse_level_frame c l).2.2.1]
      have e : min (f + 1) (min c.lmax next_l - l) = min f (min c.lmax next_l - (l + 1)) + 1 := by
        omega
      rw [e, List.range'_succ]
      simp only [List.foldl_cons]
      congr 1
      omega
    · have e : min (f + 1) (min c.lmax next_l - l) = 0 := by omega
      rw [e]
      rfl

/-- The result of `parse_partial(l)` for `l ≤ lmax`: the levels from `l` up to
`min(lmax, l + 10)` are run; 0 is returned exactly when `lmax ≤ l + 10`. -/
theorem parse_partial_eq (c : CYK) (l : Nat) (hl : l ≤ c.lmax) :
    c.parse_partial l
      = (if c.lmax ≤ l + 10 then 0 else l + 10,
         (List.range' l (min c.lmax (l + 10) - l)).foldl CYK.parse_level c) := by
  unfold CYK.parse_partial
  simp only [parse_chunk_eq]
  have e : min 10 (min c.lmax (l + 10) - l) = min c.lmax (l + 10) - l := by omega
  rw [e, (levels_frame c l _).2.2.1]
  by_cases h : c.lmax ≤ l + 10
  · rw [if_pos h, if_pos (by omega)]
  · rw [if_neg h, if_neg (by omega)]

/-- The result of `parse_partial(l)` for `l > lmax`: nothing is run and the
non-zero value `l + 10` is returned. -/
theorem parse_partial_beyond (c : CYK) (l : Nat) (hl : c.lmax < l) :
    c.parse_partial l = (l + 10, c) := by
  unfold CYK.parse_partial
  simp only [parse_chunk_eq]
  have e : min 10 (min c.lmax (l + 10) - l) = 0 := by omega
  rw [e]
  simp only [List.range'_zero, List.foldl_nil, Nat.add_zero]
  rw [if_neg (by omega)]

/-- The caller's loop, started at `l ≤ lmax` with enough calls allowed, returns
and has run the levels `l, ..., lmax - 1`. -/
theorem parse_driver_eq (f : Nat) (l : Nat) (c : CYK) (hl : l ≤ c.lmax) (hf : 1 ≤ f)
    (hfuel : c.lmax ≤ l + 10 * f) :
    CYK.parse_driver f l c = some ((List.range' l (c.lmax - l)).foldl CYK.parse_level c) := by
  induction f generalizing l c with
  | zero => omega
  | succ f ih =>
    rw [CYK.parse_driver]
    simp only [parse_partial_eq c l hl]
    by_cases h : c.lmax ≤ l + 10
    · rw [if_pos h]
      simp only [if_true]
      have e : min c.lmax (l + 10) - l = c.lmax - l := by omega
      rw [e]
    · rw [if_neg h, if_neg (by omega)]
      have e : min c.lmax (l + 10) - l = 10 := by omega
      rw [e]
      have hlm := (levels_frame c l 10).2.2.1
      rw [ih (l + 10) _ (by omega) (by omega) (by omega), hlm]
      have e2 : c.lmax - l = (c.lmax - (l + 10)) + 10 := by omega
      rw [e2, ← List.range'_append_1, List.foldl_append]

/-- Chunking equivalence on a non-empty token string (`m ≥ 1`): the caller's
loop started at 2 returns, with the very state that `parse()` produces. -/
theorem parse_driver_eq_parse (c : CYK) (hlmax : c.lmax = 1 + c.m) (hm : 1 ≤ c.m) :
    ∃ f, CYK.parse_driver f 2 c = some c.parse :=
  ⟨c.m, by rw [parse_driver_eq c.m 2 c (by omega) hm (by omega)]; rfl⟩

/-- Once `l` is beyond `lmax`, no call of `parse_partial` returns 0: the
caller's loop does not end, whatever number of calls is allowed. -/
theorem parse_driver_beyond (f : Nat) (l : Nat) (c : CYK) (hl : c.lmax < l) :
    CYK.parse_driver f l c = none := by
  induction f generalizing l with
  | zero => rfl
  | succ f ih =>
    rw [CYK.parse_driver]
    simp only [parse_partial_beyond c l hl]
    rw [if_neg (by omega)]
    exact ih (l + 10) (by omega)

/-- C2 at the failing input, the empty token string (`m = 0`, `lmax = 1`):
`parse_partial(2)` returns 12 and not 0, the caller's loop started at 2 never
ends, whereas `parse()` returns at once with the table unchanged. -/
theorem parse_driver_empty_input (n : Nat) (g : Grammar) :
    ( CYK.parse_partial (CYK.new n 0 g) 2).1 = 12 ∧
    (∀ f, CYK.parse_driver f 2 (CYK.new n 0 g) = none) ∧
    (CYK.new n 0 g).parse = CYK.new n 0 g :=
  ⟨by rw [parse_partial_beyond _ _ (show (CYK.new n 0 g).lmax < 2 from Nat.lt_succ_self 1)],
   fun f => parse_driver_beyond f 2 _ (show (CYK.new n 0 g).lmax < 2 from Nat.lt_succ_self 1),
   rfl⟩

end Recogniser


/-! # Properties of the colorizer -/

section Colorizer

theorem better_than_iff (a b : Score) : a.better_than b = true ↔ b.key < a.key := by
  unfold Score.better_than Score.key
  rw [Prod.Lex.lt_iff]
  simp only [Prod.Lex.lt_iff, ofLex_toLex]
  split_ifs <;> simp <;> omega

theorem key_inj (a b : Score) : a.key = b.key ↔ a = b := by
  cases a; cases b
  simp [Score.key, Prod.ext_iff]

theorem equals_iff (a b : Score) : a.equals b = true ↔ a = b := by
  cases a; cases b
  simp [Score.equals, and_assoc]

theorem mem_triples (cs : ColorSet) (t : Nat × Nat × Nat) :
    t ∈ cs.triples ↔
      ∃ j, j < cs.nts.length ∧ cs.nts.getD j 0 = t.1 ∧ cs.is.getD j 0 = t.2.1 ∧
        cs.ls.getD j 0 = t.2.2 := by
  obtain ⟨a, b, d⟩ := t
  simp only [ColorSet.triples, ColorSet.size, ColorSet.nt, ColorSet.i, ColorSet.l, List.mem_map,
    List.mem_range, Prod.mk.injEq]

theorem found_iff (cs : ColorSet) (nt i l : Nat) (r j : Nat) :
    cs.found nt i l j r = true ↔
      ∃ j1, j ≤ j1 ∧ j1 < j + r ∧ cs.nts.getD j1 0 = nt ∧ cs.is.getD j1 0 = i ∧
        cs.ls.getD j1 0 = l := by
  induction r generalizing j with
  | zero => simp [ColorSet.found]; intro x hx; omega
  | succ r ih =>
    rw [ColorSet.found]
    split_ifs with h
    · simp only [true_iff]
      exact ⟨j, le_refl _, by omega, h.1, h.2.1, h.2.2⟩
    · rw [ih]
      constructor
      · rintro ⟨j1, h1, h2, h3⟩
        exact ⟨j1, by omega, by omega, h3⟩
      · rintro ⟨j1, h1, h2, h3, h4, h5⟩
        have hne : j1 ≠ j := by
          rintro rfl
          exact h ⟨h3, h4, h5⟩
        exact ⟨j1, by omega, by omega, h3, h4, h5⟩

/-- The search loop of `add` decides membership among the stored triples. -/
theorem found_iff_mem (cs : ColorSet) (nt i l : Nat) :
    cs.found nt i l 0 cs.nts.length = true ↔ (nt, i, l) ∈ cs.triples := by
  rw [found_iff, mem_triples]
  constructor
  · rintro ⟨j, _, h2, h3⟩
    exact ⟨j, by omega, h3⟩
  · rintro ⟨j, h2, h3⟩
    exact ⟨j, Nat.zero_le _, by omega, h3⟩

theorem par_empty : ColorSet.empty.Par := ⟨rfl, rfl⟩

theorem triples_empty : ColorSet.empty.triples = [] := rfl

/-- What `ColorSet::add` does to the stored triples. -/
theorem add_spec (cs : ColorSet) (hp : cs.Par) (nt i l : Nat) :
    (cs.add nt i l).Par ∧ (cs.add nt i l).triples = addNew cs.triples (nt, i, l) := by
  unfold ColorSet.add addNew
  by_cases h : cs.found nt i l 0 cs.nts.length = true
  · rw [if_pos h, if_pos ((found_iff_mem cs nt i l).1 h)]
    exact ⟨hp, rfl⟩
  · rw [if_neg h, if_neg (fun hm => h ((found_iff_mem cs nt i l).2 hm))]
    obtain ⟨h1, h2⟩ := hp
    refine ⟨⟨by simp [h1], by simp [h2]⟩, ?_⟩
    simp only [ColorSet.triples, ColorSet.size, ColorSet.nt, ColorSet.i, ColorSet.l,
      List.length_append, List.length_singleton, List.range_succ, List.map_append, List.map_cons,
      List.map_nil]
    congr 1
    · apply List.map_congr_left
      intro j hj
      rw [List.mem_range] at hj
      rw [List.getD_append _ _ _ _ hj, List.getD_append _ _ _ _ (by omega),
        List.getD_append _ _ _ _ (by omega)]
    · rw [List.getD_append_right _ _ _ _ (le_refl _),
        List.getD_append_right _ _ _ _ (by omega), List.getD_append_right _ _ _ _ (by omega)]
      simp [h1, h2]

/-- What a run of `add`s does to the stored triples. -/
theorem addAll_spec (cs : ColorSet) (hp : cs.Par) (ts : List (Nat × Nat × Nat)) :
    (cs.addAll ts).Par ∧ (cs.addAll ts).triples = ts.foldl addNew cs.triples := by
  induction ts generalizing cs with
  | nil => exact ⟨hp, rfl⟩
  | cons t ts ih =>
    obtain ⟨h1, h2⟩ := add_spec cs hp t.1 t.2.1 t.2.2
    obtain ⟨h3, h4⟩ := ih (cs.add t.1 t.2.1 t.2.2) h1
    refine ⟨h3, ?_⟩
    show ((cs.add t.1 t.2.1 t.2.2).addAll ts).triples = _
    rw [h4, h2]
    rfl

theorem addAll_append (cs : ColorSet) (ts us : List (Nat × Nat × Nat)) :
    cs.addAll (ts ++ us) = (cs.addAll ts).addAll us := by
  simp [ColorSet.addAll, List.foldl_append]

theorem foldl_addNew_of_nodup (ts acc : List (Nat × Nat × Nat)) (hn : ts.Nodup)
    (hd : ∀ t ∈ ts, t ∉ acc) : ts.foldl addNew acc = acc ++ ts := by
  induction ts generalizing acc with
  | nil => simp
  | cons t ts ih =>
    rw [List.nodup_cons] at hn
    simp only [List.foldl_cons]
    have h1 : addNew acc t = acc ++ [t] := by
      unfold addNew
      rw [if_neg (hd t (List.mem_cons_self _ _))]
    rw [h1, ih _ hn.2]
    · simp
    · intro u hu hm
      rw [List.mem_append, List.mem_singleton] at hm
      rcases hm with hm | hm
      · exact hd u (List.mem_cons_of_mem _ hu) hm
      · subst hm; exact hn.1 hu

/-- A list without repetition is its own deduplication. -/
theorem dedupFirst_of_nodup (ts : List (Nat × Nat × Nat)) (hn : ts.Nodup) :
    dedupFirst ts = ts := by
  unfold dedupFirst
  rw [foldl_addNew_of_nodup ts [] hn (fun _ _ h => by cases h)]
  simp

theorem ColFrame.cf_refl (c : CYK) : ColFrame c c := ⟨rfl, rfl, rfl, rfl, rfl, rfl⟩

theorem ColFrame.cf_trans {c c1 c2 : CYK} (h1 : ColFrame c c1) (h2 : ColFrame c1 c2) :
    ColFrame c c2 := by
  obtain ⟨hn, hm, hlmax, hcyk, hign, hgram⟩ := h1
  obtain ⟨kn, km, klmax, kcyk, kign, kgram⟩ := h2
  exact ⟨kn.trans hn, km.trans hm, klmax.trans hlmax, kcyk.trans hcyk, kign.trans hign,
    kgram.trans hgram⟩

theorem set_color_frame (c : CYK) (i l nt ci cl : Nat) : ColFrame c (c.set_color i l nt ci cl) :=
  ⟨rfl, rfl, rfl, rfl, rfl, rfl⟩

theorem set_score_frame (c : CYK) (i l : Nat) (x y z : Int) : ColFrame c (c.set_score i l x y z) :=
  ⟨rfl, rfl, rfl, rfl, rfl, rfl⟩

theorem set_color_col (c : CYK) (i l nt ci cl a b : Nat) :
    (c.set_color i l nt ci cl).col_table a b
      = if a = i ∧ b = l then (c.col_table i l).add nt ci cl else c.col_table a b := rfl

@[simp] theorem set_color_score (c : CYK) (i l nt ci cl : Nat) :
    (c.set_color i l nt ci cl).score_table = c.score_table := rfl

@[simp] theorem set_score_col (c : CYK) (i l : Nat) (x y z : Int) :
    (c.set_score i l x y z).col_table = c.col_table := rfl

theorem set_score_score (c : CYK) (i l : Nat) (x y z : Int) (a b : Nat) :
    (c.set_score i l x y z).score_table a b
      = if a = i ∧ b = l then { coverage := x, largest := y, num := z }
        else c.score_table a b := rfl

/-- A run of `set_color(i, l, ...)` calls, one for each triple of a list. -/
theorem set_color_run (c : CYK) (i l : Nat) (ts : List (Nat × Nat × Nat)) :
    ColFrame c (ts.foldl (fun c1 t => c1.set_color i l t.1 t.2.1 t.2.2) c) ∧
    (ts.foldl (fun c1 t => c1.set_color i l t.1 t.2.1 t.2.2) c).score_table = c.score_table ∧
    ∀ a b, (ts.foldl (fun c1 t => c1.set_color i l t.1 t.2.1 t.2.2) c).col_table a b
      = if a = i ∧ b = l then (c.col_table i l).addAll ts else c.col_table a b := by
  induction ts generalizing c with
  | nil =>
    refine ⟨ColFrame.cf_refl c, rfl, fun a b => ?_⟩
    by_cases h : a = i ∧ b = l
    · rw [if_pos h, h.1, h.2]; rfl
    · rw [if_neg h]; rfl
  | cons t ts ih =>
    obtain ⟨h1, h2, h3⟩ := ih (c.set_color i l t.1 t.2.1 t.2.2)
    simp only [List.foldl_cons]
    refine ⟨(set_color_frame c i l _ _ _).cf_trans h1, h2, fun a b => ?_⟩
    rw [h3]
    by_cases h : a = i ∧ b = l
    · rw [if_pos h, if_pos h, set_color_col, if_pos ⟨rfl, rfl⟩]
      rfl
    · rw [if_neg h, if_neg h, set_color_col, if_neg h]

/-- What `set_colors(i, l, colors)` does: the triples of `colors` are added to
the cell `(i, l)` of the colour table. -/
theorem set_colors_spec (c : CYK) (i l : Nat) (colors : ColorSet) :
    ColFrame c (c.set_colors i l colors) ∧
    (c.set_colors i l colors).score_table = c.score_table ∧
    ∀ a b, (c.set_colors i l colors).col_table a b
      = if a = i ∧ b = l then (c.col_table i l).addAll colors.triples else c.col_table a b := by
  have h := set_color_run c i l colors.triples
  unfold ColorSet.triples at h
  rw [List.foldl_map] at h
  exact h

/-- The loop of `compute_color` over the pointers in `best`, none of which
points to the cell `(i, l)`. -/
theorem set_colors_run (c : CYK) (i l : Nat) (ps : List (Nat × Nat))
    (hps : ∀ p ∈ ps, ¬ (p.1 = i ∧ p.2 = l)) :
    ColFrame c (ps.foldl (fun c1 p => c1.set_colors i l (c1.get_colors p.1 p.2)) c) ∧
    (ps.foldl (fun c1 p => c1.set_colors i l (c1.get_colors p.1 p.2)) c).score_table
      = c.score_table ∧
    ∀ a b, (ps.foldl (fun c1 p => c1.set_colors i l (c1.get_colors p.1 p.2)) c).col_table a b
      = if a = i ∧ b = l then
          (c.col_table i l).addAll (ps.flatMap (fun p => (c.col_table p.1 p.2).triples))
        else c.col_table a b := by
  induction ps generalizing c with
  | nil =>
    refine ⟨ColFrame.cf_refl c, rfl, fun a b => ?_⟩
    by_cases h : a = i ∧ b = l
    · rw [if_pos h, h.1, h.2]; rfl
    · rw [if_neg h]; rfl
  | cons p ps ih =>
    obtain ⟨g1, g2, g3⟩ := set_colors_spec c i l (c.get_colors p.1 p.2)
    obtain ⟨h1, h2, h3⟩ := ih (c.set_colors i l (c.get_colors p.1 p.2))
      (fun q hq => hps q (List.mem_cons_of_mem _ hq))
    simp only [List.foldl_cons]
    refine ⟨g1.cf_trans h1, h2.trans g2, fun a b => ?_⟩
    rw [h3]
    have hbind : (ps.flatMap fun q => ((c.set_colors i l (c.get_colors p.1 p.2)).col_table
        q.1 q.2).triples) = ps.flatMap fun q => (c.col_table q.1 q.2).triples := by
      apply List.flatMap_congr
      intro q hq
      rw [g3, if_neg (hps q (List.mem_cons_of_mem _ hq))]
    by_cases h : a = i ∧ b = l
    · rw [if_pos h, if_pos h, g3, if_pos ⟨rfl, rfl⟩, hbind, List.flatMap_cons, addAll_append]
      rfl
    · rw [if_neg h, if_neg h, g3, if_neg h]

/-- The loop of the "full" case of `compute_color`. -/
theorem full_run (c : CYK) (i l : Nat) (nts : List Nat) :
    ColFrame c (nts.foldl (fun c1 nt => (c1.set_color i l nt i l).set_score i l l l (-1)) c) ∧
    (∀ a b, (nts.foldl (fun c1 nt => (c1.set_color i l nt i l).set_score i l l l (-1)) c).col_table
        a b
      = if a = i ∧ b = l then (c.col_table i l).addAll (nts.map (fun nt => (nt, i, l)))
        else c.col_table a b) ∧
    ∀ a b, (nts.foldl (fun c1 nt => (c1.set_color i l nt i l).set_score i l l l (-1)) c).score_table
        a b
      = if a = i ∧ b = l ∧ nts ≠ [] then { coverage := l, largest := l, num := -1 }
        else c.score_table a b := by
  induction nts generalizing c with
  | nil =>
    refine ⟨ColFrame.cf_refl c, fun a b => ?_, fun a b => ?_⟩
    · by_cases h : a = i ∧ b = l
      · rw [if_pos h, h.1, h.2]; rfl
      · rw [if_neg h]; rfl
    · rw [if_neg (by simp)]; rfl
  | cons nt nts ih =>
    obtain ⟨h1, h2, h3⟩ := ih ((c.set_color i l nt i l).set_score i l l l (-1))
    simp only [List.foldl_cons]
    refine ⟨((set_color_frame c i l _ _ _).cf_trans (set_score_frame _ _ _ _ _ _)).cf_trans h1,
      fun a b => ?_, fun a b => ?_⟩
    · rw [h2]
      by_cases h : a = i ∧ b = l
      · rw [if_pos h, if_pos h, set_score_col, set_color_col, if_pos ⟨rfl, rfl⟩]
        rfl
      · rw [if_neg h, if_neg h, set_score_col, set_color_col, if_neg h]
    · rw [h3]
      have hc : (nt :: nts) ≠ [] := List.cons_ne_nil _ _
      by_cases h : a = i ∧ b = l
      · by_cases hn : nts = []
        · rw [if_neg (fun hh => hh.2.2 hn), set_score_score, if_pos h, if_pos ⟨h.1, h.2, hc⟩]
        · rw [if_pos ⟨h.1, h.2, hn⟩, if_pos ⟨h.1, h.2, hc⟩]
      · rw [if_neg (fun hh => h ⟨hh.1, hh.2.1⟩), if_neg (fun hh => h ⟨hh.1, hh.2.1⟩),
          set_score_score, if_neg h]
        rfl

theorem push_children_eq (c : CYK) (i l k : Nat) (best : List (Nat × Nat)) :
    c.push_children i l k best = best ++ c.children i l k := by
  unfold CYK.children CYK.push_children
  split_ifs <;> simp

theorem mem_children (c : CYK) (i l k : Nat) (p : Nat × Nat) (hp : p ∈ c.children i l k) :
    p = (i, k) ∨ p = (i + k, l - k) := by
  unfold CYK.children CYK.push_children at hp
  split_ifs at hp <;> simp at hp <;> tauto

/-- The triples behind the pointers pushed at the split `k`: those of the left
child followed by those of the right child (an empty child is not pushed and
has no triple). -/
theorem children_triples (c : CYK) (i l k : Nat) :
    (c.children i l k).flatMap (fun p => (c.col_table p.1 p.2).triples)
      = (c.col_table i k).triples ++ (c.col_table (i + k) (l - k)).triples := by
  have hz : ∀ cs : ColorSet, ¬ cs.size > 0 → cs.triples = [] := by
    intro cs h
    have : cs.size = 0 := by omega
    simp [ColorSet.triples, this]
  unfold CYK.children CYK.push_children CYK.get_colors
  split_ifs with h1 h2 h2
  · simp
  · simp [hz _ h2]
  · simp [hz _ h1]
  · simp [hz _ h1, hz _ h2]

/-- The invariant of the split loop: after the splits `pre`, `score_so_far` is
an upper bound of their combined scores, it is the initial score or one of the
combined scores, and `best` holds the children of the splits that attain it. -/
theorem split_step_inv (c : CYK) (i l : Nat) (pre : List Nat) (st : Score × List (Nat × Nat))
    (k : Nat)
    (hA : ∀ k1 ∈ pre, (c.combined i l k1).key ≤ st.1.key)
    (hB : st.1 = Score.floor ∨ ∃ k1 ∈ pre, st.1 = c.combined i l k1)
    (hC : st.2 = (pre.filter (fun k1 => decide (c.combined i l k1 = st.1))).flatMap
      (c.children i l)) :
    (∀ k1 ∈ pre ++ [k], (c.combined i l k1).key ≤ (c.split_step i l st k).1.key) ∧
    ((c.split_step i l st k).1 = Score.floor ∨
      ∃ k1 ∈ pre ++ [k], (c.split_step i l st k).1 = c.combined i l k1) ∧
    (c.split_step i l st k).2
      = ((pre ++ [k]).filter (fun k1 => decide (c.combined i l k1 = (c.split_step i l st k).1))).flatMap
          (c.children i l) := by
  unfold CYK.split_step
  simp only
  by_cases hb : (c.combined i l k).better_than st.1 = true
  · rw [if_pos hb]
    rw [better_than_iff] at hb
    refine ⟨?_, Or.inr ⟨k, by simp, rfl⟩, ?_⟩
    · intro k1 hk1
      rw [List.mem_append, List.mem_singleton] at hk1
      rcases hk1 with hk1 | hk1
      · exact le_of_lt (lt_of_le_of_lt (hA k1 hk1) hb)
      · subst hk1; exact le_refl _
    · have hpre : pre.filter (fun k1 => decide (c.combined i l k1 = c.combined i l k)) = [] := by
        rw [List.filter_eq_nil_iff]
        intro k1 hk1 he
        have he2 : c.combined i l k1 = c.combined i l k := by simpa using he
        have := hA k1 hk1
        rw [he2] at this
        exact absurd hb (not_lt_of_le this)
      rw [List.filter_append, hpre]
      simp [push_children_eq]
  · rw [if_neg hb]
    rw [better_than_iff] at hb
    by_cases he : (c.combined i l k).equals st.1 = true
    · rw [if_pos he]
      rw [equals_iff] at he
      refine ⟨?_, ?_, ?_⟩
      · intro k1 hk1
        rw [List.mem_append, List.mem_singleton] at hk1
        rcases hk1 with hk1 | hk1
        · exact hA k1 hk1
        · subst hk1; rw [he]
      · rcases hB with hB | ⟨k1, hk1, hB⟩
        · exact Or.inl hB
        · exact Or.inr ⟨k1, List.mem_append_left _ hk1, hB⟩
      · simp only
        rw [List.filter_append, push_children_eq, hC]
        simp [he]
    · rw [if_neg he]
      rw [equals_iff] at he
      refine ⟨?_, ?_, ?_⟩
      · intro k1 hk1
        rw [List.mem_append, List.mem_singleton] at hk1
        rcases hk1 with hk1 | hk1
        · exact hA k1 hk1
        · subst hk1; exact not_lt.1 hb
      · rcases hB with hB | ⟨k1, hk1, hB⟩
        · exact Or.inl hB
        · exact Or.inr ⟨k1, List.mem_append_left _ hk1, hB⟩
      · rw [List.filter_append, hC]
        simp [he]

/-- The split loop, run over a list of splits from the initial pair. -/
theorem split_run (c : CYK) (i l : Nat) (ks : List Nat) :
    (∀ k1 ∈ ks, (c.combined i l k1).key ≤ (ks.foldl (c.split_step i l) (Score.floor, [])).1.key) ∧
    ((ks.foldl (c.split_step i l) (Score.floor, [])).1 = Score.floor ∨
      ∃ k1 ∈ ks, (ks.foldl (c.split_step i l) (Score.floor, [])).1 = c.combined i l k1) ∧
    (ks.foldl (c.split_step i l) (Score.floor, [])).2
      = (ks.filter (fun k1 => decide (c.combined i l k1
            = (ks.foldl (c.split_step i l) (Score.floor, [])).1))).flatMap (c.children i l) := by
  induction ks using List.reverseRecOn with
  | nil => exact ⟨fun _ h => absurd h (List.not_mem_nil _), Or.inl rfl, rfl⟩
  | append_singleton ks k ih =>
    obtain ⟨hA, hB, hC⟩ := ih
    rw [List.foldl_append]
    simp only [List.foldl_cons, List.foldl_nil]
    exact split_step_inv c i l ks _ k hA hB hC

theorem floor_lt_of_inv (s : Score) (h : s.Inv) : Score.floor.key < s.key := by
  rw [← better_than_iff]
  obtain ⟨h1, h2, h3⟩ := h
  unfold Score.better_than Score.floor
  simp only
  split_ifs <;> first | rfl | omega

theorem combined_inv (c : CYK) (i l k : Nat) (h1 : (c.score_table i k).Inv)
    (h2 : (c.score_table (i + k) (l - k)).Inv) : (c.combined i l k).Inv := by
  obtain ⟨a1, a2, a3⟩ := h1
  obtain ⟨b1, b2, b3⟩ := h2
  unfold CYK.combined CYK.get_score Score.Inv
  dsimp only
  refine ⟨by omega, ?_, ?_⟩
  · split_ifs <;> assumption
  · intro h
    have e1 : (c.score_table i k).coverage = 0 := by omega
    have e2 : (c.score_table (i + k) (l - k)).coverage = 0 := by omega
    obtain ⟨x1, x2⟩ := a3 e1
    obtain ⟨y1, y2⟩ := b3 e2
    rw [x1, x2, y1, y2]
    simp

/-- No pointer in `best` points to the cell `(i, l)` itself: the children of a
split `k` in `[1, l)` are shorter spans. -/
theorem best_split_ptrs (c : CYK) (i l : Nat) (p : Nat × Nat) (hp : p ∈ (c.best_split i l).2) :
    p.2 < l ∧ 1 ≤ p.2 := by
  unfold CYK.best_split at hp
  rw [(split_run c i l (List.range' 1 (l - 1))).2.2, List.mem_flatMap] at hp
  obtain ⟨k, hk, hpk⟩ := hp
  have hk2 := List.mem_of_mem_filter hk
  rw [List.mem_range'_1] at hk2
  rcases mem_children c i l k p hpk with h | h <;> subst h <;> simp <;> omega

/-- What `compute_color(i, l)` does: it leaves everything but the cell `(i, l)`
of the colour and score tables alone, and it fills this cell as follows. -/
theorem compute_color_spec (c : CYK) (i l : Nat) :
    ColFrame c (c.compute_color i l) ∧
    (∀ a b, ¬ (a = i ∧ b = l) →
      (c.compute_color i l).col_table a b = c.col_table a b ∧
      (c.compute_color i l).score_table a b = c.score_table a b) ∧
    (c.compute_color i l).col_table i l
      = (if c.full_nts i l ≠ [] then
          (c.col_table i l).addAll ((c.full_nts i l).map (fun nt => (nt, i, l)))
        else (c.col_table i l).addAll
          ((c.best_split i l).2.flatMap (fun p => (c.col_table p.1 p.2).triples))) ∧
    (c.compute_color i l).score_table i l
      = (if c.full_nts i l ≠ [] then { coverage := l, largest := l, num := -1 }
        else (c.best_split i l).1) := by
  unfold CYK.compute_color
  dsimp only
  by_cases hf : c.full_nts i l = []
  · have hlen : ¬ (c.full_nts i l).length > 0 := by simp [hf]
    rw [if_neg hlen, if_neg (not_not.2 hf), if_neg (not_not.2 hf)]
    obtain ⟨h1, h2, h3⟩ := set_colors_run c i l (c.best_split i l).2
      (fun p hp hh => by have := best_split_ptrs c i l p hp; omega)
    refine ⟨h1.cf_trans (set_score_frame _ _ _ _ _ _), fun a b hab => ⟨?_, ?_⟩, ?_, ?_⟩
    · rw [set_score_col, h3, if_neg hab]
    · rw [set_score_score, if_neg hab, h2]
    · rw [set_score_col, h3, if_pos ⟨rfl, rfl⟩]
    · rw [set_score_score, if_pos ⟨rfl, rfl⟩]
  · have hlen : (c.full_nts i l).length > 0 := List.length_pos.2 hf
    rw [if_pos hlen, if_pos hf, if_pos hf]
    obtain ⟨h1, h2, h3⟩ := full_run c i l (c.full_nts i l)
    refine ⟨h1, fun a b hab => ⟨?_, ?_⟩, ?_, ?_⟩
    · rw [h2, if_neg hab]
    · rw [h3, if_neg (fun hh => hab ⟨hh.1, hh.2.1⟩)]
    · rw [h2, if_pos ⟨rfl, rfl⟩]
    · rw [h3, if_pos ⟨rfl, rfl, hf⟩]

theorem full_nts_congr {c c1 : CYK} (h : ColFrame c c1) (i l : Nat) :
    c1.full_nts i l = c.full_nts i l := by
  obtain ⟨a1, _, _, _, a5, a6⟩ := h
  unfold CYK.full_nts CYK.is_ignored CYK.get_cyk
  rw [a1, a5, a6]

theorem combined_congr {c c1 : CYK} (i l k : Nat) (hk : 1 ≤ k ∧ k < l)
    (hs : ∀ a b, b < l → c1.score_table a b = c.score_table a b) :
    c1.combined i l k = c.combined i l k := by
  unfold CYK.combined CYK.get_score
  rw [hs _ _ hk.2, hs _ _ (by omega)]

theorem children_congr {c c1 : CYK} (i l k : Nat) (hk : 1 ≤ k ∧ k < l)
    (hc : ∀ a b, b < l → c1.col_table a b = c.col_table a b) :
    c1.children i l k = c.children i l k := by
  unfold CYK.children CYK.push_children CYK.get_colors
  rw [hc _ _ hk.2, hc _ _ (by omega)]

theorem best_split_congr {c c1 : CYK} (i l : Nat)
    (hc : ∀ a b, b < l → c1.col_table a b = c.col_table a b)
    (hs : ∀ a b, b < l → c1.score_table a b = c.score_table a b) :
    c1.best_split i l = c.best_split i l := by
  unfold CYK.best_split
  apply List.foldl_ext
  intro st k hk
  rw [List.mem_range'_1] at hk
  unfold CYK.split_step
  rw [combined_congr i l k (by omega) hs, push_children_eq, push_children_eq, push_children_eq,
    push_children_eq, children_congr i l k (by omega) hc]

/-- The cell that `compute_color(i, l)` fills depends on the recognition table,
the ignored set, the cells of shorter spans and the cell itself only. -/
theorem compute_color_congr {c c1 : CYK} (h : ColFrame c c1) (i l : Nat)
    (hc : ∀ a b, b < l → c1.col_table a b = c.col_table a b)
    (hs : ∀ a b, b < l → c1.score_table a b = c.score_table a b)
    (hself : c1.col_table i l = c.col_table i l) :
    (c1.compute_color i l).col_table i l = (c.compute_color i l).col_table i l ∧
    (c1.compute_color i l).score_table i l = (c.compute_color i l).score_table i l := by
  rw [(compute_color_spec c i l).2.2.1, (compute_color_spec c i l).2.2.2,
    (compute_color_spec c1 i l).2.2.1, (compute_color_spec c1 i l).2.2.2,
    full_nts_congr h, best_split_congr i l hc hs, hself]
  refine ⟨?_, rfl⟩
  have : (c.best_split i l).2.flatMap (fun p => (c1.col_table p.1 p.2).triples)
      = (c.best_split i l).2.flatMap (fun p => (c.col_table p.1 p.2).triples) := by
    apply List.flatMap_congr
    intro p hp
    rw [hc _ _ (best_split_ptrs c i l p hp).1]
  rw [this]

/-- The `i` loop of one colouring level, run for the first `cnt` positions. -/
theorem color_iloop_spec (c : CYK) (l cnt : Nat) :
    ColFrame c ((List.range cnt).foldl (fun c1 i => c1.compute_color i l) c) ∧
    ∀ a b,
      ((List.range cnt).foldl (fun c1 i => c1.compute_color i l) c).col_table a b
        = (if b = l ∧ a < cnt then (c.compute_color a l).col_table a l else c.col_table a b) ∧
      ((List.range cnt).foldl (fun c1 i => c1.compute_color i l) c).score_table a b
        = (if b = l ∧ a < cnt then (c.compute_color a l).score_table a l
           else c.score_table a b) := by
  induction cnt with
  | zero =>
    refine ⟨ColFrame.cf_refl c, fun a b => ?_⟩
    rw [if_neg (by omega), if_neg (by omega)]
    exact ⟨rfl, rfl⟩
  | succ cnt ih =>
    obtain ⟨hf, ht⟩ := ih
    rw [List.range_succ, List.foldl_append]
    simp only [List.foldl_cons, List.foldl_nil]
    obtain ⟨g1, g2, _, _⟩ := compute_color_spec
      ((List.range cnt).foldl (fun c1 i => c1.compute_color i l) c) cnt l
    obtain ⟨k1, k2⟩ := compute_color_congr hf cnt l
      (fun a b hb => by rw [(ht a b).1, if_neg (by omega)])
      (fun a b hb => by rw [(ht a b).2, if_neg (by omega)])
      (by rw [(ht cnt l).1, if_neg (by omega)])
    refine ⟨hf.cf_trans g1, fun a b => ?_⟩
    by_cases h1 : a = cnt ∧ b = l
    · obtain ⟨rfl, rfl⟩ := h1
      rw [if_pos ⟨rfl, by omega⟩, if_pos ⟨rfl, by omega⟩]
      exact ⟨k1, k2⟩
    · rw [(g2 a b h1).1, (g2 a b h1).2, (ht a b).1, (ht a b).2]
      by_cases h2 : b = l ∧ a < cnt
      · rw [if_pos h2, if_pos h2, if_pos ⟨h2.1, by omega⟩, if_pos ⟨h2.1, by omega⟩]
        exact ⟨rfl, rfl⟩
      · have h3 : ¬ (b = l ∧ a < cnt + 1) := by
          rintro ⟨e1, e2⟩
          by_cases e3 : a = cnt
          · exact h1 ⟨e3, e1⟩
          · exact h2 ⟨e1, by omega⟩
        rw [if_neg h2, if_neg h2, if_neg h3, if_neg h3]
        exact ⟨rfl, rfl⟩

theorem colorize_level_frame (c : CYK) (l : Nat) : ColFrame c (c.colorize_level l) :=
  (color_iloop_spec c l (c.m + 1 - l)).1

/-- One colouring level in closed form. -/
theorem colorize_level_table (c : CYK) (l a b : Nat) :
    (c.colorize_level l).col_table a b
      = (if b = l ∧ a + l ≤ c.m then (c.compute_color a l).col_table a l else c.col_table a b) ∧
    (c.colorize_level l).score_table a b
      = (if b = l ∧ a + l ≤ c.m then (c.compute_color a l).score_table a l
         else c.score_table a b) := by
  have h := (color_iloop_spec c l (c.m + 1 - l)).2 a b
  unfold CYK.colorize_level
  rw [h.1, h.2]
  by_cases e : b = l ∧ a + l ≤ c.m
  · rw [if_pos e, if_pos e, if_pos (by omega), if_pos (by omega)]
    exact ⟨rfl, rfl⟩
  · rw [if_neg e, if_neg e, if_neg (by omega), if_neg (by omega)]
    exact ⟨rfl, rfl⟩

/-- A run of colouring levels leaves everything but the colour and score tables alone. -/
theorem clevels_frame (c : CYK) (s cnt : Nat) :
    ColFrame c ((List.range' s cnt).foldl CYK.colorize_level c) := by
  induction cnt with
  | zero => exact ColFrame.cf_refl c
  | succ cnt ih =>
    rw [List.range'_concat, List.foldl_append]
    exact ih.cf_trans (colorize_level_frame _ _)

/-- A run of the colouring levels `s, ..., s + cnt - 1` changes cells of these
lengths only. -/
theorem clevels_other (c : CYK) (s cnt a b : Nat) (hb : b < s ∨ s + cnt ≤ b) :
    ((List.range' s cnt).foldl CYK.colorize_level c).col_table a b = c.col_table a b ∧
    ((List.range' s cnt).foldl CYK.colorize_level c).score_table a b = c.score_table a b := by
  induction cnt with
  | zero => exact ⟨rfl, rfl⟩
  | succ cnt ih =>
    rw [List.range'_concat, List.foldl_append]
    simp only [List.foldl_cons, List.foldl_nil, Nat.one_mul]
    rw [(colorize_level_table _ _ _ _).1, (colorize_level_table _ _ _ _).2, if_neg (by omega),
      if_neg (by omega)]
    exact ih (by omega)

/-- Cells shorter than the next colouring level are final. -/
theorem clevels_stable (c : CYK) (s cnt cnt1 a b : Nat) (hb : b < s + cnt) (hc : cnt ≤ cnt1) :
    ((List.range' s cnt1).foldl CYK.colorize_level c).col_table a b
      = ((List.range' s cnt).foldl CYK.colorize_level c).col_table a b ∧
    ((List.range' s cnt1).foldl CYK.colorize_level c).score_table a b
      = ((List.range' s cnt).foldl CYK.colorize_level c).score_table a b := by
  induction cnt1 with
  | zero =>
    have : cnt = 0 := by omega
    subst this; exact ⟨rfl, rfl⟩
  | succ cnt1 ih =>
    by_cases h : cnt = cnt1 + 1
    · subst h; exact ⟨rfl, rfl⟩
    · rw [List.range'_concat, List.foldl_append]
      simp only [List.foldl_cons, List.foldl_nil, Nat.one_mul]
      rw [(colorize_level_table _ _ _ _).1, (colorize_level_table _ _ _ _).2, if_neg (by omega),
        if_neg (by omega)]
      exact ih (by omega)

/-- The cell `(i, l)` after the levels `2, ..., L - 1`, for `l < L`, is the cell
that `compute_color(i, l)` fills in the state just before level `l`. -/
theorem clevels_cell (c : CYK) (cnt i l : Nat) (hl : 2 ≤ l) (hcnt : l - 2 < cnt)
    (hi : i + l ≤ c.m) :
    ((List.range' 2 cnt).foldl CYK.colorize_level c).col_table i l
      = (((List.range' 2 (l - 2)).foldl CYK.colorize_level c).compute_color i l).col_table i l ∧
    ((List.range' 2 cnt).foldl CYK.colorize_level c).score_table i l
      = (((List.range' 2 (l - 2)).foldl CYK.colorize_level c).compute_color i l).score_table
          i l := by
  obtain ⟨h1, h2⟩ := clevels_stable c 2 (l - 2 + 1) cnt i l (by omega) (by omega)
  rw [h1, h2, List.range'_concat, List.foldl_append]
  simp only [List.foldl_cons, List.foldl_nil, Nat.one_mul]
  rw [(colorize_level_table _ _ _ _).1, (colorize_level_table _ _ _ _).2]
  obtain ⟨_, a2, _⟩ := clevels_frame c 2 (l - 2)
  rw [a2]
  have e : 2 + (l - 2) = l := by omega
  rw [if_pos (by omega), if_pos (by omega), e]
  exact ⟨rfl, rfl⟩

/-- The `nt` loop of the initialisation at position `i`: the conditional body
runs for the symbols of `full_nts i 1`. -/
theorem init_ntloop (c s : CYK) (h : ColFrame c s) (i : Nat) (xs : List Nat) :
    xs.foldl (fun c2 nt =>
        if !c2.is_ignored nt && c2.get_cyk nt i 1 then
          (c2.set_color i 1 nt i 1).set_score i 1 1 1 (-1)
        else c2) s
      = (xs.filter (fun nt => !c.is_ignored nt && c.get_cyk nt i 1)).foldl
          (fun c1 nt => (c1.set_color i 1 nt i 1).set_score i 1 (1 : Nat) (1 : Nat) (-1)) s := by
  induction xs generalizing s with
  | nil => rfl
  | cons x xs ih =>
    have e : (!s.is_ignored x && s.get_cyk x i 1) = (!c.is_ignored x && c.get_cyk x i 1) := by
      unfold CYK.is_ignored CYK.get_cyk
      rw [h.2.2.2.2.1, h.2.2.2.2.2]
    simp only [List.foldl_cons, List.filter_cons, e]
    by_cases hx : (!c.is_ignored x && c.get_cyk x i 1) = true
    · rw [if_pos hx, if_pos hx]
      simp only [List.foldl_cons, Nat.cast_one]
      have := ih ((s.set_color i 1 x i 1).set_score i 1 1 1 (-1))
        (h.cf_trans ((set_color_frame _ _ _ _ _ _).cf_trans (set_score_frame _ _ _ _ _ _)))
      simp only [Nat.cast_one] at this
      exact this
    · rw [if_neg hx, if_neg hx]
      exact ih s h

/-- The initialisation for `l = 1`, run for the first `cnt` positions. -/
theorem init_iloop_spec (c : CYK) (N cnt : Nat) (hN : N = c.n) :
    ColFrame c ((List.range cnt).foldl
      (fun c1 i => (List.range' 1 (N - 1)).foldl
        (fun c2 nt =>
          if !c2.is_ignored nt && c2.get_cyk nt i 1 then
            (c2.set_color i 1 nt i 1).set_score i 1 1 1 (-1)
          else c2) c1) c) ∧
    ∀ a b,
      ((List.range cnt).foldl
        (fun c1 i => (List.range' 1 (N - 1)).foldl
          (fun c2 nt =>
            if !c2.is_ignored nt && c2.get_cyk nt i 1 then
              (c2.set_color i 1 nt i 1).set_score i 1 1 1 (-1)
            else c2) c1) c).col_table a b
        = (if b = 1 ∧ a < cnt then
            (c.col_table a 1).addAll ((c.full_nts a 1).map (fun nt => (nt, a, 1)))
          else c.col_table a b) ∧
      ((List.range cnt).foldl
        (fun c1 i => (List.range' 1 (N - 1)).foldl
          (fun c2 nt =>
            if !c2.is_ignored nt && c2.get_cyk nt i 1 then
              (c2.set_color i 1 nt i 1).set_score i 1 1 1 (-1)
            else c2) c1) c).score_table a b
        = (if b = 1 ∧ a < cnt ∧ c.full_nts a 1 ≠ [] then { coverage := 1, largest := 1, num := -1 }
          else c.score_table a b) := by
  subst hN
  induction cnt with
  | zero =>
    refine ⟨ColFrame.cf_refl c, fun a b => ?_⟩
    rw [if_neg (by omega), if_neg (by omega)]
    exact ⟨rfl, rfl⟩
  | succ cnt ih =>
    obtain ⟨hf, ht⟩ := ih
    rw [List.range_succ, List.foldl_append]
    simp only [List.foldl_cons, List.foldl_nil]
    rw [init_ntloop c _ hf cnt (List.range' 1 (c.n - 1))]
    obtain ⟨g1, g2, g3⟩ := full_run ((List.range cnt).foldl
      (fun c1 i => (List.range' 1 (c.n - 1)).foldl
        (fun c2 nt =>
          if !c2.is_ignored nt && c2.get_cyk nt i 1 then
            (c2.set_color i 1 nt i 1).set_score i 1 1 1 (-1)
          else c2) c1) c) cnt 1
      ((List.range' 1 (c.n - 1)).filter (fun nt => !c.is_ignored nt && c.get_cyk nt cnt 1))
    have hfull : (List.range' 1 (c.n - 1)).filter (fun nt => !c.is_ignored nt && c.get_cyk nt cnt 1)
        = c.full_nts cnt 1 := rfl
    rw [hfull] at g2 g3 ⊢
    have hone : ({ coverage := ((1 : Nat) : Int), largest := ((1 : Nat) : Int), num := -1 } : Score)
        = { coverage := 1, largest := 1, num := -1 } := by simp
    rw [hone] at g3
    refine ⟨hf.cf_trans g1, fun a b => ⟨?_, ?_⟩⟩
    · rw [g2]
      by_cases h1 : a = cnt ∧ b = 1
      · rw [if_pos h1, if_pos ⟨h1.2, by omega⟩, (ht cnt 1).1, if_neg (by omega), h1.1]
      · rw [if_neg h1, (ht a b).1]
        by_cases h2 : b = 1 ∧ a < cnt
        · rw [if_pos h2, if_pos ⟨h2.1, by omega⟩]
        · rw [if_neg h2, if_neg (by omega)]
    · rw [g3]
      by_cases h1 : a = cnt ∧ b = 1 ∧ c.full_nts cnt 1 ≠ []
      · rw [if_pos h1, if_pos ⟨h1.2.1, by omega, by rw [h1.1]; exact h1.2.2⟩]
      · rw [if_neg h1, (ht a b).2]
        by_cases h2 : b = 1 ∧ a < cnt ∧ c.full_nts a 1 ≠ []
        · rw [if_pos h2, if_pos ⟨h2.1, by omega, h2.2.2⟩]
        · have h3 : ¬ (b = 1 ∧ a < cnt + 1 ∧ c.full_nts a 1 ≠ []) := by
            rintro ⟨e1, e2, e3⟩
            by_cases e4 : a = cnt
            · subst e4; exact h1 ⟨rfl, e1, e3⟩
            · exact h2 ⟨e1, by omega, e3⟩
          rw [if_neg h2, if_neg h3]

/-- What `init_colorize_partial()` does. -/
theorem init_spec (c : CYK) :
    ColFrame c c.init_colorize_partial ∧
    ∀ a b,
      c.init_colorize_partial.col_table a b
        = (if b = 1 ∧ a < c.m then
            (c.col_table a 1).addAll ((c.full_nts a 1).map (fun nt => (nt, a, 1)))
          else c.col_table a b) ∧
      c.init_colorize_partial.score_table a b
        = (if b = 1 ∧ a < c.m ∧ c.full_nts a 1 ≠ [] then
            { coverage := 1, largest := 1, num := -1 }
          else c.score_table a b) :=
  init_iloop_spec c c.n c.m rfl

/-- `colorize()` is the sweep run on the initialised state. -/
theorem colorize_eq (c : CYK) :
    c.colorize = (List.range' 2 (c.lmax - 2)).foldl CYK.colorize_level c.init_colorize_partial :=
  rfl

/-- The result of the split loop on a span of length at least 2 whose table
holds well-shaped scores: `score_so_far` is the greatest combined score, and
`best` holds the children of the splits that attain it, in increasing `k`. -/
theorem best_split_sem (c : CYK) (i l : Nat) (hl : 2 ≤ l) (hS : ScoresOk c) :
    (∃ k, 1 ≤ k ∧ k < l ∧ (c.best_split i l).1 = c.combined i l k) ∧
    (∀ k, 1 ≤ k → k < l → (c.combined i l k).key ≤ (c.best_split i l).1.key) ∧
    (c.best_split i l).2
      = ((List.range' 1 (l - 1)).filter
          (fun k => decide (c.combined i l k = (c.best_split i l).1))).flatMap
          (c.children i l) := by
  obtain ⟨hA, hB, hC⟩ := split_run c i l (List.range' 1 (l - 1))
  have hA2 : ∀ k, 1 ≤ k → k < l → (c.combined i l k).key ≤ (c.best_split i l).1.key := by
    intro k h1 h2
    exact hA k (by rw [List.mem_range'_1]; omega)
  refine ⟨?_, hA2, hC⟩
  rcases hB with hB | ⟨k, hk, hB⟩
  · exfalso
    have h1 := hA2 1 (le_refl _) (by omega)
    have h2 := floor_lt_of_inv _ (combined_inv c i l 1 (hS _ _) (hS _ _))
    unfold CYK.best_split at h1
    rw [hB] at h1
    exact absurd h2 (not_lt_of_le h1)
  · rw [List.mem_range'_1] at hk
    exact ⟨k, hk.1, by omega, hB⟩

theorem compute_color_ok (c : CYK) (i l : Nat) (hl : 2 ≤ l) (hS : ScoresOk c) :
    ScoresOk (c.compute_color i l) := by
  intro a b
  obtain ⟨_, h2, _, h4⟩ := compute_color_spec c i l
  by_cases h : a = i ∧ b = l
  · obtain ⟨rfl, rfl⟩ := h
    rw [h4]
    split_ifs with hf
    · refine ⟨?_, ?_, ?_⟩ <;> dsimp only <;> omega
    · obtain ⟨⟨k, _, _, hk⟩, _⟩ := best_split_sem c a b hl hS
      rw [hk]
      exact combined_inv c a b k (hS _ _) (hS _ _)
  · rw [(h2 a b h).2]
    exact hS a b

theorem colorize_level_ok (c : CYK) (l : Nat) (hl : 2 ≤ l) (hS : ScoresOk c) :
    ScoresOk (c.colorize_level l) := by
  intro a b
  rw [(colorize_level_table c l a b).2]
  split_ifs with h
  · exact compute_color_ok c a l hl hS a l
  · exact hS a b

theorem clevels_ok (c : CYK) (cnt : Nat) (hS : ScoresOk c) :
    ScoresOk ((List.range' 2 cnt).foldl CYK.colorize_level c) := by
  induction cnt with
  | zero => exact hS
  | succ cnt ih =>
    rw [List.range'_concat, List.foldl_append]
    exact colorize_level_ok _ _ (by omega) ih

theorem init_ok (c : CYK) (hS : ScoresOk c) : ScoresOk c.init_colorize_partial := by
  intro a b
  rw [((init_spec c).2 a b).2]
  split_ifs with h
  · refine ⟨?_, ?_, ?_⟩ <;> dsimp only <;> omega
  · exact hS a b

theorem mem_full_nts (c : CYK) (i l nt : Nat) :
    nt ∈ c.full_nts i l ↔ 1 ≤ nt ∧ nt < c.n ∧ nt ∉ c.ignored ∧ c.cyk_table nt i l = true := by
  unfold CYK.full_nts CYK.is_ignored CYK.get_cyk
  rw [List.mem_filter, List.mem_range'_1]
  simp only [Bool.and_eq_true, Bool.not_eq_true', decide_eq_false_iff_not]
  constructor
  · rintro ⟨⟨h1, h2⟩, h3, h4⟩
    exact ⟨h1, by omega, h3, h4⟩
  · rintro ⟨h1, h2, h3, h4⟩
    exact ⟨⟨h1, by omega⟩, h3, h4⟩

theorem full_nts_eq (c : CYK) (i l : Nat) :
    c.full_nts i l
      = (List.range' 1 (c.n - 1)).filter (fun nt => decide (nt ∉ c.ignored) && c.cyk_table nt i l) := by
  unfold CYK.full_nts CYK.is_ignored CYK.get_cyk
  apply List.filter_congr
  intro x _
  simp

theorem full_triples_nodup (c : CYK) (i l : Nat) :
    ((c.full_nts i l).map (fun nt => (nt, i, l))).Nodup := by
  apply List.Nodup.map
  · intro x y h
    exact (Prod.mk.inj h).1
  · unfold CYK.full_nts
    exact (List.nodup_range' 1 (c.n - 1)).filter _

/-- The "full" case on an empty cell: the stored triples are `(nt, i, l)` for
the symbols of `full_nts`, in their order. -/
theorem full_cell_triples (c : CYK) (i l : Nat) :
    (ColorSet.empty.addAll ((c.full_nts i l).map (fun nt => (nt, i, l)))).triples
      = (c.full_nts i l).map (fun nt => (nt, i, l)) := by
  rw [(addAll_spec _ par_empty _).2, triples_empty]
  exact dedupFirst_of_nodup _ (full_triples_nodup c i l)

theorem combined_eq_combine (c : CYK) (i l k : Nat) :
    c.combined i l k = (c.score_table i k).combine (c.score_table (i + k) (l - k)) := by
  unfold CYK.combined CYK.get_score Score.combine
  dsimp only
  congr 1
  split_ifs with h
  · exact (max_eq_left (le_of_lt h)).symm
  · exact (max_eq_right (not_lt.1 h)).symm

theorem zero_inv : Score.zero.Inv := ⟨le_refl _, le_refl _, fun _ => ⟨rfl, rfl⟩⟩

/-- C3 (postcondition of `colorize()`).  From fresh colour and score tables,
for every span `(i, l)` with `1 ≤ l ≤ m` and `i ≤ m - l`: if some non-ignored
`nt` in `[1, N)` has `R[nt][i][l]`, then `C[i][l]` holds exactly the triples
`(nt, i, l)` of these `nt` in increasing order and `S[i][l] = (l, l, -1)`;
otherwise, for `l ≥ 2`, `S[i][l]` is a combined score of some split `k` in
`[1, l)`, no split has a lexicographically greater combined score, and
`C[i][l]` is the first-occurrence deduplication of the concatenation, over the
splits that attain `S[i][l]` in increasing `k`, of `C[i][k]` followed by
`C[i+k][l-k]`; all tables read in the state that `colorize()` leaves. -/
theorem colorize_postcondition (c : CYK) (hlmax : c.lmax = 1 + c.m)
    (hC : ∀ a b, c.col_table a b = ColorSet.empty)
    (hS : ∀ a b, c.score_table a b = Score.zero)
    (i l : Nat) (hl : 1 ≤ l ∧ l ≤ c.m) (hi : i + l ≤ c.m) :
    ((∃ nt, 1 ≤ nt ∧ nt < c.n ∧ nt ∉ c.ignored ∧ c.cyk_table nt i l = true) →
      (c.colorize.col_table i l).triples
        = ((List.range' 1 (c.n - 1)).filter
            (fun nt => decide (nt ∉ c.ignored) && c.cyk_table nt i l)).map
            (fun nt => (nt, i, l)) ∧
      c.colorize.score_table i l = { coverage := l, largest := l, num := -1 }) ∧
    ((¬ ∃ nt, 1 ≤ nt ∧ nt < c.n ∧ nt ∉ c.ignored ∧ c.cyk_table nt i l = true) → 2 ≤ l →
      (∃ k, 1 ≤ k ∧ k < l ∧
        c.colorize.score_table i l
          = (c.colorize.score_table i k).combine (c.colorize.score_table (i + k) (l - k))) ∧
      (∀ k, 1 ≤ k → k < l →
        ((c.colorize.score_table i k).combine (c.colorize.score_table (i + k) (l - k))).key
          ≤ (c.colorize.score_table i l).key) ∧
      (c.colorize.col_table i l).triples
        = dedupFirst (((List.range' 1 (l - 1)).filter
            (fun k => decide ((c.colorize.score_table i k).combine
              (c.colorize.score_table (i + k) (l - k)) = c.colorize.score_table i l))).flatMap
            (fun k => (c.colorize.col_table i k).triples
              ++ (c.colorize.col_table (i + k) (l - k)).triples))) := by
  have hex : (∃ nt, 1 ≤ nt ∧ nt < c.n ∧ nt ∉ c.ignored ∧ c.cyk_table nt i l = true)
      ↔ c.full_nts i l ≠ [] := by
    constructor
    · rintro ⟨nt, h⟩ he
      have := (mem_full_nts c i l nt).2 h
      rw [he] at this
      exact absurd this (List.not_mem_nil _)
    · intro h
      obtain ⟨nt, hnt⟩ := List.exists_mem_of_ne_nil _ h
      exact ⟨nt, (mem_full_nts c i l nt).1 hnt⟩
  rw [hex, ← full_nts_eq]
  obtain ⟨hF0, hinit⟩ := init_spec c
  have hFs : ∀ cnt, ColFrame c ((List.range' 2 cnt).foldl CYK.colorize_level
      c.init_colorize_partial) := fun cnt => hF0.cf_trans (clevels_frame _ 2 cnt)
  have hok0 : ScoresOk c.init_colorize_partial :=
    init_ok c (fun a b => by rw [hS]; exact zero_inv)
  rw [colorize_eq]
  by_cases hl1 : l = 1
  · subst hl1
    refine ⟨fun hf => ?_, fun _ h2 => absurd h2 (by omega)⟩
    obtain ⟨e1, e2⟩ := clevels_other c.init_colorize_partial 2 (c.lmax - 2) i 1 (Or.inl (by omega))
    rw [e1, e2, (hinit i 1).1, (hinit i 1).2, if_pos ⟨rfl, by omega⟩, if_pos ⟨rfl, by omega, hf⟩, hC]
    exact ⟨full_cell_triples c i 1, by simp⟩
  · have hl2 : 2 ≤ l := by omega
    obtain ⟨e1, e2⟩ := clevels_cell c.init_colorize_partial (c.lmax - 2) i l hl2 (by omega)
      (by rw [hF0.2.1]; exact hi)
    have hself : ((List.range' 2 (l - 2)).foldl CYK.colorize_level
        c.init_colorize_partial).col_table i l = ColorSet.empty := by
      rw [(clevels_other c.init_colorize_partial 2 (l - 2) i l (Or.inr (by omega))).1,
        (hinit i l).1, if_neg (by omega), hC]
    have hshort : ∀ a b, b < l →
        ((List.range' 2 (l - 2)).foldl CYK.colorize_level c.init_colorize_partial).col_table a b
          = ((List.range' 2 (c.lmax - 2)).foldl CYK.colorize_level
              c.init_colorize_partial).col_table a b ∧
        ((List.range' 2 (l - 2)).foldl CYK.colorize_level c.init_colorize_partial).score_table a b
          = ((List.range' 2 (c.lmax - 2)).foldl CYK.colorize_level
              c.init_colorize_partial).score_table a b := by
      intro a b hb
      obtain ⟨x1, x2⟩ := clevels_stable c.init_colorize_partial 2 (l - 2) (c.lmax - 2) a b
        (by omega) (by omega)
      exact ⟨x1.symm, x2.symm⟩
    have hoks := clevels_ok c.init_colorize_partial (l - 2) hok0
    obtain ⟨_, _, g3, g4⟩ := compute_color_spec
      ((List.range' 2 (l - 2)).foldl CYK.colorize_level c.init_colorize_partial) i l
    rw [full_nts_congr (hFs (l - 2)), hself] at g3
    rw [full_nts_congr (hFs (l - 2))] at g4
    rw [e1, e2, g3, g4]
    refine ⟨fun hf => ?_, fun hf _ => ?_⟩
    · rw [if_pos hf, if_pos hf]
      exact ⟨full_cell_triples c i l, rfl⟩
    · rw [if_neg hf, if_neg hf]
      obtain ⟨⟨k0, hk1, hk2, hk3⟩, hmax, hbest⟩ := best_split_sem _ i l hl2 hoks
      have hcomb : ∀ k, 1 ≤ k → k < l →
          ((List.range' 2 (l - 2)).foldl CYK.colorize_level c.init_colorize_partial).combined i l k
            = (((List.range' 2 (c.lmax - 2)).foldl CYK.colorize_level
                c.init_colorize_partial).score_table i k).combine
              (((List.range' 2 (c.lmax - 2)).foldl CYK.colorize_level
                c.init_colorize_partial).score_table (i + k) (l - k)) := by
        intro k h1 h2
        rw [combined_eq_combine, (hshort _ _ h2).2, (hshort _ _ (by omega : l - k < l)).2]
      refine ⟨⟨k0, hk1, hk2, by rw [hk3, hcomb k0 hk1 hk2]⟩, ?_, ?_⟩
      · intro k h1 h2
        rw [← hcomb k h1 h2]
        exact hmax k h1 h2
      · rw [(addAll_spec _ par_empty _).2, triples_empty, hbest, List.flatMap_assoc]
        unfold dedupFirst
        congr 1
        have hfilter : (List.range' 1 (l - 1)).filter (fun k => decide
            (((List.range' 2 (l - 2)).foldl CYK.colorize_level
                c.init_colorize_partial).combined i l k
              = (((List.range' 2 (l - 2)).foldl CYK.colorize_level
                c.init_colorize_partial).best_split i l).1))
            = (List.range' 1 (l - 1)).filter (fun k => decide
            ((((List.range' 2 (c.lmax - 2)).foldl CYK.colorize_level
                c.init_colorize_partial).score_table i k).combine
              (((List.range' 2 (c.lmax - 2)).foldl CYK.colorize_level
                c.init_colorize_partial).score_table (i + k) (l - k))
              = (((List.range' 2 (l - 2)).foldl CYK.colorize_level
                c.init_colorize_partial).best_split i l).1)) := by
          apply List.filter_congr
          intro k hk
          rw [List.mem_range'_1] at hk
          rw [hcomb k hk.1 (by omega)]
        rw [hfilter]
        apply List.flatMap_congr
        intro k hk
        have hk2 := List.mem_of_mem_filter hk
        rw [List.mem_range'_1] at hk2
        rw [children_triples, (hshort _ _ (by omega : k < l)).1,
          (hshort _ _ (by omega : l - k < l)).1]

/-- Scenarios 2 and 3 evaluated: without ignored symbols `C[0][2] = [(S, 0, 2)]`
and `S[0][2] = (2, 2, -1)`; with `S` ignored `C[0][2] = [(A, 0, 1), (B, 1, 1)]`
and `S[0][2] = (2, 1, -2)`. -/
theorem scenario_colorize :
    (scenario2.colorize.col_table 0 2).triples = [(1, 0, 2)] ∧
    scenario2.colorize.score_table 0 2 = { coverage := 2, largest := 2, num := -1 } ∧
    (scenario3.colorize.col_table 0 2).triples = [(2, 0, 1), (3, 1, 1)] ∧
    scenario3.colorize.score_table 0 2 = { coverage := 2, largest := 1, num := -2 } := by
  decide

/-- C3 at scenario 3 (`S` ignored), span `(0, 2)`: the hypotheses hold, the
span is in the "partial" case, and the computed cell is
`C[0][2] = [(A, 0, 1), (B, 1, 1)]`, `S[0][2] = (2, 1, -2)`. -/
theorem colorize_postcondition_witness :
    ((scenario3.colorize.col_table 0 2).triples = [(2, 0, 1), (3, 1, 1)] ∧
      scenario3.colorize.score_table 0 2 = { coverage := 2, largest := 1, num := -2 }) ∧
    ((∃ k, 1 ≤ k ∧ k < 2 ∧
        scenario3.colorize.score_table 0 2
          = (scenario3.colorize.score_table 0 k).combine
              (scenario3.colorize.score_table (0 + k) (2 - k))) ∧
      (∀ k, 1 ≤ k → k < 2 →
        ((scenario3.colorize.score_table 0 k).combine
            (scenario3.colorize.score_table (0 + k) (2 - k))).key
          ≤ (scenario3.colorize.score_table 0 2).key) ∧
      (scenario3.colorize.col_table 0 2).triples
        = dedupFirst (((List.range' 1 (2 - 1)).filter
            (fun k => decide ((scenario3.colorize.score_table 0 k).combine
              (scenario3.colorize.score_table (0 + k) (2 - k))
                = scenario3.colorize.score_table 0 2))).flatMap
            (fun k => (scenario3.colorize.col_table 0 k).triples
              ++ (scenario3.colorize.col_table (0 + k) (2 - k)).triples))) :=
  ⟨by decide,
   (colorize_postcondition scenario3 rfl (fun _ _ => rfl) (fun _ _ => rfl) 0 2
      (by decide) (by decide)).2
     (by
       rintro ⟨nt, h1, h2, h3, h4⟩
       have h5 : nt < 4 := h2
       interval_cases nt
       · exact h3 (by decide)
       · exact absurd h4 (by decide)
       · exact absurd h4 (by decide))
     (by decide)⟩

/-- The chunk loop of `colorize_partial` runs the levels `l, ..., l + cnt - 1`. -/
theorem colorize_chunk_eq (next_l : Nat) (f l : Nat) (c : CYK) :
    CYK.colorize_chunk next_l f l c
      = (l + min f (min c.lmax next_l - l),
         (List.range' l (min f (min c.lmax next_l - l))).foldl CYK.colorize_level c) := by
  induction f generalizing l c with
  | zero => simp [CYK.colorize_chunk]
  | succ f ih =>
    rw [CYK.colorize_chunk]
    split_ifs with h
    · rw [ih, (colorize_level_frame c l).2.2.1]
      have e : min (f + 1) (min c.lmax next_l - l) = min f (min c.lmax next_l - (l + 1)) + 1 := by
        omega
      rw [e, List.range'_succ]
      simp only [List.foldl_cons]
      congr 1
      omega
    · have e : min (f + 1) (min c.lmax next_l - l) = 0 := by omega
      rw [e]
      rfl

/-- A run of colouring levels keeps `lmax`. -/
theorem clevels_lmax (c : CYK) (s cnt : Nat) :
    ((List.range' s cnt).foldl CYK.colorize_level c).lmax = c.lmax := by
  induction cnt with
  | zero => rfl
  | succ cnt ih =>
    rw [List.range'_concat, List.foldl_append]
    simp only [List.foldl_cons, List.foldl_nil]
    rw [(colorize_level_frame _ _).2.2.1, ih]

/-- The result of `colorize_partial(l)` for `l ≤ lmax`. -/
theorem colorize_partial_eq (c : CYK) (l : Nat) (hl : l ≤ c.lmax) :
    c.colorize_partial l
      = (if c.lmax ≤ l + 10 then 0 else l + 10,
         (List.range' l (min c.lmax (l + 10) - l)).foldl CYK.colorize_level c) := by
  unfold CYK.colorize_partial
  simp only [colorize_chunk_eq]
  have e : min 10 (min c.lmax (l + 10) - l) = min c.lmax (l + 10) - l := by omega
  rw [e, clevels_lmax]
  by_cases h : c.lmax ≤ l + 10
  · rw [if_pos h, if_pos (by omega)]
  · rw [if_neg h, if_neg (by omega)]

/-- The result of `colorize_partial(l)` for `l > lmax`: nothing is run and the
non-zero value `l + 10` is returned. -/
theorem colorize_partial_beyond (c : CYK) (l : Nat) (hl : c.lmax < l) :
    c.colorize_partial l = (l + 10, c) := by
  unfold CYK.colorize_partial
  simp only [colorize_chunk_eq]
  have e : min 10 (min c.lmax (l + 10) - l) = 0 := by omega
  rw [e]
  simp only [List.range'_zero, List.foldl_nil, Nat.add_zero]
  rw [if_neg (by omega)]

/-- The caller's colouring loop, started at `l ≤ lmax` with enough calls
allowed, returns and has run the levels `l, ..., lmax - 1`. -/
theorem colorize_driver_eq (f : Nat) (l : Nat) (c : CYK) (hl : l ≤ c.lmax) (hf : 1 ≤ f)
    (hfuel : c.lmax ≤ l + 10 * f) :
    CYK.colorize_driver f l c
      = some ((List.range' l (c.lmax - l)).foldl CYK.colorize_level c) := by
  induction f generalizing l c with
  | zero => omega
  | succ f ih =>
    rw [CYK.colorize_driver]
    simp only [colorize_partial_eq c l hl]
    by_cases h : c.lmax ≤ l + 10
    · rw [if_pos h]
      simp only [if_true]
      have e : min c.lmax (l + 10) - l = c.lmax - l := by omega
      rw [e]
    · rw [if_neg h, if_neg (by omega)]
      have e : min c.lmax (l + 10) - l = 10 := by omega
      rw [e]
      have hlm := clevels_lmax c l 10
      rw [ih (l + 10) _ (by omega) (by omega) (by omega), hlm]
      have e2 : c.lmax - l = (c.lmax - (l + 10)) + 10 := by omega
      rw [e2, ← List.range'_append_1, List.foldl_append]

/-- Chunking equivalence for colouring on a non-empty token string (`m ≥ 1`):
`init_colorize_partial()` followed by the caller's loop started at 2 returns,
with the very state that `colorize()` produces. -/
theorem colorize_driver_eq_colorize (c : CYK) (hlmax : c.lmax = 1 + c.m) (hm : 1 ≤ c.m) :
    ∃ f, CYK.colorize_driver f 2 c.init_colorize_partial = some c.colorize := by
  have hl0 : c.init_colorize_partial.lmax = c.lmax := (init_spec c).1.2.2.1
  refine ⟨c.m, ?_⟩
  rw [colorize_driver_eq c.m 2 _ (by omega) hm (by omega), hl0, colorize_eq]

/-- Once `l` is beyond `lmax`, no call of `colorize_partial` returns 0. -/
theorem colorize_driver_beyond (f : Nat) (l : Nat) (c : CYK) (hl : c.lmax < l) :
    CYK.colorize_driver f l c = none := by
  induction f generalizing l with
  | zero => rfl
  | succ f ih =>
    rw [CYK.colorize_driver]
    simp only [colorize_partial_beyond c l hl]
    rw [if_neg (by omega)]
    exact ih (l + 10) (by omega)

/-- C4 at the failing input, the empty token string (`m = 0`, `lmax = 1`):
after `init_colorize_partial()`, `colorize_partial(2)` returns 12 and not 0,
the caller's loop started at 2 never ends and so produces no tables, whereas
`colorize()` returns at once with the tables unchanged. -/
theorem colorize_driver_empty_input (n : Nat) (g : Grammar) :
    ( CYK.colorize_partial ( CYK.init_colorize_partial (CYK.new n 0 g)) 2).1 = 12 ∧
    (∀ f, CYK.colorize_driver f 2 ( CYK.init_colorize_partial (CYK.new n 0 g)) = none) ∧
    (CYK.new n 0 g).colorize = CYK.new n 0 g :=
  ⟨by rw [colorize_partial_beyond _ _
        (show CYK.lmax ( CYK.init_colorize_partial (CYK.new n 0 g)) < 2 from Nat.lt_succ_self 1)],
   fun f => colorize_driver_beyond f 2 _
     (show CYK.lmax ( CYK.init_colorize_partial (CYK.new n 0 g)) < 2 from Nat.lt_succ_self 1),
   rfl⟩

end Colorizer


/-! # Properties of the constraint graphs -/

section Constraint

theorem mem_set_insert {α : Type} (lt : α → α → Bool)
    (htot : ∀ a b, lt a b = false → lt b a = false → a = b) (x y : α) (l : List α) :
    y ∈ set_insert lt x l ↔ y = x ∨ y ∈ l := by
  induction l with
  | nil => simp [set_insert]
  | cons z zs ih =>
    unfold set_insert
    split_ifs with h1 h2
    · simp
    · simp only [List.mem_cons, ih]
      tauto
    · have : x = z := htot x z (by simpa using h1) (by simpa using h2)
      subst this
      simp

theorem int_lt_total (a b : Int) (h1 : int_lt a b = false) (h2 : int_lt b a = false) : a = b := by
  unfold int_lt at h1 h2
  simp only [decide_eq_false_iff_not, not_lt] at h1 h2
  omega

theorem nat_lt_total (a b : Nat) (h1 : nat_lt a b = false) (h2 : nat_lt b a = false) : a = b := by
  unfold nat_lt at h1 h2
  simp only [decide_eq_false_iff_not, not_lt] at h1 h2
  omega

theorem pair_lt_total (a b : Nat × Nat) (h1 : pair_lt a b = false) (h2 : pair_lt b a = false) :
    a = b := by
  unfold pair_lt at h1 h2
  simp only [Bool.or_eq_false_iff, Bool.and_eq_false_iff, decide_eq_false_iff_not, not_lt] at h1 h2
  obtain ⟨a1, a2⟩ := a
  obtain ⟨b1, b2⟩ := b
  simp only at h1 h2
  have e1 : a1 = b1 := by omega
  subst e1
  have e2 : a2 = b2 := by
    rcases h1.2 with h | h
    · exact absurd rfl h
    · rcases h2.2 with h3 | h3
      · exact absurd rfl h3
      · omega
  rw [e2]

theorem start_node_positions (cs : ConstraintState) :
    cs.start_node.positions = cs.provenance.elems.map (fun elem => elem.i) := by
  unfold ConstraintState.start_node
  have h : ∀ (l : List ProvenanceElement) (acc : VertexInfo),
      (l.foldl (fun vi elem => vi.add_position elem.i) acc).positions
        = acc.positions ++ l.map (fun elem => elem.i) := by
    intro l
    induction l with
    | nil => intro acc; simp
    | cons x xs ih =>
      intro acc
      simp only [List.foldl_cons, List.map_cons]
      rw [ih]
      simp [VertexInfo.add_position]
  rw [h]
  rfl

theorem end_node_positions (cs : ConstraintState) :
    cs.end_node.positions = cs.provenance.elems.map (fun elem => elem.i + elem.l) := by
  unfold ConstraintState.end_node
  have h : ∀ (l : List ProvenanceElement) (acc : VertexInfo),
      (l.foldl (fun vi elem => vi.add_position (elem.i + elem.l)) acc).positions
        = acc.positions ++ l.map (fun elem => elem.i + elem.l) := by
    intro l
    induction l with
    | nil => intro acc; simp
    | cons x xs ih =>
      intro acc
      simp only [List.foldl_cons, List.map_cons]
      rw [ih]
      simp [VertexInfo.add_position]
  rw [h]
  rfl

theorem add_vertex_prov (cs : ConstraintState) (vi : VertexInfo) :
    (cs._add_vertex vi).1.provenance = cs.provenance ∧
    (cs._add_vertex vi).1.terminal_set = cs.terminal_set := by
  unfold ConstraintState._add_vertex
  split_ifs <;> exact ⟨rfl, rfl⟩

theorem add_edge_prov (cs : ConstraintState) (a b : VertexInfo) :
    (cs._add_edge a b).1.provenance = cs.provenance ∧
    (cs._add_edge a b).1.terminal_set = cs.terminal_set := by
  unfold ConstraintState._add_edge
  dsimp only
  rw [(add_vertex_prov _ b).1, (add_vertex_prov _ b).2, (add_vertex_prov _ a).1,
    (add_vertex_prov _ a).2]
  exact ⟨rfl, rfl⟩

theorem intersect_edge_pair_prov (c1 c2 : ConstraintState) (u v : Nat) (e1 e2 : Edge)
    (st : ConstraintState × List (Nat × Nat)) :
    (intersect_edge_pair c1 c2 u v e1 e2 st).1.provenance = st.1.provenance ∧
    (intersect_edge_pair c1 c2 u v e1 e2 st).1.terminal_set = st.1.terminal_set := by
  unfold intersect_edge_pair
  dsimp only
  split_ifs
  · exact ⟨rfl, rfl⟩
  · exact add_edge_prov _ _ _

theorem intersect_iterate_prov (c1 c2 dest : ConstraintState) (np : List (Nat × Nat)) :
    (intersect_iterate c1 c2 dest np).2.1.provenance = dest.provenance ∧
    (intersect_iterate c1 c2 dest np).2.1.terminal_set = dest.terminal_set := by
  unfold intersect_iterate
  cases np with
  | nil => exact ⟨rfl, rfl⟩
  | cons p rest =>
    obtain ⟨u, v⟩ := p
    dsimp only
    have inner : ∀ (l2 : List Edge) (e1 : Edge) (st : ConstraintState × List (Nat × Nat)),
        (l2.foldl (fun st1 e2 => intersect_edge_pair c1 c2 u v e1 e2 st1) st).1.provenance
          = st.1.provenance ∧
        (l2.foldl (fun st1 e2 => intersect_edge_pair c1 c2 u v e1 e2 st1) st).1.terminal_set
          = st.1.terminal_set := by
      intro l2 e1
      induction l2 with
      | nil => intro st; exact ⟨rfl, rfl⟩
      | cons e2 l2 ih =>
        intro st
        simp only [List.foldl_cons]
        obtain ⟨h1, h2⟩ := ih (intersect_edge_pair c1 c2 u v e1 e2 st)
        obtain ⟨h3, h4⟩ := intersect_edge_pair_prov c1 c2 u v e1 e2 st
        exact ⟨h1.trans h3, h2.trans h4⟩
    have outer : ∀ (l1 : List Edge) (st : ConstraintState × List (Nat × Nat)),
        (l1.foldl (fun st e1 => (c2.table.out_edges v).foldl
          (fun st1 e2 => intersect_edge_pair c1 c2 u v e1 e2 st1) st) st).1.provenance
          = st.1.provenance ∧
        (l1.foldl (fun st e1 => (c2.table.out_edges v).foldl
          (fun st1 e2 => intersect_edge_pair c1 c2 u v e1 e2 st1) st) st).1.terminal_set
          = st.1.terminal_set := by
      intro l1
      induction l1 with
      | nil => intro st; exact ⟨rfl, rfl⟩
      | cons e1 l1 ih =>
        intro st
        simp only [List.foldl_cons]
        obtain ⟨h1, h2⟩ := ih ((c2.table.out_edges v).foldl
          (fun st1 e2 => intersect_edge_pair c1 c2 u v e1 e2 st1) st)
        obtain ⟨h3, h4⟩ := inner (c2.table.out_edges v) e1 st
        exact ⟨h1.trans h3, h2.trans h4⟩
    exact outer _ _

theorem intersect_loop_prov (c1 c2 : ConstraintState) (f : Nat) (dest d : ConstraintState)
    (np : List (Nat × Nat)) (h : intersect_loop c1 c2 f dest np = some d) :
    d.provenance = dest.provenance ∧ d.terminal_set = dest.terminal_set := by
  induction f generalizing dest np with
  | zero => simp [intersect_loop] at h
  | succ f ih =>
    rw [intersect_loop] at h
    obtain ⟨h1, h2⟩ := intersect_iterate_prov c1 c2 dest np
    split_ifs at h with hb
    · obtain ⟨h3, h4⟩ := ih _ _ h
      exact ⟨h3.trans h1, h4.trans h2⟩
    · simp only [Option.some.injEq] at h
      rw [← h]
      exact ⟨h1, h2⟩

/-- What `intersect_provenance` does: the elements of `c1`, then those of
`c2`, are appended to the provenance of `dest`. -/
theorem intersect_provenance_spec (c1 c2 dest : ConstraintState) :
    (intersect_provenance c1 c2 dest).provenance.elems
      = dest.provenance.elems ++ c1.provenance.elems ++ c2.provenance.elems ∧
    (intersect_provenance c1 c2 dest).table = dest.table ∧
    (intersect_provenance c1 c2 dest).vertex_map = dest.vertex_map ∧
    (intersect_provenance c1 c2 dest).terminal_set = dest.terminal_set := by
  have h : ∀ (l : List ProvenanceElement) (d : ConstraintState),
      (l.foldl (fun (d : ConstraintState) elem =>
        { d with provenance := { elems := d.provenance.elems ++ [elem] } }) d).provenance.elems
          = d.provenance.elems ++ l ∧
      (l.foldl (fun (d : ConstraintState) elem =>
        { d with provenance := { elems := d.provenance.elems ++ [elem] } }) d).table = d.table ∧
      (l.foldl (fun (d : ConstraintState) elem =>
        { d with provenance := { elems := d.provenance.elems ++ [elem] } }) d).vertex_map
          = d.vertex_map ∧
      (l.foldl (fun (d : ConstraintState) elem =>
        { d with provenance := { elems := d.provenance.elems ++ [elem] } }) d).terminal_set
          = d.terminal_set := by
    intro l
    induction l with
    | nil => intro d; simp
    | cons x xs ih =>
      intro d
      simp only [List.foldl_cons]
      obtain ⟨h1, h2, h3, h4⟩ := ih { d with provenance := { elems := d.provenance.elems ++ [x] } }
      exact ⟨by rw [h1]; simp, h2, h3, h4⟩
  unfold intersect_provenance
  dsimp only
  obtain ⟨a1, a2, a3, a4⟩ := h c1.provenance.elems dest
  obtain ⟨b1, b2, b3, b4⟩ := h c2.provenance.elems (c1.provenance.elems.foldl
    (fun (d : ConstraintState) elem =>
      { d with provenance := { elems := d.provenance.elems ++ [elem] } }) dest)
  exact ⟨by rw [b1, a1], b2.trans a2, b3.trans a3, b4.trans a4⟩

/-- What `intersect_terminal_set` does: the symbols of both terminal sets are
inserted into the terminal set of `dest`. -/
theorem intersect_terminal_set_spec (c1 c2 dest : ConstraintState) :
    (∀ x, x ∈ (intersect_terminal_set c1 c2 dest).terminal_set
      ↔ x ∈ dest.terminal_set ∨ x ∈ c1.terminal_set ∨ x ∈ c2.terminal_set) ∧
    (intersect_terminal_set c1 c2 dest).table = dest.table ∧
    (intersect_terminal_set c1 c2 dest).vertex_map = dest.vertex_map ∧
    (intersect_terminal_set c1 c2 dest).provenance = dest.provenance := by
  have h : ∀ (l : List sym_t) (d : ConstraintState),
      (∀ x, x ∈ (l.foldl (fun (d : ConstraintState) sym =>
        { d with terminal_set := set_insert int_lt sym d.terminal_set }) d).terminal_set
          ↔ x ∈ d.terminal_set ∨ x ∈ l) ∧
      (l.foldl (fun (d : ConstraintState) sym =>
        { d with terminal_set := set_insert int_lt sym d.terminal_set }) d).table = d.table ∧
      (l.foldl (fun (d : ConstraintState) sym =>
        { d with terminal_set := set_insert int_lt sym d.terminal_set }) d).vertex_map
          = d.vertex_map ∧
      (l.foldl (fun (d : ConstraintState) sym =>
        { d with terminal_set := set_insert int_lt sym d.terminal_set }) d).provenance
          = d.provenance := by
    intro l
    induction l with
    | nil => intro d; simp
    | cons y ys ih =>
      intro d
      simp only [List.foldl_cons]
      obtain ⟨h1, h2, h3, h4⟩ :=
        ih { d with terminal_set := set_insert int_lt y d.terminal_set }
      refine ⟨fun x => ?_, h2, h3, h4⟩
      rw [h1]
      simp only [mem_set_insert int_lt int_lt_total, List.mem_cons]
      tauto
  unfold intersect_terminal_set
  dsimp only
  obtain ⟨a1, a2, a3, a4⟩ := h c1.terminal_set dest
  obtain ⟨b1, b2, b3, b4⟩ := h c2.terminal_set (c1.terminal_set.foldl
    (fun (d : ConstraintState) sym =>
      { d with terminal_set := set_insert int_lt sym d.terminal_set }) dest)
  refine ⟨fun x => ?_, b2.trans a2, b3.trans a3, b4.trans a4⟩
  rw [b1, a1]
  tauto

theorem remove_nodes_prov (l : List Nat) (cs d : ConstraintState) (h : remove_nodes l cs = some d) :
    d.provenance = cs.provenance ∧ d.terminal_set = cs.terminal_set := by
  induction l generalizing cs with
  | nil =>
    simp only [remove_nodes, Option.some.injEq] at h
    rw [← h]
    exact ⟨rfl, rfl⟩
  | cons v rest ih =>
    rw [remove_nodes] at h
    split at h
    · cases h
    · have h2 := ih _ h
      exact h2

theorem map_find_set (m : List (VertexInfo × Nat)) (k : VertexInfo) (v : Nat) (k1 : VertexInfo) :
    map_find (map_set m k v) k1 = if k1 = k then some v else map_find m k1 := by
  induction m with
  | nil =>
    simp only [map_set, map_find]
    by_cases h : k = k1
    · rw [if_pos h, if_pos h.symm]
    · rw [if_neg h, if_neg (fun hh => h hh.symm)]
  | cons x xs ih =>
    obtain ⟨k2, v2⟩ := x
    simp only [map_set]
    by_cases h : k2 = k
    · rw [if_pos h]
      simp only [map_find]
      subst h
      by_cases h2 : k2 = k1
      · rw [if_pos h2, if_pos h2.symm]
      · rw [if_neg h2, if_neg h2, if_neg (fun hh => h2 hh.symm)]
    · rw [if_neg h]
      simp only [map_find]
      by_cases h2 : k2 = k1
      · rw [if_pos h2, if_pos h2, if_neg (by rw [← h2]; exact h)]
      · rw [if_neg h2, if_neg h2, ih]

theorem map_find_some_mem (m : List (VertexInfo × Nat)) (k : VertexInfo) (v : Nat)
    (h : map_find m k = some v) : k ∈ m.map Prod.fst := by
  induction m with
  | nil => simp [map_find] at h
  | cons x xs ih =>
    obtain ⟨k2, v2⟩ := x
    simp only [map_find] at h
    by_cases h2 : k2 = k
    · simp [h2]
    · rw [if_neg h2] at h
      simp [ih h]

theorem map_find_none_of_not_mem (m : List (VertexInfo × Nat)) (k : VertexInfo)
    (h : k ∉ m.map Prod.fst) : map_find m k = none := by
  cases hf : map_find m k with
  | none => rfl
  | some v => exact absurd (map_find_some_mem m k v hf) h

theorem map_find_ne_none_of_mem (m : List (VertexInfo × Nat)) (k : VertexInfo) (v : Nat)
    (h : (k, v) ∈ m) : map_find m k ≠ none := by
  induction m with
  | nil => cases h
  | cons y ys ih =>
    obtain ⟨k4, v4⟩ := y
    simp only [map_find]
    by_cases h5 : k4 = k
    · rw [if_pos h5]; simp
    · rw [if_neg h5]
      rcases List.mem_cons.1 h with h6 | h6
      · exact absurd (Prod.mk.inj h6).1.symm h5
      · exact ih h6

/-- Erasing a key that is present succeeds and removes this key only. -/
theorem map_erase_spec (m : List (VertexInfo × Nat)) (k : VertexInfo) (v : Nat)
    (hn : (m.map Prod.fst).Nodup) (h : map_find m k = some v) :
    ∃ m1, map_erase_find m k = some m1 ∧ (m1.map Prod.fst).Nodup ∧
      ∀ k1, map_find m1 k1 = if k1 = k then none else map_find m k1 := by
  induction m with
  | nil => simp [map_find] at h
  | cons x xs ih =>
    obtain ⟨k2, v2⟩ := x
    simp only [List.map_cons, List.nodup_cons] at hn
    simp only [map_find] at h
    simp only [map_erase_find]
    by_cases h2 : k2 = k
    · rw [if_pos h2]
      refine ⟨xs, rfl, hn.2, fun k1 => ?_⟩
      by_cases h3 : k1 = k
      · rw [if_pos h3, h3, ← h2]
        exact map_find_none_of_not_mem xs k2 hn.1
      · rw [if_neg h3]
        simp only [map_find]
        rw [if_neg (fun hh => h3 (by rw [← hh, h2]))]
    · rw [if_neg h2] at h ⊢
      obtain ⟨m1, e1, e2, e3⟩ := ih hn.2 h
      rw [e1]
      refine ⟨(k2, v2) :: m1, rfl, ?_, fun k1 => ?_⟩
      · simp only [List.map_cons, List.nodup_cons]
        refine ⟨fun hm => hn.1 ?_, e2⟩
        rw [List.mem_map] at hm
        obtain ⟨⟨k3, v3⟩, hm1, hm2⟩ := hm
        simp only at hm2
        subst hm2
        have hk3 : map_find m1 k3 ≠ none := map_find_ne_none_of_mem m1 k3 v3 hm1
        rw [e3] at hk3
        by_cases h4 : k3 = k
        · rw [if_pos h4] at hk3; exact absurd rfl hk3
        · rw [if_neg h4] at hk3
          cases hf : map_find xs k3 with
          | none => exact absurd hf hk3
          | some v5 => exact map_find_some_mem xs k3 v5 hf
      · simp only [map_find]
        by_cases h3 : k2 = k1
        · rw [if_pos h3, if_neg (by rw [← h3]; exact h2), if_pos h3]
        · rw [if_neg h3, e3, if_neg h3]

/-- Erasing a key that is absent is the undefined `erase(end())`. -/
theorem map_erase_none (m : List (VertexInfo × Nat)) (k : VertexInfo)
    (h : map_find m k = none) : map_erase_find m k = none := by
  induction m with
  | nil => rfl
  | cons x xs ih =>
    obtain ⟨k2, v2⟩ := x
    simp only [map_find] at h
    simp only [map_erase_find]
    by_cases h2 : k2 = k
    · rw [if_pos h2] at h; cases h
    · rw [if_neg h2] at h ⊢
      rw [ih h]
      rfl

theorem lookup_remove_edge (g : Graph) (u v : Nat) : (g.remove_edge u v).lookup_edge u v = none := by
  unfold Graph.lookup_edge Graph.remove_edge
  rw [List.find?_eq_none]
  intro e he
  have := (List.mem_filter.1 he).2
  simp only [decide_eq_true_eq] at this ⊢
  exact this

/-- A vertex of degree 0 has no incident edge: `clear_vertex` removes nothing. -/
theorem clear_vertex_of_degree_zero (g : Graph) (u : Nat) (h : g.degree u = 0) :
    g.clear_vertex u = g := by
  unfold Graph.degree Graph.in_edges Graph.out_edges at h
  rw [List.length_insertionSort, List.length_insertionSort] at h
  have h1 : (g.edges.filter (fun e => decide (e.tgt = u))) = [] := List.length_eq_zero.1 (by omega)
  have h2 : (g.edges.filter (fun e => decide (e.src = u))) = [] := List.length_eq_zero.1 (by omega)
  rw [List.filter_eq_nil_iff] at h1 h2
  unfold Graph.clear_vertex
  have : g.edges.filter (fun e => decide ¬ (e.src = u ∨ e.tgt = u)) = g.edges := by
    rw [List.filter_eq_self]
    intro e he
    have a1 := h1 e he
    have a2 := h2 e he
    simp only [decide_eq_true_eq] at a1 a2
    simp [a1, a2]
  rw [this]

/-- C9 as amended (unit-edge removal).  In a state whose vertex map has no
key twice and only keys with as many positions as the state has provenance
elements, whose start and end nodes are distinct keys of the vertex map,
mapped to the vertices `u` and `v` that carry them, and that has a direct edge
`e` from `u` to `v`:
`remove_unit_paths` removes this edge, and no other edge, when no symbol of
`e` belongs to the terminal set (the symbol list is empty once the
non-terminals are removed); otherwise it leaves the state as it is. -/
theorem remove_unit_paths_spec (cs : ConstraintState) (u v : Nat) (e : Edge)
    (hkeys : (cs.vertex_map.map Prod.fst).Nodup)
    (_hk : cs.KeyLen cs.provenance.elems.length)
    (hu : map_find cs.vertex_map cs.start_node = some u)
    (hv : map_find cs.vertex_map cs.end_node = some v)
    (hku : cs.table.vinfo u = cs.start_node) (hkv : cs.table.vinfo v = cs.end_node)
    (hne : cs.start_node ≠ cs.end_node)
    (he : cs.table.lookup_edge u v = some e) :
    ∃ cs1, cs.remove_unit_paths = some cs1 ∧
      ((∀ x ∈ e.info.syms, x ∉ cs.terminal_set) →
        cs1.table.lookup_edge u v = none ∧
        cs1.table.edges = cs.table.edges.filter (fun e1 => ¬ (e1.src = u ∧ e1.tgt = v))) ∧
      (¬ (∀ x ∈ e.info.syms, x ∉ cs.terminal_set) → cs1 = cs) := by
  have hhu : cs.has_vertex cs.start_node = true := by
    unfold ConstraintState.has_vertex; rw [hu]; rfl
  have hhv : cs.has_vertex cs.end_node = true := by
    unfold ConstraintState.has_vertex; rw [hv]; rfl
  have hvu : cs.vertex_of cs.start_node = u := by
    unfold ConstraintState.vertex_of; rw [hu]; rfl
  have hvv : cs.vertex_of cs.end_node = v := by
    unfold ConstraintState.vertex_of; rw [hv]; rfl
  unfold ConstraintState.remove_unit_paths
  simp only [hhu, hhv, hvu, hvv, Bool.not_true, Bool.or_self, Bool.false_eq_true, if_false, he]
  by_cases hall : ∀ x ∈ e.info.syms, x ∉ cs.terminal_set
  · have hlen : (e.info.syms.filter (fun sym => !decide (sym ∉ cs.terminal_set))).length = 0 := by
      rw [List.length_eq_zero, List.filter_eq_nil_iff]
      intro x hx
      simp [hall x hx]
    rw [if_pos hlen]
    -- the two conditional removals from the vertex map never fail and change no edge
    have key : ∀ (c : ConstraintState) (w : Nat) (kw : VertexInfo),
        (c.vertex_map.map Prod.fst).Nodup → c.table.vinfo w = kw →
        (∃ x, map_find c.vertex_map kw = some x) →
        ∃ c1, (if c.table.degree w = 0 then
            (map_erase_find c.vertex_map (c.table.vinfo w)).map
              (fun m => { c with vertex_map := m, table := c.table.clear_vertex w })
          else some c) = some c1 ∧ c1.table = c.table ∧ (c1.vertex_map.map Prod.fst).Nodup ∧
          ∀ k1, k1 ≠ kw → map_find c1.vertex_map k1 = map_find c.vertex_map k1 := by
      intro c w kw hn hk ⟨x, hx⟩
      by_cases hd : c.table.degree w = 0
      · rw [if_pos hd, hk]
        obtain ⟨m1, e1, e2, e3⟩ := map_erase_spec c.vertex_map kw x hn hx
        rw [e1]
        refine ⟨_, rfl, clear_vertex_of_degree_zero _ _ hd, e2, fun k1 hk1 => ?_⟩
        show map_find m1 k1 = _
        rw [e3, if_neg hk1]
      · rw [if_neg hd]
        exact ⟨c, rfl, rfl, hn, fun _ _ => rfl⟩
    obtain ⟨c1, g1, g2, g3, g4⟩ := key { cs with table := cs.table.remove_edge u v } u
      cs.start_node hkeys hku ⟨u, hu⟩
    rw [g1]
    dsimp only
    obtain ⟨c2, k1, k2, k3, k4⟩ := key c1 v cs.end_node g3 (by rw [g2]; exact hkv)
      ⟨v, by rw [g4 _ (fun hh => hne hh.symm)]; exact hv⟩
    rw [k1]
    refine ⟨c2, rfl, fun _ => ?_, fun hh => absurd hall hh⟩
    rw [k2, g2]
    exact ⟨lookup_remove_edge _ _ _, rfl⟩
  · have hlen : ¬ (e.info.syms.filter (fun sym => !decide (sym ∉ cs.terminal_set))).length = 0 := by
      rw [List.length_eq_zero, List.filter_eq_nil_iff]
      intro hh
      apply hall
      intro x hx hm
      have := hh x hx
      simp [hm] at this
    rw [if_neg hlen]
    exact ⟨cs, rfl, fun hh => absurd hh hall, fun _ => rfl⟩

/-- C9 as amended, at the state whose only edge is the direct edge labelled by
the non-terminal 5: the hypotheses hold, the edge is removed, and
`solve_shortest_non_unit` returns an empty Solution. -/
theorem remove_unit_paths_spec_witness :
    (∃ cs1, unit_nonterminal_state.remove_unit_paths = some cs1 ∧
      ((∀ x ∈ ({ src := 0, tgt := 1, info := { syms := [5] } } : Edge).info.syms,
          x ∉ unit_nonterminal_state.terminal_set) →
        cs1.table.lookup_edge 0 1 = none ∧
        cs1.table.edges = unit_nonterminal_state.table.edges.filter
          (fun e1 => ¬ (e1.src = 0 ∧ e1.tgt = 1))) ∧
      (¬ (∀ x ∈ ({ src := 0, tgt := 1, info := { syms := [5] } } : Edge).info.syms,
          x ∉ unit_nonterminal_state.terminal_set) → cs1 = unit_nonterminal_state)) ∧
    (unit_nonterminal_state.solve_shortest_non_unit Solution.fresh).map (fun r => r.2)
      = some Solution.fresh :=
  ⟨remove_unit_paths_spec unit_nonterminal_state 0 1 { src := 0, tgt := 1, info := { syms := [5] } }
      (by decide) (by unfold ConstraintState.KeyLen; decide) (by decide) (by decide) (by decide)
      (by decide) (by decide) (by decide),
   by decide⟩

/-- C9 as stated fails at scenario 6, the state whose only edge is the direct
start-to-end edge labelled `[5]` with 5 a terminal: every symbol of the edge
is a terminal, yet `remove_unit_paths` leaves the state as it is and
`solve_shortest_non_unit` returns the path `[0] -> [1]`, not an empty
Solution. -/
theorem remove_unit_paths_counterexample :
    (∀ x ∈ [(5 : sym_t)], x ∈ unit_terminal_state.terminal_set) ∧
    unit_terminal_state.table.edges = [{ src := 0, tgt := 1, info := { syms := [5] } }] ∧
    unit_terminal_state.vertex_of unit_terminal_state.start_node = 0 ∧
    unit_terminal_state.vertex_of unit_terminal_state.end_node = 1 ∧
    unit_terminal_state.remove_unit_paths = some unit_terminal_state ∧
    (unit_terminal_state.solve_shortest_non_unit Solution.fresh).map (fun r => r.2)
      = some { raws := [[[0], [1]]], paths := [[[5]]], compressed_path := [[5]] } := by
  decide

/-- C8 at the failing input: `diamond_state` intersected with itself.  All
edge labels of the input are `[7]`, sorted and without duplicate; the pair of
vertices `(1, 1)` is taken from the working set twice (it is inserted again
when `(2, 2)` is processed after it), `_add_edge` returns the edge that exists
already, and the symbols are appended a second time: the edge
`[2, 2] -> [3, 3]` of the result carries `[7, 7]`. -/
theorem intersect_duplicate_label :
    diamond_state.get_edges.2.2 = [[7], [7], [7], [7]] ∧
    (intersect 20 diamond_state diamond_state ConstraintState.fresh).map
        (fun d => d.get_edges)
      = some ([[0, 0], [0, 0], [2, 2], [1, 1]], [[2, 2], [1, 1], [3, 3], [2, 2]],
          [[7], [7], [7, 7], [7]]) := by
  decide

/-- C10 at the failing input `unreachable_state`: the start node `[0]` (vertex
2) and the end node `[5]` (vertex 0) are in the vertex map, the forward search
from the start reaches the vertices 2 and 3 only, but its graph `preds` has
the vertices 0 to 3, so that `has_vertex_descriptor` finds the end vertex 0;
the search from the end in `preds` leaves `preds2` without vertex, and
`shortest_paths` calls `in_edges(0, preds2)`, which is undefined. -/
theorem solve_shortest_unreachable :
    unreachable_state.has_vertex unreachable_state.start_node = true ∧
    unreachable_state.has_vertex unreachable_state.end_node = true ∧
    unreachable_state.vertex_of unreachable_state.start_node = 2 ∧
    unreachable_state.vertex_of unreachable_state.end_node = 0 ∧
    (breadth_first_search unreachable_state.table 2).seen = [2, 3] ∧
    has_vertex_descriptor 0 (breadth_first_search unreachable_state.table 2).p = true ∧
    (breadth_first_search (breadth_first_search unreachable_state.table 2).p 0).p.num_vertices
      = 0 ∧
    unreachable_state.solve_shortest Solution.fresh = none := by
  decide

theorem mem_out_edges (g : Graph) (u : Nat) (e : Edge) :
    e ∈ g.out_edges u ↔ e ∈ g.edges ∧ e.src = u := by
  unfold Graph.out_edges
  rw [List.mem_insertionSort, List.mem_filter]
  simp

theorem mem_in_edges (g : Graph) (v : Nat) (e : Edge) :
    e ∈ g.in_edges v ↔ e ∈ g.edges ∧ e.tgt = v := by
  unfold Graph.in_edges
  rw [List.mem_insertionSort, List.mem_filter]
  simp

theorem lookup_edge_some (g : Graph) (u v : Nat) (e : Edge) (h : g.lookup_edge u v = some e) :
    e ∈ g.edges ∧ e.src = u ∧ e.tgt = v := by
  unfold Graph.lookup_edge at h
  have h1 := List.mem_of_find?_eq_some h
  have h2 := List.find?_some h
  simp only [decide_eq_true_eq] at h2
  exact ⟨h1, h2⟩

theorem lookup_edge_none (g : Graph) (u v : Nat) (h : g.lookup_edge u v = none) :
    ¬ g.HasEdge u v := by
  unfold Graph.lookup_edge at h
  rw [List.find?_eq_none] at h
  rintro ⟨e, he, h1, h2⟩
  exact h e he (by simp [h1, h2])

/-- The edges after `add_edge(a, b, g)`. -/
theorem add_edge_hasEdge (g : Graph) (a b x y : Nat) :
    (g.add_edge a b).1.HasEdge x y ↔ g.HasEdge x y ∨ (x = a ∧ y = b) := by
  unfold Graph.add_edge
  cases h : g.lookup_edge a b with
  | some e =>
    dsimp only
    obtain ⟨h1, h2, h3⟩ := lookup_edge_some g a b e h
    constructor
    · intro hh; exact Or.inl hh
    · rintro (hh | ⟨rfl, rfl⟩)
      · exact hh
      · exact ⟨e, h1, h2, h3⟩
  | none =>
    dsimp only
    unfold Graph.HasEdge
    dsimp only
    constructor
    · rintro ⟨e, he, h1, h2⟩
      rw [List.mem_append, List.mem_singleton] at he
      rcases he with he | he
      · exact Or.inl ⟨e, he, h1, h2⟩
      · subst he
        exact Or.inr ⟨h1.symm, h2.symm⟩
    · rintro (⟨e, he, h1, h2⟩ | ⟨rfl, rfl⟩)
      · exact ⟨e, List.mem_append_left _ he, h1, h2⟩
      · exact ⟨_, List.mem_append_right _ (List.mem_singleton_self _), rfl, rfl⟩

/-- The vertex vector after `add_edge(a, b, g)`: grown to hold `a` and `b`. -/
theorem add_edge_length (g : Graph) (a b : Nat) :
    (g.add_edge a b).1.verts.length = max g.verts.length (max a b + 1) := by
  unfold Graph.add_edge
  have hl : (if max a b ≥ g.verts.length then
        g.verts ++ List.replicate (max a b + 1 - g.verts.length) ({ positions := [] } : VertexInfo)
      else g.verts).length = max g.verts.length (max a b + 1) := by
    split_ifs with hc
    · rw [List.length_append, List.length_replicate]; omega
    · omega
  cases h : g.lookup_edge a b with
  | some e => exact hl
  | none => exact hl

/-- No parallel edge is ever added. -/
theorem add_edge_no_parallel (g : Graph) (a b : Nat)
    (h : g.edges.Pairwise (fun e1 e2 => ¬ (e1.src = e2.src ∧ e1.tgt = e2.tgt))) :
    (g.add_edge a b).1.edges.Pairwise (fun e1 e2 => ¬ (e1.src = e2.src ∧ e1.tgt = e2.tgt)) := by
  unfold Graph.add_edge
  cases hl : g.lookup_edge a b with
  | some e => exact h
  | none =>
    dsimp only
    rw [List.pairwise_append]
    refine ⟨h, List.pairwise_singleton _ _, ?_⟩
    intro e1 he1 e2 he2
    rw [List.mem_singleton] at he2
    subst he2
    rintro ⟨h1, h2⟩
    exact lookup_edge_none g a b hl ⟨e1, he1, h1, h2⟩

/-- The loop of `examine_vertex(s, g)` over a list of out-edges. -/
theorem examine_fold (L : List Edge) (s : Nat) (p : Graph) (active : List Nat) :
    (∀ a b, (L.foldl (fun st e => ((st.1.add_edge e.tgt s).1,
          set_insert nat_lt s (set_insert nat_lt e.tgt st.2))) (p, active)).1.HasEdge a b
        ↔ p.HasEdge a b ∨ ∃ e ∈ L, a = e.tgt ∧ b = s) ∧
    (∀ x, x ∈ (L.foldl (fun st e => ((st.1.add_edge e.tgt s).1,
          set_insert nat_lt s (set_insert nat_lt e.tgt st.2))) (p, active)).2
        ↔ x ∈ active ∨ ∃ e ∈ L, x = e.tgt ∨ x = s) ∧
    ((∀ x, x < p.verts.length ↔ ∃ a b, p.HasEdge a b ∧ x ≤ max a b) →
      ∀ x, x < (L.foldl (fun st e => ((st.1.add_edge e.tgt s).1,
          set_insert nat_lt s (set_insert nat_lt e.tgt st.2))) (p, active)).1.verts.length
        ↔ ∃ a b, (L.foldl (fun st e => ((st.1.add_edge e.tgt s).1,
          set_insert nat_lt s (set_insert nat_lt e.tgt st.2))) (p, active)).1.HasEdge a b
            ∧ x ≤ max a b) ∧
    (p.edges.Pairwise (fun e1 e2 => ¬ (e1.src = e2.src ∧ e1.tgt = e2.tgt)) →
      (L.foldl (fun st e => ((st.1.add_edge e.tgt s).1,
          set_insert nat_lt s (set_insert nat_lt e.tgt st.2))) (p, active)).1.edges.Pairwise
        (fun e1 e2 => ¬ (e1.src = e2.src ∧ e1.tgt = e2.tgt))) := by
  induction L generalizing p active with
  | nil =>
    refine ⟨fun a b => ?_, fun x => ?_, fun h => h, fun h => h⟩
    · simp
    · simp
  | cons e L ih =>
    simp only [List.foldl_cons]
    obtain ⟨h1, h2, h3, h4⟩ := ih (p.add_edge e.tgt s).1
      (set_insert nat_lt s (set_insert nat_lt e.tgt active))
    refine ⟨fun a b => ?_, fun x => ?_, fun hv => ?_, fun hp => ?_⟩
    · rw [h1, add_edge_hasEdge]
      simp only [List.mem_cons, exists_eq_or_imp]
      tauto
    · rw [h2]
      simp only [mem_set_insert nat_lt nat_lt_total, List.mem_cons, exists_eq_or_imp]
      tauto
    · apply h3
      intro x
      rw [add_edge_length]
      constructor
      · intro hx
        by_cases hx1 : x < p.verts.length
        · obtain ⟨a, b, hab, hle⟩ := (hv x).1 hx1
          exact ⟨a, b, (add_edge_hasEdge _ _ _ _ _).2 (Or.inl hab), hle⟩
        · exact ⟨e.tgt, s, (add_edge_hasEdge _ _ _ _ _).2 (Or.inr ⟨rfl, rfl⟩), by omega⟩
      · rintro ⟨a, b, hab, hle⟩
        rcases (add_edge_hasEdge _ _ _ _ _).1 hab with hab | ⟨rfl, rfl⟩
        · have := (hv x).2 ⟨a, b, hab, hle⟩
          omega
        · omega
    · exact h4 (add_edge_no_parallel _ _ _ hp)

/-- The loop of `breadth_first_visit` over the out-edges of the popped vertex:
the white targets are appended to the queue and to the discovered vertices. -/
theorem discover_fold (L : List Edge) (q seen : List Nat) :
    ∃ news, L.foldl (fun (x : List Nat × List Nat) e =>
        if e.tgt ∈ x.2 then x else (x.1 ++ [e.tgt], x.2 ++ [e.tgt])) (q, seen)
          = (q ++ news, seen ++ news) ∧
      news.Nodup ∧ (∀ y ∈ news, y ∉ seen ∧ ∃ e ∈ L, e.tgt = y) ∧
      ∀ e ∈ L, e.tgt ∈ seen ∨ e.tgt ∈ news := by
  induction L generalizing q seen with
  | nil => exact ⟨[], by simp, List.nodup_nil, fun _ h => absurd h (List.not_mem_nil _),
      fun _ h => absurd h (List.not_mem_nil _)⟩
  | cons e L ih =>
    simp only [List.foldl_cons]
    by_cases he : e.tgt ∈ seen
    · rw [if_pos he]
      obtain ⟨news, h1, h2, h3, h4⟩ := ih q seen
      refine ⟨news, h1, h2, fun y hy => ?_, fun e1 he1 => ?_⟩
      · obtain ⟨a1, e2, a2, a3⟩ := h3 y hy
        exact ⟨a1, e2, List.mem_cons_of_mem _ a2, a3⟩
      · rcases List.mem_cons.1 he1 with h5 | h5
        · subst h5; exact Or.inl he
        · exact h4 e1 h5
    · rw [if_neg he]
      obtain ⟨news, h1, h2, h3, h4⟩ := ih (q ++ [e.tgt]) (seen ++ [e.tgt])
      refine ⟨e.tgt :: news, ?_, ?_, fun y hy => ?_, fun e1 he1 => ?_⟩
      · rw [h1]; simp
      · rw [List.nodup_cons]
        refine ⟨fun hm => ?_, h2⟩
        exact (h3 _ hm).1 (by simp)
      · rcases List.mem_cons.1 hy with h5 | h5
        · subst h5
          exact ⟨he, e, List.mem_cons_self _ _, rfl⟩
        · obtain ⟨a1, e2, a2, a3⟩ := h3 y h5
          exact ⟨fun hh => a1 (List.mem_append_left _ hh), e2, List.mem_cons_of_mem _ a2, a3⟩
      · rcases List.mem_cons.1 he1 with h5 | h5
        · subst h5; exact Or.inr (List.mem_cons_self _ _)
        · rcases h4 e1 h5 with h6 | h6
          · rw [List.mem_append, List.mem_singleton] at h6
            rcases h6 with h6 | h6
            · exact Or.inl h6
            · exact Or.inr (by rw [h6]; exact List.mem_cons_self _ _)
          · exact Or.inr (List.mem_cons_of_mem _ h6)

/-- One round of the search keeps the invariant. -/
theorem bfs_step_inv (g : Graph) (hg : ∀ e ∈ g.edges, e.tgt < g.verts.length) (s : Nat)
    (st : BFSState) (h : BFSInv g s st) : BFSInv g s (bfs_step g st) := by
  unfold bfs_step
  cases hq : st.queue with
  | nil => exact h
  | cons s0 q =>
    dsimp only
    obtain ⟨x1, x2, x3, x4⟩ := examine_fold (g.out_edges s0) s0 st.p st.active
    obtain ⟨news, d1, d2, d3, d4⟩ := discover_fold (g.out_edges s0) q st.seen
    unfold examine_vertex
    rw [d1]
    dsimp only
    have hs0 : s0 ∈ st.seen := h.queue_seen s0 (by rw [hq]; exact List.mem_cons_self _ _)
    have hqn : (s0 :: q).Nodup := by rw [← hq]; exact h.queue_nodup
    rw [List.nodup_cons] at hqn
    have hqs : ∀ x ∈ q, x ∈ st.seen := fun x hx =>
      h.queue_seen x (by rw [hq]; exact List.mem_cons_of_mem _ hx)
    have hnq : ∀ y ∈ news, y ∉ q := fun y hy hyq => (d3 y hy).1 (hqs y hyq)
    have hedge : ∀ y, g.HasEdge s0 y ↔ ∃ e ∈ g.out_edges s0, y = e.tgt := by
      intro y
      constructor
      · rintro ⟨e, he, h1, h2⟩
        exact ⟨e, (mem_out_edges g s0 e).2 ⟨he, h1⟩, h2.symm⟩
      · rintro ⟨e, he, h1⟩
        obtain ⟨h2, h3⟩ := (mem_out_edges g s0 e).1 he
        exact ⟨e, h2, h3, h1.symm⟩
    have hpe : ∀ a b, (List.foldl (fun st e => ((st.1.add_edge e.tgt s0).1,
          set_insert nat_lt s0 (set_insert nat_lt e.tgt st.2))) (st.p, st.active)
          (g.out_edges s0)).1.HasEdge a b
        ↔ (b ∈ st.seen ++ news ∧ b ∉ q ++ news ∧ g.HasEdge b a) := by
      intro a b
      rw [x1, h.p_edges, hq]
      constructor
      · rintro (⟨h1, h2, h3⟩ | ⟨e, he, rfl, rfl⟩)
        · refine ⟨List.mem_append_left _ h1, ?_, h3⟩
          intro hm
          rcases List.mem_append.1 hm with hm | hm
          · exact h2 (List.mem_cons_of_mem _ hm)
          · exact (d3 b hm).1 h1
        · refine ⟨List.mem_append_left _ hs0, ?_, (hedge _).2 ⟨e, he, rfl⟩⟩
          intro hm
          rcases List.mem_append.1 hm with hm | hm
          · exact hqn.1 hm
          · exact (d3 b hm).1 hs0
      · rintro ⟨h1, h2, h3⟩
        have hbn : b ∉ news := fun hh => h2 (List.mem_append_right _ hh)
        have hbq : b ∉ q := fun hh => h2 (List.mem_append_left _ hh)
        have hbs : b ∈ st.seen := by
          rcases List.mem_append.1 h1 with hh | hh
          · exact hh
          · exact absurd hh hbn
        by_cases hb : b = s0
        · subst hb
          obtain ⟨e, he, hea⟩ := (hedge a).1 h3
          exact Or.inr ⟨e, he, hea, rfl⟩
        · refine Or.inl ⟨hbs, ?_, h3⟩
          intro hm
          rcases List.mem_cons.1 hm with hm | hm
          · exact hb hm
          · exact hbq hm
    refine ⟨?_, ?_, ?_, ?_, ?_, ?_, ?_, hpe, ?_, x3 h.p_verts, x4 h.p_no_parallel⟩
    · intro x hx
      rcases List.mem_append.1 hx with hx | hx
      · exact List.mem_append_left _ (hqs x hx)
      · exact List.mem_append_right _ hx
    · rw [List.nodup_append]
      exact ⟨h.seen_nodup, d2, fun x hx hy => (d3 x hy).1 hx⟩
    · rw [List.nodup_append]
      exact ⟨hqn.2, d2, fun x hx hy => hnq x hy hx⟩
    · intro x hx
      rcases List.mem_append.1 hx with hx | hx
      · exact h.seen_lt x hx
      · obtain ⟨_, e, he, rfl⟩ := d3 x hx
        exact hg e ((mem_out_edges g s0 e).1 he).1
    · intro x hx
      rcases List.mem_append.1 hx with hx | hx
      · exact h.seen_reach x hx
      · obtain ⟨_, e, he, rfl⟩ := d3 x hx
        exact Relation.ReflTransGen.tail (h.seen_reach s0 hs0) ((hedge _).2 ⟨e, he, rfl⟩)
    · exact List.mem_append_left _ h.start_seen
    · intro x hx hxq y hxy
      have hxn : x ∉ news := fun hh => hxq (List.mem_append_right _ hh)
      have hxq2 : x ∉ q := fun hh => hxq (List.mem_append_left _ hh)
      have hxs : x ∈ st.seen := by
        rcases List.mem_append.1 hx with hh | hh
        · exact hh
        · exact absurd hh hxn
      by_cases hx0 : x = s0
      · subst hx0
        obtain ⟨e, he, rfl⟩ := (hedge y).1 hxy
        rcases d4 e he with h5 | h5
        · exact List.mem_append_left _ h5
        · exact List.mem_append_right _ h5
      · refine List.mem_append_left _ (h.closed x hxs ?_ y hxy)
        rw [hq]
        intro hm
        rcases List.mem_cons.1 hm with hm | hm
        · exact hx0 hm
        · exact hxq2 hm
    · intro x
      rw [x2, h.active_iff]
      constructor
      · rintro (⟨a, b, hab, hx⟩ | ⟨e, he, hx⟩)
        · exact ⟨a, b, (x1 a b).2 (Or.inl hab), hx⟩
        · refine ⟨e.tgt, s0, (x1 _ _).2 (Or.inr ⟨e, he, rfl, rfl⟩), hx⟩
      · rintro ⟨a, b, hab, hx⟩
        rcases (x1 a b).1 hab with h1 | ⟨e, he, rfl, rfl⟩
        · exact Or.inl ⟨a, b, h1, hx⟩
        · exact Or.inr ⟨e, he, hx⟩

/-- A round on a non-empty queue examines one vertex more. -/
theorem bfs_step_length (g : Graph) (st : BFSState) (hq : st.queue ≠ []) :
    (bfs_step g st).seen.length + st.queue.length
      = st.seen.length + (bfs_step g st).queue.length + 1 := by
  unfold bfs_step
  cases hq1 : st.queue with
  | nil => exact absurd hq1 hq
  | cons s0 q =>
    dsimp only
    obtain ⟨news, d1, _⟩ := discover_fold (g.out_edges s0) q st.seen
    rw [d1]
    simp only [List.length_append, List.length_cons]
    omega

theorem bfs_step_of_empty (g : Graph) (st : BFSState) (hq : st.queue = []) :
    bfs_step g st = st := by
  unfold bfs_step
  rw [hq]

theorem bfs_loop_of_empty (g : Graph) (f : Nat) (st : BFSState) (hq : st.queue = []) :
    bfs_loop g f st = st := by
  induction f with
  | zero => rfl
  | succ f ih => rw [bfs_loop, bfs_step_of_empty g st hq, ih]

/-- The loop keeps the invariant, and it either empties the queue or examines
one vertex per round. -/
theorem bfs_loop_inv (g : Graph) (hg : ∀ e ∈ g.edges, e.tgt < g.verts.length) (s : Nat)
    (f : Nat) (st : BFSState) (h : BFSInv g s st) :
    BFSInv g s (bfs_loop g f st) ∧
    ((bfs_loop g f st).queue = [] ∨
      (bfs_loop g f st).seen.length + st.queue.length
        = st.seen.length + (bfs_loop g f st).queue.length + f) := by
  induction f generalizing st with
  | zero => exact ⟨h, Or.inr rfl⟩
  | succ f ih =>
    rw [bfs_loop]
    obtain ⟨h1, h2⟩ := ih (bfs_step g st) (bfs_step_inv g hg s st h)
    refine ⟨h1, ?_⟩
    by_cases hq : st.queue = []
    · left
      rw [bfs_step_of_empty g st hq, bfs_loop_of_empty g f st hq]
      exact hq
    · rcases h2 with h2 | h2
      · exact Or.inl h2
      · right
        have := bfs_step_length g st hq
        omega

theorem length_le_of_nodup_lt (l : List Nat) (n : Nat) (hn : l.Nodup) (hl : ∀ x ∈ l, x < n) :
    l.length ≤ n := by
  have h1 : l ⊆ List.range n := fun x hx => List.mem_range.2 (hl x hx)
  have h2 := (List.subperm_of_subset hn h1).length_le
  rw [List.length_range] at h2
  exact h2

theorem has_vertex_descriptor_iff (u : Nat) (g : Graph) :
    has_vertex_descriptor u g = true ↔ u < g.verts.length := by
  unfold has_vertex_descriptor Graph.vertices
  rw [List.any_eq_true]
  constructor
  · rintro ⟨x, hx, he⟩
    rw [List.mem_range] at hx
    simp only [decide_eq_true_eq] at he
    omega
  · intro h
    exact ⟨u, List.mem_range.2 h, by simp⟩

/-- The breadth-first search of a graph `g` from a vertex `s`: the discovered
vertices are exactly those that can be reached from `s`; the visitor's graph
`p` holds exactly the reversed edges `b -> a` of `g` with `b` reachable; the
set `active` holds the end points of the edges of `p`; the vertex vector of `p`
reaches just up to the largest end point; `p` is well formed. -/
theorem bfs_spec (g : Graph) (hg : g.WF) (s : Nat) (hs : s < g.verts.length) :
    (breadth_first_search g s).queue = [] ∧
    (∀ y, y ∈ (breadth_first_search g s).seen ↔ g.Reach s y) ∧
    (∀ a b, (breadth_first_search g s).p.HasEdge a b ↔ (g.Reach s b ∧ g.HasEdge b a)) ∧
    (∀ x, x ∈ (breadth_first_search g s).active
      ↔ ∃ a b, (breadth_first_search g s).p.HasEdge a b ∧ (x = a ∨ x = b)) ∧
    (∀ x, x < (breadth_first_search g s).p.verts.length
      ↔ ∃ a b, (breadth_first_search g s).p.HasEdge a b ∧ x ≤ max a b) ∧
    (breadth_first_search g s).p.WF := by
  have h0 : BFSInv g s { queue := [s], seen := [s], p := Graph.empty, active := [] } := by
    refine ⟨fun x hx => hx, List.nodup_singleton _, List.nodup_singleton _, ?_, ?_,
      List.mem_singleton_self _, ?_, ?_, ?_, ?_, List.Pairwise.nil⟩
    · intro x hx
      rw [List.mem_singleton] at hx
      rw [hx]; exact hs
    · intro x hx
      rw [List.mem_singleton] at hx
      rw [hx]; exact Relation.ReflTransGen.refl
    · intro x hx hxq
      exact absurd hx hxq
    · intro a b
      constructor
      · rintro ⟨e, he, _⟩
        exact absurd he (List.not_mem_nil _)
      · rintro ⟨h1, h2, _⟩
        exact absurd h1 h2
    · intro x
      constructor
      · intro hx; exact absurd hx (List.not_mem_nil _)
      · rintro ⟨a, b, ⟨e, he, _⟩, _⟩
        exact absurd he (List.not_mem_nil _)
    · intro x
      constructor
      · intro hx; exact absurd hx (Nat.not_lt_zero _)
      · rintro ⟨a, b, ⟨e, he, _⟩, _⟩
        exact absurd he (List.not_mem_nil _)
  have hb : bfs_loop g g.num_vertices { queue := [s], seen := [s], p := Graph.empty, active := [] }
      = breadth_first_search g s := rfl
  obtain ⟨hinv, hlen⟩ := bfs_loop_inv g hg.tgt_lt s g.num_vertices _ h0
  rw [hb] at hinv hlen
  have hq : (breadth_first_search g s).queue = [] := by
    rcases hlen with h | h
    · exact h
    · by_contra hne
      have h1 := length_le_of_nodup_lt _ _ hinv.seen_nodup hinv.seen_lt
      have h2 : 0 < (breadth_first_search g s).queue.length := List.length_pos.2 hne
      simp only [List.length_singleton] at h
      unfold Graph.num_vertices at h
      omega
  have hseen : ∀ y, y ∈ (breadth_first_search g s).seen ↔ g.Reach s y := by
    intro y
    constructor
    · exact hinv.seen_reach y
    · intro hr
      induction hr with
      | refl => exact hinv.start_seen
      | tail _ hab ih =>
        exact hinv.closed _ ih (by rw [hq]; exact List.not_mem_nil _) _ hab
  refine ⟨hq, hseen, ?_, hinv.active_iff, hinv.p_verts, ?_, ?_, hinv.p_no_parallel⟩
  · intro a b
    rw [hinv.p_edges, hq, hseen]
    constructor
    · rintro ⟨h1, _, h3⟩; exact ⟨h1, h3⟩
    · rintro ⟨h1, h3⟩; exact ⟨h1, List.not_mem_nil _, h3⟩
  · intro e he
    exact (hinv.p_verts e.src).2 ⟨e.src, e.tgt, ⟨e, he, rfl, rfl⟩, le_max_left _ _⟩
  · intro e he
    exact (hinv.p_verts e.tgt).2 ⟨e.src, e.tgt, ⟨e, he, rfl, rfl⟩, le_max_right _ _⟩

/-- The two searches of `compute_all_path_nodes` and `solve_shortest`: forward
from `u` in `g`, then from `v` in the graph `preds` of the first search.  The
graph `preds2` of the second search holds exactly the edges `a -> b` of `g`
that lie on a walk from `u` to `v`. -/
theorem double_bfs_spec (g : Graph) (hg : g.WF) (u v : Nat) (hu : u < g.verts.length)
    (hv : has_vertex_descriptor v (breadth_first_search g u).p = true) :
    (∀ a b, (breadth_first_search (breadth_first_search g u).p v).p.HasEdge a b
      ↔ (g.Reach u a ∧ g.HasEdge a b ∧ g.Reach b v)) ∧
    (∀ x, x ∈ (breadth_first_search (breadth_first_search g u).p v).active
      ↔ ∃ a b, (breadth_first_search (breadth_first_search g u).p v).p.HasEdge a b
          ∧ (x = a ∨ x = b)) ∧
    (∀ x, x < (breadth_first_search (breadth_first_search g u).p v).p.verts.length
      ↔ ∃ a b, (breadth_first_search (breadth_first_search g u).p v).p.HasEdge a b
          ∧ x ≤ max a b) ∧
    (breadth_first_search (breadth_first_search g u).p v).p.WF := by
  obtain ⟨_, _, p1, _, _, w1⟩ := bfs_spec g hg u hu
  obtain ⟨_, _, p2, a2, v2, w2⟩ := bfs_spec (breadth_first_search g u).p w1 v
    ((has_vertex_descriptor_iff _ _).1 hv)
  refine ⟨fun a b => ?_, a2, v2, w2⟩
  rw [p2, p1]
  have hrev : ∀ x, (breadth_first_search g u).p.Reach v x → g.Reach x v := by
    intro x hx
    induction hx with
    | refl => exact Relation.ReflTransGen.refl
    | tail _ hab ih => exact Relation.ReflTransGen.head ((p1 _ _).1 hab).2 ih
  have hfwd : ∀ x, g.Reach x v → g.Reach u x → (breadth_first_search g u).p.Reach v x := by
    intro x hx
    induction hx using Relation.ReflTransGen.head_induction_on with
    | refl => intro _; exact Relation.ReflTransGen.refl
    | head hab _ ih =>
      intro hux
      exact Relation.ReflTransGen.tail (ih (Relation.ReflTransGen.tail hux hab))
        ((p1 _ _).2 ⟨hux, hab⟩)
  constructor
  · rintro ⟨h1, h2, h3⟩
    exact ⟨h2, h3, hrev b h1⟩
  · rintro ⟨h1, h2, h3⟩
    exact ⟨hfwd b h3 (Relation.ReflTransGen.tail h1 h2), h1, h2⟩

theorem map_find_none_not_mem (m : List (VertexInfo × Nat)) (k : VertexInfo)
    (h : map_find m k = none) : k ∉ m.map Prod.fst := by
  intro hm
  rw [List.mem_map] at hm
  obtain ⟨⟨k1, v1⟩, h1, h2⟩ := hm
  simp only at h2
  subst h2
  exact map_find_ne_none_of_mem m k1 v1 h1 h

theorem map_set_keys_of_absent (m : List (VertexInfo × Nat)) (k : VertexInfo) (v : Nat)
    (h : map_find m k = none) : (map_set m k v).map Prod.fst = m.map Prod.fst ++ [k] := by
  induction m with
  | nil => rfl
  | cons x xs ih =>
    obtain ⟨k2, v2⟩ := x
    simp only [map_find] at h
    by_cases h2 : k2 = k
    · rw [if_pos h2] at h; cases h
    · rw [if_neg h2] at h
      simp only [map_set, if_neg h2, List.map_cons, List.cons_append, ih h]

theorem vinfo_eta (vi : VertexInfo) : ({ positions := vi.positions } : VertexInfo) = vi := by
  cases vi; rfl

theorem add_vertex_verts (g : Graph) (ps : List pos_t) :
    (g.add_vertex.1.set_positions g.add_vertex.2 ps).verts = g.verts ++ [{ positions := ps }] ∧
    (g.add_vertex.1.set_positions g.add_vertex.2 ps).edges = g.edges := by
  unfold Graph.add_vertex Graph.set_positions
  dsimp only
  refine ⟨?_, rfl⟩
  generalize g.verts = l
  induction l with
  | nil => rfl
  | cons x xs ih => simp only [List.cons_append, List.length_cons, List.set_cons_succ, ih]

/-- A state is well formed when its graph is, the map sends keys to vertices
that carry them, has no key twice, and addresses every vertex. -/
theorem wf_of_total (cs : ConstraintState) (hg : cs.table.WF)
    (hr : ∀ k v, map_find cs.vertex_map k = some v →
      v < cs.table.verts.length ∧ cs.table.vinfo v = k)
    (hk : (cs.vertex_map.map Prod.fst).Nodup) (ht : cs.Total) : cs.WF :=
  ⟨hg, hr, hk, fun e he => ⟨ht _ (hg.src_lt e he), ht _ (hg.tgt_lt e he)⟩⟩

theorem fresh_wf : ConstraintState.fresh.WF ∧ ConstraintState.fresh.Total := by
  refine ⟨⟨⟨?_, ?_, List.Pairwise.nil⟩, ?_, List.nodup_nil, ?_⟩, ?_⟩
  · intro e he; exact absurd he (List.not_mem_nil _)
  · intro e he; exact absurd he (List.not_mem_nil _)
  · intro k v h; cases h
  · intro e he; exact absurd he (List.not_mem_nil _)
  · intro v hv; exact absurd hv (Nat.not_lt_zero _)

/-- What `_add_vertex(vi)` does to a well-formed total state: the state stays
well formed and total, the edges are kept, and the returned vertex carries
`vi`. -/
theorem add_vertex_spec (cs : ConstraintState) (hw : cs.WF) (ht : cs.Total) (vi : VertexInfo) :
    (cs._add_vertex vi).1.WF ∧ (cs._add_vertex vi).1.Total ∧
    (cs._add_vertex vi).1.table.edges = cs.table.edges ∧
    (cs._add_vertex vi).2 < (cs._add_vertex vi).1.table.verts.length ∧
    (cs._add_vertex vi).1.table.vinfo (cs._add_vertex vi).2 = vi ∧
    cs.table.verts.length ≤ (cs._add_vertex vi).1.table.verts.length ∧
    (∀ x, x < cs.table.verts.length →
      (cs._add_vertex vi).1.table.vinfo x = cs.table.vinfo x) := by
  cases hf : map_find cs.vertex_map vi with
  | some v =>
    have hres : cs._add_vertex vi = (cs, v) := by
      unfold ConstraintState._add_vertex ConstraintState.has_vertex ConstraintState.vertex_of
      rw [hf]; rfl
    rw [hres]
    obtain ⟨h1, h2⟩ := hw.map_range vi v hf
    exact ⟨hw, ht, rfl, h1, h2, le_refl _, fun _ _ => rfl⟩
  | none =>
    have hres : cs._add_vertex vi
        = ({ cs with
              table := cs.table.add_vertex.1.set_positions cs.table.verts.length vi.positions,
              vertex_map := map_set cs.vertex_map vi cs.table.verts.length },
            cs.table.verts.length) := by
      unfold ConstraintState._add_vertex ConstraintState.has_vertex
      rw [hf]; rfl
    rw [hres]
    dsimp only
    obtain ⟨hv, he⟩ := add_vertex_verts cs.table vi.positions
    rw [vinfo_eta] at hv
    have hn : cs.table.add_vertex.2 = cs.table.verts.length := rfl
    rw [hn] at hv he
    have hvi : ∀ x, x < cs.table.verts.length →
        (cs.table.add_vertex.1.set_positions cs.table.verts.length vi.positions).vinfo x
          = cs.table.vinfo x := by
      intro x hx
      unfold Graph.vinfo
      rw [hv, List.getD_append _ _ _ _ hx]
    have hvn : (cs.table.add_vertex.1.set_positions cs.table.verts.length vi.positions).vinfo
        cs.table.verts.length = vi := by
      unfold Graph.vinfo
      rw [hv, List.getD_append_right _ _ _ _ (le_refl _)]
      simp
    have hlen : (cs.table.add_vertex.1.set_positions cs.table.verts.length vi.positions).verts.length
        = cs.table.verts.length + 1 := by
      rw [hv]; simp
    have hg : (cs.table.add_vertex.1.set_positions cs.table.verts.length vi.positions).WF := by
      refine ⟨fun e h => ?_, fun e h => ?_, ?_⟩
      · rw [he] at h; rw [hlen]; exact Nat.lt_succ_of_lt (hw.graph.src_lt e h)
      · rw [he] at h; rw [hlen]; exact Nat.lt_succ_of_lt (hw.graph.tgt_lt e h)
      · rw [he]; exact hw.graph.no_parallel
    have hr : ∀ k v, map_find (map_set cs.vertex_map vi cs.table.verts.length) k = some v →
        v < (cs.table.add_vertex.1.set_positions cs.table.verts.length vi.positions).verts.length ∧
        (cs.table.add_vertex.1.set_positions cs.table.verts.length vi.positions).vinfo v = k := by
      intro k v hkv
      rw [map_find_set] at hkv
      rw [hlen]
      by_cases hk : k = vi
      · rw [if_pos hk] at hkv
        have hv2 : cs.table.verts.length = v := Option.some.inj hkv
        rw [← hv2]
        exact ⟨Nat.lt_succ_self _, by rw [hvn, hk]⟩
      · rw [if_neg hk] at hkv
        obtain ⟨h1, h2⟩ := hw.map_range k v hkv
        exact ⟨Nat.lt_succ_of_lt h1, by rw [hvi v h1, h2]⟩
    have htot : ∀ v, v < (cs.table.add_vertex.1.set_positions cs.table.verts.length
          vi.positions).verts.length →
        map_find (map_set cs.vertex_map vi cs.table.verts.length)
          ((cs.table.add_vertex.1.set_positions cs.table.verts.length vi.positions).vinfo v)
            = some v := by
      intro v hvl
      rw [hlen] at hvl
      rw [map_find_set]
      by_cases hvn2 : v = cs.table.verts.length
      · rw [hvn2, hvn, if_pos rfl]
      · have hlt : v < cs.table.verts.length := by omega
        rw [hvi v hlt]
        have := ht v hlt
        rw [if_neg (fun hh => by rw [hh, hf] at this; cases this)]
        exact this
    have hk : ((map_set cs.vertex_map vi cs.table.verts.length).map Prod.fst).Nodup := by
      rw [map_set_keys_of_absent _ _ _ hf, List.nodup_append]
      refine ⟨hw.keys_nodup, List.nodup_singleton _, ?_⟩
      intro x hx hy
      rw [List.mem_singleton] at hy
      subst hy
      exact map_find_none_not_mem _ _ hf hx
    refine ⟨wf_of_total _ hg hr hk htot, htot, he, ?_, hvn, ?_, hvi⟩
    · rw [hlen]; exact Nat.lt_succ_self _
    · rw [hlen]; exact Nat.le_succ _

theorem foldl_preserves {α β : Type} (P : α → Prop) (f : α → β → α) (l : List β) (a : α)
    (h0 : P a) (hstep : ∀ x y, P x → P (f x y)) : P (l.foldl f a) := by
  induction l generalizing a with
  | nil => exact h0
  | cons y ys ih => exact ih _ (hstep _ _ h0)

/-- The call `add_edge(u, v, g)` on two vertices of `g` keeps the vertex vector
and the well-formedness. -/
theorem add_edge_in_range (g : Graph) (hg : g.WF) (u v : Nat) (hu : u < g.verts.length)
    (hv : v < g.verts.length) :
    (g.add_edge u v).1.verts = g.verts ∧ (g.add_edge u v).1.WF := by
  have hverts : (g.add_edge u v).1.verts = g.verts := by
    unfold Graph.add_edge
    have hc : ¬ (max u v ≥ g.verts.length) := by omega
    cases g.lookup_edge u v <;> simp only [if_neg hc]
  refine ⟨hverts, ⟨fun e he => ?_, fun e he => ?_, add_edge_no_parallel g u v hg.no_parallel⟩⟩
  · rw [hverts]
    have := (add_edge_hasEdge g u v e.src e.tgt).1 ⟨e, he, rfl, rfl⟩
    rcases this with ⟨e1, h1, h2, _⟩ | ⟨h1, _⟩
    · rw [← h2]; exact hg.src_lt e1 h1
    · rw [h1]; exact hu
  · rw [hverts]
    have := (add_edge_hasEdge g u v e.src e.tgt).1 ⟨e, he, rfl, rfl⟩
    rcases this with ⟨e1, h1, _, h3⟩ | ⟨_, h3⟩
    · rw [← h3]; exact hg.tgt_lt e1 h1
    · rw [h3]; exact hv

/-- An assignment to an edge property keeps the vertices, the end points of
the edges and the well-formedness. -/
theorem set_info_spec (g : Graph) (u v : Nat) (info : EdgeInfo) :
    (g.set_info u v info).verts = g.verts ∧
    (∀ a b, (g.set_info u v info).HasEdge a b ↔ g.HasEdge a b) ∧
    (g.WF → (g.set_info u v info).WF) := by
  have hmem : ∀ e1, e1 ∈ (g.set_info u v info).edges →
      ∃ e ∈ g.edges, e1.src = e.src ∧ e1.tgt = e.tgt := by
    intro e1 he1
    unfold Graph.set_info at he1
    dsimp only at he1
    rw [List.mem_map] at he1
    obtain ⟨e, he, hee⟩ := he1
    refine ⟨e, he, ?_⟩
    by_cases hc : e.src = u ∧ e.tgt = v
    · rw [if_pos hc] at hee; rw [← hee]; exact ⟨rfl, rfl⟩
    · rw [if_neg hc] at hee; rw [← hee]; exact ⟨rfl, rfl⟩
  refine ⟨rfl, fun a b => ⟨?_, ?_⟩, fun hg => ⟨?_, ?_, ?_⟩⟩
  · rintro ⟨e1, he1, h1, h2⟩
    obtain ⟨e, he, h3, h4⟩ := hmem e1 he1
    exact ⟨e, he, h3 ▸ h1, h4 ▸ h2⟩
  · rintro ⟨e, he, h1, h2⟩
    refine ⟨if e.src = u ∧ e.tgt = v then { e with info := info } else e, ?_, ?_, ?_⟩
    · unfold Graph.set_info
      dsimp only
      rw [List.mem_map]
      exact ⟨e, he, rfl⟩
    · split_ifs <;> exact h1
    · split_ifs <;> exact h2
  · intro e1 he1
    obtain ⟨e, he, h3, _⟩ := hmem e1 he1
    rw [h3]; exact hg.src_lt e he
  · intro e1 he1
    obtain ⟨e, he, _, h4⟩ := hmem e1 he1
    rw [h4]; exact hg.tgt_lt e he
  · unfold Graph.set_info
    dsimp only
    rw [List.pairwise_map]
    refine hg.no_parallel.imp ?_
    intro a b hab
    split_ifs <;> exact hab

/-- Replacing the graph of a well-formed total state by a well-formed graph on
the same vertex vector gives a well-formed total state. -/
theorem wf_with_table (cs : ConstraintState) (hw : cs.WF) (ht : cs.Total) (g : Graph)
    (hv : g.verts = cs.table.verts) (hg : g.WF) :
    ({ cs with table := g } : ConstraintState).WF ∧
    ({ cs with table := g } : ConstraintState).Total := by
  have hvi : ∀ x, g.vinfo x = cs.table.vinfo x := fun x => by unfold Graph.vinfo; rw [hv]
  have htot : ({ cs with table := g } : ConstraintState).Total := by
    intro v hvl
    show map_find cs.vertex_map (g.vinfo v) = some v
    rw [hvi]
    exact ht v (by rw [← hv]; exact hvl)
  refine ⟨wf_of_total _ hg ?_ hw.keys_nodup htot, htot⟩
  intro k v hkv
  obtain ⟨h1, h2⟩ := hw.map_range k v hkv
  exact ⟨by show v < g.verts.length; rw [hv]; exact h1, by show g.vinfo v = k; rw [hvi]; exact h2⟩

/-- The method `_add_edge` keeps a state well formed and total. -/
theorem add_edge_wf (cs : ConstraintState) (hw : cs.WF) (ht : cs.Total) (a b : VertexInfo) :
    (cs._add_edge a b).1.WF ∧ (cs._add_edge a b).1.Total := by
  obtain ⟨w1, t1, _, l1, _, _, _⟩ := add_vertex_spec cs hw ht a
  obtain ⟨w2, t2, _, l2, _, m2, _⟩ := add_vertex_spec (cs._add_vertex a).1 w1 t1 b
  obtain ⟨hv, hg⟩ := add_edge_in_range ((cs._add_vertex a).1._add_vertex b).1.table w2.graph
    (cs._add_vertex a).2 ((cs._add_vertex a).1._add_vertex b).2 (by omega) l2
  exact wf_with_table _ w2 t2 _ hv hg

/-- The body of the loops of `intersect_iterate` keeps `dest` well formed and
total. -/
theorem intersect_edge_pair_wf (c1 c2 : ConstraintState) (u v : Nat) (e1 e2 : Edge)
    (st : ConstraintState × List (Nat × Nat)) (hw : st.1.WF ∧ st.1.Total) :
    (intersect_edge_pair c1 c2 u v e1 e2 st).1.WF ∧
    (intersect_edge_pair c1 c2 u v e1 e2 st).1.Total := by
  unfold intersect_edge_pair
  dsimp only
  split_ifs
  · exact hw
  · obtain ⟨w1, t1⟩ := add_edge_wf st.1 hw.1 hw.2
      { positions := (c1.table.vinfo u).positions ++ (c2.table.vinfo v).positions }
      { positions := (c1.table.vinfo e1.tgt).positions ++ (c2.table.vinfo e2.tgt).positions }
    obtain ⟨s1, _, s3⟩ := set_info_spec (st.1._add_edge
      { positions := (c1.table.vinfo u).positions ++ (c2.table.vinfo v).positions }
      { positions := (c1.table.vinfo e1.tgt).positions
          ++ (c2.table.vinfo e2.tgt).positions }).1.table
      (st.1._add_edge
        { positions := (c1.table.vinfo u).positions ++ (c2.table.vinfo v).positions }
        { positions := (c1.table.vinfo e1.tgt).positions
            ++ (c2.table.vinfo e2.tgt).positions }).2.1
      (st.1._add_edge
        { positions := (c1.table.vinfo u).positions ++ (c2.table.vinfo v).positions }
        { positions := (c1.table.vinfo e1.tgt).positions
            ++ (c2.table.vinfo e2.tgt).positions }).2.2
      ((sym_intersection e1.info.syms e2.info.syms).foldl EdgeInfo.add_sym
        ((st.1._add_edge
          { positions := (c1.table.vinfo u).positions ++ (c2.table.vinfo v).positions }
          { positions := (c1.table.vinfo e1.tgt).positions
              ++ (c2.table.vinfo e2.tgt).positions }).1.table.info
          (st.1._add_edge
            { positions := (c1.table.vinfo u).positions ++ (c2.table.vinfo v).positions }
            { positions := (c1.table.vinfo e1.tgt).positions
                ++ (c2.table.vinfo e2.tgt).positions }).2.1
          (st.1._add_edge
            { positions := (c1.table.vinfo u).positions ++ (c2.table.vinfo v).positions }
            { positions := (c1.table.vinfo e1.tgt).positions
                ++ (c2.table.vinfo e2.tgt).positions }).2.2))
    exact wf_with_table _ w1 t1 _ s1 (s3 w1.graph)

theorem intersect_iterate_wf (c1 c2 dest : ConstraintState) (np : List (Nat × Nat))
    (hw : dest.WF ∧ dest.Total) :
    (intersect_iterate c1 c2 dest np).2.1.WF ∧ (intersect_iterate c1 c2 dest np).2.1.Total := by
  unfold intersect_iterate
  cases np with
  | nil => exact hw
  | cons p rest =>
    obtain ⟨u, v⟩ := p
    dsimp only
    apply foldl_preserves (fun st : ConstraintState × List (Nat × Nat) => st.1.WF ∧ st.1.Total)
    · exact hw
    · intro st e1 hst
      apply foldl_preserves (fun st : ConstraintState × List (Nat × Nat) => st.1.WF ∧ st.1.Total)
      · exact hst
      · intro st1 e2 hst1
        exact intersect_edge_pair_wf c1 c2 u v e1 e2 st1 hst1

theorem intersect_loop_wf (c1 c2 : ConstraintState) (f : Nat) (dest d : ConstraintState)
    (np : List (Nat × Nat)) (hw : dest.WF ∧ dest.Total)
    (h : intersect_loop c1 c2 f dest np = some d) : d.WF ∧ d.Total := by
  induction f generalizing dest np with
  | zero => simp [intersect_loop] at h
  | succ f ih =>
    rw [intersect_loop] at h
    have h1 := intersect_iterate_wf c1 c2 dest np hw
    split_ifs at h with hb
    · exact ih _ _ h1 h
    · simp only [Option.some.injEq] at h
      rw [← h]
      exact h1

theorem set_insert_last (x : Nat) (l : List Nat) (h : ∀ y ∈ l, y < x) :
    set_insert nat_lt x l = l ++ [x] := by
  induction l with
  | nil => rfl
  | cons y ys ih =>
    have hy : y < x := h y (List.mem_cons_self _ _)
    unfold set_insert
    have h1 : nat_lt x y = false := by unfold nat_lt; simp; omega
    have h2 : nat_lt y x = true := by unfold nat_lt; simp; omega
    rw [h1, h2]
    simp only [Bool.false_eq_true, if_false, if_true, List.cons_append]
    rw [ih (fun z hz => h z (List.mem_cons_of_mem _ hz))]

/-- The set `non_path_nodes` of `remove_non_solution_nodes`: the vertices that
are not path nodes, in increasing order. -/
theorem non_path_nodes_eq (n : Nat) (pn : List Nat) :
    (List.range n).foldl (fun np v => if v ∈ pn then np else set_insert nat_lt v np) []
      = (List.range n).filter (fun v => decide (v ∉ pn)) := by
  induction n with
  | zero => rfl
  | succ n ih =>
    rw [List.range_succ, List.foldl_append, List.filter_append, ih]
    simp only [List.foldl_cons, List.foldl_nil]
    by_cases h : n ∈ pn
    · rw [if_pos h]
      simp [h]
    · rw [if_neg h, set_insert_last]
      · simp [h]
      · intro y hy
        exact List.mem_range.1 (List.mem_of_mem_filter hy)

/-- The last loop of `remove_non_solution_nodes` on vertices that the map
addresses: it succeeds; the vertices of the list leave the map and lose their
edges, nothing else changes. -/
theorem remove_nodes_spec (l : List Nat) (cs : ConstraintState)
    (hk : (cs.vertex_map.map Prod.fst).Nodup)
    (hr : ∀ k x, map_find cs.vertex_map k = some x → cs.table.vinfo x = k)
    (hl : l.Nodup) (hm : ∀ v ∈ l, map_find cs.vertex_map (cs.table.vinfo v) = some v) :
    ∃ d, remove_nodes l cs = some d ∧ d.table.verts = cs.table.verts ∧
      d.table.edges = cs.table.edges.filter (fun e => decide (e.src ∉ l ∧ e.tgt ∉ l)) ∧
      (∀ k x, map_find d.vertex_map k = some x ↔ (map_find cs.vertex_map k = some x ∧ x ∉ l)) ∧
      (d.vertex_map.map Prod.fst).Nodup ∧
      d.provenance = cs.provenance ∧ d.terminal_set = cs.terminal_set := by
  induction l generalizing cs with
  | nil =>
    refine ⟨cs, rfl, rfl, ?_, fun k x => ?_, hk, rfl, rfl⟩
    · simp
    · simp
  | cons v rest ih =>
    rw [List.nodup_cons] at hl
    have hv := hm v (List.mem_cons_self _ _)
    obtain ⟨m1, e1, e2, e3⟩ := map_erase_spec cs.vertex_map _ v hk hv
    rw [remove_nodes, e1]
    dsimp only
    have hr1 : ∀ k x, map_find m1 k = some x → cs.table.vinfo x = k := by
      intro k x hkx
      rw [e3] at hkx
      by_cases hc : k = cs.table.vinfo v
      · rw [if_pos hc] at hkx; cases hkx
      · rw [if_neg hc] at hkx; exact hr k x hkx
    have hm1 : ∀ w ∈ rest, map_find m1 (cs.table.vinfo w) = some w := by
      intro w hw
      have hw1 := hm w (List.mem_cons_of_mem _ hw)
      rw [e3, if_neg]
      · exact hw1
      · intro hc
        rw [hc, hv] at hw1
        have : v = w := Option.some.inj hw1
        rw [← this] at hw
        exact hl.1 hw
    obtain ⟨d, d1, d2, d3, d4, d5, d6, d7⟩ := ih
      { cs with vertex_map := m1, table := cs.table.clear_vertex v } e2 hr1 hl.2 hm1
    refine ⟨d, d1, d2, ?_, fun k x => ?_, d5, d6, d7⟩
    · rw [d3]
      show (cs.table.edges.filter _).filter _ = _
      rw [List.filter_filter]
      apply List.filter_congr
      intro e _
      simp only [List.mem_cons, not_or, Bool.decide_and, Bool.and_eq_true, decide_eq_true_eq,
        decide_not, Bool.not_eq_true', decide_eq_false_iff_not, Bool.decide_eq_true]
      rw [Bool.eq_iff_iff]
      simp only [Bool.and_eq_true, Bool.not_eq_true', decide_eq_false_iff_not,
        decide_eq_true_eq]
      tauto
    · rw [d4]
      show (map_find m1 k = some x ∧ x ∉ rest) ↔ _
      rw [e3, List.mem_cons, not_or]
      constructor
      · rintro ⟨h1, h2⟩
        by_cases hc : k = cs.table.vinfo v
        · rw [if_pos hc] at h1; cases h1
        · rw [if_neg hc] at h1
          refine ⟨h1, fun hxv => hc ?_, h2⟩
          rw [← hxv]; exact (hr k x h1).symm
      · rintro ⟨h1, h2, h3⟩
        refine ⟨?_, h3⟩
        rw [if_neg]
        · exact h1
        · intro hc
          rw [hc, hv] at h1
          exact h2 (Option.some.inj h1).symm

theorem mem_foldl_set_insert (l acc : List Nat) (x : Nat) :
    x ∈ l.foldl (fun pn y => set_insert nat_lt y pn) acc ↔ x ∈ acc ∨ x ∈ l := by
  induction l generalizing acc with
  | nil => simp
  | cons y ys ih =>
    simp only [List.foldl_cons, ih, mem_set_insert nat_lt nat_lt_total, List.mem_cons]
    tauto

/-- The end points of an edge on a walk from `u` to `v` lie on such a walk. -/
theorem onWalk_of_edge (g : Graph) (u v a b x : Nat) (h : g.EdgeOnWalk u v a b)
    (hx : x = a ∨ x = b) : g.OnWalk u v x := by
  obtain ⟨h1, h2, h3⟩ := h
  rcases hx with rfl | rfl
  · exact ⟨h1, Relation.ReflTransGen.head h2 h3⟩
  · exact ⟨Relation.ReflTransGen.tail h1 h2, h3⟩

/-- When some edge lies on a walk from `u` to `v`, an edge on such a walk
leaves `u` and an edge on such a walk enters `v`. -/
theorem ends_of_edge_on_walk (g : Graph) (u v a b : Nat) (h : g.EdgeOnWalk u v a b) :
    (∃ c, g.EdgeOnWalk u v u c) ∧ (∃ c, g.EdgeOnWalk u v c v) := by
  obtain ⟨h1, h2, h3⟩ := h
  constructor
  · rcases Relation.ReflTransGen.cases_head h1 with he | ⟨c, hc1, hc2⟩
    · subst he
      exact ⟨b, Relation.ReflTransGen.refl, h2, h3⟩
    · exact ⟨c, Relation.ReflTransGen.refl, hc1,
        hc2.trans (Relation.ReflTransGen.head h2 h3)⟩
  · rcases Relation.ReflTransGen.cases_tail h3 with he | ⟨c, hc1, hc2⟩
    · subst he
      exact ⟨a, h1, h2, Relation.ReflTransGen.refl⟩
    · exact ⟨c, (Relation.ReflTransGen.tail h1 h2).trans hc1, hc2, Relation.ReflTransGen.refl⟩

/-- What `compute_all_path_nodes` computes from an empty set, in a well-formed
state: when the start node and the end node are keys of the vertex map, for
the vertices `u` and `v`, the end points of the edges that lie on a walk from
`u` to `v`; nothing otherwise. -/
theorem path_nodes_spec (cs : ConstraintState) (hw : cs.WF) (x : Nat) :
    x ∈ cs.compute_all_path_nodes [] ↔
      ∃ u v, map_find cs.vertex_map cs.start_node = some u ∧
        map_find cs.vertex_map cs.end_node = some v ∧
        ∃ a b, cs.table.EdgeOnWalk u v a b ∧ (x = a ∨ x = b) := by
  cases hu : map_find cs.vertex_map cs.start_node with
  | none =>
    have h1 : cs.has_vertex cs.start_node = false := by
      unfold ConstraintState.has_vertex; rw [hu]; rfl
    unfold ConstraintState.compute_all_path_nodes
    simp only [h1, Bool.not_false, Bool.true_or, if_true, List.not_mem_nil, false_iff]
    rintro ⟨u, v, h, _⟩
    cases h
  | some u =>
    have h1 : cs.has_vertex cs.start_node = true := by
      unfold ConstraintState.has_vertex; rw [hu]; rfl
    have h2 : cs.vertex_of cs.start_node = u := by
      unfold ConstraintState.vertex_of; rw [hu]; rfl
    cases hv : map_find cs.vertex_map cs.end_node with
    | none =>
      have h3 : cs.has_vertex cs.end_node = false := by
        unfold ConstraintState.has_vertex; rw [hv]; rfl
      unfold ConstraintState.compute_all_path_nodes
      simp only [h3, Bool.not_false, Bool.or_true, if_true, List.not_mem_nil, false_iff]
      rintro ⟨u1, v1, _, h, _⟩
      cases h
    | some v =>
      have h3 : cs.has_vertex cs.end_node = true := by
        unfold ConstraintState.has_vertex; rw [hv]; rfl
      have h4 : cs.vertex_of cs.end_node = v := by
        unfold ConstraintState.vertex_of; rw [hv]; rfl
      unfold ConstraintState.compute_all_path_nodes
      simp only [h1, h2, h3, h4, Bool.not_true, Bool.or_self, Bool.false_eq_true, if_false]
      have hul := (hw.map_range _ _ hu).1
      obtain ⟨_, _, p1, _, v1, _⟩ := bfs_spec cs.table hw.graph u hul
      have hex : (∃ u1 v1, some u = some u1 ∧ some v = some v1 ∧
            ∃ a b, cs.table.EdgeOnWalk u1 v1 a b ∧ (x = a ∨ x = b))
          ↔ ∃ a b, cs.table.EdgeOnWalk u v a b ∧ (x = a ∨ x = b) := by
        constructor
        · rintro ⟨u1, v1, e1, e2, h⟩
          cases e1; cases e2; exact h
        · intro h
          exact ⟨u, v, rfl, rfl, h⟩
      rw [hex]
      by_cases hd : has_vertex_descriptor v (breadth_first_search cs.table u).p = true
      · obtain ⟨q1, q2, _, _⟩ := double_bfs_spec cs.table hw.graph u v hul hd
        simp only [hd, Bool.not_true, Bool.false_eq_true, if_false]
        rw [mem_foldl_set_insert, q2]
        simp only [List.not_mem_nil, false_or]
        constructor
        · rintro ⟨a, b, hab, hx⟩
          exact ⟨a, b, (q1 a b).1 hab, hx⟩
        · rintro ⟨a, b, hab, hx⟩
          exact ⟨a, b, (q1 a b).2 hab, hx⟩
      · simp only [hd, Bool.not_false, if_true, List.not_mem_nil, false_iff]
        rintro ⟨a, b, hab, _⟩
        obtain ⟨c, hc1, hc2, _⟩ := (ends_of_edge_on_walk cs.table u v a b hab).2
        apply hd
        rw [has_vertex_descriptor_iff, v1]
        exact ⟨v, c, (p1 v c).2 ⟨hc1, hc2⟩, le_max_left _ _⟩

/-- What `remove_non_solution_nodes` does to a well-formed state whose map
addresses every vertex: it succeeds; the vertices that are not path nodes
leave the map and lose their edges; nothing else changes. -/
theorem prune_spec (cs : ConstraintState) (hw : cs.WF) (ht : cs.Total) :
    ∃ d, cs.remove_non_solution_nodes = some d ∧
      d.provenance = cs.provenance ∧ d.terminal_set = cs.terminal_set ∧
      d.table.verts = cs.table.verts ∧
      (∀ k x, map_find d.vertex_map k = some x ↔
        (map_find cs.vertex_map k = some x ∧ x ∈ cs.compute_all_path_nodes [])) ∧
      d.table.edges = cs.table.edges.filter
        (fun e => decide (e.src ∈ cs.compute_all_path_nodes []
          ∧ e.tgt ∈ cs.compute_all_path_nodes [])) := by
  unfold ConstraintState.remove_non_solution_nodes Graph.vertices
  dsimp only
  rw [non_path_nodes_eq]
  obtain ⟨d, d1, d2, d3, d4, _, d6, d7⟩ := remove_nodes_spec
    ((List.range cs.table.verts.length).filter
      (fun v => decide (v ∉ cs.compute_all_path_nodes []))) cs hw.keys_nodup
    (fun k x h => (hw.map_range k x h).2) ((List.nodup_range _).filter _)
    (fun v hv => ht v (List.mem_range.1 (List.mem_of_mem_filter hv)))
  have hmem : ∀ x, x < cs.table.verts.length →
      (x ∉ (List.range cs.table.verts.length).filter
          (fun v => decide (v ∉ cs.compute_all_path_nodes []))
        ↔ x ∈ cs.compute_all_path_nodes []) := by
    intro x hx
    rw [List.mem_filter, List.mem_range]
    simp only [decide_not, Bool.not_eq_true', decide_eq_false_iff_not, not_and, not_not]
    exact ⟨fun h => h hx, fun h _ => h⟩
  refine ⟨d, d1, d6, d7, d2, fun k x => ?_, ?_⟩
  · rw [d4]
    constructor
    · rintro ⟨h1, h2⟩
      exact ⟨h1, (hmem x (hw.map_range k x h1).1).1 h2⟩
    · rintro ⟨h1, h2⟩
      exact ⟨h1, (hmem x (hw.map_range k x h1).1).2 h2⟩
  · rw [d3]
    apply List.filter_congr
    intro e he
    rw [Bool.eq_iff_iff]
    simp only [decide_eq_true_eq]
    rw [hmem _ (hw.graph.src_lt e he), hmem _ (hw.graph.tgt_lt e he)]

/-- A walk of `g` from `u` to `v` is a walk of every graph that has the edges
of `g` on walks from `u` to `v`. -/
theorem reach_transfer (g d : Graph) (u v : Nat)
    (h : ∀ a b, g.EdgeOnWalk u v a b → d.HasEdge a b) (x : Nat)
    (h1 : g.Reach u x) (h2 : g.Reach x v) : d.Reach u x ∧ d.Reach x v := by
  constructor
  · have : ∀ y, g.Reach u y → g.Reach y v → d.Reach u y := by
      intro y hy
      induction hy with
      | refl => intro _; exact Relation.ReflTransGen.refl
      | tail hab hbc ih =>
        intro hcv
        exact Relation.ReflTransGen.tail (ih (Relation.ReflTransGen.head hbc hcv))
          (h _ _ ⟨hab, hbc, hcv⟩)
    exact this x h1 h2
  · have : ∀ y, g.Reach y v → g.Reach u y → d.Reach y v := by
      intro y hy
      induction hy using Relation.ReflTransGen.head_induction_on with
      | refl => intro _; exact Relation.ReflTransGen.refl
      | head hab hbc ih =>
        intro huy
        exact Relation.ReflTransGen.head (h _ _ ⟨huy, hab, hbc⟩)
          (ih (Relation.ReflTransGen.tail huy hab))
    exact this x h2 h1

/-- Dead-node pruning of a well-formed state whose map addresses every vertex:
the result has exactly the edges of the state that lie on a walk from the start
vertex to the end vertex, its map keeps exactly their end points, and every
vertex and edge that remains lies on a start-to-end walk of the result. -/
theorem prune_on_walk (cs : ConstraintState) (hw : cs.WF) (ht : cs.Total) :
    ∃ d, cs.remove_non_solution_nodes = some d ∧
      d.provenance = cs.provenance ∧ d.terminal_set = cs.terminal_set ∧
      (∀ a b, d.table.HasEdge a b ↔
        ∃ u v, map_find cs.vertex_map cs.start_node = some u ∧
          map_find cs.vertex_map cs.end_node = some v ∧ cs.table.EdgeOnWalk u v a b) ∧
      (∀ k x, map_find d.vertex_map k = some x →
        ∃ u v, map_find d.vertex_map d.start_node = some u ∧
          map_find d.vertex_map d.end_node = some v ∧ d.table.OnWalk u v x) ∧
      (∀ a b, d.table.HasEdge a b →
        ∃ u v, map_find d.vertex_map d.start_node = some u ∧
          map_find d.vertex_map d.end_node = some v ∧ d.table.EdgeOnWalk u v a b) := by
  obtain ⟨d, d1, d2, d3, d4, d5, d6⟩ := prune_spec cs hw ht
  have hsn : d.start_node = cs.start_node := by
    unfold ConstraintState.start_node; rw [d2]
  have hen : d.end_node = cs.end_node := by
    unfold ConstraintState.end_node; rw [d2]
  have hedge : ∀ a b, d.table.HasEdge a b ↔
      ∃ u v, map_find cs.vertex_map cs.start_node = some u ∧
        map_find cs.vertex_map cs.end_node = some v ∧ cs.table.EdgeOnWalk u v a b := by
    intro a b
    constructor
    · rintro ⟨e, he, rfl, rfl⟩
      rw [d6, List.mem_filter] at he
      obtain ⟨he1, he2⟩ := he
      simp only [decide_eq_true_eq] at he2
      obtain ⟨u, v, hu, hv, a1, b1, hab1, hx1⟩ := (path_nodes_spec cs hw e.src).1 he2.1
      obtain ⟨u2, v2, hu2, hv2, a2, b2, hab2, hx2⟩ := (path_nodes_spec cs hw e.tgt).1 he2.2
      rw [hu] at hu2
      rw [hv] at hv2
      cases hu2; cases hv2
      exact ⟨u, v, hu, hv, (onWalk_of_edge _ _ _ _ _ _ hab1 hx1).1, ⟨e, he1, rfl, rfl⟩,
        (onWalk_of_edge _ _ _ _ _ _ hab2 hx2).2⟩
    · rintro ⟨u, v, hu, hv, hab⟩
      obtain ⟨e, he, rfl, rfl⟩ := hab.2.1
      refine ⟨e, ?_, rfl, rfl⟩
      rw [d6, List.mem_filter]
      refine ⟨he, ?_⟩
      simp only [decide_eq_true_eq]
      exact ⟨(path_nodes_spec cs hw _).2 ⟨u, v, hu, hv, _, _, hab, Or.inl rfl⟩,
        (path_nodes_spec cs hw _).2 ⟨u, v, hu, hv, _, _, hab, Or.inr rfl⟩⟩
  -- whenever a path node exists, the start and end vertices are path nodes and stay in the map
  have hends : ∀ u v a b, map_find cs.vertex_map cs.start_node = some u →
      map_find cs.vertex_map cs.end_node = some v → cs.table.EdgeOnWalk u v a b →
      map_find d.vertex_map d.start_node = some u ∧ map_find d.vertex_map d.end_node = some v := by
    intro u v a b hu hv hab
    obtain ⟨⟨c1, hc1⟩, ⟨c2, hc2⟩⟩ := ends_of_edge_on_walk cs.table u v a b hab
    rw [hsn, hen, d5, d5]
    exact ⟨⟨hu, (path_nodes_spec cs hw u).2 ⟨u, v, hu, hv, u, c1, hc1, Or.inl rfl⟩⟩,
      ⟨hv, (path_nodes_spec cs hw v).2 ⟨u, v, hu, hv, c2, v, hc2, Or.inr rfl⟩⟩⟩
  have htrans : ∀ u v, map_find cs.vertex_map cs.start_node = some u →
      map_find cs.vertex_map cs.end_node = some v →
      ∀ a b, cs.table.EdgeOnWalk u v a b → d.table.HasEdge a b :=
    fun u v hu hv a b hab => (hedge a b).2 ⟨u, v, hu, hv, hab⟩
  refine ⟨d, d1, d2, d3, hedge, fun k x hkx => ?_, fun a b hab => ?_⟩
  · obtain ⟨_, hx⟩ := (d5 k x).1 hkx
    obtain ⟨u, v, hu, hv, a, b, hab, hxab⟩ := (path_nodes_spec cs hw x).1 hx
    obtain ⟨e1, e2⟩ := hends u v a b hu hv hab
    obtain ⟨w1, w2⟩ := onWalk_of_edge _ _ _ _ _ _ hab hxab
    exact ⟨u, v, e1, e2, reach_transfer cs.table d.table u v (htrans u v hu hv) x w1 w2⟩
  · obtain ⟨u, v, hu, hv, h1, h2, h3⟩ := (hedge a b).1 hab
    obtain ⟨e1, e2⟩ := hends u v a b hu hv ⟨h1, h2, h3⟩
    refine ⟨u, v, e1, e2, ?_, hab, ?_⟩
    · exact (reach_transfer cs.table d.table u v (htrans u v hu hv) a h1
        (Relation.ReflTransGen.head h2 h3)).1
    · exact (reach_transfer cs.table d.table u v (htrans u v hu hv) b
        (Relation.ReflTransGen.tail h1 h2) h3).2

/-- Well-formedness and totality of the map only read the graph and the map. -/
theorem wf_of_same (a b : ConstraintState) (ht : b.table = a.table)
    (hm : b.vertex_map = a.vertex_map) (h : a.WF ∧ a.Total) : b.WF ∧ b.Total := by
  obtain ⟨hw, htot⟩ := h
  constructor
  · constructor
    · rw [ht]; exact hw.graph
    · rw [ht, hm]; exact hw.map_range
    · rw [hm]; exact hw.keys_nodup
    · rw [ht, hm]; exact hw.live
  · unfold ConstraintState.Total
    rw [ht, hm]
    exact htot

/-- The whole of `intersect` on a fresh `dest`, once the loop over the vertex
pairs has drained with the product state `d0`: the pruning succeeds, the
provenance is the concatenation, the terminal set the union, the edges kept are
the edges of the product graph on a walk from the start vertex to the end
vertex, and what is kept lies on such a walk of the result. -/
theorem intersect_spec (c1 c2 : ConstraintState) (f : Nat) (d0 : ConstraintState)
    (h : intersect_loop c1 c2 f ConstraintState.fresh (init_node_pairs c1 c2 []) = some d0) :
    ∃ d, intersect f c1 c2 ConstraintState.fresh = some d ∧
      d.provenance.elems = c1.provenance.elems ++ c2.provenance.elems ∧
      (∀ x, x ∈ d.terminal_set ↔ x ∈ c1.terminal_set ∨ x ∈ c2.terminal_set) ∧
      (∀ a b, d.table.HasEdge a b ↔
        ∃ u v, map_find d0.vertex_map d.start_node = some u ∧
          map_find d0.vertex_map d.end_node = some v ∧ d0.table.EdgeOnWalk u v a b) ∧
      (∀ k x, map_find d.vertex_map k = some x →
        ∃ u v, map_find d.vertex_map d.start_node = some u ∧
          map_find d.vertex_map d.end_node = some v ∧ d.table.OnWalk u v x) ∧
      (∀ a b, d.table.HasEdge a b →
        ∃ u v, map_find d.vertex_map d.start_node = some u ∧
          map_find d.vertex_map d.end_node = some v ∧ d.table.EdgeOnWalk u v a b) := by
  obtain ⟨p1, p2, p3, p4⟩ := intersect_provenance_spec c1 c2 d0
  obtain ⟨t1, t2, t3, t4⟩ :=
    intersect_terminal_set_spec c1 c2 (intersect_provenance c1 c2 d0)
  obtain ⟨l1, l2⟩ := intersect_loop_prov c1 c2 f _ d0 _ h
  have hwf0 := intersect_loop_wf c1 c2 f _ d0 _ fresh_wf h
  have hwf1 := wf_of_same d0 (intersect_terminal_set c1 c2 (intersect_provenance c1 c2 d0))
    (t2.trans p2) (t3.trans p3) hwf0
  obtain ⟨d, e1, e2, e3, e4, e5, e6⟩ := prune_on_walk _ hwf1.1 hwf1.2
  have hsn : (intersect_terminal_set c1 c2 (intersect_provenance c1 c2 d0)).start_node
      = d.start_node := by
    unfold ConstraintState.start_node; rw [e2]
  have hen : (intersect_terminal_set c1 c2 (intersect_provenance c1 c2 d0)).end_node
      = d.end_node := by
    unfold ConstraintState.end_node; rw [e2]
  refine ⟨d, ?_, ?_, fun x => ?_, fun a b => ?_, e5, e6⟩
  · unfold intersect
    rw [h]
    exact e1
  · rw [e2, t4, p1, l1]
    rfl
  · rw [e3, t1, p4, l2]
    constructor
    · rintro (hx | hx)
      · exact absurd hx (List.not_mem_nil x)
      · exact hx
    · exact Or.inr
  · rw [e4, hsn, hen, t2, p2, t3, p3]

/-! ## Shortest paths -/

theorem extend_path_eq (u : Nat) (path : List Nat) (ins : List Edge)
    (st : List (List Nat) × Bool) :
    extend_path u path ins st
      = (st.1 ++ ins.map (fun e => e.src :: path), st.2 || ins.any (fun e => decide (e.src = u))) := by
  unfold extend_path
  induction ins generalizing st with
  | nil => simp
  | cons e es ih =>
    rw [List.foldl_cons, ih]
    by_cases h : e.src = u
    · simp [h]
    · simp [h]

theorem extend_paths_eq (g : Graph) (u : Nat) (paths : List (List Nat))
    (st : List (List Nat) × Bool)
    (h : ∀ path ∈ paths, ∃ n rest, path = n :: rest ∧ n < g.verts.length) :
    extend_paths g u paths st
      = some (st.1 ++ extended g paths,
          st.2 || (extended g paths).any (fun path => decide (path.head? = some u))) := by
  induction paths generalizing st with
  | nil => simp [extend_paths, extended]
  | cons path rest ih =>
    obtain ⟨n, tl, hp, hn⟩ := h path (List.mem_cons_self _ _)
    subst hp
    rw [extend_paths]
    simp only [Graph.num_vertices, hn, if_true]
    rw [ih _ (fun q hq => h q (List.mem_cons_of_mem _ hq)), extend_path_eq]
    have e1 : extended g ((n :: tl) :: rest)
        = (g.in_edges n).map (fun e => e.src :: n :: tl) ++ extended g rest := by
      simp [extended]
    rw [e1]
    have e2 : ∀ l : List Edge, (l.map (fun e => e.src :: n :: tl)).any
        (fun path => decide (path.head? = some u))
        = l.any (fun e => decide (e.src = u)) := by
      intro l
      induction l with
      | nil => rfl
      | cons e es ih2 =>
        rw [List.map_cons, List.any_cons, List.any_cons, ih2]
        simp
    rw [List.any_append, e2]
    simp only [List.append_assoc, Bool.or_assoc]

theorem mem_extended (g : Graph) (paths : List (List Nat)) (w : List Nat) :
    w ∈ extended g paths ↔
      ∃ a n rest, w = a :: n :: rest ∧ (n :: rest) ∈ paths ∧ g.HasEdge a n := by
  unfold extended
  rw [List.mem_flatMap]
  constructor
  · rintro ⟨path, hp, hw⟩
    cases path with
    | nil => simp at hw
    | cons n rest =>
      simp only [List.mem_map] at hw
      obtain ⟨e, he, rfl⟩ := hw
      rw [mem_in_edges] at he
      exact ⟨e.src, n, rest, rfl, hp, e, he.1, rfl, he.2⟩
  · rintro ⟨a, n, rest, rfl, hp, e, he, rfl, rfl⟩
    refine ⟨e.tgt :: rest, hp, ?_⟩
    simp only [List.mem_map]
    exact ⟨e, (mem_in_edges g e.tgt e).2 ⟨he, rfl⟩, rfl⟩

theorem in_edges_sources (g : Graph) (hg : g.WF) (v : Nat) :
    (g.in_edges v).Pairwise (fun e1 e2 => e1.src ≠ e2.src) := by
  unfold Graph.in_edges
  have h1 : (g.edges.filter (fun e => decide (e.tgt = v))).Pairwise
      (fun e1 e2 => e1.src ≠ e2.src) := by
    have h2 := hg.no_parallel.filter (fun e => decide (e.tgt = v))
    refine h2.imp_of_mem ?_
    intro a b ha hb hab hs
    have ha2 := (List.mem_filter.1 ha).2
    have hb2 := (List.mem_filter.1 hb).2
    simp only [decide_eq_true_eq] at ha2 hb2
    exact hab ⟨hs, ha2.trans hb2.symm⟩
  have hsymm : ∀ {a b : Edge}, a.src ≠ b.src → b.src ≠ a.src := fun h => h.symm
  have key : ((g.edges.filter (fun e => decide (e.tgt = v))).insertionSort
        (fun a b => a.src ≤ b.src)).Pairwise (fun e1 e2 => e1.src ≠ e2.src)
      ↔ (g.edges.filter (fun e => decide (e.tgt = v))).Pairwise
        (fun e1 e2 => e1.src ≠ e2.src) :=
    List.Perm.pairwise_iff hsymm (List.perm_insertionSort _ _)
  exact key.2 h1

theorem extended_nodup (g : Graph) (hg : g.WF) (paths : List (List Nat)) (h : paths.Nodup) :
    (extended g paths).Nodup := by
  unfold extended
  rw [List.nodup_flatMap]
  constructor
  · intro path _
    cases path with
    | nil => exact List.nodup_nil
    | cons n rest =>
      dsimp only
      unfold List.Nodup
      rw [List.pairwise_map]
      refine (in_edges_sources g hg n).imp ?_
      intro a b hab hc
      simp only [List.cons.injEq, and_true] at hc
      exact hab hc
  · refine h.imp ?_
    intro p q hpq
    unfold Function.onFun List.Disjoint
    intro w hw1 hw2
    cases p with
    | nil => simp at hw1
    | cons n rest =>
      cases q with
      | nil => simp at hw2
      | cons n2 rest2 =>
        simp only [List.mem_map] at hw1 hw2
        obtain ⟨e1, _, rfl⟩ := hw1
        obtain ⟨e2, _, h2⟩ := hw2
        simp only [List.cons.injEq] at h2
        exact hpq (by rw [h2.2.1, h2.2.2])

theorem walk_reach (g : Graph) (v : Nat) (rest : List Nat) :
    ∀ x, g.Walk v (x :: rest) → g.Reach x v := by
  induction rest with
  | nil =>
    intro x h
    have h1 : x = v := h
    rw [h1]
    exact Relation.ReflTransGen.refl
  | cons y ys ih =>
    intro x h
    have h1 : g.HasEdge x y ∧ g.Walk v (y :: ys) := h
    exact Relation.ReflTransGen.head h1.1 (ih y h1.2)

theorem walk_mono (g p : Graph) (v : Nat) (h : ∀ a b, g.HasEdge a b → p.HasEdge a b)
    (rest : List Nat) : ∀ x, g.Walk v (x :: rest) → p.Walk v (x :: rest) := by
  induction rest with
  | nil => intro x hx; exact hx
  | cons y ys ih =>
    intro x hx
    have h1 : g.HasEdge x y ∧ g.Walk v (y :: ys) := hx
    exact ⟨h _ _ h1.1, ih y h1.2⟩

theorem walk_transfer (g p : Graph) (u v : Nat)
    (h : ∀ a b, g.EdgeOnWalk u v a b → p.HasEdge a b) (rest : List Nat) :
    ∀ x, g.Reach u x → g.Walk v (x :: rest) → p.Walk v (x :: rest) := by
  induction rest with
  | nil => intro x _ hx; exact hx
  | cons y ys ih =>
    intro x hux hx
    have h1 : g.HasEdge x y ∧ g.Walk v (y :: ys) := hx
    exact ⟨h _ _ ⟨hux, h1.1, walk_reach g v ys y h1.2⟩,
      ih y (Relation.ReflTransGen.tail hux h1.1) h1.2⟩

theorem walk_suffix (g : Graph) (v : Nat) (w : List Nat) :
    g.Walk v w → ∀ t, t + 1 ≤ w.length → ∃ w2, g.Walk v w2 ∧ w2.length = t + 1 := by
  induction w with
  | nil => intro h; exact absurd h (by simp [Graph.Walk])
  | cons x rest ih =>
    intro h t ht
    by_cases he : t + 1 = (x :: rest).length
    · exact ⟨x :: rest, h, he.symm⟩
    · cases rest with
      | nil =>
        simp only [List.length_cons, List.length_nil] at ht he
        omega
      | cons y ys =>
        have h1 : g.HasEdge x y ∧ g.Walk v (y :: ys) := h
        apply ih h1.2 t
        simp only [List.length_cons] at ht he ⊢
        omega

theorem walk_head_lt (g : Graph) (hg : g.WF) (v : Nat) (hv : v < g.verts.length)
    (n : Nat) (rest : List Nat) (h : g.Walk v (n :: rest)) : n < g.verts.length := by
  cases rest with
  | nil =>
    have h1 : n = v := h
    rw [h1]
    exact hv
  | cons y ys =>
    have h1 : g.HasEdge n y ∧ g.Walk v (y :: ys) := h
    obtain ⟨e, he, hs, _⟩ := h1.1
    rw [← hs]
    exact hg.src_lt e he

/-- One more round: the paths built from all walks with `t` edges that end at
`v` are all walks with `t + 1` edges that end at `v`, each once. -/
theorem extended_walks (g : Graph) (hg : g.WF) (v t : Nat) (paths : List (List Nat))
    (hnd : paths.Nodup) (hmem : ∀ w, w ∈ paths ↔ (w.length = t + 1 ∧ g.Walk v w)) :
    (extended g paths).Nodup ∧
      ∀ w, w ∈ extended g paths ↔ (w.length = t + 1 + 1 ∧ g.Walk v w) := by
  refine ⟨extended_nodup g hg paths hnd, fun w => ?_⟩
  rw [mem_extended]
  constructor
  · rintro ⟨a, n, rest, rfl, hp, he⟩
    obtain ⟨h1, h2⟩ := (hmem _).1 hp
    refine ⟨?_, he, h2⟩
    simp only [List.length_cons] at h1 ⊢
    omega
  · rintro ⟨h1, h2⟩
    cases w with
    | nil => simp at h1
    | cons a w1 =>
      cases w1 with
      | nil => simp at h1
      | cons n rest =>
        have h3 : g.HasEdge a n ∧ g.Walk v (n :: rest) := h2
        refine ⟨a, n, rest, rfl, (hmem _).2 ⟨?_, h3.2⟩, h3.1⟩
        simp only [List.length_cons] at h1 ⊢
        omega

theorem iterate_spec (g : Graph) (hg : g.WF) (u v : Nat) (hv : v < g.verts.length) (t : Nat)
    (paths : List (List Nat)) (hne : paths ≠ [])
    (hmem : ∀ w, w ∈ paths ↔ (w.length = t + 1 ∧ g.Walk v w)) :
    shortest_paths_iterate g u paths false
      = some (if (extended g paths).any (fun path => decide (path.head? = some u)) then
          ((extended g paths).filter (fun path => !decide (path.head? ≠ some u)), true)
        else (extended g paths, false)) := by
  unfold shortest_paths_iterate
  have h1 : paths.isEmpty = false := by
    cases paths with
    | nil => exact absurd rfl hne
    | cons x xs => rfl
  rw [h1]
  simp only [Bool.false_eq_true, if_false]
  have h2 : ∀ path ∈ paths, ∃ n rest, path = n :: rest ∧ n < g.verts.length := by
    intro path hp
    obtain ⟨h3, h4⟩ := (hmem path).1 hp
    cases path with
    | nil => simp at h3
    | cons n rest => exact ⟨n, rest, rfl, walk_head_lt g hg v hv n rest h4⟩
  rw [extend_paths_eq g u paths _ h2]
  simp only [List.nil_append, Bool.false_or]
  cases hf : (extended g paths).any (fun path => decide (path.head? = some u))
  · simp
  · simp

/-- The loop of `shortest_paths`, entered with all walks of `t` edges that end
at `v`, where the nearest walk from `u` to `v` has `d > t` edges and the
counter allows the rounds that are left: it returns all walks from `u` to `v`
with `d` edges, each once. -/
theorem shortest_paths_loop_spec (g : Graph) (hg : g.WF) (u v : Nat) (hv : v < g.verts.length)
    (d : Nat) (w0 : List Nat) (hw0 : g.WalkOf u v d w0)
    (hmin : ∀ t w, g.WalkOf u v t w → d ≤ t) :
    ∀ (limit t : Nat) (paths : List (List Nat)), t < d → d ≤ t + limit + 1 → paths.Nodup →
      (∀ w, w ∈ paths ↔ (w.length = t + 1 ∧ g.Walk v w)) →
      ∃ r, shortest_paths_loop g u limit paths = some r ∧ r.Nodup ∧
        ∀ w, w ∈ r ↔ g.WalkOf u v d w := by
  intro limit
  induction limit with
  | zero =>
    intro t paths ht hd hnd hmem
    have htd : t + 1 = d := by omega
    obtain ⟨w1, hw1, hl1⟩ := walk_suffix g v w0 hw0.2.2 t (by rw [hw0.2.1]; omega)
    have hne : paths ≠ [] := List.ne_nil_of_mem ((hmem w1).2 ⟨hl1, hw1⟩)
    obtain ⟨e1, e2⟩ := extended_walks g hg v t paths hnd hmem
    have hfound : (extended g paths).any (fun path => decide (path.head? = some u)) = true := by
      rw [List.any_eq_true]
      refine ⟨w0, (e2 w0).2 ⟨by rw [hw0.2.1, htd], hw0.2.2⟩, ?_⟩
      simp [hw0.1]
    rw [shortest_paths_loop, iterate_spec g hg u v hv t paths hne hmem, hfound]
    simp only [if_true]
    refine ⟨_, rfl, e1.filter _, fun w => ?_⟩
    rw [List.mem_filter, e2, htd]
    unfold Graph.WalkOf
    simp only [ne_eq, decide_not, Bool.not_not, decide_eq_true_eq]
    tauto
  | succ limit ih =>
    intro t paths ht hd hnd hmem
    obtain ⟨w1, hw1, hl1⟩ := walk_suffix g v w0 hw0.2.2 t (by rw [hw0.2.1]; omega)
    have hne : paths ≠ [] := List.ne_nil_of_mem ((hmem w1).2 ⟨hl1, hw1⟩)
    obtain ⟨e1, e2⟩ := extended_walks g hg v t paths hnd hmem
    rw [shortest_paths_loop, iterate_spec g hg u v hv t paths hne hmem]
    by_cases htd : t + 1 = d
    · have hfound : (extended g paths).any (fun path => decide (path.head? = some u)) = true := by
        rw [List.any_eq_true]
        refine ⟨w0, (e2 w0).2 ⟨by rw [hw0.2.1, htd], hw0.2.2⟩, ?_⟩
        simp [hw0.1]
      rw [hfound]
      simp only [if_true]
      refine ⟨_, rfl, e1.filter _, fun w => ?_⟩
      rw [List.mem_filter, e2, htd]
      unfold Graph.WalkOf
      simp only [ne_eq, decide_not, Bool.not_not, decide_eq_true_eq]
      tauto
    · have hfound : (extended g paths).any (fun path => decide (path.head? = some u)) = false := by
        rw [Bool.eq_false_iff]
        intro hc
        rw [List.any_eq_true] at hc
        obtain ⟨w, hw, hh⟩ := hc
        simp only [decide_eq_true_eq] at hh
        have := hmin (t + 1) w ⟨hh, ((e2 w).1 hw).1, ((e2 w).1 hw).2⟩
        omega
      rw [hfound]
      simp only [Bool.false_eq_true, if_false]
      obtain ⟨w2, hw2, hl2⟩ := walk_suffix g v w0 hw0.2.2 (t + 1) (by rw [hw0.2.1]; omega)
      have hne2 : (extended g paths).isEmpty = false := by
        have hm := (e2 w2).2 ⟨hl2, hw2⟩
        cases hx : extended g paths with
        | nil => rw [hx] at hm; exact absurd hm (List.not_mem_nil _)
        | cons a as => rfl
      rw [hne2]
      simp only [Bool.false_eq_true, if_false]
      exact ih (t + 1) (extended g paths) (by omega) (by omega) e1 e2

theorem fold_solution (table g : Graph) (l : List (List Nat)) (sol : Solution) :
    (l.foldl (fun (sol : Solution) path =>
        { sol with
          raws := sol.raws ++ [path.map (fun x => (table.vinfo x).positions)],
          paths := sol.paths ++ [path_solution g path] }) sol)
      = { raws := sol.raws ++ l.map (fun path => path.map (fun x => (table.vinfo x).positions)),
          paths := sol.paths ++ l.map (path_solution g),
          compressed_path := sol.compressed_path } := by
  induction l generalizing sol with
  | nil => simp
  | cons x xs ih =>
    rw [List.foldl_cons, ih]
    simp

theorem path_solution_length (g : Graph) (v : Nat) (rest : List Nat) :
    ∀ x, g.Walk v (x :: rest) → (path_solution g (x :: rest)).length = rest.length := by
  induction rest with
  | nil => intro x _; rfl
  | cons y ys ih =>
    intro x h
    have h1 : g.HasEdge x y ∧ g.Walk v (y :: ys) := h
    rw [path_solution]
    cases hl : g.lookup_edge x y with
    | none => exact absurd h1.1 (lookup_edge_none g x y hl)
    | some e =>
      dsimp only
      rw [List.length_cons, ih y h1.2, List.length_cons]

theorem staging_path_ok (path : List (List sym_t)) :
    ∀ (staging : List (List sym_t)) (j : Nat), j + path.length ≤ staging.length →
      ∃ st, staging_path staging j path = some st ∧ st.length = staging.length := by
  induction path with
  | nil => intro staging j _; exact ⟨staging, rfl, rfl⟩
  | cons syms rest ih =>
    intro staging j hj
    rw [List.length_cons] at hj
    have hlt : j < staging.length := by omega
    rw [staging_path]
    unfold staging_insert
    rw [if_pos hlt]
    dsimp only
    obtain ⟨st, h1, h2⟩ := ih
      (staging.set j (syms.foldl (fun st x => set_insert int_lt x st) (staging.getD j [])))
      (j + 1) (by rw [List.length_set]; omega)
    exact ⟨st, h1, by rw [h2, List.length_set]⟩

theorem staging_paths_ok (paths : List (List (List sym_t))) :
    ∀ (staging : List (List sym_t)), (∀ q ∈ paths, q.length ≤ staging.length) →
      ∃ st, staging_paths staging paths = some st := by
  induction paths with
  | nil => intro staging _; exact ⟨staging, rfl⟩
  | cons q rest ih =>
    intro staging h
    obtain ⟨st, h1, h2⟩ := staging_path_ok q staging 0
      (by rw [Nat.zero_add]; exact h q (List.mem_cons_self _ _))
    rw [staging_paths, h1]
    dsimp only
    exact ih st (fun r hr => by rw [h2]; exact h r (List.mem_cons_of_mem _ hr))

/-- The method `Solution::compress` stays inside the staging vector when all
paths are as long as the first one; it leaves `raws` and `paths` alone. -/
theorem compress_ok (sol : Solution) (n : Nat) (h : ∀ q ∈ sol.paths, q.length = n) :
    ∃ s2, sol.compress = some s2 ∧ s2.raws = sol.raws ∧ s2.paths = sol.paths := by
  unfold Solution.compress
  cases hp : sol.paths with
  | nil => exact ⟨sol, rfl, rfl, hp⟩
  | cons first rest =>
    dsimp only
    obtain ⟨st, hst⟩ := staging_paths_ok (first :: rest) (first.map (fun _ => []))
      (fun q hq => by
        rw [List.length_map, h q (by rw [hp]; exact hq),
          h first (by rw [hp]; exact List.mem_cons_self _ _)])
    rw [hst]
    exact ⟨_, rfl, rfl, rfl⟩

/-- Every vertex of a walk with at least one edge is addressed by the vertex
map of a well-formed state. -/
theorem walk_addressed (cs : ConstraintState) (hw : cs.WF) (v : Nat) (w : List Nat) :
    cs.table.Walk v w → 2 ≤ w.length →
      ∀ x ∈ w, map_find cs.vertex_map (cs.table.vinfo x) = some x := by
  induction w with
  | nil => intro h; exact absurd h (by simp [Graph.Walk])
  | cons a rest ih =>
    intro h hl x hx
    cases rest with
    | nil => simp at hl
    | cons b rest2 =>
      have h1 : cs.table.HasEdge a b ∧ cs.table.Walk v (b :: rest2) := h
      obtain ⟨e, he, hs, ht⟩ := h1.1
      obtain ⟨l1, l2⟩ := hw.live e he
      rw [hs] at l1
      rw [ht] at l2
      rcases List.mem_cons.1 hx with rfl | hx2
      · exact l1
      · cases rest2 with
        | nil =>
          rw [List.mem_singleton] at hx2
          rw [hx2]
          exact l2
        | cons c rest3 =>
          exact ih h1.2 (by simp) x hx2

theorem map_positions_inj (cs : ConstraintState) (l1 : List Nat) :
    ∀ l2 : List Nat, (∀ x ∈ l1, map_find cs.vertex_map (cs.table.vinfo x) = some x) →
      (∀ x ∈ l2, map_find cs.vertex_map (cs.table.vinfo x) = some x) →
      l1.map (fun x => (cs.table.vinfo x).positions)
        = l2.map (fun x => (cs.table.vinfo x).positions) → l1 = l2 := by
  induction l1 with
  | nil =>
    intro l2 _ _ h
    cases l2 with
    | nil => rfl
    | cons y ys => simp at h
  | cons x xs ih =>
    intro l2 h1 h2 h
    cases l2 with
    | nil => simp at h
    | cons y ys =>
      simp only [List.map_cons, List.cons.injEq] at h
      have hv : cs.table.vinfo x = cs.table.vinfo y := by
        rw [← vinfo_eta (cs.table.vinfo x), ← vinfo_eta (cs.table.vinfo y), h.1]
      have hx := h1 x (List.mem_cons_self _ _)
      have hy := h2 y (List.mem_cons_self _ _)
      rw [hv, hy] at hx
      have hxy : y = x := Option.some.inj hx
      rw [hxy, ih ys (fun z hz => h1 z (List.mem_cons_of_mem _ hz))
        (fun z hz => h2 z (List.mem_cons_of_mem _ hz)) h.2]

/-- Well-formedness of a state from checks over its finite data. -/
theorem wf_of_entries (cs : ConstraintState) (hg : cs.table.WF)
    (he : ∀ q ∈ cs.vertex_map, map_find cs.vertex_map q.1 = some q.2 →
      q.2 < cs.table.verts.length ∧ cs.table.vinfo q.2 = q.1)
    (hk : (cs.vertex_map.map Prod.fst).Nodup)
    (ht : ∀ v, v < cs.table.verts.length →
      map_find cs.vertex_map (cs.table.vinfo v) = some v) : cs.WF := by
  refine wf_of_total cs hg ?_ hk ht
  have hm : ∀ (m : List (VertexInfo × Nat)) (k : VertexInfo) (v : Nat),
      map_find m k = some v → (k, v) ∈ m := by
    intro m
    induction m with
    | nil => intro k v h; simp [map_find] at h
    | cons q qs ih =>
      intro k v h
      obtain ⟨k1, v1⟩ := q
      rw [map_find] at h
      split_ifs at h with hk1
      · rw [Option.some.injEq] at h
        rw [hk1, h]
        exact List.mem_cons_self _ _
      · exact List.mem_cons_of_mem _ (ih k v h)
  intro k v h
  exact he (k, v) (hm _ k v h) h

/-- Claim C5 (`solve_shortest` returns exactly the shortest paths).  For every
well-formed state whose start node and end node are keys of the vertex map for
distinct vertices `u` and `v`, with a walk of `d` edges from `u` to `v`, no
shorter one and `d` at most 100: `solve_shortest` on a fresh Solution returns,
and there is a list `ws` without repetition that holds exactly the walks of the
graph from `u` to `v` with `d` edges such that `raws` is the list of the
position lists of the walks of `ws` in this order (no raw path twice) and
`paths` the list of their symbol paths. -/
theorem solve_shortest_exact (cs : ConstraintState) (hw : cs.WF) (u v : Nat)
    (hu : map_find cs.vertex_map cs.start_node = some u)
    (hv : map_find cs.vertex_map cs.end_node = some v)
    (huv : u ≠ v) (d : Nat) (hd : d ≤ 100) (w0 : List Nat)
    (hw0 : cs.table.WalkOf u v d w0)
    (hmin : ∀ t w, cs.table.WalkOf u v t w → d ≤ t) :
    ∃ (ws : List (List Nat)) (sol : Solution),
      cs.solve_shortest Solution.fresh = some sol ∧ ws.Nodup ∧
      (∀ w, w ∈ ws ↔ cs.table.WalkOf u v d w) ∧
      sol.raws = ws.map (fun w => w.map (fun x => (cs.table.vinfo x).positions)) ∧
      sol.raws.Nodup ∧
      sol.paths = ws.map (path_solution cs.table) := by
  have hul : u < cs.table.verts.length := (hw.map_range _ _ hu).1
  obtain ⟨hh, hl, hwalk⟩ := hw0
  cases w0 with
  | nil => simp at hh
  | cons a rest0 =>
  have hau : a = u := by simpa using hh
  subst hau
  have hreach : cs.table.Reach a v := walk_reach _ v rest0 a hwalk
  have hd1 : 1 ≤ d := by
    by_contra hc
    have hd0 : d = 0 := by omega
    rw [hd0, List.length_cons] at hl
    have hr0 : rest0 = [] := List.eq_nil_of_length_eq_zero (by omega)
    rw [hr0] at hwalk
    exact huv hwalk
  obtain ⟨b, hb1, hb2⟩ : ∃ b, cs.table.Reach a b ∧ cs.table.HasEdge b v := by
    rcases Relation.ReflTransGen.cases_tail hreach with h | ⟨b, h1, h2⟩
    · exact absurd h.symm huv
    · exact ⟨b, h1, h2⟩
  obtain ⟨_, _, b3, _, b5, _⟩ := bfs_spec cs.table hw.graph a hul
  have hdesc : has_vertex_descriptor v (breadth_first_search cs.table a).p = true := by
    rw [has_vertex_descriptor_iff, b5]
    exact ⟨v, b, (b3 v b).2 ⟨hb1, hb2⟩, le_max_left _ _⟩
  obtain ⟨c1, _, c3, c4⟩ := double_bfs_spec cs.table hw.graph a v hul hdesc
  have hvl : v < (breadth_first_search (breadth_first_search cs.table a).p v).p.verts.length :=
    (c3 v).2 ⟨b, v, (c1 b v).2 ⟨hb1, hb2, Relation.ReflTransGen.refl⟩, le_max_right _ _⟩
  have hwk : ∀ t w,
      (breadth_first_search (breadth_first_search cs.table a).p v).p.WalkOf a v t w
        ↔ cs.table.WalkOf a v t w := by
    intro t w
    unfold Graph.WalkOf
    constructor
    · rintro ⟨h1, h2, h3⟩
      cases w with
      | nil => simp at h1
      | cons x r =>
        exact ⟨h1, h2, walk_mono _ cs.table v (fun p q h => ((c1 p q).1 h).2.1) r x h3⟩
    · rintro ⟨h1, h2, h3⟩
      cases w with
      | nil => simp at h1
      | cons x r =>
        have hx : x = a := by simpa using h1
        subst hx
        exact ⟨h1, h2, walk_transfer cs.table _ x v (fun p q h => (c1 p q).2 h) r x
          Relation.ReflTransGen.refl h3⟩
  obtain ⟨r, hr1, hr2, hr3⟩ := shortest_paths_loop_spec _ c4 a v hvl d (a :: rest0)
    ((hwk d _).2 ⟨hh, hl, hwalk⟩) (fun t w h => hmin t w ((hwk t w).1 h)) 100 0 [[v]]
    (by omega) (by omega) (List.nodup_singleton _)
    (fun w => by
      constructor
      · intro h
        rw [List.mem_singleton] at h
        rw [h]
        exact ⟨rfl, rfl⟩
      · rintro ⟨h1, h2⟩
        cases w with
        | nil => simp at h1
        | cons x r =>
          have hr0 : r = [] := List.eq_nil_of_length_eq_zero (by
            rw [List.length_cons] at h1; omega)
          subst hr0
          have hx : x = v := h2
          rw [hx]
          exact List.mem_singleton_self _)
  have hr4 : ∀ w, w ∈ r ↔ cs.table.WalkOf a v d w := fun w => (hr3 w).trans (hwk d w)
  have e1 : cs.has_vertex cs.start_node = true := by
    unfold ConstraintState.has_vertex; rw [hu]; rfl
  have e2 : cs.has_vertex cs.end_node = true := by
    unfold ConstraintState.has_vertex; rw [hv]; rfl
  have e3 : cs.vertex_of cs.start_node = a := by
    unfold ConstraintState.vertex_of; rw [hu]; rfl
  have e4 : cs.vertex_of cs.end_node = v := by
    unfold ConstraintState.vertex_of; rw [hv]; rfl
  have hsp : shortest_paths (breadth_first_search (breadth_first_search cs.table a).p v).p a v
      = some r := hr1
  have hlen : ∀ q ∈ (r.map (path_solution cs.table)), q.length = d := by
    intro q hq
    rw [List.mem_map] at hq
    obtain ⟨w, hw1, rfl⟩ := hq
    obtain ⟨_, g2, g3⟩ := (hr4 w).1 hw1
    cases w with
    | nil => simp at g2
    | cons x r2 =>
      rw [path_solution_length cs.table v r2 x g3]
      rw [List.length_cons] at g2
      omega
  obtain ⟨s2, hs1, hs2, hs3⟩ := compress_ok
    { raws := [] ++ r.map (fun path => path.map (fun x => (cs.table.vinfo x).positions)),
      paths := [] ++ r.map (path_solution cs.table),
      compressed_path := [] } d hlen
  have hs4 : s2.raws = r.map (fun w => w.map (fun x => (cs.table.vinfo x).positions)) := hs2
  have hs5 : s2.paths = r.map (path_solution cs.table) := hs3
  refine ⟨r, s2, ?_, hr2, hr4, hs4, ?_, hs5⟩
  · unfold ConstraintState.solve_shortest
    simp only [e1, e2, e3, e4, hdesc, hsp, Bool.not_true, Bool.or_self, Bool.false_eq_true,
      if_false]
    rw [fold_solution]
    exact hs1
  · rw [hs4]
    refine List.Nodup.map_on ?_ hr2
    intro w1 h1 w2 h2 h12
    obtain ⟨_, g2, g3⟩ := (hr4 w1).1 h1
    obtain ⟨_, k2, k3⟩ := (hr4 w2).1 h2
    exact map_positions_inj cs w1 w2
      (walk_addressed cs hw v w1 g3 (by omega))
      (walk_addressed cs hw v w2 k3 (by omega)) h12

/-- The state of scenario 6 is well formed. -/
theorem unit_terminal_state_wf : unit_terminal_state.WF :=
  wf_of_entries unit_terminal_state ⟨by decide, by decide, by decide⟩
    (by decide) (by decide) (by decide)

/-- Scenario 6 without the unit pass: the state whose only edge is the direct
edge from the start vertex 0 to the end vertex 1 labelled `[5]`; the nearest
walk has one edge, and `solve_shortest` returns the one raw path `[0], [1]`
with the symbol path `[5]`. -/
theorem solve_shortest_exact_witness :
    unit_terminal_state.solve_shortest Solution.fresh
      = some { raws := [[[0], [1]]], paths := [[[5]]], compressed_path := [[5]] } ∧
    ∃ (ws : List (List Nat)) (sol : Solution),
      unit_terminal_state.solve_shortest Solution.fresh = some sol ∧ ws.Nodup ∧
      (∀ w, w ∈ ws ↔ unit_terminal_state.table.WalkOf 0 1 1 w) ∧
      sol.raws = ws.map (fun w => w.map (fun x => (unit_terminal_state.table.vinfo x).positions)) ∧
      sol.raws.Nodup ∧
      sol.paths = ws.map (path_solution unit_terminal_state.table) :=
  ⟨by decide,
   solve_shortest_exact unit_terminal_state unit_terminal_state_wf 0 1 (by decide) (by decide)
    (by decide) 1 (by decide) [0, 1]
    ⟨rfl, rfl, ⟨{ src := 0, tgt := 1, info := { syms := [5] } }, by decide, rfl, rfl⟩, rfl⟩
    (fun t w h => by
      by_contra hc
      have ht : t = 0 := by omega
      obtain ⟨h1, h2, h3⟩ := h
      rw [ht] at h2
      cases w with
      | nil => simp at h2
      | cons x r =>
        have hr0 : r = [] := List.eq_nil_of_length_eq_zero (by
          rw [List.length_cons] at h2; omega)
        subst hr0
        have hx : x = 1 := h3
        rw [hx] at h1
        simp at h1)⟩

/-- The public methods that build a state keep it well formed with a total
vertex map: `add_provenance`, `add_edge`, `add_edge_sym`, `mark_as_terminal`. -/
theorem build_wf (cs : ConstraintState) (h : cs.WF ∧ cs.Total) :
    (∀ sample_id nt i l, (cs.add_provenance sample_id nt i l).WF
      ∧ (cs.add_provenance sample_id nt i l).Total) ∧
    (∀ a b, (cs.add_edge a b).WF ∧ (cs.add_edge a b).Total) ∧
    (∀ a b sym, (cs.add_edge_sym a b sym).WF ∧ (cs.add_edge_sym a b sym).Total) ∧
    (∀ sym, (cs.mark_as_terminal sym).WF ∧ (cs.mark_as_terminal sym).Total) := by
  refine ⟨fun sample_id nt i l => wf_of_same cs _ rfl rfl h,
    fun a b => add_edge_wf cs h.1 h.2 a b, fun a b sym => ?_,
    fun sym => wf_of_same cs _ rfl rfl h⟩
  unfold ConstraintState.add_edge_sym
  split_ifs with hc
  · rw [Bool.and_eq_true] at hc
    obtain ⟨hc1, hc2⟩ := hc
    unfold ConstraintState.has_vertex at hc1 hc2
    obtain ⟨x, hx⟩ := Option.isSome_iff_exists.1 hc1
    obtain ⟨y, hy⟩ := Option.isSome_iff_exists.1 hc2
    have e1 : cs.vertex_of a = x := by
      unfold ConstraintState.vertex_of; rw [hx]; rfl
    have e2 : cs.vertex_of b = y := by
      unfold ConstraintState.vertex_of; rw [hy]; rfl
    dsimp only
    rw [e1, e2]
    obtain ⟨g1, g2⟩ := add_edge_in_range cs.table h.1.graph x y
      (h.1.map_range _ _ hx).1 (h.1.map_range _ _ hy).1
    obtain ⟨s1, _, s3⟩ := set_info_spec (cs.table.add_edge x y).1 x y
      { syms := (((cs.table.add_edge x y).1.info x y).add_sym sym).syms.insertionSort
          (fun a b => a ≤ b) }
    exact wf_with_table cs h.1 h.2 _ (s1.trans g1) (s3 g2)
  · exact h

end Constraint

section Pinning

/-- A cell in the range of the loops of `parse` that is set on entry is clear
on return: its level assigns `match`, which is false for a set cell. -/
theorem parse_pinned (c : CYK) (hlmax : c.lmax = 1 + c.m) (nt i l : Nat)
    (hnt : 1 ≤ nt ∧ nt < c.n) (hl : 2 ≤ l ∧ l ≤ c.m) (hi : i + l ≤ c.m)
    (hentry : c.cyk_table nt i l = true) : c.parse.cyk_table nt i l = false := by
  rw [parse_cell c hlmax nt i l hnt hl hi]
  unfold CYK.match_
  rw [levels_table_other c 2 (l - 2) nt i l (by omega), hentry]
  rfl

/-- Claim C11, amended (a pre-set entry is cleared).  With `lmax = 1 + m`, a
cell `(nt, i, l)` in the range of the loops of `parse` is true when `parse()`
returns exactly when it was false on entry and a production of row `nt` before
the first zero slot and a split `k` in `[1, l)` have both halves in the
resulting table; so a cell that is true on entry is false on return. -/
theorem parse_clears_preset (c : CYK) (hlmax : c.lmax = 1 + c.m)
    (nt i l : Nat) (hnt : 1 ≤ nt ∧ nt < c.n) (hl : 2 ≤ l ∧ l ≤ c.m) (hi : i + l ≤ c.m) :
    (c.parse.get_cyk nt i l = true ↔
      (c.get_cyk nt i l = false ∧
        ∃ j k, j < c.grammar.m ∧ (∀ j2, j2 ≤ j → c.grammar.table nt j2 0 ≠ 0) ∧
          1 ≤ k ∧ k < l ∧
          c.parse.get_cyk (c.grammar.table nt j 1) i k = true ∧
          c.parse.get_cyk (c.grammar.table nt j 2) (i + k) (l - k) = true)) ∧
    (c.get_cyk nt i l = true → c.parse.get_cyk nt i l = false) := by
  unfold CYK.get_cyk
  have hshort : ∀ a b d, d < l →
      ((List.range' 2 (l - 2)).foldl CYK.parse_level c).cyk_table a b d
        = c.parse.cyk_table a b d := by
    intro a b d hd
    unfold CYK.parse
    rw [levels_table_stable c 2 (l - 2) (c.lmax - 2) a b d (by omega) (by omega)]
  refine ⟨?_, parse_pinned c hlmax nt i l hnt hl hi⟩
  rw [parse_cell c hlmax nt i l hnt hl hi, match_iff,
    levels_table_other c 2 (l - 2) nt i l (by omega), (levels_frame c 2 (l - 2)).2.2.2.1]
  constructor
  · rintro ⟨h0, j, k, h1, h2, h3, h4, h5, h6⟩
    refine ⟨h0, j, k, h1, h2, h3, h4, ?_, ?_⟩
    · rw [← hshort _ _ _ h4]; exact h5
    · rw [← hshort _ _ _ (by omega)]; exact h6
  · rintro ⟨h0, j, k, h1, h2, h3, h4, h5, h6⟩
    refine ⟨h0, j, k, h1, h2, h3, h4, ?_, ?_⟩
    · rw [hshort _ _ _ h4]; exact h5
    · rw [hshort _ _ _ (by omega)]; exact h6

/-- The amended C11 at scenario 1 with `R[S][0][2]` pre-set: the cell is set on
entry and clear on return. -/
theorem parse_clears_preset_witness :
    scenario_pinned.get_cyk 1 0 2 = true ∧ scenario_pinned.parse.get_cyk 1 0 2 = false :=
  ⟨by decide,
   (parse_clears_preset scenario_pinned rfl 1 0 2 (by decide) (by decide) (by decide)).2
     (by decide)⟩

/-- C11 as stated fails at scenario 1 with `R[S][0][2]` pre-set: the cell is in
the range of the loops, true on entry to `parse()`, derivable by the grammar
from the seeded cells, and not true any more when `parse()` returns. -/
theorem pinning_counterexample :
    scenario_pinned.lmax = 1 + scenario_pinned.m ∧
    (1 ≤ 1 ∧ 1 < scenario_pinned.n) ∧ (2 ≤ 2 ∧ 2 ≤ scenario_pinned.m) ∧
    0 + 2 ≤ scenario_pinned.m ∧
    scenario_pinned.get_cyk 1 0 2 = true ∧
    ¬ (scenario_pinned.parse.get_cyk 1 0 2 = true) := by
  decide

/-- Claim C12 (pinned to false).  The function `match(nt, i, l)` returns false
whenever `R[nt][i][l]` is true, whatever the grammar and the rest of the table;
and with `lmax = 1 + m` every cell in the range of the loops of `parse` that is
true on entry is false when `parse()` returns. -/
theorem pinned_to_false (c : CYK) (nt i l : Nat) (hentry : c.get_cyk nt i l = true) :
    c.match_ nt i l = false ∧
    (c.lmax = 1 + c.m → (1 ≤ nt ∧ nt < c.n) → (2 ≤ l ∧ l ≤ c.m) → i + l ≤ c.m →
      c.parse.get_cyk nt i l = false) := by
  have h : c.cyk_table nt i l = true := hentry
  constructor
  · unfold CYK.match_
    rw [h]
    rfl
  · intro hlmax hnt hl hi
    exact parse_pinned c hlmax nt i l hnt hl hi h

/-- C12 at scenario 1 with `R[S][0][2]` pre-set: `match` is false at the cell
and the cell is false after `parse()`, although `S -> A B` derives it. -/
theorem pinned_to_false_witness :
    scenario_pinned.get_cyk 1 0 2 = true ∧
    scenario_pinned.match_ 1 0 2 = false ∧
    scenario_pinned.parse.get_cyk 1 0 2 = false ∧
    scenario1.parse.get_cyk 1 0 2 = true :=
  ⟨by decide, (pinned_to_false scenario_pinned 1 0 2 (by decide)).1,
   (pinned_to_false scenario_pinned 1 0 2 (by decide)).2 rfl (by decide) (by decide) (by decide),
   by decide⟩

/-- A run of levels changes cells in the range of the `nt` and `i` loops only. -/
theorem levels_table_outside (c : CYK) (s cnt a b d : Nat)
    (h : ¬ (1 ≤ a ∧ a < c.n ∧ b + d ≤ c.m)) :
    ((List.range' s cnt).foldl CYK.parse_level c).cyk_table a b d = c.cyk_table a b d := by
  induction cnt with
  | zero => rfl
  | succ cnt ih =>
    rw [List.range'_concat, List.foldl_append]
    simp only [List.foldl_cons, List.foldl_nil, Nat.one_mul]
    obtain ⟨f1, f2, _⟩ := levels_frame c s cnt
    rw [parse_level_table, f1, f2, if_neg, ih]
    rintro ⟨rfl, h1, h2, h3⟩
    exact h ⟨h1, h2, h3⟩

/-- The calls made before a cancellation have run a number of levels starting
at `l`, none beyond `lmax`. -/
theorem cancelled_levels (k : Nat) : ∀ (l : Nat) (c : CYK),
    ∃ cnt, l + cnt ≤ max c.lmax l ∧
      CYK.parse_cancelled k l c = (List.range' l cnt).foldl CYK.parse_level c := by
  induction k with
  | zero => intro l c; exact ⟨0, by omega, rfl⟩
  | succ k ih =>
    intro l c
    rw [CYK.parse_cancelled]
    by_cases hl : l ≤ c.lmax
    · simp only [parse_partial_eq c l hl]
      by_cases h : c.lmax ≤ l + 10
      · rw [if_pos h]
        simp only [if_true]
        exact ⟨min c.lmax (l + 10) - l, by omega, rfl⟩
      · rw [if_neg h, if_neg (by omega)]
        have e : min c.lmax (l + 10) - l = 10 := by omega
        rw [e]
        obtain ⟨cnt, h1, h2⟩ := ih (l + 10) ((List.range' l 10).foldl CYK.parse_level c)
        rw [(levels_frame c l 10).2.2.1] at h1
        refine ⟨cnt + 10, by omega, ?_⟩
        rw [h2, ← List.range'_append_1, List.foldl_append]
    · simp only [parse_partial_beyond c l (by omega)]
      rw [if_neg (by omega)]
      obtain ⟨cnt, h1, h2⟩ := ih (l + 10) c
      have hc : cnt = 0 := by omega
      rw [hc] at h2
      exact ⟨0, by omega, h2⟩

/-- A table with entries of length 1 only, after some levels of `parse`, and
`parse()` again on the same instance: a cell that the levels have set to true
is false afterwards, whereas a single `parse()` leaves it true; the two tables
are equal exactly when the levels have set no cell. -/
theorem reparse_levels (c : CYK) (hlmax : c.lmax = 1 + c.m)
    (hT : ∀ nt i l, 2 ≤ l → c.cyk_table nt i l = false) (cnt : Nat) (hcnt : cnt ≤ c.lmax - 2) :
    (∀ nt i l, (1 ≤ nt ∧ nt < c.n) → (2 ≤ l ∧ l ≤ c.m) → i + l ≤ c.m →
      ((List.range' 2 cnt).foldl CYK.parse_level c).cyk_table nt i l = true →
      ((List.range' 2 cnt).foldl CYK.parse_level c).parse.cyk_table nt i l = false ∧
        c.parse.cyk_table nt i l = true) ∧
    (((List.range' 2 cnt).foldl CYK.parse_level c).parse = c.parse ↔
      ∀ nt i l, (1 ≤ nt ∧ nt < c.n) → (2 ≤ l ∧ l ≤ c.m) → i + l ≤ c.m →
        ((List.range' 2 cnt).foldl CYK.parse_level c).cyk_table nt i l = false) := by
  obtain ⟨f1, f2, f3, _⟩ := levels_frame c 2 cnt
  have ha : ∀ nt i l, (1 ≤ nt ∧ nt < c.n) → (2 ≤ l ∧ l ≤ c.m) → i + l ≤ c.m →
      ((List.range' 2 cnt).foldl CYK.parse_level c).cyk_table nt i l = true →
      ((List.range' 2 cnt).foldl CYK.parse_level c).parse.cyk_table nt i l = false ∧
        c.parse.cyk_table nt i l = true := by
    intro nt i l hnt hl hi hx
    constructor
    · exact parse_pinned _ (by rw [f3, f2]; exact hlmax) nt i l (by rw [f1]; exact hnt)
        (by rw [f2]; exact hl) (by rw [f2]; exact hi) hx
    · by_cases hlt : l < 2 + cnt
      · unfold CYK.parse
        rw [levels_table_stable c 2 cnt (c.lmax - 2) nt i l hlt hcnt]
        exact hx
      · rw [levels_table_other c 2 cnt nt i l (by omega), hT nt i l hl.1] at hx
        exact absurd hx (by decide)
  refine ⟨ha, ?_, ?_⟩
  · intro heq nt i l hnt hl hi
    by_contra hne
    have hx : ((List.range' 2 cnt).foldl CYK.parse_level c).cyk_table nt i l = true := by
      simpa using hne
    obtain ⟨h1, h2⟩ := ha nt i l hnt hl hi hx
    rw [heq, h2] at h1
    exact absurd h1 (by decide)
  · intro hall
    have heq : (List.range' 2 cnt).foldl CYK.parse_level c = c := by
      apply cyk_ext (levels_frame c 2 cnt)
      funext a b d
      by_cases hr : (1 ≤ a ∧ a < c.n) ∧ (2 ≤ d ∧ d ≤ c.m) ∧ b + d ≤ c.m
      · rw [hall a b d hr.1 hr.2.1 hr.2.2, hT a b d hr.2.1.1]
      · by_cases hd : d < 2 ∨ 2 + cnt ≤ d
        · exact levels_table_other c 2 cnt a b d hd
        · apply levels_table_outside
          rintro ⟨h1, h2, h3⟩
          exact hr ⟨⟨h1, h2⟩, ⟨by omega, by omega⟩, h3⟩
    rw [heq]

/-- Claim C16, amended (no recomputation on the same instance).  For every
grammar and every table with entries of length 1 only (`lmax = 1 + m`), let
`c1` be the state of a chunked run cancelled after any number of
`parse_partial` calls, or the state after `parse()`.  Every cell in the range
of the loops that is true in `c1` is false after `parse()` on `c1`, and true
after a single `parse()` on the seeded table; so `parse()` on `c1` gives the
table of a single `parse()` exactly when `c1` holds no true cell of length 2 or
more in that range. -/
theorem reparse_after_cancel (c : CYK) (hlmax : c.lmax = 1 + c.m)
    (hT : ∀ nt i l, 2 ≤ l → c.cyk_table nt i l = false) (k : Nat) (c1 : CYK)
    (hc1 : c1 = CYK.parse_cancelled k 2 c ∨ c1 = c.parse) :
    (∀ nt i l, (1 ≤ nt ∧ nt < c.n) → (2 ≤ l ∧ l ≤ c.m) → i + l ≤ c.m →
      c1.get_cyk nt i l = true →
      c1.parse.get_cyk nt i l = false ∧ c.parse.get_cyk nt i l = true) ∧
    (c1.parse = c.parse ↔
      ∀ nt i l, (1 ≤ nt ∧ nt < c.n) → (2 ≤ l ∧ l ≤ c.m) → i + l ≤ c.m →
        c1.get_cyk nt i l = false) := by
  have hlev : ∃ cnt, cnt ≤ c.lmax - 2 ∧ c1 = (List.range' 2 cnt).foldl CYK.parse_level c := by
    rcases hc1 with h | h
    · obtain ⟨cnt, h1, h2⟩ := cancelled_levels k 2 c
      exact ⟨cnt, by omega, h.trans h2⟩
    · exact ⟨c.lmax - 2, le_refl _, h⟩
  obtain ⟨cnt, h1, h2⟩ := hlev
  rw [h2]
  exact reparse_levels c hlmax hT cnt h1

/-- The table of scenario 1 has entries of length 1 only. -/
theorem scenario1_seeded (nt i l : Nat) (h : l ≠ 1) : scenario1.cyk_table nt i l = false := by
  simp only [scenario1, CYK.set_cyk, CYK.write_cyk, CYK.new]
  rw [if_neg (fun hc => h hc.2.2), if_neg (fun hc => h hc.2.2)]

/-- The amended C16 at scenario 1, cancelled after one chunk: the chunk has set
`R[S][0][2]`, `parse()` on the same instance clears it, a single `parse()` sets
it. -/
theorem reparse_after_cancel_witness :
    ( CYK.parse_cancelled 1 2 scenario1).get_cyk 1 0 2 = true ∧
    ( CYK.parse_cancelled 1 2 scenario1).parse.get_cyk 1 0 2 = false ∧
    scenario1.parse.get_cyk 1 0 2 = true :=
  ⟨by decide,
   (reparse_after_cancel scenario1 rfl (fun nt i l h => scenario1_seeded nt i l (by omega)) 1
      ( CYK.parse_cancelled 1 2 scenario1) (Or.inl rfl)).1 1 0 2 (by decide) (by decide)
      (by decide) (by decide)⟩

/-- C16 as stated fails at scenario 1, whose table has entries of length 1
only: after one `parse_partial` chunk, or after `parse()`, a further `parse()`
on the same instance leaves `R[S][0][2]` false, whereas a single `parse()` on
the seeded table leaves it true. -/
theorem reparse_counterexample :
    (∀ nt i l, l ≠ 1 → scenario1.get_cyk nt i l = false) ∧
    ( CYK.parse_partial scenario1 2).1 = 0 ∧
    ( CYK.parse_partial scenario1 2).2.parse.get_cyk 1 0 2 = false ∧
    scenario1.parse.parse.get_cyk 1 0 2 = false ∧
    scenario1.parse.get_cyk 1 0 2 = true :=
  ⟨fun nt i l h => scenario1_seeded nt i l h, by decide, by decide, by decide, by decide⟩

/-- Claim C15 (return value of the chunked entry points): what the code
returns.  For every state and every start value `l0`, `parse_partial(l0)` and
`colorize_partial(l0)` return 0 exactly when `l0 ≤ lmax ≤ l0 + 10`, and
`l0 + 10` otherwise; so for `l0 > lmax`, where nothing remains, they return
`l0 + 10` and not 0: on the empty token string (`lmax = 1`) the start value 2
gives 12, and with `m = 3` (`lmax = 4`) the start value 5 gives 15. -/
theorem partial_return_value (c : CYK) (l0 : Nat) :
    ( CYK.parse_partial c l0).1 = (if l0 ≤ c.lmax ∧ c.lmax ≤ l0 + 10 then 0 else l0 + 10) ∧
    ( CYK.colorize_partial c l0).1
      = (if l0 ≤ c.lmax ∧ c.lmax ≤ l0 + 10 then 0 else l0 + 10) ∧
    (¬ (2 + 10 < (CYK.new 4 0 (Grammar.new 4 1)).lmax) ∧
      ( CYK.parse_partial (CYK.new 4 0 (Grammar.new 4 1)) 2).1 = 12 ∧
      ( CYK.colorize_partial (CYK.new 4 0 (Grammar.new 4 1)) 2).1 = 12) ∧
    (¬ (5 + 10 < (CYK.new 4 3 (Grammar.new 4 1)).lmax) ∧
      ( CYK.parse_partial (CYK.new 4 3 (Grammar.new 4 1)) 5).1 = 15 ∧
      ( CYK.colorize_partial (CYK.new 4 3 (Grammar.new 4 1)) 5).1 = 15) := by
  have hgen : ∀ (d : CYK) (l : Nat),
      ( CYK.parse_partial d l).1 = (if l ≤ d.lmax ∧ d.lmax ≤ l + 10 then 0 else l + 10) ∧
      ( CYK.colorize_partial d l).1
        = (if l ≤ d.lmax ∧ d.lmax ≤ l + 10 then 0 else l + 10) := by
    intro d l
    by_cases hl : l ≤ d.lmax
    · rw [parse_partial_eq d l hl, colorize_partial_eq d l hl]
      by_cases h : d.lmax ≤ l + 10
      · rw [if_pos h, if_pos ⟨hl, h⟩]
        exact ⟨rfl, rfl⟩
      · rw [if_neg h, if_neg (fun hc => h hc.2)]
        exact ⟨rfl, rfl⟩
    · rw [parse_partial_beyond d l (by omega), colorize_partial_beyond d l (by omega),
        if_neg (fun hc => hl hc.1)]
      exact ⟨rfl, rfl⟩
  refine ⟨(hgen c l0).1, (hgen c l0).2, ⟨by decide, ?_, ?_⟩, ⟨by decide, ?_, ?_⟩⟩
  · rw [(hgen _ 2).1]; decide
  · rw [(hgen _ 2).2]; decide
  · rw [(hgen _ 5).1]; decide
  · rw [(hgen _ 5).2]; decide

end Pinning

section GrammarTable

/-- What the search loop of `add` returns: the first zero slot from `i` on, or
0 when the `r` slots from `i` on are all used. -/
theorem empty_col_spec (row : Nat → Nat → Nat) (r : Nat) : ∀ i,
    (i ≤ Grammar.empty_col row i r ∧ Grammar.empty_col row i r < i + r ∧
      row (Grammar.empty_col row i r) 0 = 0 ∧
      ∀ j, i ≤ j → j < Grammar.empty_col row i r → row j 0 ≠ 0) ∨
    (Grammar.empty_col row i r = 0 ∧ ∀ j, i ≤ j → j < i + r → row j 0 ≠ 0) := by
  induction r with
  | zero =>
    intro i
    exact Or.inr ⟨rfl, fun j h1 h2 => by omega⟩
  | succ r ih =>
    intro i
    rw [Grammar.empty_col]
    split_ifs with h
    · exact Or.inl ⟨le_refl _, by omega, h, fun j h1 h2 => by omega⟩
    · rcases ih (i + 1) with ⟨h1, h2, h3, h4⟩ | ⟨h1, h2⟩
      · refine Or.inl ⟨by omega, by omega, h3, fun j h5 h6 => ?_⟩
        by_cases hj : j = i
        · rw [hj]; exact h
        · exact h4 j (by omega) h6
      · refine Or.inr ⟨h1, fun j h5 h6 => ?_⟩
        by_cases hj : j = i
        · rw [hj]; exact h
        · exact h2 j (by omega) (by omega)

/-- The slot written by `add`, in the table after `add`. -/
theorem add_table (g : Grammar) (l r1 r2 a j f : Nat) :
    (g.add l r1 r2).table a j f
      = if a = l ∧ j = Grammar.empty_col (g.table l) 0 g.m then
          (if f = 0 then l else if f = 1 then r1 else if f = 2 then r2 else g.table a j f)
        else g.table a j f := rfl

/-- Claim C13 (grammar capacity): what the code does on a full row.  When the
`m ≥ 1` slots of row `l` are all used, `add(l, r1, r2)` returns normally and
overwrites slot 0 of the row with `(l, r1, r2)`; all other slots are as
before. -/
theorem add_full_row_overwrites (g : Grammar) (l r1 r2 : Nat) (_hm : 0 < g.m)
    (hfull : ∀ j, j < g.m → g.table l j 0 ≠ 0) :
    (g.add l r1 r2).table l 0 0 = l ∧ (g.add l r1 r2).table l 0 1 = r1 ∧
    (g.add l r1 r2).table l 0 2 = r2 ∧
    (∀ a j f, ¬ (a = l ∧ j = 0) → (g.add l r1 r2).table a j f = g.table a j f) ∧
    (g.add l r1 r2).n = g.n ∧ (g.add l r1 r2).m = g.m := by
  have hc : Grammar.empty_col (g.table l) 0 g.m = 0 := by
    rcases empty_col_spec (g.table l) g.m 0 with ⟨_, h2, h3, _⟩ | ⟨h1, _⟩
    · exact absurd h3 (hfull _ (by omega))
    · exact h1
  refine ⟨?_, ?_, ?_, fun a j f h => ?_, rfl, rfl⟩
  · rw [add_table, hc, if_pos ⟨rfl, rfl⟩, if_pos rfl]
  · rw [add_table, hc, if_pos ⟨rfl, rfl⟩, if_neg (by decide), if_pos rfl]
  · rw [add_table, hc, if_pos ⟨rfl, rfl⟩, if_neg (by decide), if_neg (by decide), if_pos rfl]
  · rw [add_table, hc, if_neg h]

/-- C13 at a grammar with one slot per row whose row 1 holds `1 -> 2 3`:
`add(1, 4, 5)` replaces the stored production by `1 -> 4 5`. -/
theorem add_full_row_overwrites_witness :
    full_row_grammar.productions 1 = [(1, 2, 3)] ∧
    (full_row_grammar.add 1 4 5).productions 1 = [(1, 4, 5)] ∧
    (full_row_grammar.add 1 4 5).table 1 0 1 = 4 :=
  ⟨by decide, by decide,
   (add_full_row_overwrites full_row_grammar 1 4 5 (by decide)
     (fun j hj => by
       have h0 : j = 0 := Nat.lt_one_iff.1 hj
       rw [h0]
       decide)).2.1⟩

/-- Every grammar built by `add` has no gap, and the field 0 of a slot of row
`a` holds 0 or `a`. -/
theorem built_inv (g : Grammar) (hb : g.Built) :
    g.NoGap ∧ ∀ a j, g.table a j 0 = 0 ∨ g.table a j 0 = a := by
  induction hb with
  | new n m => exact ⟨fun a j j2 _ _ _ => rfl, fun a j => Or.inl rfl⟩
  | add g l r1 r2 _ _ ih =>
    obtain ⟨hgap, hrow⟩ := ih
    have hm : (g.add l r1 r2).m = g.m := rfl
    constructor
    · intro a j j2 hj hj2 h0
      rw [hm] at hj2
      rw [add_table, if_pos rfl] at h0 ⊢
      by_cases ha : a = l
      · subst ha
        by_cases hl0 : a = 0
        · -- row 0 holds zeros only
          have hz : ∀ x, g.table a x 0 = 0 := by
            intro x
            rcases hrow a x with h | h
            · exact h
            · rw [h]; exact hl0
          split_ifs
          · exact hl0
          · exact hz j2
        · have hjc : j ≠ Grammar.empty_col (g.table a) 0 g.m := by
            intro hc
            rw [if_pos ⟨rfl, hc⟩] at h0
            exact hl0 h0
          rw [if_neg (fun hc => hjc hc.2)] at h0
          by_cases hj2c : j2 = Grammar.empty_col (g.table a) 0 g.m
          · exfalso
            rcases empty_col_spec (g.table a) g.m 0 with ⟨_, _, _, h4⟩ | ⟨_, h2⟩
            · by_cases hlt : j < Grammar.empty_col (g.table a) 0 g.m
              · exact h4 j (Nat.zero_le _) hlt h0
              · omega
            · exact h2 j (Nat.zero_le _) (by omega) h0
          · rw [if_neg (fun hc => hj2c hc.2)]
            exact hgap a j j2 hj hj2 h0
      · rw [if_neg (fun hc => ha hc.1)] at h0 ⊢
        exact hgap a j j2 hj hj2 h0
    · intro a j
      rw [add_table, if_pos rfl]
      split_ifs with hc
      · exact Or.inr hc.1.symm
      · exact hrow a j

/-- The search loop of `add` finds the slot after the production list when the
list is shorter than the row. -/
theorem empty_col_eq_length (row : Nat → Nat → Nat) (r : Nat) : ∀ j,
    (Grammar.row_list row j r).length < r →
      Grammar.empty_col row j r = j + (Grammar.row_list row j r).length := by
  induction r with
  | zero => intro j h; exact absurd h (Nat.not_lt_zero _)
  | succ r ih =>
    intro j h
    rw [Grammar.row_list] at h ⊢
    rw [Grammar.empty_col]
    split_ifs with h0
    · rfl
    · rw [if_neg h0, List.length_cons] at h
      rw [List.length_cons, ih (j + 1) (by omega)]
      omega

/-- Writing a production with a non-zero left-hand side into the slot after
the production list of a row without gap appends it to the list. -/
theorem row_list_append (row row2 : Nat → Nat → Nat) (M l r1 r2 : Nat) (hl : l ≠ 0)
    (hgap : ∀ j j2, j ≤ j2 → j2 < M → row j 0 = 0 → row j2 0 = 0) (r : Nat) : ∀ j,
    j + r = M → (Grammar.row_list row j r).length < r →
    (∀ x, x ≠ j + (Grammar.row_list row j r).length → ∀ f, row2 x f = row x f) →
    row2 (j + (Grammar.row_list row j r).length) 0 = l →
    row2 (j + (Grammar.row_list row j r).length) 1 = r1 →
    row2 (j + (Grammar.row_list row j r).length) 2 = r2 →
    Grammar.row_list row2 j r = Grammar.row_list row j r ++ [(l, r1, r2)] := by
  induction r with
  | zero => intro j _ h; exact absurd h (Nat.not_lt_zero _)
  | succ r ih =>
    intro j hM hlen hsame h0 h1 h2
    have e2 : Grammar.row_list row2 j (r + 1)
        = if row2 j 0 = 0 then []
          else (row2 j 0, row2 j 1, row2 j 2) :: Grammar.row_list row2 (j + 1) r := by
      rw [Grammar.row_list]
    by_cases hz : row j 0 = 0
    · have e1 : Grammar.row_list row j (r + 1) = [] := by
        rw [Grammar.row_list, if_pos hz]
      rw [e1] at hsame h0 h1 h2 ⊢
      rw [List.length_nil, Nat.add_zero] at hsame h0 h1 h2
      rw [e2, if_neg (by rw [h0]; exact hl), h0, h1, h2, List.nil_append]
      congr 1
      cases r with
      | zero => rfl
      | succ r1 =>
        rw [Grammar.row_list, if_pos]
        rw [hsame (j + 1) (by omega) 0]
        exact hgap j (j + 1) (by omega) (by omega) hz
    · have e1 : Grammar.row_list row j (r + 1)
          = (row j 0, row j 1, row j 2) :: Grammar.row_list row (j + 1) r := by
        rw [Grammar.row_list, if_neg hz]
      rw [e1] at hlen hsame h0 h1 h2 ⊢
      rw [List.length_cons] at hlen hsame h0 h1 h2
      have e : j + ((Grammar.row_list row (j + 1) r).length + 1)
          = j + 1 + (Grammar.row_list row (j + 1) r).length := by omega
      rw [e] at hsame h0 h1 h2
      rw [e2, hsame j (by omega) 0, hsame j (by omega) 1, hsame j (by omega) 2,
        if_neg hz, ih (j + 1) (by omega) (by omega) hsame h0 h1 h2]
      rfl

/-- Claim C14 (`Grammar::add` appends).  For every grammar built from
`new(n, m)` by calls of `add`, every row `l` in `[1, n)` whose production list
has fewer than `m` entries, and all `r1`, `r2`: after `add(l, r1, r2)` the
production list of row `l` is the former list followed by `(l, r1, r2)`, every
other row is unchanged, and no row has a non-zero slot after a zero slot. -/
theorem add_appends (g : Grammar) (hb : g.Built) (l r1 r2 : Nat) (hl : 1 ≤ l ∧ l < g.n)
    (hfew : (g.productions l).length < g.m) :
    (g.add l r1 r2).productions l = g.productions l ++ [(l, r1, r2)] ∧
    (∀ a, a ≠ l → (g.add l r1 r2).productions_with_lhs a = g.productions_with_lhs a) ∧
    (∀ a, a ≠ l → (g.add l r1 r2).productions a = g.productions a) ∧
    (g.add l r1 r2).NoGap := by
  have hc : Grammar.empty_col (g.table l) 0 g.m = 0 + (Grammar.row_list (g.table l) 0 g.m).length :=
    empty_col_eq_length (g.table l) g.m 0 hfew
  have hrows : ∀ a, a ≠ l → (g.add l r1 r2).table a = g.table a := by
    intro a ha
    funext j f
    rw [add_table, if_neg (fun h => ha h.1)]
  refine ⟨?_, hrows, fun a ha => ?_, (built_inv _ (Grammar.Built.add g l r1 r2 hb hl.2)).1⟩
  · unfold Grammar.productions Grammar.productions_with_lhs
    have hm : (g.add l r1 r2).m = g.m := rfl
    rw [hm]
    apply row_list_append (g.table l) ((g.add l r1 r2).table l) g.m l r1 r2 (by omega)
      (fun j j2 h1 h2 h3 => (built_inv g hb).1 l j j2 h1 h2 h3) g.m 0 (Nat.zero_add _) hfew
    · intro x hx f
      rw [add_table, hc, if_neg (fun h => hx h.2)]
    · rw [add_table, hc, if_pos ⟨rfl, rfl⟩, if_pos rfl]
    · rw [add_table, hc, if_pos ⟨rfl, rfl⟩, if_neg (by decide), if_pos rfl]
    · rw [add_table, hc, if_pos ⟨rfl, rfl⟩, if_neg (by decide), if_neg (by decide), if_pos rfl]
  · unfold Grammar.productions Grammar.productions_with_lhs
    rw [hrows a ha]
    rfl

/-- C14 at the grammar `new(4, 2)` after `add(1, 2, 3)`: a second
`add(1, 3, 2)` gives row 1 the list `1 -> 2 3`, `1 -> 3 2`. -/
theorem add_appends_witness :
    ((Grammar.new 4 2).add 1 2 3).productions 1 = [(1, 2, 3)] ∧
    (((Grammar.new 4 2).add 1 2 3).add 1 3 2).productions 1 = [(1, 2, 3), (1, 3, 2)] ∧
    (((Grammar.new 4 2).add 1 2 3).add 1 3 2).NoGap := by
  obtain ⟨h1, _, _, h4⟩ := add_appends ((Grammar.new 4 2).add 1 2 3)
    (Grammar.Built.add _ 1 2 3 (Grammar.Built.new 4 2) (by decide)) 1 3 2 (by decide) (by decide)
  refine ⟨by decide, ?_, h4⟩
  rw [h1]
  decide

end GrammarTable

section Construction

/-- The comparison of a position list with a proper beginning of it: the
loop of `operator<` runs over the longer left side and reads
`right_positions` past its end. -/
theorem lt_loop_longer (a : List pos_t) (x : pos_t) (rest : List pos_t) :
    VertexInfo.lt_loop (a ++ x :: rest) a = none := by
  induction a with
  | nil => rfl
  | cons y ys ih =>
    rw [List.cons_append, VertexInfo.lt_loop, if_neg (lt_irrefl y), if_neg (lt_irrefl y)]
    exact ih

/-- Claim C18 (`add_edge_sym` on a missing vertex is a no-op).  In a state
whose keys all have `k` positions: when `from` and `to` have `k` positions too
and `from` or `to` is not a key of the vertex map, `add_edge_sym(from, to, sym)`
returns the state as it was (graph, vertex map, provenance and terminal set);
but against every key that properly extends `from`, the comparison
`key < from` that the lookup makes reads `right_positions` past its end, so
for such a `from`, which is no key either, the call is undefined. -/
theorem add_edge_sym_missing (cs : ConstraintState) (from_ to_ : VertexInfo) (sym : sym_t)
    (k : Nat) (hk : cs.KeyLen k) :
    (from_.positions.length = k → to_.positions.length = k →
      (cs.has_vertex from_ = false ∨ cs.has_vertex to_ = false) →
      cs.add_edge_sym from_ to_ sym = cs ∧
      (cs.add_edge_sym from_ to_ sym).table.verts = cs.table.verts ∧
      (cs.add_edge_sym from_ to_ sym).table.edges = cs.table.edges ∧
      (cs.add_edge_sym from_ to_ sym).vertex_map = cs.vertex_map ∧
      (cs.add_edge_sym from_ to_ sym).provenance = cs.provenance ∧
      (cs.add_edge_sym from_ to_ sym).terminal_set = cs.terminal_set) ∧
    (∀ q ∈ cs.vertex_map, ∀ (x : pos_t) (rest : List pos_t),
      q.1.positions = from_.positions ++ x :: rest →
      from_.positions.length < k ∧ map_find cs.vertex_map from_ = none ∧
      VertexInfo.lt q.1 from_ = none) := by
  refine ⟨fun _ _ h => ?_, fun q hq x rest hx => ⟨?_, ?_, ?_⟩⟩
  · have h1 : cs.add_edge_sym from_ to_ sym = cs := by
      unfold ConstraintState.add_edge_sym
      rcases h with h | h
      · rw [h]; rfl
      · rw [h, Bool.and_false]; rfl
    rw [h1]
    exact ⟨rfl, rfl, rfl, rfl, rfl, rfl⟩
  · have h2 := hk q hq
    rw [hx, List.length_append, List.length_cons] at h2
    omega
  · cases hf : map_find cs.vertex_map from_ with
    | none => rfl
    | some v =>
      obtain ⟨q1, hq1, hq2⟩ := List.mem_map.1 (map_find_some_mem cs.vertex_map from_ v hf)
      have h3 := hk q1 hq1
      have h2 := hk q hq
      rw [hx, List.length_append, List.length_cons] at h2
      rw [hq2] at h3
      omega
  · unfold VertexInfo.lt
    rw [hx]
    exact lt_loop_longer _ _ _

/-- C18 at the state with the keys `[0]` and `[1]`: `[2]` is no key, and
`add_edge_sym([0], [2], 5)` changes nothing.  At the state with the keys
`[0, 5]` and `[1, 6]`: `[0]` is no key, and the comparison `[0, 5] < [0]` of
the lookup of `[0]` is undefined. -/
theorem add_edge_sym_missing_witness :
    (edge_state.KeyLen 1 ∧ edge_state.has_vertex (vinfo_of [2]) = false ∧
      edge_state.add_edge_sym (vinfo_of [0]) (vinfo_of [2]) 5 = edge_state) ∧
    (wide_state.KeyLen 2 ∧ (vinfo_of [0, 5], 0) ∈ wide_state.vertex_map ∧
      map_find wide_state.vertex_map (vinfo_of [0]) = none ∧
      VertexInfo.lt (vinfo_of [0, 5]) (vinfo_of [0]) = none) :=
  have h1 : edge_state.KeyLen 1 := by unfold ConstraintState.KeyLen; decide
  have h2 : wide_state.KeyLen 2 := by unfold ConstraintState.KeyLen; decide
  have h3 : (vinfo_of [0, 5], 0) ∈ wide_state.vertex_map := by decide
  ⟨⟨h1, by decide,
    ((add_edge_sym_missing edge_state (vinfo_of [0]) (vinfo_of [2]) 5 1 h1).1 rfl rfl
      (Or.inr (by decide))).1⟩,
   ⟨h2, h3,
    ((add_edge_sym_missing wide_state (vinfo_of [0]) (vinfo_of [1, 6]) 5 2 h2).2
      (vinfo_of [0, 5], 0) h3 5 [] rfl).2⟩⟩

/-- The state after `add_edge_sym` when both vertices are keys of the map. -/
theorem add_edge_sym_eq (cs : ConstraintState) (from_ to_ : VertexInfo) (sym : sym_t) (u v : Nat)
    (hu : map_find cs.vertex_map from_ = some u) (hv : map_find cs.vertex_map to_ = some v) :
    cs.add_edge_sym from_ to_ sym
      = { cs with table := (((cs.table.add_edge u v).1).set_info u v
            { syms := ((((cs.table.add_edge u v).1).info u v).add_sym sym).syms.insertionSort
                (fun a b => a ≤ b) }) } := by
  unfold ConstraintState.add_edge_sym ConstraintState.has_vertex ConstraintState.vertex_of
  rw [hu, hv]
  rfl

/-- The edge list after `add_edge_sym` when both vertices are keys of the map:
an existing edge from `u` to `v` gets `sym` into its sorted symbol list, and
only when there is none a new edge with the list `[sym]` is appended. -/
theorem add_edge_sym_edges (cs : ConstraintState) (from_ to_ : VertexInfo) (sym : sym_t)
    (u v : Nat)
    (hu : map_find cs.vertex_map from_ = some u) (hv : map_find cs.vertex_map to_ = some v) :
    (∀ e, cs.table.lookup_edge u v = some e →
      (cs.add_edge_sym from_ to_ sym).table.edges
        = cs.table.edges.map (fun e1 =>
            if e1.src = u ∧ e1.tgt = v then
              { e1 with info :=
                  { syms := ((e.info.syms ++ [sym]).insertionSort (fun a b => a ≤ b)) } }
            else e1)) ∧
    (cs.table.lookup_edge u v = none →
      (cs.add_edge_sym from_ to_ sym).table.edges
        = cs.table.edges ++ [{ src := u, tgt := v, info := { syms := [sym] } }]) := by
  rw [add_edge_sym_eq cs from_ to_ sym u v hu hv]
  constructor
  · intro e he
    have h1 : (cs.table.add_edge u v).1.edges = cs.table.edges := by
      unfold Graph.add_edge
      rw [he]
    have h2 : (cs.table.add_edge u v).1.info u v = e.info := by
      unfold Graph.info Graph.lookup_edge
      rw [h1]
      unfold Graph.lookup_edge at he
      rw [he]
    unfold Graph.set_info
    dsimp only
    rw [h1, h2]
    rfl
  · intro he
    have h1 : (cs.table.add_edge u v).1.edges
        = cs.table.edges ++ [{ src := u, tgt := v, info := { syms := [] } }] := by
      unfold Graph.add_edge
      rw [he]
    have h2 : (cs.table.add_edge u v).1.info u v = { syms := [] } := by
      unfold Graph.info Graph.lookup_edge
      rw [h1, List.find?_append]
      unfold Graph.lookup_edge at he
      rw [he]
      simp
    unfold Graph.set_info
    dsimp only
    rw [h1, h2, List.map_append]
    have h3 : cs.table.edges.map (fun e =>
        if e.src = u ∧ e.tgt = v then
          { e with info :=
              { syms := (((({ syms := [] } : EdgeInfo).add_sym sym).syms).insertionSort
                  (fun a b => a ≤ b)) } }
        else e) = cs.table.edges := by
      have hno := lookup_edge_none cs.table u v he
      conv_rhs => rw [← List.map_id cs.table.edges]
      apply List.map_congr_left
      intro e hmem
      rw [if_neg (fun hc => hno ⟨e, hmem, hc.1, hc.2⟩)]
      rfl
    rw [h3]
    simp [EdgeInfo.add_sym]

/-- Claim C17, amended (`add_edge_sym` adds a symbol to the edge).  For every
state in which `from` and `to` are keys of the vertex map, for the vertices `u`
and `v`: `add_edge_sym(from, to, sym)` leaves vertex map, provenance and
terminal set alone; when an edge from `u` to `v` exists, `sym` is appended to
its symbol list, the list is sorted again, and no edge is added; when there is
none, one edge from `u` to `v` with the list `[sym]` is added; the edges that
do not go from `u` to `v` are unchanged.  The number of edges grows by one
exactly when there was no edge from `u` to `v`. -/
theorem add_edge_sym_spec (cs : ConstraintState) (from_ to_ : VertexInfo) (sym : sym_t)
    (u v : Nat)
    (hu : map_find cs.vertex_map from_ = some u) (hv : map_find cs.vertex_map to_ = some v) :
    (cs.add_edge_sym from_ to_ sym).vertex_map = cs.vertex_map ∧
    (cs.add_edge_sym from_ to_ sym).provenance = cs.provenance ∧
    (cs.add_edge_sym from_ to_ sym).terminal_set = cs.terminal_set ∧
    (∀ e, cs.table.lookup_edge u v = some e →
      (cs.add_edge_sym from_ to_ sym).table.edges
        = cs.table.edges.map (fun e1 =>
            if e1.src = u ∧ e1.tgt = v then
              { e1 with info :=
                  { syms := ((e.info.syms ++ [sym]).insertionSort (fun a b => a ≤ b)) } }
            else e1)) ∧
    (cs.table.lookup_edge u v = none →
      (cs.add_edge_sym from_ to_ sym).table.edges
        = cs.table.edges ++ [{ src := u, tgt := v, info := { syms := [sym] } }]) ∧
    ((cs.add_edge_sym from_ to_ sym).table.num_edges = cs.table.num_edges + 1
      ↔ cs.table.lookup_edge u v = none) := by
  obtain ⟨h1, h2⟩ := add_edge_sym_edges cs from_ to_ sym u v hu hv
  have h3 := add_edge_sym_eq cs from_ to_ sym u v hu hv
  refine ⟨by rw [h3], by rw [h3], by rw [h3], h1, h2, ?_⟩
  unfold Graph.num_edges
  cases hl : cs.table.lookup_edge u v with
  | none =>
    rw [h2 hl, List.length_append]
    simp
  | some e =>
    rw [h1 e hl, List.length_map]
    simp

/-- The amended C17 at the state with the single edge `[0] -> [1]`:
`add_edge_sym([0], [1], 5)` labels that edge and adds none. -/
theorem add_edge_sym_spec_witness :
    edge_state.table.lookup_edge 0 1 = some { src := 0, tgt := 1, info := { syms := [] } } ∧
    (edge_state.add_edge_sym (vinfo_of [0]) (vinfo_of [1]) 5).table.edges
      = [{ src := 0, tgt := 1, info := { syms := [5] } }] := by
  refine ⟨by decide, ?_⟩
  rw [(add_edge_sym_spec edge_state (vinfo_of [0]) (vinfo_of [1]) 5 0 1 (by decide)
    (by decide)).2.2.2.1 { src := 0, tgt := 1, info := { syms := [] } } (by decide)]
  decide

/-- C17 as stated fails at the state with the single edge `[0] -> [1]`, both
end points being keys of the vertex map: `add_edge_sym([0], [1], 5)` leaves the
number of edges at 1, and a further `add_edge_sym([0], [1], 3)` leaves one edge
with the list `[3, 5]`, not a new edge with the list `[3]`. -/
theorem add_edge_sym_counterexample :
    edge_state.has_vertex (vinfo_of [0]) = true ∧ edge_state.has_vertex (vinfo_of [1]) = true ∧
    edge_state.table.num_edges = 1 ∧
    (edge_state.add_edge_sym (vinfo_of [0]) (vinfo_of [1]) 5).table.num_edges = 1 ∧
    labelled_state.table.edges = [{ src := 0, tgt := 1, info := { syms := [3, 5] } }] := by
  decide

/-- The method `_add_vertex` leaves the edges alone. -/
theorem add_vertex_edges (cs : ConstraintState) (vi : VertexInfo) :
    (cs._add_vertex vi).1.table.edges = cs.table.edges := by
  unfold ConstraintState._add_vertex
  split_ifs
  · rfl
  · rfl

/-- An edge after `add_edge` is an edge from before or carries no symbol. -/
theorem add_edge_edges (cs : ConstraintState) (a b : VertexInfo) (e : Edge)
    (he : e ∈ (cs.add_edge a b).table.edges) : e ∈ cs.table.edges ∨ e.info.syms = [] := by
  unfold ConstraintState.add_edge ConstraintState._add_edge at he
  dsimp only at he
  have hg : ∀ (g : Graph) (x y : Nat), e ∈ (g.add_edge x y).1.edges →
      e ∈ g.edges ∨ e.info.syms = [] := by
    intro g x y h
    unfold Graph.add_edge at h
    cases hl : g.lookup_edge x y with
    | some e0 => rw [hl] at h; exact Or.inl h
    | none =>
      rw [hl] at h
      dsimp only at h
      rcases List.mem_append.1 h with h1 | h1
      · exact Or.inl h1
      · rw [List.mem_singleton] at h1
        rw [h1]
        exact Or.inr rfl
  rcases hg _ _ _ he with h | h
  · rw [add_vertex_edges, add_vertex_edges] at h
    exact Or.inl h
  · exact Or.inr h

/-- Claim C19 (edge labels stay sorted under construction).  In every state
built from a fresh one by `add_provenance`, `add_edge`, `add_edge_sym` and
`mark_as_terminal`, the symbol list of every edge is sorted in ascending
order. -/
theorem labels_sorted (k : Nat) (cs : ConstraintState) (h : cs.Reachable k) :
    ∀ e ∈ cs.table.edges, e.info.syms.Sorted (fun a b => a ≤ b) := by
  induction h with
  | fresh => intro e he; exact absurd he (List.not_mem_nil e)
  | add_provenance cs sample_id nt i l _ ih => exact ih
  | add_edge cs a b _ _ _ ih =>
    intro e he
    rcases add_edge_edges cs a b e he with h1 | h1
    · exact ih e h1
    · rw [h1]; exact List.sorted_nil
  | add_edge_sym cs a b sym _ _ _ ih =>
    intro e he
    by_cases hb : cs.has_vertex a = true ∧ cs.has_vertex b = true
    · obtain ⟨u, hu⟩ := Option.isSome_iff_exists.1 hb.1
      obtain ⟨v, hv⟩ := Option.isSome_iff_exists.1 hb.2
      obtain ⟨h1, h2⟩ := add_edge_sym_edges cs a b sym u v hu hv
      cases hl : cs.table.lookup_edge u v with
      | none =>
        rw [h2 hl] at he
        rcases List.mem_append.1 he with h3 | h3
        · exact ih e h3
        · rw [List.mem_singleton] at h3
          rw [h3]
          exact List.sorted_singleton sym
      | some e0 =>
        rw [h1 e0 hl, List.mem_map] at he
        obtain ⟨e1, he1, rfl⟩ := he
        split_ifs
        · exact List.sorted_insertionSort (fun a b : sym_t => a ≤ b) _
        · exact ih e1 he1
    · have hno : cs.has_vertex a = false ∨ cs.has_vertex b = false := by
        by_cases ha : cs.has_vertex a = true
        · exact Or.inr (by simpa using fun hc => hb ⟨ha, hc⟩)
        · exact Or.inl (by simpa using ha)
      have heq : cs.add_edge_sym a b sym = cs := by
        unfold ConstraintState.add_edge_sym
        rcases hno with h | h
        · rw [h]; rfl
        · rw [h, Bool.and_false]; rfl
      rw [heq] at he
      exact ih e he
  | mark_as_terminal cs sym _ ih => exact ih

/-- C19 at the state with the edge `[0] -> [1]` labelled with 5 and then with
3: the state is built by the four methods and its edge carries `[3, 5]`. -/
theorem labels_sorted_witness :
    labelled_state.table.edges = [{ src := 0, tgt := 1, info := { syms := [3, 5] } }] ∧
    ∀ e ∈ labelled_state.table.edges, e.info.syms.Sorted (fun a b => a ≤ b) :=
  ⟨by decide,
   labels_sorted 1 labelled_state
    (ConstraintState.Reachable.add_edge_sym _ _ _ 3
      (ConstraintState.Reachable.add_edge_sym _ _ _ 5
        (ConstraintState.Reachable.add_edge _ _ _ ConstraintState.Reachable.fresh rfl rfl)
        rfl rfl)
      rfl rfl)⟩

end Construction

section VertexOrder

/-- On position lists of one length `operator<` returns, and it is the strict
lexicographic order. -/
theorem vi_lt_lex (a : List pos_t) : ∀ b : List pos_t, a.length = b.length →
    ∃ r, VertexInfo.lt_loop a b = some r ∧ (r = true ↔ List.Lex (fun x y => x < y) a b) := by
  induction a with
  | nil =>
    intro b hb
    refine ⟨false, rfl, ?_⟩
    have hb0 : b = [] := List.eq_nil_of_length_eq_zero hb.symm
    rw [hb0]
    constructor
    · intro h; exact absurd h (by decide)
    · intro h; cases h
  | cons x xs ih =>
    intro b hb
    cases b with
    | nil => simp at hb
    | cons y ys =>
      rw [VertexInfo.lt_loop]
      by_cases h1 : x < y
      · rw [if_pos h1]
        exact ⟨true, rfl, fun _ => List.Lex.rel h1, fun _ => rfl⟩
      · rw [if_neg h1]
        by_cases h2 : y < x
        · rw [if_pos h2]
          refine ⟨false, rfl, fun h => absurd h (by decide), fun h => ?_⟩
          cases h with
          | cons h3 => exact absurd h2 (lt_irrefl _)
          | rel h3 => exact absurd h3 h1
        · rw [if_neg h2]
          have hxy : x = y := le_antisymm (not_lt.1 h2) (not_lt.1 h1)
          obtain ⟨r, hr1, hr2⟩ := ih ys (by simpa using hb)
          refine ⟨r, hr1, hr2.trans ?_⟩
          rw [hxy]
          constructor
          · intro h; exact List.Lex.cons h
          · intro h
            cases h with
            | cons h3 => exact h3
            | rel h3 => exact absurd h3 (lt_irrefl _)

/-- On position lists of one length two keys are equivalent for `operator<`
(neither is less than the other) exactly when they are equal. -/
theorem vi_lt_equiv_iff (a b : VertexInfo) (h : a.positions.length = b.positions.length) :
    (a.lt b = some false ∧ b.lt a = some false) ↔ a = b := by
  have key : ∀ (x y : List pos_t), x.length = y.length →
      ((VertexInfo.lt_loop x y = some false ∧ VertexInfo.lt_loop y x = some false) ↔ x = y) := by
    intro x
    induction x with
    | nil =>
      intro y hy
      have hy0 : y = [] := List.eq_nil_of_length_eq_zero hy.symm
      rw [hy0]
      exact ⟨fun _ => rfl, fun _ => ⟨rfl, rfl⟩⟩
    | cons p ps ih =>
      intro y hy
      cases y with
      | nil => simp at hy
      | cons q qs =>
        rw [VertexInfo.lt_loop, VertexInfo.lt_loop]
        by_cases h1 : p < q
        · rw [if_pos h1, if_neg (not_lt.2 (le_of_lt h1)), if_pos h1]
          constructor
          · rintro ⟨h2, _⟩; exact absurd h2 (by decide)
          · intro h2
            rw [List.cons.injEq] at h2
            rw [h2.1] at h1
            exact absurd h1 (lt_irrefl _)
        · by_cases h2 : q < p
          · rw [if_neg h1, if_pos h2, if_pos h2]
            constructor
            · rintro ⟨_, h3⟩; exact absurd h3 (by decide)
            · intro h3
              rw [List.cons.injEq] at h3
              rw [h3.1] at h2
              exact absurd h2 (lt_irrefl _)
          · rw [if_neg h1, if_neg h2, if_neg h2, if_neg h1]
            have hpq : p = q := le_antisymm (not_lt.1 h2) (not_lt.1 h1)
            rw [ih qs (by simpa using hy), List.cons.injEq]
            exact ⟨fun h3 => ⟨hpq, h3⟩, fun h3 => h3.2⟩
  unfold VertexInfo.lt
  rw [key a.positions b.positions h]
  constructor
  · intro h1
    cases a
    cases b
    simp only at h1
    rw [h1]
  · intro h1
    rw [h1]

/-- Claim C20 (the order of `VertexInfo`): what the code does on a proper
prefix.  For every position list `a` and every longer list `a ++ x :: rest`
that starts with it, `a` is lexicographically smaller, yet `operator<` returns
false for `a < a ++ x :: rest`, and for `a ++ x :: rest < a` it reads
`right_positions` past its end. -/
theorem vertexinfo_lt_shorter (a : List pos_t) (x : pos_t) (rest : List pos_t) :
    List.Lex (fun p q => p < q) a (a ++ x :: rest) ∧
    VertexInfo.lt { positions := a } { positions := a ++ x :: rest } = some false ∧
    VertexInfo.lt { positions := a ++ x :: rest } { positions := a } = none := by
  unfold VertexInfo.lt
  dsimp only
  induction a with
  | nil => exact ⟨List.Lex.nil, rfl, rfl⟩
  | cons y ys ih =>
    obtain ⟨h1, h2, h3⟩ := ih
    refine ⟨List.Lex.cons h1, ?_, ?_⟩
    · rw [List.cons_append, VertexInfo.lt_loop, if_neg (lt_irrefl y), if_neg (lt_irrefl y)]
      exact h2
    · rw [List.cons_append, VertexInfo.lt_loop, if_neg (lt_irrefl y), if_neg (lt_irrefl y)]
      exact h3

end VertexOrder

section ScoreOrder

/-- Claim C21 (score comparison is a strict total lexicographic order).  For
all scores `a`, `b`, `c`: exactly one of `a.better_than(b)`,
`b.better_than(a)`, `a.equals(b)` holds; `better_than` is transitive; and
`a.better_than(b)` holds exactly when `(a.coverage, a.largest, a.num)` is
lexicographically greater than `(b.coverage, b.largest, b.num)`. -/
theorem score_order (a b c : Score) :
    ((a.better_than b = true ∧ b.better_than a = false ∧ a.equals b = false) ∨
      (a.better_than b = false ∧ b.better_than a = true ∧ a.equals b = false) ∨
      (a.better_than b = false ∧ b.better_than a = false ∧ a.equals b = true)) ∧
    (a.better_than b = true → b.better_than c = true → a.better_than c = true) ∧
    (a.better_than b = true ↔
      (b.coverage < a.coverage ∨ (b.coverage = a.coverage ∧
        (b.largest < a.largest ∨ (b.largest = a.largest ∧ b.num < a.num))))) ∧
    (a.better_than b = true ↔ b.key < a.key) := by
  have hlex : ∀ x y : Score, x.better_than y = true ↔
      (y.coverage < x.coverage ∨ (y.coverage = x.coverage ∧
        (y.largest < x.largest ∨ (y.largest = x.largest ∧ y.num < x.num)))) := by
    intro x y
    unfold Score.better_than
    split_ifs <;> simp <;> omega
  have heq : ∀ x y : Score, x.equals y = true ↔
      (x.coverage = y.coverage ∧ x.largest = y.largest ∧ x.num = y.num) := by
    intro x y
    rw [equals_iff]
    cases x; cases y
    simp
  have hb : ∀ x : Bool, x = false ↔ ¬ x = true := by
    intro x; cases x <;> simp
  refine ⟨?_, ?_, hlex a b, better_than_iff a b⟩
  · rw [hb (b.better_than a), hb (a.equals b), hb (a.better_than b), hlex a b, hlex b a, heq a b]
    omega
  · rw [hlex a b, hlex b c, hlex a c]
    omega

end ScoreOrder

section ColorSets

theorem foldl_addNew_eq (ts : List (Nat × Nat × Nat)) : ∀ acc : List (Nat × Nat × Nat),
    ts.foldl addNew acc = acc ++ (keep_first ts).filter (fun y => decide (y ∉ acc)) := by
  induction ts with
  | nil => intro acc; simp [keep_first]
  | cons x xs ih =>
    intro acc
    rw [List.foldl_cons, ih, keep_first]
    unfold addNew
    by_cases hx : x ∈ acc
    · rw [if_pos hx, List.filter_cons, if_neg (by simpa using hx), List.filter_filter]
      congr 1
      apply List.filter_congr
      intro y _
      by_cases hy : y ∈ acc
      · simp [hy]
      · have : y ≠ x := fun h => hy (h ▸ hx)
        simp [hy, this]
    · rw [if_neg hx, List.filter_cons, if_pos (by simpa using hx), List.filter_filter,
        List.append_assoc, List.singleton_append]
      congr 2
      apply List.filter_congr
      intro y _
      by_cases hy : y ∈ acc
      · simp [hy]
      · by_cases hyx : y = x
        · simp [hyx]
        · simp [hy, hyx]

theorem keep_first_spec (ts : List (Nat × Nat × Nat)) :
    (keep_first ts).Nodup ∧ ∀ t, t ∈ keep_first ts ↔ t ∈ ts := by
  induction ts with
  | nil => simp [keep_first]
  | cons x xs ih =>
    obtain ⟨h1, h2⟩ := ih
    rw [keep_first]
    constructor
    · rw [List.nodup_cons]
      refine ⟨?_, h1.filter _⟩
      intro h
      have := (List.mem_filter.1 h).2
      simp at this
    · intro t
      rw [List.mem_cons, List.mem_cons, List.mem_filter, h2]
      by_cases ht : t = x
      · simp [ht]
      · simp [ht]

/-- Claim C22 (ColorSet deduplicates and keeps insertion order).  For every
sequence `ts` of arguments of `ColorSet::add` on an empty ColorSet: the stored
triples are `ts` with every repeated triple dropped after its first
occurrence; no triple is stored twice; the stored triples are the triples of
`ts`; adding a stored triple changes nothing; and the three vectors have one
length. -/
theorem colorset_dedup (ts : List (Nat × Nat × Nat)) :
    (ColorSet.empty.addAll ts).triples = keep_first ts ∧
    (ColorSet.empty.addAll ts).triples.Nodup ∧
    (∀ t, t ∈ (ColorSet.empty.addAll ts).triples ↔ t ∈ ts) ∧
    (∀ t, t ∈ ts → (ColorSet.empty.addAll ts).add t.1 t.2.1 t.2.2 = ColorSet.empty.addAll ts) ∧
    ((ColorSet.empty.addAll ts).is.length = (ColorSet.empty.addAll ts).nts.length ∧
      (ColorSet.empty.addAll ts).ls.length = (ColorSet.empty.addAll ts).nts.length) := by
  obtain ⟨h1, h2⟩ := addAll_spec ColorSet.empty par_empty ts
  have h3 : (ColorSet.empty.addAll ts).triples = keep_first ts := by
    rw [h2, triples_empty, foldl_addNew_eq]
    simp
  obtain ⟨k1, k2⟩ := keep_first_spec ts
  refine ⟨h3, by rw [h3]; exact k1, fun t => by rw [h3]; exact k2 t, fun t ht => ?_, h1⟩
  unfold ColorSet.add
  rw [if_pos]
  rw [found_iff_mem, h3, k2]
  exact ht

end ColorSets

section Compress

theorem set_insert_sorted (x : sym_t) (l : List sym_t) (h : l.Sorted (fun a b => a < b)) :
    (set_insert int_lt x l).Sorted (fun a b => a < b) := by
  induction l with
  | nil => exact List.sorted_singleton x
  | cons y ys ih =>
    rw [List.sorted_cons] at h
    unfold set_insert
    by_cases h1 : int_lt x y = true
    · rw [if_pos h1]
      have hxy : x < y := by simpa [int_lt] using h1
      rw [List.sorted_cons]
      refine ⟨fun b hb => ?_, List.sorted_cons.2 h⟩
      rcases List.mem_cons.1 hb with rfl | hb2
      · exact hxy
      · exact lt_trans hxy (h.1 b hb2)
    · rw [if_neg h1]
      by_cases h2 : int_lt y x = true
      · rw [if_pos h2]
        have hyx : y < x := by simpa [int_lt] using h2
        rw [List.sorted_cons]
        refine ⟨fun b hb => ?_, ih h.2⟩
        rcases (mem_set_insert int_lt int_lt_total x b ys).1 hb with rfl | hb2
        · exact hyx
        · exact h.1 b hb2
      · rw [if_neg h2]
        exact List.sorted_cons.2 h

theorem fold_insert_spec (syms : List sym_t) : ∀ st : List sym_t,
    st.Sorted (fun a b => a < b) →
    (syms.foldl (fun st x => set_insert int_lt x st) st).Sorted (fun a b => a < b) ∧
    ∀ x, x ∈ syms.foldl (fun st x => set_insert int_lt x st) st ↔ (x ∈ st ∨ x ∈ syms) := by
  induction syms with
  | nil => intro st h; exact ⟨h, fun x => by simp⟩
  | cons y ys ih =>
    intro st h
    rw [List.foldl_cons]
    obtain ⟨h1, h2⟩ := ih (set_insert int_lt y st) (set_insert_sorted y st h)
    refine ⟨h1, fun x => ?_⟩
    rw [h2, mem_set_insert int_lt int_lt_total, List.mem_cons]
    tauto

theorem getD_set_staging (st : List (List sym_t)) (j i : Nat) (a : List sym_t)
    (hj : j < st.length) :
    (st.set j a).getD i [] = if i = j then a else st.getD i [] := by
  rw [List.getD_eq_getElem?_getD, List.getD_eq_getElem?_getD, List.getElem?_set]
  by_cases h : j = i
  · subst h
    simp [hj]
  · rw [if_neg h, if_neg (fun hc => h hc.symm)]

/-- What the inner loop of `compress` does with one path. -/
theorem staging_path_spec (path : List (List sym_t)) :
    ∀ (staging : List (List sym_t)) (j : Nat), j + path.length ≤ staging.length →
      (∀ i, (staging.getD i []).Sorted (fun a b => a < b)) →
      ∃ st, staging_path staging j path = some st ∧ st.length = staging.length ∧
        (∀ i, (st.getD i []).Sorted (fun a b => a < b)) ∧
        ∀ i x, x ∈ st.getD i [] ↔ (x ∈ staging.getD i [] ∨ (j ≤ i ∧ x ∈ path.getD (i - j) [])) := by
  induction path with
  | nil =>
    intro staging j _ hs
    exact ⟨staging, rfl, rfl, hs, fun i x => by simp⟩
  | cons syms rest ih =>
    intro staging j hj hs
    rw [List.length_cons] at hj
    have hlt : j < staging.length := by omega
    rw [staging_path]
    unfold staging_insert
    rw [if_pos hlt]
    dsimp only
    obtain ⟨f1, f2⟩ := fold_insert_spec syms (staging.getD j []) (hs j)
    obtain ⟨st, h1, h2, h3, h4⟩ := ih
      (staging.set j (syms.foldl (fun st x => set_insert int_lt x st) (staging.getD j [])))
      (j + 1) (by rw [List.length_set]; omega)
      (fun i => by
        rw [getD_set_staging _ _ _ _ hlt]
        split_ifs
        · exact f1
        · exact hs i)
    refine ⟨st, h1, by rw [h2, List.length_set], h3, fun i x => ?_⟩
    rw [h4, getD_set_staging _ _ _ _ hlt]
    by_cases hij : i = j
    · subst hij
      rw [if_pos rfl, f2]
      simp
    · rw [if_neg hij]
      by_cases hle : j + 1 ≤ i
      · have e : i - j = (i - (j + 1)) + 1 := by omega
        rw [e, List.getD_cons_succ]
        constructor
        · rintro (h | ⟨_, h⟩)
          · exact Or.inl h
          · exact Or.inr ⟨by omega, h⟩
        · rintro (h | ⟨_, h⟩)
          · exact Or.inl h
          · exact Or.inr ⟨hle, h⟩
      · constructor
        · rintro (h | ⟨h5, _⟩)
          · exact Or.inl h
          · omega
        · rintro (h | ⟨h5, _⟩)
          · exact Or.inl h
          · omega

/-- What the outer loop of `compress` does with the paths. -/
theorem staging_paths_spec (paths : List (List (List sym_t))) :
    ∀ (staging : List (List sym_t)), (∀ q ∈ paths, q.length ≤ staging.length) →
      (∀ i, (staging.getD i []).Sorted (fun a b => a < b)) →
      ∃ st, staging_paths staging paths = some st ∧ st.length = staging.length ∧
        (∀ i, (st.getD i []).Sorted (fun a b => a < b)) ∧
        ∀ i x, x ∈ st.getD i [] ↔ (x ∈ staging.getD i [] ∨ ∃ q ∈ paths, x ∈ q.getD i []) := by
  induction paths with
  | nil =>
    intro staging _ hs
    exact ⟨staging, rfl, rfl, hs, fun i x => by simp⟩
  | cons q rest ih =>
    intro staging hl hs
    obtain ⟨st1, a1, a2, a3, a4⟩ := staging_path_spec q staging 0
      (by rw [Nat.zero_add]; exact hl q (List.mem_cons_self _ _)) hs
    obtain ⟨st, b1, b2, b3, b4⟩ := ih st1
      (fun r hr => by rw [a2]; exact hl r (List.mem_cons_of_mem _ hr)) a3
    rw [staging_paths, a1]
    dsimp only
    refine ⟨st, b1, by rw [b2, a2], b3, fun i x => ?_⟩
    rw [b4, a4]
    simp only [Nat.zero_le, true_and, Nat.sub_zero, List.mem_cons, exists_eq_or_imp]
    tauto

/-- A built Solution without paths has no compressed path. -/
theorem built_inv_solution (sol : Solution) (hb : sol.Built) :
    sol.paths = [] → sol.compressed_path = [] := by
  induction hb with
  | fresh => intro _; rfl
  | push sol raw path _ _ =>
    intro h
    exact absurd h (by simp)
  | compress sol s2 _ hc ih =>
    intro h
    unfold Solution.compress at hc
    cases hp : sol.paths with
    | nil =>
      rw [hp] at hc
      simp only [Option.some.injEq] at hc
      rw [← hc]
      exact ih hp
    | cons first rest =>
      rw [hp] at hc
      dsimp only at hc
      cases hs : staging_paths (first.map (fun _ => [])) (first :: rest) with
      | none => rw [hs] at hc; exact absurd hc (by simp)
      | some st =>
        rw [hs] at hc
        simp only [Option.some.injEq] at hc
        rw [← hc] at h
        exact absurd h (List.cons_ne_nil first rest)

/-- Claim C23 (`Solution::compress`).  For every Solution whose paths all have
the length `n`: `compress()` returns and leaves `raws` and `paths` alone; when
there is a path, `compressed_path` has length `n` and, for every `j < n`, its
entry `j` is strictly ascending and holds exactly the symbols that occur in
entry `j` of some path; when there is no path, `compressed_path` is left as it
is, which is empty for every Solution that the constructor, the pushes of
`solve_shortest` and `compress` have produced. -/
theorem compress_spec (sol : Solution) (n : Nat) (h : ∀ q ∈ sol.paths, q.length = n) :
    ∃ s2, sol.compress = some s2 ∧ s2.raws = sol.raws ∧ s2.paths = sol.paths ∧
      (sol.paths ≠ [] → s2.compressed_path.length = n ∧
        ∀ j, j < n → (s2.compressed_path.getD j []).Sorted (fun a b => a < b) ∧
          ∀ x, x ∈ s2.compressed_path.getD j [] ↔ ∃ q ∈ sol.paths, x ∈ q.getD j []) ∧
      (sol.paths = [] → s2.compressed_path = sol.compressed_path) ∧
      (sol.Built → sol.paths = [] → s2.compressed_path = []) := by
  unfold Solution.compress
  cases hp : sol.paths with
  | nil =>
    refine ⟨sol, rfl, rfl, hp, fun hne => absurd rfl hne, fun _ => rfl, fun hb _ => ?_⟩
    exact built_inv_solution sol hb hp
  | cons first rest =>
    dsimp only
    have hfirst : first.length = n := h first (by rw [hp]; exact List.mem_cons_self _ _)
    have hnil : ∀ i, (first.map (fun _ => ([] : List sym_t))).getD i [] = [] := by
      intro i
      rw [List.getD_eq_getElem?_getD, List.getElem?_map]
      cases first[i]? <;> rfl
    obtain ⟨st, a1, a2, a3, a4⟩ := staging_paths_spec (first :: rest)
      (first.map (fun _ => []))
      (fun q hq => by rw [List.length_map, h q (by rw [hp]; exact hq), hfirst])
      (fun i => by rw [hnil]; exact List.sorted_nil)
    rw [a1]
    refine ⟨_, rfl, rfl, rfl, fun _ => ⟨?_, fun j _ => ⟨a3 j, fun x => ?_⟩⟩,
      fun hc => absurd hc (by simp), fun _ hc => absurd hc (by simp)⟩
    · show st.length = n
      rw [a2, List.length_map, hfirst]
    · show x ∈ st.getD j [] ↔ _
      rw [a4, hnil]
      simp

/-- C23 at a Solution with the paths `[3, 1], [5]` and `[2, 3], [4, 5]`:
`compress()` gives `[1, 2, 3], [4, 5]`. -/
theorem compress_spec_witness :
    ∃ s2, two_path_solution.compress = some s2 ∧ s2.compressed_path = [[1, 2, 3], [4, 5]] ∧
      s2.compressed_path.length = 2 := by
  obtain ⟨s2, h1, _, _, h4, _⟩ := compress_spec two_path_solution 2 (by decide)
  refine ⟨s2, h1, ?_, (h4 (by decide)).1⟩
  have h5 : two_path_solution.compress
      = some { raws := [], paths := [[[3, 1], [5]], [[2, 3], [4, 5]]],
               compressed_path := [[1, 2, 3], [4, 5]] } := by decide
  rw [h5] at h1
  rw [← Option.some.inj h1]

end Compress

section Alignment

theorem extend_paths_some (g : Graph) (u : Nat) (paths : List (List Nat)) :
    ∀ (st r : List (List Nat) × Bool), extend_paths g u paths st = some r →
      ∀ path ∈ paths, ∃ n rest, path = n :: rest ∧ n < g.verts.length := by
  induction paths with
  | nil => intro st r _ path hp; exact absurd hp (List.not_mem_nil _)
  | cons q qs ih =>
    intro st r h path hp
    cases q with
    | nil =>
      rw [extend_paths] at h
      exact absurd h (by simp)
    | cons n tl =>
      rw [extend_paths] at h
      by_cases hn : n < g.num_vertices
      · rw [if_pos hn] at h
        rcases List.mem_cons.1 hp with rfl | hp2
        · exact ⟨n, tl, rfl, hn⟩
        · exact ih _ r h path hp2
      · rw [if_neg hn] at h
        exact absurd h (by simp)

/-- One call of `shortest_paths_iterate` on walks with `t` edges that end at
`v` returns these (none) or walks with `t + 1` edges that end at `v`. -/
theorem iterate_walks (g : Graph) (u v t : Nat) (paths : List (List Nat)) (b : Bool)
    (hp : ∀ w ∈ paths, w.length = t + 1 ∧ g.Walk v w) (r : List (List Nat) × Bool)
    (h : shortest_paths_iterate g u paths b = some r) :
    r.1 = [] ∨ ∀ w ∈ r.1, w.length = t + 1 + 1 ∧ g.Walk v w := by
  unfold shortest_paths_iterate at h
  cases hpe : paths with
  | nil =>
    rw [hpe] at h
    simp only [List.isEmpty_nil, if_true, Option.some.injEq] at h
    rw [← h]
    exact Or.inl rfl
  | cons q qs =>
    right
    have hem : paths.isEmpty = false := by rw [hpe]; rfl
    rw [hem] at h
    simp only [Bool.false_eq_true, if_false] at h
    cases he : extend_paths g u paths ([], b) with
    | none => rw [he] at h; exact absurd h (by simp)
    | some r1 =>
      have hrange := extend_paths_some g u paths _ r1 he
      rw [extend_paths_eq g u paths _ hrange] at he
      rw [extend_paths_eq g u paths _ hrange] at h
      dsimp only at h
      have hext : ∀ w ∈ extended g paths, w.length = t + 1 + 1 ∧ g.Walk v w := by
        intro w hw
        obtain ⟨a, n, rest, rfl, h1, h2⟩ := (mem_extended g paths w).1 hw
        obtain ⟨h3, h4⟩ := hp _ h1
        refine ⟨?_, h2, h4⟩
        rw [List.length_cons, h3]
      intro w hw
      split_ifs at h
      · simp only [Option.some.injEq] at h
        rw [← h] at hw
        exact hext w (List.mem_of_mem_filter hw)
      · simp only [Option.some.injEq] at h
        rw [← h] at hw
        exact hext w (by simpa using hw)

/-- Every path that the loop of `shortest_paths` returns is a walk that ends
at `v`, and all returned paths have one length. -/
theorem loop_walks (g : Graph) (u v : Nat) : ∀ (limit t : Nat) (paths r : List (List Nat)),
    (∀ w ∈ paths, w.length = t + 1 ∧ g.Walk v w) →
    shortest_paths_loop g u limit paths = some r →
    ∃ t2, ∀ w ∈ r, w.length = t2 + 1 ∧ g.Walk v w := by
  intro limit
  induction limit with
  | zero =>
    intro t paths r hp h
    rw [shortest_paths_loop] at h
    cases hi : shortest_paths_iterate g u paths false with
    | none => rw [hi] at h; exact absurd h (by simp)
    | some r1 =>
      rw [hi] at h
      dsimp only at h
      have hr : r = r1.1 := by
        split_ifs at h <;> exact (Option.some.inj h).symm
      rw [hr]
      rcases iterate_walks g u v t paths false hp r1 hi with h1 | h1
      · rw [h1]
        exact ⟨0, fun w hw => absurd hw (List.not_mem_nil _)⟩
      · exact ⟨t + 1, h1⟩
  | succ limit ih =>
    intro t paths r hp h
    rw [shortest_paths_loop] at h
    cases hi : shortest_paths_iterate g u paths false with
    | none => rw [hi] at h; exact absurd h (by simp)
    | some r1 =>
      rw [hi] at h
      dsimp only at h
      rcases iterate_walks g u v t paths false hp r1 hi with h1 | h1
      · have hr : r = r1.1 := by
          rw [h1] at h
          split_ifs at h with h2 h3
          · rw [h1]; exact (Option.some.inj h).symm
          · rw [h1]; exact (Option.some.inj h).symm
          · exact absurd rfl h3
        rw [hr, h1]
        exact ⟨0, fun w hw => absurd hw (List.not_mem_nil _)⟩
      · split_ifs at h with h2 h3
        · rw [← Option.some.inj h]; exact ⟨t + 1, h1⟩
        · rw [← Option.some.inj h]; exact ⟨t + 1, h1⟩
        · exact ih (t + 1) r1.1 r h1 h

/-- The symbol path of a walk: entry `j` is the symbol list of the edge from
vertex `j` to vertex `j + 1` of the walk. -/
theorem path_solution_spec (g : Graph) (v : Nat) (rest : List Nat) :
    ∀ x j, g.Walk v (x :: rest) → j < rest.length →
      ∃ e ∈ g.edges, e.src = (x :: rest).getD j 0 ∧ e.tgt = (x :: rest).getD (j + 1) 0 ∧
        g.lookup_edge ((x :: rest).getD j 0) ((x :: rest).getD (j + 1) 0) = some e ∧
        (path_solution g (x :: rest)).getD j [] = e.info.syms := by
  induction rest with
  | nil => intro x j _ hj; exact absurd hj (Nat.not_lt_zero _)
  | cons y ys ih =>
    intro x j hw hj
    have h1 : g.HasEdge x y ∧ g.Walk v (y :: ys) := hw
    rw [path_solution]
    cases hl : g.lookup_edge x y with
    | none => exact absurd h1.1 (lookup_edge_none g x y hl)
    | some e =>
      dsimp only
      obtain ⟨e1, e2, e3⟩ := lookup_edge_some g x y e hl
      cases j with
      | zero => exact ⟨e, e1, e2, e3, hl, rfl⟩
      | succ j1 =>
        rw [List.length_cons] at hj
        obtain ⟨e4, k1, k2, k3, k4, k5⟩ := ih y j1 h1.2 (by omega)
        exact ⟨e4, k1, k2, k3, k4, k5⟩

/-- Claim C24 (symbol paths are aligned with raw paths).  For every
well-formed state, when `solve_shortest` on a fresh Solution returns: there are
vertex paths `ws` such that `raws` lists their position lists and `paths` their
symbol paths, in the same order and number; each symbol path has one entry less
than its vertex path, entry `j` being the symbol list of the edge of the
state's graph from vertex `j` to vertex `j + 1` of the path, which
`lookup_edge` finds; and all symbol paths have one length. -/
theorem paths_aligned (cs : ConstraintState) (hw : cs.WF) (sol : Solution)
    (h : cs.solve_shortest Solution.fresh = some sol) :
    ∃ ws : List (List Nat),
      sol.raws = ws.map (fun w => w.map (fun x => (cs.table.vinfo x).positions)) ∧
      sol.paths = ws.map (path_solution cs.table) ∧
      sol.raws.length = sol.paths.length ∧
      (∀ w ∈ ws, (path_solution cs.table w).length + 1 = w.length ∧
        ∀ j, j + 1 < w.length →
          ∃ e ∈ cs.table.edges, e.src = w.getD j 0 ∧ e.tgt = w.getD (j + 1) 0 ∧
            cs.table.lookup_edge (w.getD j 0) (w.getD (j + 1) 0) = some e ∧
            (path_solution cs.table w).getD j [] = e.info.syms) ∧
      (∀ w1 ∈ ws, ∀ w2 ∈ ws,
        (path_solution cs.table w1).length = (path_solution cs.table w2).length) := by
  have hfresh : sol = Solution.fresh →
      ∃ ws : List (List Nat),
        sol.raws = ws.map (fun w => w.map (fun x => (cs.table.vinfo x).positions)) ∧
        sol.paths = ws.map (path_solution cs.table) ∧
        sol.raws.length = sol.paths.length ∧
        (∀ w ∈ ws, (path_solution cs.table w).length + 1 = w.length ∧
          ∀ j, j + 1 < w.length →
            ∃ e ∈ cs.table.edges, e.src = w.getD j 0 ∧ e.tgt = w.getD (j + 1) 0 ∧
              cs.table.lookup_edge (w.getD j 0) (w.getD (j + 1) 0) = some e ∧
              (path_solution cs.table w).getD j [] = e.info.syms) ∧
        (∀ w1 ∈ ws, ∀ w2 ∈ ws,
          (path_solution cs.table w1).length = (path_solution cs.table w2).length) := by
    intro hs
    rw [hs]
    exact ⟨[], rfl, rfl, rfl, fun w hw => absurd hw (List.not_mem_nil _),
      fun w hw => absurd hw (List.not_mem_nil _)⟩
  unfold ConstraintState.solve_shortest at h
  dsimp only at h
  split_ifs at h with h1 h2
  · exact hfresh (Option.some.inj h).symm
  · exact hfresh (Option.some.inj h).symm
  · -- both nodes are keys and the guard on `preds` has passed
    have hsu : cs.has_vertex cs.start_node = true := by
      cases hc : cs.has_vertex cs.start_node
      · rw [hc] at h1; exact absurd rfl h1
      · rfl
    obtain ⟨u, hu⟩ := Option.isSome_iff_exists.1 hsu
    have e3 : cs.vertex_of cs.start_node = u := by
      unfold ConstraintState.vertex_of; rw [hu]; rfl
    rw [e3] at h h2
    have hul : u < cs.table.verts.length := (hw.map_range _ _ hu).1
    have hdesc : has_vertex_descriptor (cs.vertex_of cs.end_node)
        (breadth_first_search cs.table u).p = true := by
      cases hc : has_vertex_descriptor (cs.vertex_of cs.end_node)
          (breadth_first_search cs.table u).p
      · rw [hc] at h2; exact absurd rfl h2
      · rfl
    obtain ⟨c1, _, _, _⟩ := double_bfs_spec cs.table hw.graph u _ hul hdesc
    cases hs : shortest_paths
        (breadth_first_search (breadth_first_search cs.table u).p (cs.vertex_of cs.end_node)).p
        u (cs.vertex_of cs.end_node) with
    | none => rw [hs] at h; exact absurd h (by simp)
    | some paths =>
      rw [hs] at h
      dsimp only at h
      rw [fold_solution] at h
      obtain ⟨t2, ht2⟩ := loop_walks _ u (cs.vertex_of cs.end_node) 100 0
        [[cs.vertex_of cs.end_node]] paths
        (fun w hw => by
          rw [List.mem_singleton] at hw
          rw [hw]
          exact ⟨rfl, rfl⟩) hs
      have hwalk : ∀ w ∈ paths, w.length = t2 + 1 ∧
          cs.table.Walk (cs.vertex_of cs.end_node) w := by
        intro w hw1
        obtain ⟨g1, g2⟩ := ht2 w hw1
        refine ⟨g1, ?_⟩
        cases w with
        | nil => simp at g1
        | cons x r => exact walk_mono _ cs.table _ (fun p q hh => ((c1 p q).1 hh).2.1) r x g2
      have hlen : ∀ w ∈ paths, (path_solution cs.table w).length = t2 := by
        intro w hw1
        obtain ⟨g1, g2⟩ := hwalk w hw1
        cases w with
        | nil => simp at g1
        | cons x r =>
          rw [path_solution_length cs.table _ r x g2]
          rw [List.length_cons] at g1
          omega
      obtain ⟨s2, k1, k2, k3⟩ := compress_ok
        { raws := Solution.fresh.raws
            ++ paths.map (fun path => path.map (fun x => (cs.table.vinfo x).positions)),
          paths := Solution.fresh.paths ++ paths.map (path_solution cs.table),
          compressed_path := Solution.fresh.compressed_path } t2
        (fun q hq => by
          have hq2 : q ∈ paths.map (path_solution cs.table) := hq
          rw [List.mem_map] at hq2
          obtain ⟨w, hw1, rfl⟩ := hq2
          exact hlen w hw1)
      have hs2 : s2 = sol := Option.some.inj (k1.symm.trans h)
      rw [hs2] at k2 k3
      have k4 : sol.raws = paths.map (fun w => w.map (fun x => (cs.table.vinfo x).positions)) := k2
      have k5 : sol.paths = paths.map (path_solution cs.table) := k3
      refine ⟨paths, k4, k5, by rw [k4, k5, List.length_map, List.length_map],
        fun w hw1 => ?_, fun w1 hw1 w2 hw2 => by rw [hlen w1 hw1, hlen w2 hw2]⟩
      obtain ⟨g1, g2⟩ := hwalk w hw1
      cases w with
      | nil => simp at g1
      | cons x r =>
        refine ⟨by rw [path_solution_length cs.table _ r x g2, List.length_cons], fun j hj => ?_⟩
        rw [List.length_cons] at hj
        exact path_solution_spec cs.table _ r x j g2 (by omega)

/-- C24 at scenario 6 without the unit pass: one raw path `[0], [1]` and one
symbol path `[5]`, the label of the edge from vertex 0 to vertex 1. -/
theorem paths_aligned_witness :
    unit_terminal_state.solve_shortest Solution.fresh
      = some { raws := [[[0], [1]]], paths := [[[5]]], compressed_path := [[5]] } ∧
    ∃ ws : List (List Nat),
      ({ raws := [[[0], [1]]], paths := [[[5]]], compressed_path := [[5]] } : Solution).paths
        = ws.map (path_solution unit_terminal_state.table) ∧
      ∀ w ∈ ws, (path_solution unit_terminal_state.table w).length + 1 = w.length := by
  refine ⟨by decide, ?_⟩
  obtain ⟨ws, _, h2, _, h4, _⟩ := paths_aligned unit_terminal_state unit_terminal_state_wf
    { raws := [[[0], [1]]], paths := [[[5]]], compressed_path := [[5]] } (by decide)
  exact ⟨ws, h2, fun w hw1 => (h4 w hw1).1⟩

end Alignment

section Commutativity

set_option maxRecDepth 100000 in
/-- Claim C25 (weak commutativity of intersection) at a failing input: the
diamond graph with the vertex order `[0], [2], [1], [3]` and the same graph
with the order `[0], [1], [2], [3]`, all labels `[7]`.  Both calls return the
edges `[0,0] -> [1,1]`, `[0,0] -> [2,2]`, `[1,1] -> [2,2]`, `[2,2] -> [3,3]`,
but the edge `[2,2] -> [3,3]` carries `[7, 7]` after
`intersect(c1, c2, d)` and `[7]` after `intersect(c2, c1, d')`. -/
theorem intersect_order_dependent :
    (intersect 50 diamond_state natural_diamond ConstraintState.fresh).map
        ConstraintState.get_edges
      = some ([[0, 0], [0, 0], [2, 2], [1, 1]], [[2, 2], [1, 1], [3, 3], [2, 2]],
          [[7], [7], [7, 7], [7]]) ∧
    (intersect 50 natural_diamond diamond_state ConstraintState.fresh).map
        ConstraintState.get_edges
      = some ([[0, 0], [0, 0], [1, 1], [2, 2]], [[1, 1], [2, 2], [2, 2], [3, 3]],
          [[7], [7], [7], [7]]) := by
  decide

end Commutativity

section Repruning

/-- The vertex property read in two graphs with one vertex vector. -/
theorem vinfo_congr (g1 g2 : Graph) (h : g1.verts = g2.verts) (x : Nat) :
    g1.vinfo x = g2.vinfo x := by
  unfold Graph.vinfo
  rw [h]

/-- Pruning a well-formed state whose map addresses every vertex leaves a
well-formed state. -/
theorem prune_wf (cs : ConstraintState) (hw : cs.WF) (ht : cs.Total) (d : ConstraintState)
    (h : cs.remove_non_solution_nodes = some d) : d.WF := by
  obtain ⟨d1, a1, _, _, a4, a5, a6⟩ := prune_spec cs hw ht
  have hd : d1 = d := Option.some.inj (a1.symm.trans h)
  rw [hd] at a4 a5 a6
  have hkeys : (d.vertex_map.map Prod.fst).Nodup := by
    unfold ConstraintState.remove_non_solution_nodes Graph.vertices at h
    dsimp only at h
    rw [non_path_nodes_eq] at h
    obtain ⟨d2, b1, _, _, _, b5, _⟩ := remove_nodes_spec
      ((List.range cs.table.verts.length).filter
        (fun v => decide (v ∉ cs.compute_all_path_nodes []))) cs hw.keys_nodup
      (fun k x hh => (hw.map_range k x hh).2) ((List.nodup_range _).filter _)
      (fun v hv => ht v (List.mem_range.1 (List.mem_of_mem_filter hv)))
    rw [← Option.some.inj (b1.symm.trans h)]
    exact b5
  have hsub : ∀ e ∈ d.table.edges, e ∈ cs.table.edges ∧
      e.src ∈ cs.compute_all_path_nodes [] ∧ e.tgt ∈ cs.compute_all_path_nodes [] := by
    intro e he
    rw [a6, List.mem_filter] at he
    exact ⟨he.1, by simpa using he.2⟩
  refine ⟨⟨fun e he => ?_, fun e he => ?_, ?_⟩, fun k x hk => ?_, hkeys, fun e he => ?_⟩
  · rw [a4]; exact hw.graph.src_lt e (hsub e he).1
  · rw [a4]; exact hw.graph.tgt_lt e (hsub e he).1
  · rw [a6]; exact hw.graph.no_parallel.filter _
  · obtain ⟨h1, _⟩ := (a5 k x).1 hk
    rw [a4, vinfo_congr d.table cs.table a4]
    exact hw.map_range k x h1
  · obtain ⟨h1, h2, h3⟩ := hsub e he
    obtain ⟨l1, l2⟩ := hw.live e h1
    rw [vinfo_congr d.table cs.table a4, vinfo_congr d.table cs.table a4, a5, a5]
    exact ⟨⟨l1, h2⟩, ⟨l2, h3⟩⟩

/-- The pruned state has the path nodes of the state. -/
theorem prune_path_nodes (cs : ConstraintState) (hw : cs.WF) (ht : cs.Total)
    (d : ConstraintState) (h : cs.remove_non_solution_nodes = some d) (x : Nat) :
    x ∈ d.compute_all_path_nodes [] ↔ x ∈ cs.compute_all_path_nodes [] := by
  obtain ⟨d1, a1, _, _, hedge, _, hB⟩ := prune_on_walk cs hw ht
  have hd : d1 = d := Option.some.inj (a1.symm.trans h)
  rw [hd] at hedge hB
  rw [path_nodes_spec d (prune_wf cs hw ht d h), path_nodes_spec cs hw]
  constructor
  · rintro ⟨u, v, _, _, a, b, hab, hx⟩
    obtain ⟨u1, v1, g1, g2, g3⟩ := (hedge a b).1 hab.2.1
    exact ⟨u1, v1, g1, g2, a, b, g3, hx⟩
  · rintro ⟨u, v, hu, hv, a, b, hab, hx⟩
    obtain ⟨u1, v1, g1, g2, g3⟩ := hB a b ((hedge a b).2 ⟨u, v, hu, hv, hab⟩)
    exact ⟨u1, v1, g1, g2, a, b, g3, hx⟩

/-- Claim C26 (pruning idempotence): what the second application does.  For
every well-formed state whose map addresses every vertex, the first
`remove_non_solution_nodes` returns a state `d`.  When every vertex is a path
node, `d` is the state itself and the second application returns `d` again.
When some vertex is not a path node, the second application looks up the key
of a vertex that the first one has removed from the vertex map and erases
`end()`: it is undefined. -/
theorem reprune (cs : ConstraintState) (hw : cs.WF) (ht : cs.Total) :
    ∃ d, cs.remove_non_solution_nodes = some d ∧
      ((∀ x, x < cs.table.verts.length → x ∈ cs.compute_all_path_nodes []) →
        d = cs ∧ d.remove_non_solution_nodes = some d) ∧
      (∀ x, x < cs.table.verts.length → x ∉ cs.compute_all_path_nodes [] →
        d.remove_non_solution_nodes = none) := by
  obtain ⟨d, a1, _, _, a4, a5, _⟩ := prune_spec cs hw ht
  refine ⟨d, a1, fun hall => ?_, fun x hx hnot => ?_⟩
  · have hcs : cs.remove_non_solution_nodes = some cs := by
      unfold ConstraintState.remove_non_solution_nodes Graph.vertices
      dsimp only
      rw [non_path_nodes_eq]
      have hnil : (List.range cs.table.verts.length).filter
          (fun v => decide (v ∉ cs.compute_all_path_nodes [])) = [] := by
        rw [List.filter_eq_nil_iff]
        intro v hv
        simpa using hall v (List.mem_range.1 hv)
      rw [hnil]
      rfl
    have hd : d = cs := Option.some.inj (a1.symm.trans hcs)
    rw [hd]
    exact ⟨rfl, hcs⟩
  · have hpn := prune_path_nodes cs hw ht d a1
    unfold ConstraintState.remove_non_solution_nodes Graph.vertices
    dsimp only
    rw [non_path_nodes_eq, a4]
    have hx2 : x ∈ (List.range cs.table.verts.length).filter
        (fun v => decide (v ∉ d.compute_all_path_nodes [])) := by
      rw [List.mem_filter, List.mem_range]
      refine ⟨hx, ?_⟩
      simpa [hpn x] using hnot
    cases hL : (List.range cs.table.verts.length).filter
        (fun v => decide (v ∉ d.compute_all_path_nodes [])) with
    | nil => rw [hL] at hx2; exact absurd hx2 (List.not_mem_nil _)
    | cons v0 rest =>
      have hv0 : v0 ∈ (List.range cs.table.verts.length).filter
          (fun v => decide (v ∉ d.compute_all_path_nodes [])) := by
        rw [hL]; exact List.mem_cons_self _ _
      rw [List.mem_filter, List.mem_range] at hv0
      have hv1 : v0 ∉ cs.compute_all_path_nodes [] := by
        have := hv0.2
        simpa [hpn v0] using this
      have hnone : map_find d.vertex_map (d.table.vinfo v0) = none := by
        cases hm : map_find d.vertex_map (d.table.vinfo v0) with
        | none => rfl
        | some y =>
          obtain ⟨g1, g2⟩ := (a5 _ y).1 hm
          rw [vinfo_congr d.table cs.table a4, ht v0 hv0.1] at g1
          rw [← Option.some.inj g1] at g2
          exact absurd g2 hv1
      rw [remove_nodes, map_erase_none _ _ hnone]

/-- The state with the dead end `[0] -> [2]` is well formed and its map
addresses every vertex. -/
theorem dead_end_state_wf : dead_end_state.WF ∧ dead_end_state.Total :=
  ⟨wf_of_entries dead_end_state ⟨by decide, by decide, by decide⟩
    (by decide) (by decide) (by decide), by
    unfold ConstraintState.Total
    decide⟩

/-- C26 at the state with the edge `[0] -> [1]` from start to end and the dead
end `[0] -> [2]`: vertex 2 is no path node, the first application removes its
key, the second one is undefined. -/
theorem reprune_witness :
    (2 < dead_end_state.table.verts.length ∧ 2 ∉ dead_end_state.compute_all_path_nodes []) ∧
    dead_end_state.remove_non_solution_nodes.bind ConstraintState.remove_non_solution_nodes
      = none := by
  refine ⟨by decide, ?_⟩
  obtain ⟨d, h1, _, h3⟩ := reprune dead_end_state dead_end_state_wf.1 dead_end_state_wf.2
  rw [h1]
  exact h3 2 (by decide) (by decide)

end Repruning

section UnitIdempotence

/-- One conditional removal of `remove_unit_paths`, when it returns: the graph
is as before, and the map has lost at most one key. -/
theorem erase_step (c c2 : ConstraintState) (w : Nat)
    (hn : (c.vertex_map.map Prod.fst).Nodup)
    (h : (if c.table.degree w = 0 then
            (map_erase_find c.vertex_map (c.table.vinfo w)).map
              (fun m => { c with vertex_map := m, table := c.table.clear_vertex w })
          else some c) = some c2) :
    c2.table = c.table ∧ c2.provenance = c.provenance ∧ c2.terminal_set = c.terminal_set ∧
    (c2.vertex_map.map Prod.fst).Nodup ∧
    ∀ k x, map_find c2.vertex_map k = some x → map_find c.vertex_map k = some x := by
  by_cases hd : c.table.degree w = 0
  · rw [if_pos hd] at h
    cases hm : map_find c.vertex_map (c.table.vinfo w) with
    | none =>
      rw [map_erase_none _ _ hm] at h
      exact absurd h (by simp)
    | some x0 =>
      obtain ⟨m1, e1, e2, e3⟩ := map_erase_spec c.vertex_map _ x0 hn hm
      rw [e1] at h
      simp only [Option.map_some', Option.some.injEq] at h
      rw [← h]
      refine ⟨clear_vertex_of_degree_zero _ _ hd, rfl, rfl, e2, fun k x hk => ?_⟩
      have hk2 : map_find m1 k = some x := hk
      rw [e3] at hk2
      split_ifs at hk2
      exact hk2
  · rw [if_neg hd] at h
    rw [← Option.some.inj h]
    exact ⟨rfl, rfl, rfl, hn, fun k x hk => hk⟩

/-- The result of `remove_unit_paths`, when it returns: the state itself, or a
state without edge from the start vertex to the end vertex, with the same
provenance and with no new key. -/
theorem remove_unit_paths_cases (cs d : ConstraintState)
    (hn : (cs.vertex_map.map Prod.fst).Nodup) (h : cs.remove_unit_paths = some d) :
    d = cs ∨
    (d.provenance = cs.provenance ∧
      d.table.lookup_edge (cs.vertex_of cs.start_node) (cs.vertex_of cs.end_node) = none ∧
      ∀ k x, map_find d.vertex_map k = some x → map_find cs.vertex_map k = some x) := by
  unfold ConstraintState.remove_unit_paths at h
  dsimp only at h
  by_cases h1 : (!cs.has_vertex cs.start_node || !cs.has_vertex cs.end_node) = true
  · rw [if_pos h1] at h
    exact Or.inl (Option.some.inj h).symm
  · rw [if_neg h1] at h
    cases hl : cs.table.lookup_edge (cs.vertex_of cs.start_node) (cs.vertex_of cs.end_node) with
    | none =>
      rw [hl] at h
      exact Or.inl (Option.some.inj h).symm
    | some e =>
      rw [hl] at h
      dsimp only at h
      by_cases h2 : (e.info.syms.filter
          (fun sym => !decide (sym ∉ cs.terminal_set))).length = 0
      · rw [if_pos h2] at h
        right
        split at h
        · exact absurd h (by simp)
        · rename_i c1 hr
          obtain ⟨a1, a2, _, a4, a5⟩ := erase_step
            { cs with table := (cs.table.remove_edge (cs.vertex_of cs.start_node)
                (cs.vertex_of cs.end_node)) } c1 (cs.vertex_of cs.start_node) hn hr
          obtain ⟨b1, b2, _, _, b5⟩ := erase_step c1 d (cs.vertex_of cs.end_node) a4 h
          refine ⟨b2.trans a2, ?_, fun k x hk => a5 k x (b5 k x hk)⟩
          rw [b1, a1]
          exact lookup_remove_edge _ _ _
      · rw [if_neg h2] at h
        exact Or.inl (Option.some.inj h).symm

/-- On a well-formed state whose start node and end node differ,
`remove_unit_paths` returns: the keys it erases are in the map. -/
theorem remove_unit_paths_returns (cs : ConstraintState) (hw : cs.WF)
    (hne : cs.start_node ≠ cs.end_node) : ∃ d, cs.remove_unit_paths = some d := by
  unfold ConstraintState.remove_unit_paths
  dsimp only
  by_cases h1 : (!cs.has_vertex cs.start_node || !cs.has_vertex cs.end_node) = true
  · rw [if_pos h1]; exact ⟨cs, rfl⟩
  · rw [if_neg h1]
    have hsu : cs.has_vertex cs.start_node = true := by
      cases hc : cs.has_vertex cs.start_node
      · rw [hc] at h1; exact absurd rfl h1
      · rfl
    have hsv : cs.has_vertex cs.end_node = true := by
      cases hc : cs.has_vertex cs.end_node
      · rw [hc, Bool.or_comm] at h1; exact absurd rfl h1
      · rfl
    obtain ⟨u, hu⟩ := Option.isSome_iff_exists.1 hsu
    obtain ⟨v, hv⟩ := Option.isSome_iff_exists.1 hsv
    have e3 : cs.vertex_of cs.start_node = u := by
      unfold ConstraintState.vertex_of; rw [hu]; rfl
    have e4 : cs.vertex_of cs.end_node = v := by
      unfold ConstraintState.vertex_of; rw [hv]; rfl
    rw [e3, e4]
    have hku : cs.table.vinfo u = cs.start_node := (hw.map_range _ _ hu).2
    have hkv : cs.table.vinfo v = cs.end_node := (hw.map_range _ _ hv).2
    cases hl : cs.table.lookup_edge u v with
    | none => exact ⟨cs, rfl⟩
    | some e =>
      dsimp only
      by_cases h2 : (e.info.syms.filter
          (fun sym => !decide (sym ∉ cs.terminal_set))).length = 0
      · rw [if_pos h2]
        have key : ∀ (c : ConstraintState) (w : Nat) (kw : VertexInfo),
            (c.vertex_map.map Prod.fst).Nodup → c.table.vinfo w = kw →
            (∃ x, map_find c.vertex_map kw = some x) →
            ∃ c1, (if c.table.degree w = 0 then
                (map_erase_find c.vertex_map (c.table.vinfo w)).map
                  (fun m => { c with vertex_map := m, table := c.table.clear_vertex w })
              else some c) = some c1 ∧ c1.table = c.table ∧
              (c1.vertex_map.map Prod.fst).Nodup ∧
              ∀ k1, k1 ≠ kw → map_find c1.vertex_map k1 = map_find c.vertex_map k1 := by
          intro c w kw hn hk ⟨x, hx⟩
          by_cases hd : c.table.degree w = 0
          · rw [if_pos hd, hk]
            obtain ⟨m1, g1, g2, g3⟩ := map_erase_spec c.vertex_map kw x hn hx
            rw [g1]
            refine ⟨_, rfl, clear_vertex_of_degree_zero _ _ hd, g2, fun k1 hk1 => ?_⟩
            show map_find m1 k1 = _
            rw [g3, if_neg hk1]
          · rw [if_neg hd]
            exact ⟨c, rfl, rfl, hn, fun _ _ => rfl⟩
        obtain ⟨c1, g1, g2, g3, g4⟩ := key { cs with table := cs.table.remove_edge u v } u
          cs.start_node hw.keys_nodup hku ⟨u, hu⟩
        rw [g1]
        dsimp only
        obtain ⟨c2, k1, _, _, _⟩ := key c1 v cs.end_node g3 (by rw [g2]; exact hkv)
          ⟨v, by rw [g4 _ (fun hh => hne hh.symm)]; exact hv⟩
        exact ⟨c2, k1⟩
      · rw [if_neg h2]; exact ⟨cs, rfl⟩

/-- When the start node and the end node are one key, mapped to a vertex whose
only incident edge is a self-loop without terminal, `remove_unit_paths` erases
this key twice: the second `erase` gets `end()`. -/
theorem double_erase (cs : ConstraintState) (hw : cs.WF) (u : Nat) (e : Edge)
    (hu : map_find cs.vertex_map cs.start_node = some u)
    (hse : cs.end_node = cs.start_node)
    (he : cs.table.lookup_edge u u = some e)
    (hall : ∀ x ∈ e.info.syms, x ∉ cs.terminal_set)
    (hdeg : (cs.table.remove_edge u u).degree u = 0) :
    cs.remove_unit_paths = none := by
  have hku : cs.table.vinfo u = cs.start_node := (hw.map_range _ _ hu).2
  have hhu : cs.has_vertex cs.start_node = true := by
    unfold ConstraintState.has_vertex; rw [hu]; rfl
  have hvu : cs.vertex_of cs.start_node = u := by
    unfold ConstraintState.vertex_of; rw [hu]; rfl
  have hlen : (e.info.syms.filter (fun sym => !decide (sym ∉ cs.terminal_set))).length = 0 := by
    rw [List.length_eq_zero, List.filter_eq_nil_iff]
    intro x hx
    simp [hall x hx]
  obtain ⟨m1, e1, _, e3⟩ := map_erase_spec cs.vertex_map cs.start_node u hw.keys_nodup hu
  have hm1 : map_find m1 cs.start_node = none := by rw [e3, if_pos rfl]
  have hv1 : (cs.table.remove_edge u u).vinfo u = cs.start_node := hku
  unfold ConstraintState.remove_unit_paths
  simp only [hse, hhu, hvu, Bool.not_true, Bool.or_self, Bool.false_eq_true, if_false, he]
  rw [if_pos hlen]
  rw [if_pos hdeg, hv1, e1]
  dsimp only [Option.map]
  rw [clear_vertex_of_degree_zero _ _ hdeg, if_pos hdeg, hv1, map_erase_none m1 _ hm1]

/-- Claim C27 (unit-edge idempotence).  For every well-formed state whose keys
have as many positions as the state has provenance elements:
`remove_unit_paths` returns when the start node and the end node differ;
whenever it returns a state `d`, a second call on `d` returns `d` again, with
the same graph and the same vertex map; but when the start node and the end
node are one key, mapped to a vertex `u` whose only incident edge is a
self-loop that carries no terminal, the first call does not return: after the
edge is removed the key is erased for `u` and then erased once more, the
second time through `erase(end())`. -/
theorem remove_unit_paths_idem (cs : ConstraintState) (hw : cs.WF)
    (_hk : cs.KeyLen cs.provenance.elems.length) :
    (cs.start_node ≠ cs.end_node → ∃ d, cs.remove_unit_paths = some d) ∧
    (∀ d, cs.remove_unit_paths = some d →
      d.remove_unit_paths = some d ∧
      cs.remove_unit_paths.bind ConstraintState.remove_unit_paths = cs.remove_unit_paths) ∧
    (∀ (u : Nat) (e : Edge), map_find cs.vertex_map cs.start_node = some u →
      cs.end_node = cs.start_node → cs.table.lookup_edge u u = some e →
      (∀ x ∈ e.info.syms, x ∉ cs.terminal_set) →
      (cs.table.remove_edge u u).degree u = 0 →
      cs.remove_unit_paths = none ∧
      cs.remove_unit_paths.bind ConstraintState.remove_unit_paths = none) := by
  refine ⟨remove_unit_paths_returns cs hw, fun d h => ?_, fun u e hu hse he hall hdeg => ?_⟩
  · have hidem : d.remove_unit_paths = some d := by
      rcases remove_unit_paths_cases cs d hw.keys_nodup h with hd | ⟨hp, hl, hsub⟩
      · rw [hd]; rw [hd] at h; exact h
      · have hs : d.start_node = cs.start_node := by
          unfold ConstraintState.start_node; rw [hp]
        have he : d.end_node = cs.end_node := by
          unfold ConstraintState.end_node; rw [hp]
        unfold ConstraintState.remove_unit_paths
        dsimp only
        by_cases h1 : (!d.has_vertex d.start_node || !d.has_vertex d.end_node) = true
        · rw [if_pos h1]
        · rw [if_neg h1]
          have hsu : d.has_vertex d.start_node = true := by
            cases hc : d.has_vertex d.start_node
            · rw [hc] at h1; exact absurd rfl h1
            · rfl
          have hsv : d.has_vertex d.end_node = true := by
            cases hc : d.has_vertex d.end_node
            · rw [hc, Bool.or_comm] at h1; exact absurd rfl h1
            · rfl
          obtain ⟨u, hu⟩ := Option.isSome_iff_exists.1 hsu
          obtain ⟨v, hv⟩ := Option.isSome_iff_exists.1 hsv
          have e3 : d.vertex_of d.start_node = cs.vertex_of cs.start_node := by
            unfold ConstraintState.vertex_of
            have hcu := hsub _ _ hu
            rw [hs] at hcu
            rw [hu, hcu]
          have e4 : d.vertex_of d.end_node = cs.vertex_of cs.end_node := by
            unfold ConstraintState.vertex_of
            have hcv := hsub _ _ hv
            rw [he] at hcv
            rw [hv, hcv]
          rw [e3, e4, hl]
    refine ⟨hidem, ?_⟩
    rw [h]
    exact hidem
  · have hnone := double_erase cs hw u e hu hse he hall hdeg
    refine ⟨hnone, ?_⟩
    rw [hnone]
    rfl

/-- The state of scenario 6 without terminal is well formed. -/
theorem unit_nonterminal_state_wf : unit_nonterminal_state.WF :=
  wf_of_entries unit_nonterminal_state ⟨by decide, by decide, by decide⟩
    (by decide) (by decide) (by decide)

/-- The state with the self-loop at `[0]` is well formed. -/
theorem self_loop_state_wf : self_loop_state.WF :=
  wf_of_entries self_loop_state ⟨by decide, by decide, by decide⟩
    (by decide) (by decide) (by decide)

/-- C27 at the state whose only edge is the direct edge labelled by the
non-terminal 5: the first call removes the edge and both keys, the second call
changes nothing.  At the state with the provenance `(0, 1, 0, 0)` and the
self-loop `[0] -> [0]` labelled by the non-terminal 5: the first call erases
the key `[0]` twice and does not return. -/
theorem remove_unit_paths_idem_witness :
    (∃ d, unit_nonterminal_state.remove_unit_paths = some d ∧ d.table.edges = [] ∧
      d.vertex_map = [] ∧ d.remove_unit_paths = some d) ∧
    (self_loop_state.start_node = vinfo_of [0] ∧ self_loop_state.end_node = vinfo_of [0] ∧
      self_loop_state.vertex_map = [(vinfo_of [0], 0)] ∧
      self_loop_state.table.edges = [{ src := 0, tgt := 0, info := { syms := [5] } }] ∧
      self_loop_state.terminal_set = [] ∧
      self_loop_state.remove_unit_paths = none) := by
  have h1 : unit_nonterminal_state.remove_unit_paths
      = some { provenance := { elems := [{ sample_id := 0, nt := 1, i := 0, l := 1 }] },
               table := { verts := [{ positions := [0] }, { positions := [1] }], edges := [] },
               vertex_map := [], terminal_set := [] } := by decide
  refine ⟨⟨_, h1, rfl, rfl,
    ((remove_unit_paths_idem unit_nonterminal_state unit_nonterminal_state_wf
      (by unfold ConstraintState.KeyLen; decide)).2.1 _ h1).1⟩,
    by decide, by decide, by decide, by decide, by decide, ?_⟩
  exact ((remove_unit_paths_idem self_loop_state self_loop_state_wf
    (by unfold ConstraintState.KeyLen; decide)).2.2 0
    { src := 0, tgt := 0, info := { syms := [5] } }
    (by decide) (by decide) (by decide) (by decide) (by decide)).1

end UnitIdempotence

section PruningResult

/-- For distinct start and end vertices the path nodes are the vertices on a
walk from the start vertex to the end vertex. -/
theorem path_nodes_on_walk (cs : ConstraintState) (hw : cs.WF) (u v : Nat)
    (hu : map_find cs.vertex_map cs.start_node = some u)
    (hv : map_find cs.vertex_map cs.end_node = some v) (huv : u ≠ v) (x : Nat) :
    x ∈ cs.compute_all_path_nodes [] ↔ cs.table.OnWalk u v x := by
  rw [path_nodes_spec cs hw]
  constructor
  · rintro ⟨u1, v1, hu1, hv1, a, b, hab, hx⟩
    rw [hu] at hu1
    rw [hv] at hv1
    cases hu1; cases hv1
    exact onWalk_of_edge _ _ _ _ _ _ hab hx
  · rintro ⟨h1, h2⟩
    refine ⟨u, v, hu, hv, ?_⟩
    by_cases hxv : x = v
    · have hxu : x ≠ u := fun hc => huv (hc.symm.trans hxv)
      rcases Relation.ReflTransGen.cases_tail h1 with h3 | ⟨b, h3, h4⟩
      · exact absurd h3 hxu
      · exact ⟨b, x, ⟨h3, h4, h2⟩, Or.inr rfl⟩
    · rcases Relation.ReflTransGen.cases_head h2 with h3 | ⟨y, h3, h4⟩
      · exact absurd h3 hxv
      · exact ⟨x, y, ⟨h1, h3, h4⟩, Or.inl rfl⟩

/-- Claim C28 (pruning keeps exactly the on-path vertices).  For every
well-formed state whose map addresses every vertex and whose start and end
nodes are keys for distinct vertices `u` and `v`: the set that
`compute_all_path_nodes` computes is the set of the vertices on a walk from `u`
to `v`; `remove_non_solution_nodes` returns a state whose vertex map holds
exactly the keys of these vertices and whose edges are exactly the edges of the
state that join two of them, in their order and with their symbol lists; no
other vertex has an edge left. -/
theorem pruning_keeps_on_walk (cs : ConstraintState) (hw : cs.WF) (ht : cs.Total) (u v : Nat)
    (hu : map_find cs.vertex_map cs.start_node = some u)
    (hv : map_find cs.vertex_map cs.end_node = some v) (huv : u ≠ v) :
    (∀ x, x ∈ cs.compute_all_path_nodes [] ↔ cs.table.OnWalk u v x) ∧
    ∃ d, cs.remove_non_solution_nodes = some d ∧ d.table.verts = cs.table.verts ∧
      (∀ k x, map_find d.vertex_map k = some x ↔
        (map_find cs.vertex_map k = some x ∧ cs.table.OnWalk u v x)) ∧
      (∀ x, x < cs.table.verts.length →
        (map_find d.vertex_map (d.table.vinfo x) = some x ↔ cs.table.OnWalk u v x)) ∧
      (∀ e, e ∈ d.table.edges ↔
        (e ∈ cs.table.edges ∧ cs.table.OnWalk u v e.src ∧ cs.table.OnWalk u v e.tgt)) ∧
      d.table.edges.Sublist cs.table.edges ∧
      (∀ x, ¬ cs.table.OnWalk u v x → ∀ e ∈ d.table.edges, e.src ≠ x ∧ e.tgt ≠ x) := by
  have hpn := path_nodes_on_walk cs hw u v hu hv huv
  obtain ⟨d, a1, _, _, a4, a5, a6⟩ := prune_spec cs hw ht
  have hedges : ∀ e, e ∈ d.table.edges ↔
      (e ∈ cs.table.edges ∧ cs.table.OnWalk u v e.src ∧ cs.table.OnWalk u v e.tgt) := by
    intro e
    rw [a6, List.mem_filter, ← hpn, ← hpn]
    simp
  refine ⟨hpn, d, a1, a4, fun k x => by rw [a5, hpn], fun x hx => ?_, hedges, ?_,
    fun x hx e he => ?_⟩
  · rw [a5, hpn, vinfo_congr d.table cs.table a4]
    exact ⟨fun h => h.2, fun h => ⟨ht x hx, h⟩⟩
  · rw [a6]
    exact List.filter_sublist _
  · obtain ⟨_, h2, h3⟩ := (hedges e).1 he
    exact ⟨fun hc => hx (hc ▸ h2), fun hc => hx (hc ▸ h3)⟩

/-- C28 at the state with the edge `[0] -> [1]` from start to end and the dead
end `[0] -> [2]`: pruning keeps the edge `[0] -> [1]` and the keys `[0]`,
`[1]`. -/
theorem pruning_keeps_on_walk_witness :
    ∃ d, dead_end_state.remove_non_solution_nodes = some d ∧
      d.table.edges = [{ src := 0, tgt := 1, info := { syms := [] } }] ∧
      d.vertex_map = [({ positions := [0] }, 0), ({ positions := [1] }, 1)] ∧
      ∀ e, e ∈ d.table.edges ↔
        (e ∈ dead_end_state.table.edges ∧ dead_end_state.table.OnWalk 0 1 e.src ∧
          dead_end_state.table.OnWalk 0 1 e.tgt) := by
  obtain ⟨_, d, h1, _, _, _, h5, _⟩ := pruning_keeps_on_walk dead_end_state
    dead_end_state_wf.1 dead_end_state_wf.2 0 1 (by decide) (by decide) (by decide)
  have h2 : dead_end_state.remove_non_solution_nodes
      = some { provenance := { elems := [{ sample_id := 0, nt := 1, i := 0, l := 1 }] },
               table := { verts := [{ positions := [0] }, { positions := [1] }, { positions := [2] }],
                          edges := [{ src := 0, tgt := 1, info := { syms := [] } }] },
               vertex_map := [({ positions := [0] }, 0), ({ positions := [1] }, 1)],
               terminal_set := [] } := by decide
  have hd := Option.some.inj (h1.symm.trans h2)
  refine ⟨d, h1, by rw [hd], by rw [hd], h5⟩

/-- Claim C29, amended (pruning an unsatisfiable state removes everything).
For every well-formed state whose map addresses every vertex and whose keys
have as many positions as the state has provenance elements (as the start node
and the end node have), in which the start node or the end node is no key of
the vertex map, or the end vertex cannot be reached from the start vertex:
`remove_non_solution_nodes` returns a state without any edge and with an empty
vertex map; vertices, provenance and terminal set are as before.  Edges and
vertex map are unchanged only when the state had neither. -/
theorem prune_unsatisfiable (cs : ConstraintState) (hw : cs.WF) (ht : cs.Total)
    (_hk : cs.KeyLen cs.provenance.elems.length)
    (hun : ¬ ∃ u v, map_find cs.vertex_map cs.start_node = some u ∧
      map_find cs.vertex_map cs.end_node = some v ∧ cs.table.Reach u v) :
    ∃ d, cs.remove_non_solution_nodes = some d ∧ d.table.edges = [] ∧ d.vertex_map = [] ∧
      d.table.verts = cs.table.verts ∧ d.provenance = cs.provenance ∧
      d.terminal_set = cs.terminal_set ∧
      ((d.table.edges = cs.table.edges ∧ d.vertex_map = cs.vertex_map) ↔
        (cs.table.edges = [] ∧ cs.vertex_map = [])) := by
  have hpn : ∀ x, x ∉ cs.compute_all_path_nodes [] := by
    intro x hx
    obtain ⟨u, v, h1, h2, a, b, hab, _⟩ := (path_nodes_spec cs hw x).1 hx
    exact hun ⟨u, v, h1, h2, hab.1.trans (Relation.ReflTransGen.head hab.2.1 hab.2.2)⟩
  obtain ⟨d, a1, a2, a3, a4, a5, a6⟩ := prune_spec cs hw ht
  have hedges : d.table.edges = [] := by
    rw [a6, List.filter_eq_nil_iff]
    intro e _
    simp [hpn e.src]
  have hmap : d.vertex_map = [] := by
    cases hm : d.vertex_map with
    | nil => rfl
    | cons q rest =>
      obtain ⟨k, x⟩ := q
      have hf : map_find d.vertex_map k = some x := by
        rw [hm, map_find, if_pos rfl]
      exact absurd ((a5 k x).1 hf).2 (hpn x)
  refine ⟨d, a1, hedges, hmap, a4, a2, a3, ?_⟩
  rw [hedges, hmap]
  exact ⟨fun h => ⟨h.1.symm, h.2.symm⟩, fun h => ⟨h.1.symm, h.2.symm⟩⟩

/-- The state with the single edge `[5] -> [6]` is well formed and its map
addresses every vertex. -/
theorem absent_start_state_wf : absent_start_state.WF ∧ absent_start_state.Total :=
  ⟨wf_of_entries absent_start_state ⟨by decide, by decide, by decide⟩
    (by decide) (by decide) (by decide), by
    unfold ConstraintState.Total
    decide⟩

/-- The amended C29 at the state with the single edge `[5] -> [6]` and the
start node `[0]`: pruning leaves no edge and no key. -/
theorem prune_unsatisfiable_witness :
    ∃ d, absent_start_state.remove_non_solution_nodes = some d ∧ d.table.edges = [] ∧
      d.vertex_map = [] := by
  obtain ⟨d, h1, h2, h3, _⟩ := prune_unsatisfiable absent_start_state
    absent_start_state_wf.1 absent_start_state_wf.2
    (by unfold ConstraintState.KeyLen; decide)
    (by
      rintro ⟨u, v, hu, _⟩
      have hnone : map_find absent_start_state.vertex_map absent_start_state.start_node = none := by
        decide
      rw [hnone] at hu
      exact absurd hu (by simp))
  exact ⟨d, h1, h2, h3⟩

/-- C29 as stated fails at the state with the provenance `(0, 1, 0, 2)` and the
single edge `[5] -> [6]`: the start node `[0]` is absent from the vertex map,
yet `remove_non_solution_nodes` removes the edge and both keys. -/
theorem prune_unsatisfiable_counterexample :
    absent_start_state.has_vertex absent_start_state.start_node = false ∧
    absent_start_state.table.edges = [{ src := 0, tgt := 1, info := { syms := [] } }] ∧
    absent_start_state.vertex_map = [({ positions := [5] }, 0), ({ positions := [6] }, 1)] ∧
    absent_start_state.remove_non_solution_nodes.map (fun d => (d.table.edges, d.vertex_map))
      = some ([], []) := by
  decide

end PruningResult

section IterationLimit

/-- The loop of `shortest_paths`, entered with all walks of `t` edges that end
at `v`, when no walk from `u` to `v` has between `t + 1` and `t + limit + 1`
edges but some walk of `t + limit + 1` edges ends at `v`: the counter runs out
and the loop returns all walks of `t + limit + 1` edges that end at `v`,
unfiltered. -/
theorem loop_at_limit (g : Graph) (hg : g.WF) (u v : Nat) (hv : v < g.verts.length) :
    ∀ (limit t : Nat) (paths : List (List Nat)), paths.Nodup →
      (∀ w, w ∈ paths ↔ (w.length = t + 1 ∧ g.Walk v w)) →
      (∀ t2 w, t < t2 → t2 ≤ t + limit + 1 → ¬ g.WalkOf u v t2 w) →
      (∃ w0, w0.length = t + limit + 1 + 1 ∧ g.Walk v w0) →
      ∃ r, shortest_paths_loop g u limit paths = some r ∧ r.Nodup ∧
        ∀ w, w ∈ r ↔ (w.length = t + limit + 1 + 1 ∧ g.Walk v w) := by
  intro limit
  induction limit with
  | zero =>
    intro t paths hnd hmem hno ⟨w0, hl0, hw0⟩
    obtain ⟨w1, hw1, hl1⟩ := walk_suffix g v w0 hw0 t (by omega)
    have hne : paths ≠ [] := List.ne_nil_of_mem ((hmem w1).2 ⟨hl1, hw1⟩)
    obtain ⟨e1, e2⟩ := extended_walks g hg v t paths hnd hmem
    have hfound : (extended g paths).any (fun path => decide (path.head? = some u)) = false := by
      rw [Bool.eq_false_iff]
      intro hc
      rw [List.any_eq_true] at hc
      obtain ⟨w, hw, hh⟩ := hc
      simp only [decide_eq_true_eq] at hh
      exact hno (t + 1) w (by omega) (by omega) ⟨hh, ((e2 w).1 hw).1, ((e2 w).1 hw).2⟩
    have hne2 : (extended g paths).isEmpty = false := by
      have hm := (e2 w0).2 ⟨hl0, hw0⟩
      cases hx : extended g paths with
      | nil => rw [hx] at hm; exact absurd hm (List.not_mem_nil _)
      | cons a as => rfl
    rw [shortest_paths_loop, iterate_spec g hg u v hv t paths hne hmem, hfound]
    simp only [Bool.false_eq_true, if_false]
    rw [hne2]
    simp only [Bool.false_eq_true, if_false]
    exact ⟨_, rfl, e1, e2⟩
  | succ limit ih =>
    intro t paths hnd hmem hno ⟨w0, hl0, hw0⟩
    obtain ⟨w1, hw1, hl1⟩ := walk_suffix g v w0 hw0 t (by omega)
    have hne : paths ≠ [] := List.ne_nil_of_mem ((hmem w1).2 ⟨hl1, hw1⟩)
    obtain ⟨e1, e2⟩ := extended_walks g hg v t paths hnd hmem
    have hfound : (extended g paths).any (fun path => decide (path.head? = some u)) = false := by
      rw [Bool.eq_false_iff]
      intro hc
      rw [List.any_eq_true] at hc
      obtain ⟨w, hw, hh⟩ := hc
      simp only [decide_eq_true_eq] at hh
      exact hno (t + 1) w (by omega) (by omega) ⟨hh, ((e2 w).1 hw).1, ((e2 w).1 hw).2⟩
    obtain ⟨w2, hw2, hl2⟩ := walk_suffix g v w0 hw0 (t + 1) (by omega)
    have hne2 : (extended g paths).isEmpty = false := by
      have hm := (e2 w2).2 ⟨hl2, hw2⟩
      cases hx : extended g paths with
      | nil => rw [hx] at hm; exact absurd hm (List.not_mem_nil _)
      | cons a as => rfl
    rw [shortest_paths_loop, iterate_spec g hg u v hv t paths hne hmem, hfound]
    simp only [Bool.false_eq_true, if_false]
    rw [hne2]
    simp only [Bool.false_eq_true, if_false]
    obtain ⟨r, h1, h2, h3⟩ := ih (t + 1) (extended g paths) e1 e2
      (fun t2 w ha hb => hno t2 w (by omega) (by omega))
      ⟨w0, by omega, hw0⟩
    refine ⟨r, h1, h2, fun w => ?_⟩
    rw [h3]
    have e : t + 1 + limit + 1 + 1 = t + (limit + 1) + 1 + 1 := by omega
    rw [e]

/-- Claim C30 (only solutions are emitted): what the code does at the
iteration limit.  For every well-formed state whose start and end nodes are
keys for the vertices `u` and `v`, when no walk from `u` to `v` has 101 edges or
fewer but a walk of 101 edges from a vertex `x0` that `u` reaches ends at `v`:
`solve_shortest` on a fresh Solution returns, `raws` is not empty, and every
raw path lists the 102 vertices of a walk to `v` that does not begin at `u`:
its first entry is not the position list of the start node. -/
theorem partial_paths_emitted (cs : ConstraintState) (hw : cs.WF) (u v : Nat)
    (hu : map_find cs.vertex_map cs.start_node = some u)
    (hv : map_find cs.vertex_map cs.end_node = some v)
    (hno : ∀ t w, t ≤ 101 → ¬ cs.table.WalkOf u v t w)
    (x0 : Nat) (rest0 : List Nat) (hux : cs.table.Reach u x0)
    (hwalk : cs.table.Walk v (x0 :: rest0)) (hlen : rest0.length = 101) :
    ∃ sol, cs.solve_shortest Solution.fresh = some sol ∧ sol.raws ≠ [] ∧
      ∀ raw ∈ sol.raws,
        raw.head? ≠ some cs.start_node.positions ∧
        ∃ w, raw = w.map (fun x => (cs.table.vinfo x).positions) ∧ w.length = 102 ∧
          cs.table.Walk v w ∧ w.head? ≠ some u := by
  have huv : u ≠ v := by
    intro hc
    exact hno 0 [u] (by omega) ⟨rfl, rfl, hc⟩
  have hul : u < cs.table.verts.length := (hw.map_range _ _ hu).1
  have hreach : cs.table.Reach u v := hux.trans (walk_reach _ v rest0 x0 hwalk)
  obtain ⟨b, hb1, hb2⟩ : ∃ b, cs.table.Reach u b ∧ cs.table.HasEdge b v := by
    rcases Relation.ReflTransGen.cases_tail hreach with h | ⟨b, h1, h2⟩
    · exact absurd h.symm huv
    · exact ⟨b, h1, h2⟩
  obtain ⟨_, _, b3, _, b5, _⟩ := bfs_spec cs.table hw.graph u hul
  have hdesc : has_vertex_descriptor v (breadth_first_search cs.table u).p = true := by
    rw [has_vertex_descriptor_iff, b5]
    exact ⟨v, b, (b3 v b).2 ⟨hb1, hb2⟩, le_max_left _ _⟩
  obtain ⟨c1, _, c3, c4⟩ := double_bfs_spec cs.table hw.graph u v hul hdesc
  have hvl : v < (breadth_first_search (breadth_first_search cs.table u).p v).p.verts.length :=
    (c3 v).2 ⟨b, v, (c1 b v).2 ⟨hb1, hb2, Relation.ReflTransGen.refl⟩, le_max_right _ _⟩
  have hmono : ∀ w, (breadth_first_search (breadth_first_search cs.table u).p v).p.Walk v w →
      cs.table.Walk v w := by
    intro w h
    cases w with
    | nil => exact absurd h (by simp [Graph.Walk])
    | cons x r => exact walk_mono _ cs.table v (fun p q hh => ((c1 p q).1 hh).2.1) r x h
  obtain ⟨r, hr1, hr2, hr3⟩ := loop_at_limit _ c4 u v hvl 100 0 [[v]]
    (List.nodup_singleton _)
    (fun w => by
      constructor
      · intro h
        rw [List.mem_singleton] at h
        rw [h]
        exact ⟨rfl, rfl⟩
      · rintro ⟨h1, h2⟩
        cases w with
        | nil => simp at h1
        | cons x r =>
          have hr0 : r = [] := List.eq_nil_of_length_eq_zero (by
            rw [List.length_cons] at h1; omega)
          subst hr0
          have hx : x = v := h2
          rw [hx]
          exact List.mem_singleton_self _)
    (fun t2 w _ ht2 hc => hno t2 w (by omega) ⟨hc.1, hc.2.1, hmono w hc.2.2⟩)
    ⟨x0 :: rest0, by rw [List.length_cons, hlen],
      walk_transfer cs.table _ u v (fun p q hh => (c1 p q).2 hh) rest0 x0 hux hwalk⟩
  have hr4 : ∀ w ∈ r, w.length = 102 ∧ cs.table.Walk v w := by
    intro w hw1
    obtain ⟨g1, g2⟩ := (hr3 w).1 hw1
    exact ⟨g1, hmono w g2⟩
  have hr5 : r ≠ [] := by
    apply List.ne_nil_of_mem
    exact (hr3 (x0 :: rest0)).2 ⟨by rw [List.length_cons, hlen],
      walk_transfer cs.table _ u v (fun p q hh => (c1 p q).2 hh) rest0 x0 hux hwalk⟩
  have e1 : cs.has_vertex cs.start_node = true := by
    unfold ConstraintState.has_vertex; rw [hu]; rfl
  have e2 : cs.has_vertex cs.end_node = true := by
    unfold ConstraintState.has_vertex; rw [hv]; rfl
  have e3 : cs.vertex_of cs.start_node = u := by
    unfold ConstraintState.vertex_of; rw [hu]; rfl
  have e4 : cs.vertex_of cs.end_node = v := by
    unfold ConstraintState.vertex_of; rw [hv]; rfl
  have hsp : shortest_paths (breadth_first_search (breadth_first_search cs.table u).p v).p u v
      = some r := hr1
  have hlen2 : ∀ q ∈ (r.map (path_solution cs.table)), q.length = 101 := by
    intro q hq
    rw [List.mem_map] at hq
    obtain ⟨w, hw1, rfl⟩ := hq
    obtain ⟨g2, g3⟩ := hr4 w hw1
    cases w with
    | nil => simp at g2
    | cons x r2 =>
      rw [path_solution_length cs.table v r2 x g3]
      rw [List.length_cons] at g2
      omega
  obtain ⟨s2, hs1, hs2, _⟩ := compress_ok
    { raws := [] ++ r.map (fun path => path.map (fun x => (cs.table.vinfo x).positions)),
      paths := [] ++ r.map (path_solution cs.table),
      compressed_path := [] } 101 hlen2
  have hs4 : s2.raws = r.map (fun w => w.map (fun x => (cs.table.vinfo x).positions)) := hs2
  refine ⟨s2, ?_, ?_, fun raw hraw => ?_⟩
  · unfold ConstraintState.solve_shortest
    simp only [e1, e2, e3, e4, hdesc, hsp, Bool.not_true, Bool.or_self, Bool.false_eq_true,
      if_false]
    rw [fold_solution]
    exact hs1
  · rw [hs4]
    intro hc
    exact hr5 (List.map_eq_nil_iff.1 hc)
  · rw [hs4, List.mem_map] at hraw
    obtain ⟨w, hw1, rfl⟩ := hraw
    obtain ⟨g2, g3⟩ := hr4 w hw1
    have hhead : w.head? ≠ some u := by
      intro hc
      exact hno 101 w (le_refl _) ⟨hc, g2, g3⟩
    refine ⟨?_, w, rfl, g2, g3, hhead⟩
    cases w with
    | nil => simp at g2
    | cons x r2 =>
      intro hc
      simp only [List.map_cons, List.head?_cons, Option.some.injEq] at hc
      have hvx : cs.table.vinfo x = cs.start_node := by
        rw [← vinfo_eta (cs.table.vinfo x), ← vinfo_eta cs.start_node, hc]
      have hax := walk_addressed cs hw v (x :: r2) g3 (by rw [g2]; omega) x
        (List.mem_cons_self _ _)
      rw [hvx, hu] at hax
      exact hhead (by rw [List.head?_cons, ← Option.some.inj hax])

/-- The states built by `long_chain` are well formed with a total vertex map. -/
theorem long_chain_wf (n : Nat) : (long_chain n).WF ∧ (long_chain n).Total := by
  unfold long_chain
  have key : ∀ (l : List Nat) (cs : ConstraintState), (cs.WF ∧ cs.Total) →
      ((l.foldl (fun cs (i : Nat) => cs.add_edge (vinfo_of [(i : Int)]) (vinfo_of [(i : Int) + 1]))
        cs).WF ∧
       (l.foldl (fun cs (i : Nat) => cs.add_edge (vinfo_of [(i : Int)]) (vinfo_of [(i : Int) + 1]))
        cs).Total) := by
    intro l
    induction l with
    | nil => intro cs h; exact h
    | cons i rest ih =>
      intro cs h
      rw [List.foldl_cons]
      exact ih _ ((build_wf cs h).2.1 _ _)
  exact key _ _ ((build_wf _ fresh_wf).1 0 1 0 n)

/-- The chain of 102 edges, built through the public methods, is the closed
form: vertex `i` carries `[i]`, and the edges are `i -> i + 1`. -/
theorem long_chain_closed : long_chain 102 = closed_chain 102 := by
  set_option maxRecDepth 1000000 in
  set_option maxHeartbeats 4000000 in
  decide

/-- The edges of the closed form of the chain. -/
theorem closed_chain_edge (n a b : Nat) :
    (closed_chain n).table.HasEdge a b ↔ (a < n ∧ b = a + 1) := by
  unfold Graph.HasEdge closed_chain
  constructor
  · rintro ⟨e, he, h1, h2⟩
    rw [List.mem_map] at he
    obtain ⟨i, hi, rfl⟩ := he
    rw [List.mem_range] at hi
    dsimp only at h1 h2
    omega
  · rintro ⟨h1, h2⟩
    exact ⟨{ src := a, tgt := a + 1, info := { syms := [] } },
      List.mem_map.2 ⟨a, List.mem_range.2 h1, rfl⟩, rfl, h2.symm⟩

/-- In a graph whose edges all go from a vertex to its successor, a walk of
`k` edges to `v` begins at `v - k`. -/
theorem walk_rank (g : Graph) (hE : ∀ a b, g.HasEdge a b → b = a + 1) (v : Nat) :
    ∀ (rest : List Nat) (x : Nat), g.Walk v (x :: rest) → x + rest.length = v := by
  intro rest
  induction rest with
  | nil => intro x h; exact h
  | cons y r ih =>
    intro x h
    obtain ⟨h1, h2⟩ := h
    have e1 := hE x y h1
    have e2 := ih y h2
    rw [List.length_cons]
    omega

/-- In a graph with the edges `a -> a + 1` for `a < N`, the vertices
`x, x + 1, ..., N` are a walk to `N`. -/
theorem chain_walk (g : Graph) (N : Nat) (hE : ∀ a, a < N → g.HasEdge a (a + 1)) :
    ∀ (k x : Nat), x + k = N → g.Walk N (List.range' x (k + 1)) := by
  intro k
  induction k with
  | zero => intro x h; exact h
  | succ k ih =>
    intro x h
    have e1 : List.range' x (k + 1 + 1) = x :: (x + 1) :: List.range' (x + 1 + 1) k := rfl
    have e2 : List.range' (x + 1) (k + 1) = (x + 1) :: List.range' (x + 1 + 1) k := rfl
    rw [e1]
    refine ⟨hE x (by omega), ?_⟩
    rw [← e2]
    exact ih (x + 1) (by omega)

/-- The failing input of claim C30: the provenance element `(0, 1, 0, 102)`
and the 102 edges `[i] -> [i + 1]`.  The start node is `[0]`, the end node
`[102]`, the only walk between them has 102 edges; `solve_shortest` returns
with a raw path, and every raw path has 102 vertices only and begins with
`[1]`, not with the start node. -/
theorem partial_paths_emitted_witness :
    (long_chain 102).start_node.positions = [0] ∧
    (long_chain 102).end_node.positions = [102] ∧
    (long_chain 102).table.WalkOf 0 102 102 (List.range' 0 103) ∧
    ∃ sol, (long_chain 102).solve_shortest Solution.fresh = some sol ∧ sol.raws ≠ [] ∧
      ∀ raw ∈ sol.raws,
        raw.head? ≠ some (long_chain 102).start_node.positions ∧
        ∃ w, raw = w.map (fun x => ((long_chain 102).table.vinfo x).positions) ∧
          w.length = 102 ∧ (long_chain 102).table.Walk 102 w ∧ w.head? ≠ some 0 := by
  have hE : ∀ a b, (long_chain 102).table.HasEdge a b ↔ (a < 102 ∧ b = a + 1) := by
    rw [long_chain_closed]
    exact closed_chain_edge 102
  refine ⟨by rw [long_chain_closed]; decide, by rw [long_chain_closed]; decide,
    ⟨rfl, rfl, chain_walk _ 102 (fun a ha => (hE a (a + 1)).2 ⟨ha, rfl⟩) 102 0 rfl⟩, ?_⟩
  exact partial_paths_emitted (long_chain 102) (long_chain_wf 102).1 0 102
    (by rw [long_chain_closed]; decide) (by rw [long_chain_closed]; decide)
    (fun t w ht hc => by
      obtain ⟨h1, h2, h3⟩ := hc
      cases w with
      | nil => simp at h2
      | cons x r =>
        have hx : x = 0 := by simpa using h1
        have hr := walk_rank _ (fun a b hab => ((hE a b).1 hab).2) 102 r x h3
        rw [List.length_cons] at h2
        omega)
    1 (List.range' 2 101)
    (Relation.ReflTransGen.single ((hE 0 1).2 ⟨by omega, rfl⟩))
    (chain_walk _ 102 (fun a ha => (hE a (a + 1)).2 ⟨ha, rfl⟩) 101 1 rfl)
    (List.length_range' _ _ _)

end IterationLimit

section IterationCap

/-- The counting loop returns what the loop of `shortest_paths` returns. -/
theorem rounds_fst (g : Graph) (u : Nat) : ∀ (limit : Nat) (paths : List (List Nat)),
    (shortest_paths_rounds g u limit paths).map Prod.fst = shortest_paths_loop g u limit paths := by
  intro limit
  induction limit with
  | zero =>
    intro paths
    rw [shortest_paths_rounds, shortest_paths_loop]
    cases shortest_paths_iterate g u paths false with
    | none => rfl
    | some r =>
      dsimp only
      split_ifs <;> rfl
  | succ limit ih =>
    intro paths
    rw [shortest_paths_rounds, shortest_paths_loop]
    cases shortest_paths_iterate g u paths false with
    | none => rfl
    | some r =>
      dsimp only
      split_ifs
      · rfl
      · rfl
      · rw [← ih r.1, Option.map_map]
        rfl

/-- The number of rounds of the loop of `shortest_paths` entered with the
counter `limit` is between 1 and `limit + 1`, and each round puts one vertex in
front of the paths. -/
theorem rounds_bound (g : Graph) (u v : Nat) :
    ∀ (limit t : Nat) (paths r : List (List Nat)) (n : Nat),
      (∀ w ∈ paths, w.length = t + 1 ∧ g.Walk v w) →
      shortest_paths_rounds g u limit paths = some (r, n) →
      1 ≤ n ∧ n ≤ limit + 1 ∧ ∀ w ∈ r, w.length = t + n + 1 ∧ g.Walk v w := by
  intro limit
  induction limit with
  | zero =>
    intro t paths r n hp h
    rw [shortest_paths_rounds] at h
    cases hi : shortest_paths_iterate g u paths false with
    | none => rw [hi] at h; exact absurd h (by simp)
    | some r1 =>
      rw [hi] at h
      dsimp only at h
      have hr : (r1.1, 1) = (r, n) := by
        split_ifs at h <;> exact Option.some.inj h
      obtain ⟨hr1, hn⟩ := Prod.mk.inj hr
      subst hr1
      subst hn
      refine ⟨le_refl _, le_refl _, fun w hw1 => ?_⟩
      rcases iterate_walks g u v t paths false hp r1 hi with h0 | h1
      · rw [h0] at hw1; exact absurd hw1 (List.not_mem_nil _)
      · exact h1 w hw1
  | succ limit ih =>
    intro t paths r n hp h
    rw [shortest_paths_rounds] at h
    cases hi : shortest_paths_iterate g u paths false with
    | none => rw [hi] at h; exact absurd h (by simp)
    | some r1 =>
      rw [hi] at h
      dsimp only at h
      have hstep : ∀ w ∈ r1.1, w.length = t + 1 + 1 ∧ g.Walk v w := by
        intro w hw1
        rcases iterate_walks g u v t paths false hp r1 hi with h0 | h1
        · rw [h0] at hw1; exact absurd hw1 (List.not_mem_nil _)
        · exact h1 w hw1
      by_cases c1 : r1.2 = true
      · rw [if_pos c1] at h
        obtain ⟨hr1, hn⟩ := Prod.mk.inj (Option.some.inj h)
        subst hr1
        subst hn
        exact ⟨le_refl _, by omega, hstep⟩
      · rw [if_neg c1] at h
        by_cases c2 : r1.1.isEmpty = true
        · rw [if_pos c2] at h
          obtain ⟨hr1, hn⟩ := Prod.mk.inj (Option.some.inj h)
          subst hr1
          subst hn
          exact ⟨le_refl _, by omega, hstep⟩
        · rw [if_neg c2] at h
          cases hq : shortest_paths_rounds g u limit r1.1 with
          | none => rw [hq] at h; exact absurd h (by simp)
          | some q =>
            rw [hq] at h
            obtain ⟨hr1, hn⟩ := Prod.mk.inj (Option.some.inj h)
            obtain ⟨k1, k2, k3⟩ := ih (t + 1) r1.1 q.1 q.2 hstep hq
            subst hn
            refine ⟨by omega, by omega, fun w hw1 => ?_⟩
            rw [← hr1] at hw1
            obtain ⟨m1, m2⟩ := k3 w hw1
            exact ⟨by omega, m2⟩

/-- A returning `compress` writes `compressed_path` only. -/
theorem compress_some (sol s2 : Solution) (h : sol.compress = some s2) :
    s2.raws = sol.raws ∧ s2.paths = sol.paths := by
  unfold Solution.compress at h
  split at h
  · rw [← Option.some.inj h]
    exact ⟨rfl, rfl⟩
  · split at h
    · rw [← Option.some.inj h]
      exact ⟨rfl, rfl⟩
    · exact absurd h (by simp)

/-- A symbol path has at most one entry for each pair of consecutive
vertices. -/
theorem path_solution_le (g : Graph) (rest : List Nat) :
    ∀ x, (path_solution g (x :: rest)).length ≤ rest.length := by
  induction rest with
  | nil => intro x; exact le_refl _
  | cons y ys ih =>
    intro x
    rw [path_solution]
    cases g.lookup_edge x y with
    | none =>
      dsimp only
      exact le_trans (ih y) (Nat.le_succ _)
    | some e =>
      dsimp only
      rw [List.length_cons, List.length_cons]
      exact Nat.succ_le_succ (ih y)

/-- Claim C31 (iteration cap), with the number that the code has.  The loop of
`shortest_paths` calls `shortest_paths_iterate` at least once and at most 101
times (the counter starts at 100 and is tested, then decremented, after each
call), and every path it returns has one vertex more than the number of calls;
so whenever `solve_shortest` on a fresh Solution returns, no raw path has more
than 102 vertices and no symbol path more than 101 entries. -/
theorem iteration_cap (cs : ConstraintState) (sol : Solution)
    (h : cs.solve_shortest Solution.fresh = some sol) :
    (∀ raw ∈ sol.raws, raw.length ≤ 102) ∧ (∀ p ∈ sol.paths, p.length ≤ 101) ∧
    ∀ (g : Graph) (u v : Nat),
      (shortest_paths_rounds g u 100 [[v]]).map Prod.fst = shortest_paths g u v ∧
      ∀ (r : List (List Nat)) (n : Nat), shortest_paths_rounds g u 100 [[v]] = some (r, n) →
        1 ≤ n ∧ n ≤ 101 ∧ ∀ w ∈ r, w.length = n + 1 := by
  have hrounds : ∀ (g : Graph) (u v : Nat),
      (shortest_paths_rounds g u 100 [[v]]).map Prod.fst = shortest_paths g u v ∧
      ∀ (r : List (List Nat)) (n : Nat), shortest_paths_rounds g u 100 [[v]] = some (r, n) →
        1 ≤ n ∧ n ≤ 101 ∧ ∀ w ∈ r, w.length = n + 1 := by
    intro g u v
    refine ⟨rounds_fst g u 100 [[v]], fun r n hr => ?_⟩
    obtain ⟨k1, k2, k3⟩ := rounds_bound g u v 100 0 [[v]] r n
      (fun w hw1 => by
        rw [List.mem_singleton] at hw1
        rw [hw1]
        exact ⟨rfl, rfl⟩) hr
    exact ⟨k1, k2, fun w hw1 => by rw [(k3 w hw1).1]; omega⟩
  have hfresh : sol = Solution.fresh →
      (∀ raw ∈ sol.raws, raw.length ≤ 102) ∧ (∀ p ∈ sol.paths, p.length ≤ 101) := by
    intro hs
    rw [hs]
    exact ⟨fun w hw1 => absurd hw1 (List.not_mem_nil _),
      fun w hw1 => absurd hw1 (List.not_mem_nil _)⟩
  refine ⟨?_, ?_, hrounds⟩
  all_goals
    unfold ConstraintState.solve_shortest at h
    dsimp only at h
    split_ifs at h with h1 h2
    · first
        | exact (hfresh (Option.some.inj h).symm).1
        | exact (hfresh (Option.some.inj h).symm).2
    · first
        | exact (hfresh (Option.some.inj h).symm).1
        | exact (hfresh (Option.some.inj h).symm).2
    · cases hs : shortest_paths
          (breadth_first_search (breadth_first_search cs.table (cs.vertex_of cs.start_node)).p
            (cs.vertex_of cs.end_node)).p
          (cs.vertex_of cs.start_node) (cs.vertex_of cs.end_node) with
      | none => rw [hs] at h; exact absurd h (by simp)
      | some paths =>
        rw [hs] at h
        dsimp only at h
        rw [fold_solution] at h
        obtain ⟨k2, k3⟩ := compress_some _ _ h
        have hlen : ∀ w ∈ paths, w.length ≤ 102 ∧ w ≠ [] := by
          intro w hw1
          obtain ⟨e1, e2⟩ := hrounds
            (breadth_first_search (breadth_first_search cs.table (cs.vertex_of cs.start_node)).p
              (cs.vertex_of cs.end_node)).p
            (cs.vertex_of cs.start_node) (cs.vertex_of cs.end_node)
          rw [hs] at e1
          cases hq : shortest_paths_rounds
              (breadth_first_search (breadth_first_search cs.table (cs.vertex_of cs.start_node)).p
                (cs.vertex_of cs.end_node)).p
              (cs.vertex_of cs.start_node) 100 [[cs.vertex_of cs.end_node]] with
          | none => rw [hq] at e1; exact absurd e1 (by simp)
          | some q =>
            rw [hq] at e1
            have hq1 : q.1 = paths := Option.some.inj e1
            obtain ⟨m1, m2, m3⟩ := e2 q.1 q.2 hq
            rw [hq1] at m3
            have := m3 w hw1
            refine ⟨by omega, fun hc => ?_⟩
            rw [hc] at this
            simp at this
        intro x hx
        first
          | (have k4 : sol.raws = paths.map
                (fun w => w.map (fun x => (cs.table.vinfo x).positions)) := k2
             rw [k4, List.mem_map] at hx
             obtain ⟨w, hw1, rfl⟩ := hx
             rw [List.length_map]
             exact (hlen w hw1).1)
          | (have k5 : sol.paths = paths.map (path_solution cs.table) := k3
             rw [k5, List.mem_map] at hx
             obtain ⟨w, hw1, rfl⟩ := hx
             obtain ⟨g1, g2⟩ := hlen w hw1
             cases w with
             | nil => exact absurd rfl g2
             | cons y ys =>
               have := path_solution_le cs.table ys y
               rw [List.length_cons] at g1
               omega)

/-- C31 at scenario 6 without the unit pass: the call returns one raw path of
2 vertices and one symbol path of 1 entry, after one round. -/
theorem iteration_cap_witness :
    unit_terminal_state.solve_shortest Solution.fresh
      = some { raws := [[[0], [1]]], paths := [[[5]]], compressed_path := [[5]] } ∧
    (∀ raw ∈ ({ raws := [[[0], [1]]], paths := [[[5]]], compressed_path := [[5]] } :
        Solution).raws, raw.length ≤ 102) ∧
    shortest_paths_rounds unit_terminal_state.table 0 100 [[1]] = some ([[0, 1]], 1) := by
  refine ⟨by decide, ?_, by decide⟩
  exact (iteration_cap unit_terminal_state
    { raws := [[[0], [1]]], paths := [[[5]]], compressed_path := [[5]] } (by decide)).1

/-- The result of `solve_shortest` when the nearest walk from the start vertex
to the end vertex has `d` edges, for every `d` that the loop of
`shortest_paths` reaches, `d = 101` included: the raw paths are the position
lists of the walks with `d` edges, each once. -/
theorem solve_shortest_nearest (cs : ConstraintState) (hw : cs.WF) (u v : Nat)
    (hu : map_find cs.vertex_map cs.start_node = some u)
    (hv : map_find cs.vertex_map cs.end_node = some v)
    (huv : u ≠ v) (d : Nat) (hd : d ≤ 101) (w0 : List Nat)
    (hw0 : cs.table.WalkOf u v d w0)
    (hmin : ∀ t w, cs.table.WalkOf u v t w → d ≤ t) :
    ∃ (ws : List (List Nat)) (sol : Solution),
      cs.solve_shortest Solution.fresh = some sol ∧ ws.Nodup ∧
      (∀ w, w ∈ ws ↔ cs.table.WalkOf u v d w) ∧
      sol.raws = ws.map (fun w => w.map (fun x => (cs.table.vinfo x).positions)) ∧
      sol.raws.Nodup ∧
      sol.paths = ws.map (path_solution cs.table) := by
  have hul : u < cs.table.verts.length := (hw.map_range _ _ hu).1
  obtain ⟨hh, hl, hwalk⟩ := hw0
  cases w0 with
  | nil => simp at hh
  | cons a rest0 =>
  have hau : a = u := by simpa using hh
  subst hau
  have hreach : cs.table.Reach a v := walk_reach _ v rest0 a hwalk
  have hd1 : 1 ≤ d := by
    by_contra hc
    have hd0 : d = 0 := by omega
    rw [hd0, List.length_cons] at hl
    have hr0 : rest0 = [] := List.eq_nil_of_length_eq_zero (by omega)
    rw [hr0] at hwalk
    exact huv hwalk
  obtain ⟨b, hb1, hb2⟩ : ∃ b, cs.table.Reach a b ∧ cs.table.HasEdge b v := by
    rcases Relation.ReflTransGen.cases_tail hreach with h | ⟨b, h1, h2⟩
    · exact absurd h.symm huv
    · exact ⟨b, h1, h2⟩
  obtain ⟨_, _, b3, _, b5, _⟩ := bfs_spec cs.table hw.graph a hul
  have hdesc : has_vertex_descriptor v (breadth_first_search cs.table a).p = true := by
    rw [has_vertex_descriptor_iff, b5]
    exact ⟨v, b, (b3 v b).2 ⟨hb1, hb2⟩, le_max_left _ _⟩
  obtain ⟨c1, _, c3, c4⟩ := double_bfs_spec cs.table hw.graph a v hul hdesc
  have hvl : v < (breadth_first_search (breadth_first_search cs.table a).p v).p.verts.length :=
    (c3 v).2 ⟨b, v, (c1 b v).2 ⟨hb1, hb2, Relation.ReflTransGen.refl⟩, le_max_right _ _⟩
  have hwk : ∀ t w,
      (breadth_first_search (breadth_first_search cs.table a).p v).p.WalkOf a v t w
        ↔ cs.table.WalkOf a v t w := by
    intro t w
    unfold Graph.WalkOf
    constructor
    · rintro ⟨h1, h2, h3⟩
      cases w with
      | nil => simp at h1
      | cons x r =>
        exact ⟨h1, h2, walk_mono _ cs.table v (fun p q h => ((c1 p q).1 h).2.1) r x h3⟩
    · rintro ⟨h1, h2, h3⟩
      cases w with
      | nil => simp at h1
      | cons x r =>
        have hx : x = a := by simpa using h1
        subst hx
        exact ⟨h1, h2, walk_transfer cs.table _ x v (fun p q h => (c1 p q).2 h) r x
          Relation.ReflTransGen.refl h3⟩
  obtain ⟨r, hr1, hr2, hr3⟩ := shortest_paths_loop_spec _ c4 a v hvl d (a :: rest0)
    ((hwk d _).2 ⟨hh, hl, hwalk⟩) (fun t w h => hmin t w ((hwk t w).1 h)) 100 0 [[v]]
    (by omega) (by omega) (List.nodup_singleton _)
    (fun w => by
      constructor
      · intro h
        rw [List.mem_singleton] at h
        rw [h]
        exact ⟨rfl, rfl⟩
      · rintro ⟨h1, h2⟩
        cases w with
        | nil => simp at h1
        | cons x r =>
          have hr0 : r = [] := List.eq_nil_of_length_eq_zero (by
            rw [List.length_cons] at h1; omega)
          subst hr0
          have hx : x = v := h2
          rw [hx]
          exact List.mem_singleton_self _)
  have hr4 : ∀ w, w ∈ r ↔ cs.table.WalkOf a v d w := fun w => (hr3 w).trans (hwk d w)
  have e1 : cs.has_vertex cs.start_node = true := by
    unfold ConstraintState.has_vertex; rw [hu]; rfl
  have e2 : cs.has_vertex cs.end_node = true := by
    unfold ConstraintState.has_vertex; rw [hv]; rfl
  have e3 : cs.vertex_of cs.start_node = a := by
    unfold ConstraintState.vertex_of; rw [hu]; rfl
  have e4 : cs.vertex_of cs.end_node = v := by
    unfold ConstraintState.vertex_of; rw [hv]; rfl
  have hsp : shortest_paths (breadth_first_search (breadth_first_search cs.table a).p v).p a v
      = some r := hr1
  have hlen : ∀ q ∈ (r.map (path_solution cs.table)), q.length = d := by
    intro q hq
    rw [List.mem_map] at hq
    obtain ⟨w, hw1, rfl⟩ := hq
    obtain ⟨_, g2, g3⟩ := (hr4 w).1 hw1
    cases w with
    | nil => simp at g2
    | cons x r2 =>
      rw [path_solution_length cs.table v r2 x g3]
      rw [List.length_cons] at g2
      omega
  obtain ⟨s2, hs1, hs2, hs3⟩ := compress_ok
    { raws := [] ++ r.map (fun path => path.map (fun x => (cs.table.vinfo x).positions)),
      paths := [] ++ r.map (path_solution cs.table),
      compressed_path := [] } d hlen
  have hs4 : s2.raws = r.map (fun w => w.map (fun x => (cs.table.vinfo x).positions)) := hs2
  have hs5 : s2.paths = r.map (path_solution cs.table) := hs3
  refine ⟨r, s2, ?_, hr2, hr4, hs4, ?_, hs5⟩
  · unfold ConstraintState.solve_shortest
    simp only [e1, e2, e3, e4, hdesc, hsp, Bool.not_true, Bool.or_self, Bool.false_eq_true,
      if_false]
    rw [fold_solution]
    exact hs1
  · rw [hs4]
    refine List.Nodup.map_on ?_ hr2
    intro w1 h1 w2 h2 h12
    obtain ⟨_, g2, g3⟩ := (hr4 w1).1 h1
    obtain ⟨_, k2, k3⟩ := (hr4 w2).1 h2
    exact map_positions_inj cs w1 w2
      (walk_addressed cs hw v w1 g3 (by omega))
      (walk_addressed cs hw v w2 k3 (by omega)) h12

/-- The chain of 101 edges, built through the public methods, in closed
form. -/
theorem long_chain_closed_101 : long_chain 101 = closed_chain 101 := by
  set_option maxRecDepth 1000000 in
  set_option maxHeartbeats 4000000 in
  decide

/-- C31 as stated fails at the chain of 101 edges `[i] -> [i + 1]` with the
provenance `(0, 1, 0, 101)`: the only walk from the start node `[0]` to the end
node `[101]` has 101 edges, `solve_shortest` returns it as a raw path of 102
vertices that begins with `[0]`, and the loop of `shortest_paths` on this graph
makes 101 calls of `shortest_paths_iterate`. -/
theorem iteration_cap_counterexample :
    (∃ sol, (long_chain 101).solve_shortest Solution.fresh = some sol ∧
      ∃ raw ∈ sol.raws, raw.length = 102 ∧
        raw.head? = some (long_chain 101).start_node.positions) ∧
    ∃ r, shortest_paths_rounds (long_chain 101).table 0 100 [[101]] = some (r, 101) := by
  have hE : ∀ a b, (long_chain 101).table.HasEdge a b ↔ (a < 101 ∧ b = a + 1) := by
    rw [long_chain_closed_101]
    exact closed_chain_edge 101
  have hw0 : (long_chain 101).table.WalkOf 0 101 101 (List.range' 0 102) :=
    ⟨rfl, rfl, chain_walk _ 101 (fun a ha => (hE a (a + 1)).2 ⟨ha, rfl⟩) 101 0 rfl⟩
  have hmin : ∀ t w, (long_chain 101).table.WalkOf 0 101 t w → 101 ≤ t := by
    intro t w hc
    obtain ⟨h1, h2, h3⟩ := hc
    cases w with
    | nil => simp at h2
    | cons x r =>
      have hx : x = 0 := by simpa using h1
      have hr := walk_rank _ (fun a b hab => ((hE a b).1 hab).2) 101 r x h3
      rw [List.length_cons] at h2
      omega
  have hwf := (long_chain_wf 101).1
  constructor
  · obtain ⟨ws, sol, h1, _, h3, h4, _⟩ := solve_shortest_nearest (long_chain 101) hwf 0 101
      (by rw [long_chain_closed_101]; decide) (by rw [long_chain_closed_101]; decide)
      (by decide) 101 (le_refl _) (List.range' 0 102) hw0 hmin
    refine ⟨sol, h1, (List.range' 0 102).map
      (fun x => ((long_chain 101).table.vinfo x).positions), ?_, ?_, ?_⟩
    · rw [h4]
      exact List.mem_map.2 ⟨_, (h3 _).2 hw0, rfl⟩
    · rw [List.length_map]; rfl
    · rw [long_chain_closed_101]
      decide
  · have hlt : 101 < (long_chain 101).table.verts.length := by
      rw [long_chain_closed_101]
      decide
    obtain ⟨r, hr1, _, hr3⟩ := shortest_paths_loop_spec _ hwf.graph 0 101 hlt 101
      (List.range' 0 102) hw0 hmin 100 0 [[101]] (by omega) (by omega)
      (List.nodup_singleton _)
      (fun w => by
        constructor
        · intro h
          rw [List.mem_singleton] at h
          rw [h]
          exact ⟨rfl, rfl⟩
        · rintro ⟨h1, h2⟩
          cases w with
          | nil => simp at h1
          | cons x r =>
            have hr0 : r = [] := List.eq_nil_of_length_eq_zero (by
              rw [List.length_cons] at h1; omega)
            subst hr0
            have hx : x = 101 := h2
            rw [hx]
            exact List.mem_singleton_self _)
    have hf := rounds_fst (long_chain 101).table 0 100 [[101]]
    rw [hr1] at hf
    cases hq : shortest_paths_rounds (long_chain 101).table 0 100 [[101]] with
    | none => rw [hq] at hf; exact absurd hf (by simp)
    | some q =>
      rw [hq] at hf
      have hq1 : q.1 = r := Option.some.inj hf
      obtain ⟨_, _, m3⟩ := rounds_bound (long_chain 101).table 0 101 100 0 [[101]] q.1 q.2
        (fun w hw1 => by
          rw [List.mem_singleton] at hw1
          rw [hw1]
          exact ⟨rfl, rfl⟩) hq
      have hmem : List.range' 0 102 ∈ q.1 := by
        rw [hq1]
        exact (hr3 _).2 hw0
      have hlen := (m3 _ hmem).1
      rw [List.length_range'] at hlen
      have hq2 : q.2 = 101 := by omega
      exact ⟨q.1, by rw [← hq2]⟩

end IterationCap

section ColourValidity

/-- The triples of a ColorSet after a run of `add`s: the old ones and the
added ones. -/
theorem mem_addAll (cs : ColorSet) (hp : cs.Par) (ts : List (Nat × Nat × Nat))
    (t : Nat × Nat × Nat) :
    t ∈ (cs.addAll ts).triples ↔ (t ∈ cs.triples ∨ t ∈ ts) := by
  rw [(addAll_spec cs hp ts).2, foldl_addNew_eq, List.mem_append, List.mem_filter,
    (keep_first_spec ts).2 t]
  constructor
  · rintro (h | ⟨h, _⟩)
    · exact Or.inl h
    · exact Or.inr h
  · rintro (h | h)
    · exact Or.inl h
    · by_cases hc : t ∈ cs.triples
      · exact Or.inl hc
      · exact Or.inr ⟨h, by simpa using hc⟩

/-- The cells of the tables that `colorize()` leaves, in terms of the state
`P` just before level `l`: a cell of length 1 is what the initialisation
stores, a longer cell what `compute_color(i, l)` stores in `P`, where the shorter
cells are final already and the cell itself is untouched. -/
theorem colorize_cell (c : CYK) (hlmax : c.lmax = 1 + c.m) (i l : Nat) (_hl : 1 ≤ l)
    (hi : i + l ≤ c.m) :
    (l = 1 →
      c.colorize.col_table i 1
        = (c.col_table i 1).addAll ((c.full_nts i 1).map (fun nt => (nt, i, 1))) ∧
      c.colorize.score_table i 1
        = (if c.full_nts i 1 ≠ [] then { coverage := 1, largest := 1, num := -1 }
           else c.score_table i 1)) ∧
    (2 ≤ l →
      ColFrame c ((List.range' 2 (l - 2)).foldl CYK.colorize_level c.init_colorize_partial) ∧
      c.colorize.col_table i l
        = (((List.range' 2 (l - 2)).foldl CYK.colorize_level
            c.init_colorize_partial).compute_color i l).col_table i l ∧
      c.colorize.score_table i l
        = (((List.range' 2 (l - 2)).foldl CYK.colorize_level
            c.init_colorize_partial).compute_color i l).score_table i l ∧
      ((List.range' 2 (l - 2)).foldl CYK.colorize_level c.init_colorize_partial).col_table i l
        = c.col_table i l ∧
      ∀ a b, b < l →
        ((List.range' 2 (l - 2)).foldl CYK.colorize_level c.init_colorize_partial).col_table a b
          = c.colorize.col_table a b ∧
        ((List.range' 2 (l - 2)).foldl CYK.colorize_level c.init_colorize_partial).score_table a b
          = c.colorize.score_table a b) := by
  obtain ⟨hF0, hinit⟩ := init_spec c
  rw [colorize_eq]
  constructor
  · intro hl1
    obtain ⟨e1, e2⟩ := clevels_other c.init_colorize_partial 2 (c.lmax - 2) i 1 (Or.inl (by omega))
    rw [e1, e2, (hinit i 1).1, (hinit i 1).2, if_pos ⟨rfl, by omega⟩]
    refine ⟨rfl, ?_⟩
    by_cases hf : c.full_nts i 1 ≠ []
    · rw [if_pos ⟨rfl, by omega, hf⟩, if_pos hf]
    · rw [if_neg (fun hh => hf hh.2.2), if_neg hf]
  · intro hl2
    obtain ⟨e1, e2⟩ := clevels_cell c.init_colorize_partial (c.lmax - 2) i l hl2 (by omega)
      (by rw [hF0.2.1]; exact hi)
    refine ⟨hF0.cf_trans (clevels_frame _ 2 (l - 2)), e1, e2, ?_, fun a b hb => ?_⟩
    · rw [(clevels_other c.init_colorize_partial 2 (l - 2) i l (Or.inr (by omega))).1,
        (hinit i l).1, if_neg (by omega)]
    · obtain ⟨x1, x2⟩ := clevels_stable c.init_colorize_partial 2 (l - 2) (c.lmax - 2) a b
        (by omega) (by omega)
      exact ⟨x1.symm, x2.symm⟩

/-- Claim C35 (every colour is valid and lies inside its span).  From fresh
colour tables (`lmax = 1 + m` as the constructor sets it; the score table is
arbitrary), `colorize()` leaves the recognition table and the ignored set
unchanged, and every triple `(nt, ci, cl)` stored in `C[i][l]`, for `1 ≤ l` and
`i + l ≤ m`, has `cl ≥ 1`, `i ≤ ci`, `ci + cl ≤ i + l`, `nt` in `[1, N)` not
ignored, and `R[nt][ci][cl]`. -/
theorem colours_valid (c : CYK) (hlmax : c.lmax = 1 + c.m)
    (hC : ∀ a b, c.col_table a b = ColorSet.empty)
    (i l : Nat) (hl : 1 ≤ l) (hi : i + l ≤ c.m) :
    c.colorize.cyk_table = c.cyk_table ∧ c.colorize.ignored = c.ignored ∧
    ∀ t ∈ (c.colorize.col_table i l).triples,
      1 ≤ t.2.2 ∧ i ≤ t.2.1 ∧ t.2.1 + t.2.2 ≤ i + l ∧ 1 ≤ t.1 ∧ t.1 < c.n ∧
      t.1 ∉ c.colorize.ignored ∧ c.colorize.cyk_table t.1 t.2.1 t.2.2 = true := by
  have hframe : ColFrame c c.colorize := by
    rw [colorize_eq]
    exact (init_spec c).1.cf_trans (clevels_frame _ 2 _)
  refine ⟨hframe.2.2.2.2.1, hframe.2.2.2.2.2, ?_⟩
  rw [hframe.2.2.2.2.1, hframe.2.2.2.2.2]
  have hfull : ∀ (a b : Nat) (t : Nat × Nat × Nat), 1 ≤ b →
      t ∈ (ColorSet.empty.addAll ((c.full_nts a b).map (fun nt => (nt, a, b)))).triples →
      1 ≤ t.2.2 ∧ a ≤ t.2.1 ∧ t.2.1 + t.2.2 ≤ a + b ∧ 1 ≤ t.1 ∧ t.1 < c.n ∧
        t.1 ∉ c.ignored ∧ c.cyk_table t.1 t.2.1 t.2.2 = true := by
    intro a b t hb ht
    rw [mem_addAll _ par_empty, triples_empty] at ht
    rcases ht with ht | ht
    · exact absurd ht (List.not_mem_nil _)
    · rw [List.mem_map] at ht
      obtain ⟨nt, hnt, rfl⟩ := ht
      obtain ⟨k1, k2, k3, k4⟩ := (mem_full_nts c a b nt).1 hnt
      exact ⟨hb, le_refl _, le_refl _, k1, k2, k3, k4⟩
  have key : ∀ (L : Nat) (l i : Nat), l ≤ L → 1 ≤ l → i + l ≤ c.m →
      ∀ t ∈ (c.colorize.col_table i l).triples,
        1 ≤ t.2.2 ∧ i ≤ t.2.1 ∧ t.2.1 + t.2.2 ≤ i + l ∧ 1 ≤ t.1 ∧ t.1 < c.n ∧
        t.1 ∉ c.ignored ∧ c.cyk_table t.1 t.2.1 t.2.2 = true := by
    intro L
    induction L with
    | zero => intro l i h1 h2; omega
    | succ L ih =>
      intro l i hL hl1 hil t ht
      obtain ⟨g1, g2⟩ := colorize_cell c hlmax i l hl1 hil
      by_cases hone : l = 1
      · subst hone
        rw [(g1 rfl).1, hC] at ht
        exact hfull i 1 t (le_refl _) ht
      · obtain ⟨hfr, e1, _, e3, e4⟩ := g2 (by omega)
        rw [e1, (compute_color_spec _ i l).2.2.1, e3, hC, full_nts_congr hfr] at ht
        by_cases hf : c.full_nts i l ≠ []
        · rw [if_pos hf] at ht
          exact hfull i l t hl1 ht
        · rw [if_neg hf, mem_addAll _ par_empty, triples_empty] at ht
          rcases ht with ht | ht
          · exact absurd ht (List.not_mem_nil _)
          · rw [List.mem_flatMap] at ht
            obtain ⟨p, hp, htp⟩ := ht
            have hp2 := best_split_ptrs _ i l p hp
            rw [(e4 p.1 p.2 hp2.1).1] at htp
            unfold CYK.best_split at hp
            rw [(split_run _ i l (List.range' 1 (l - 1))).2.2, List.mem_flatMap] at hp
            obtain ⟨k, hk, hpk⟩ := hp
            have hk2 := List.mem_of_mem_filter hk
            rw [List.mem_range'_1] at hk2
            rcases mem_children _ i l k p hpk with hq | hq
            · subst hq
              obtain ⟨m1, m2, m3, m4⟩ := ih k i (by omega) (by omega) (by omega) t htp
              exact ⟨m1, m2, by omega, m4⟩
            · subst hq
              obtain ⟨m1, m2, m3, m4⟩ := ih (l - k) (i + k) (by omega) (by omega) (by omega) t htp
              exact ⟨m1, by omega, by omega, m4⟩
  exact key l l i (le_refl _) hl hi

/-- C35 at scenario 3 (`S` ignored), span `(0, 2)`: the stored colours are
`(A, 0, 1)` and `(B, 1, 1)`; the second one lies inside the span, is not
ignored and is recognised. -/
theorem colours_valid_witness :
    (scenario3.colorize.col_table 0 2).triples = [(2, 0, 1), (3, 1, 1)] ∧
    (1 ≤ 1 ∧ 0 ≤ 1 ∧ 1 + 1 ≤ 0 + 2 ∧ 1 ≤ 3 ∧ 3 < scenario3.n ∧
      3 ∉ scenario3.colorize.ignored ∧ scenario3.colorize.cyk_table 3 1 1 = true) :=
  ⟨by decide,
   (colours_valid scenario3 rfl (fun _ _ => rfl) 0 2 (by decide) (by decide)).2.2 (3, 1, 1)
    (by decide)⟩

end ColourValidity

section Coverage

theorem key_le_coverage (a b : Score) (h : a.key ≤ b.key) : a.coverage ≤ b.coverage := by
  unfold Score.key at h
  rw [Prod.Lex.le_iff] at h
  rcases h with h | h
  · exact le_of_lt h
  · exact le_of_eq h.1

theorem colourable_iff (c : CYK) (i l : Nat) : c.Colourable i l ↔ c.full_nts i l ≠ [] := by
  constructor
  · rintro ⟨nt, h⟩ he
    have := (mem_full_nts c i l nt).2 h
    rw [he] at this
    exact absurd this (List.not_mem_nil _)
  · intro h
    obtain ⟨nt, hnt⟩ := List.exists_mem_of_ne_nil _ h
    exact ⟨nt, (mem_full_nts c i l nt).1 hnt⟩

/-- The states of a `colorize()` run from well-shaped scores hold well-shaped
scores. -/
theorem colorize_ok (c : CYK) (hS : ScoresOk c) : ScoresOk c.colorize := by
  rw [colorize_eq]
  exact clevels_ok _ _ (init_ok c hS)

/-- The recurrence of the coverage that `colorize()` stores, from a fresh
score table: the length of a colourable span, 0 for a span of length 1 that is
not colourable, and otherwise the greatest sum of the coverages of the two
parts of a split. -/
theorem coverage_rec (c : CYK) (hlmax : c.lmax = 1 + c.m)
    (hS : ∀ a b, c.score_table a b = Score.zero) (i l : Nat) (hl : 1 ≤ l) (hi : i + l ≤ c.m) :
    (c.Colourable i l → (c.colorize.score_table i l).coverage = l) ∧
    (¬ c.Colourable i l → l = 1 → (c.colorize.score_table i l).coverage = 0) ∧
    (¬ c.Colourable i l → 2 ≤ l →
      (∃ k, 1 ≤ k ∧ k < l ∧ (c.colorize.score_table i l).coverage
        = (c.colorize.score_table i k).coverage
          + (c.colorize.score_table (i + k) (l - k)).coverage) ∧
      ∀ k, 1 ≤ k → k < l →
        (c.colorize.score_table i k).coverage
          + (c.colorize.score_table (i + k) (l - k)).coverage
          ≤ (c.colorize.score_table i l).coverage) := by
  rw [colourable_iff]
  obtain ⟨g1, g2⟩ := colorize_cell c hlmax i l hl hi
  have hok0 : ScoresOk c.init_colorize_partial :=
    init_ok c (fun a b => by rw [hS]; exact zero_inv)
  by_cases hone : l = 1
  · subst hone
    obtain ⟨_, e2⟩ := g1 rfl
    rw [e2]
    refine ⟨fun hf => ?_, fun hf _ => ?_, fun _ h2 => absurd h2 (by omega)⟩
    · rw [if_pos hf]; rfl
    · rw [if_neg hf, hS]; rfl
  · obtain ⟨hfr, _, e2, _, e4⟩ := g2 (by omega)
    rw [e2, (compute_color_spec _ i l).2.2.2, full_nts_congr hfr]
    refine ⟨fun hf => ?_, fun _ h1 => absurd h1 hone, fun hf _ => ?_⟩
    · rw [if_pos hf]
    · rw [if_neg hf]
      have hoks := clevels_ok c.init_colorize_partial (l - 2) hok0
      obtain ⟨⟨k0, hk1, hk2, hk3⟩, hmax, _⟩ := best_split_sem _ i l (by omega) hoks
      have hcomb : ∀ k, 1 ≤ k → k < l →
          (((List.range' 2 (l - 2)).foldl CYK.colorize_level
              c.init_colorize_partial).combined i l k).coverage
            = (c.colorize.score_table i k).coverage
              + (c.colorize.score_table (i + k) (l - k)).coverage := by
        intro k h1 h2
        rw [combined_eq_combine, (e4 _ _ h2).2, (e4 _ _ (by omega : l - k < l)).2]
        rfl
      refine ⟨⟨k0, hk1, hk2, by rw [hk3, hcomb k0 hk1 hk2]⟩, fun k h1 h2 => ?_⟩
      rw [← hcomb k h1 h2]
      exact key_le_coverage _ _ (hmax k h1 h2)

/-- A packing of a window of width 0 is empty. -/
theorem packing_zero (c : CYK) (i : Nat) (sp : List (Nat × Nat)) (h : c.Packing i 0 sp) :
    sp = [] := by
  cases sp with
  | nil => rfl
  | cons p rest =>
    obtain ⟨h1, h2, h3, _⟩ := h.1 p (List.mem_cons_self _ _)
    omega

/-- A packing whose spans all end before `i + k` is a packing of the window
of width `k`. -/
theorem packing_narrow (c : CYK) (i l k : Nat) (sp : List (Nat × Nat)) (h : c.Packing i l sp)
    (hk : ∀ p ∈ sp, p.1 + p.2 ≤ i + k) : c.Packing i k sp :=
  ⟨fun p hp => ⟨(h.1 p hp).1, (h.1 p hp).2.1, hk p hp, (h.1 p hp).2.2.2⟩, h.2⟩

/-- Taking one span out of a list without repetition takes its length out of
the total. -/
theorem total_filter_ne (sp : List (Nat × Nat)) (p : Nat × Nat) (hnd : sp.Nodup) (hp : p ∈ sp) :
    total_length sp = p.2 + total_length (sp.filter (fun q => decide (q ≠ p))) := by
  induction sp with
  | nil => exact absurd hp (List.not_mem_nil _)
  | cons x xs ih =>
    rw [List.nodup_cons] at hnd
    by_cases hx : x = p
    · subst hx
      have hself : xs.filter (fun q => decide (q ≠ x)) = xs := by
        rw [List.filter_eq_self]
        intro q hq
        have : q ≠ x := fun he => hnd.1 (he ▸ hq)
        simpa using this
      rw [List.filter_cons, if_neg (by simp), hself]
      simp [total_length]
    · have hp2 : p ∈ xs := by
        rcases List.mem_cons.1 hp with h | h
        · exact absurd h.symm hx
        · exact h
      rw [List.filter_cons, if_pos (by simpa using hx)]
      have := ih hnd.2 hp2
      simp only [total_length, List.map_cons, List.sum_cons] at this ⊢
      omega

/-- Peeling the last position of a window: either no span of the packing ends
at the end of the window, or one span `p` does, and then the other spans are a
packing of the window in front of `p`. -/
theorem packing_peel (c : CYK) (i l : Nat) (sp : List (Nat × Nat)) (h : c.Packing i (l + 1) sp) :
    c.Packing i l sp ∨
    ∃ p ∈ sp, p.1 + p.2 = i + (l + 1) ∧ 1 ≤ p.2 ∧ i ≤ p.1 ∧ c.Colourable p.1 p.2 ∧
      c.Packing i (p.1 - i) (sp.filter (fun q => decide (q ≠ p))) ∧
      total_length sp = p.2 + total_length (sp.filter (fun q => decide (q ≠ p))) := by
  by_cases hex : ∃ p ∈ sp, p.1 + p.2 = i + (l + 1)
  · right
    obtain ⟨p, hp, hend⟩ := hex
    obtain ⟨k1, k2, _, k4⟩ := h.1 p hp
    have hnd : sp.Nodup := by
      refine List.Pairwise.imp_of_mem ?_ h.2
      intro a b ha _ hab he
      have := (h.1 a ha).1
      rw [he] at hab
      rw [he] at this
      omega
    have hsym : Symmetric (fun (p q : Nat × Nat) => p.1 + p.2 ≤ q.1 ∨ q.1 + q.2 ≤ p.1) :=
      fun a b hab => hab.symm
    refine ⟨p, hp, hend, k1, k2, k4, ⟨fun q hq => ?_, h.2.sublist (List.filter_sublist _)⟩, ?_⟩
    · obtain ⟨hqm, hne0⟩ := List.mem_filter.1 hq
      have hne : q ≠ p := by simpa using hne0
      obtain ⟨m1, m2, m3, m4⟩ := h.1 q hqm
      refine ⟨m1, m2, ?_, m4⟩
      rcases h.2.forall hsym hqm hp hne with hd | hd
      · omega
      · omega
    · exact total_filter_ne sp p hnd hp
  · left
    refine packing_narrow c i (l + 1) l sp h (fun p hp => ?_)
    have := (h.1 p hp).2.2.1
    by_contra hc
    exact hex ⟨p, hp, by omega⟩

/-- Pairwise disjoint spans inside a window of width `l` have a total length
of at most `l`. -/
theorem packing_bound (c : CYK) : ∀ (L l i : Nat) (sp : List (Nat × Nat)), l ≤ L →
    c.Packing i l sp → total_length sp ≤ l := by
  intro L
  induction L with
  | zero =>
    intro l i sp hl h
    have hl0 : l = 0 := by omega
    subst hl0
    rw [packing_zero c i sp h]
    exact le_refl _
  | succ L ih =>
    intro l i sp hl h
    cases l with
    | zero =>
      rw [packing_zero c i sp h]
      exact le_refl _
    | succ l =>
      rcases packing_peel c i l sp h with h1 | ⟨p, _, hend, _, hge, _, hpk, htot⟩
      · exact le_trans (ih l i sp (by omega) h1) (Nat.le_succ _)
      · have := ih (p.1 - i) i (sp.filter (fun q => decide (q ≠ p))) (by omega) hpk
        omega

/-- Claim C34 (coverage is optimal).  From a fresh score table (`lmax = 1 + m`
as the constructor sets it), `colorize()` leaves the recognition table and the
ignored set unchanged, and for every span `(i, l)` with `1 ≤ l` and
`i + l ≤ m` the stored coverage `S[i][l].coverage` is the maximum total length
of a set of pairwise disjoint colourable sub-spans of `[i, i + l)`: some such
set attains it and none exceeds it; it lies between 0 and `l`; and no cell of
the score table holds the initial candidate `(0, 0, -1000000)`. -/
theorem coverage_optimal (c : CYK) (hlmax : c.lmax = 1 + c.m)
    (hS : ∀ a b, c.score_table a b = Score.zero)
    (i l : Nat) (hl : 1 ≤ l) (hi : i + l ≤ c.m) :
    c.colorize.cyk_table = c.cyk_table ∧ c.colorize.ignored = c.ignored ∧
    c.colorize.n = c.n ∧
    (∃ sp, c.Packing i l sp ∧
      ((total_length sp : Nat) : Int) = (c.colorize.score_table i l).coverage) ∧
    (∀ sp, c.Packing i l sp →
      ((total_length sp : Nat) : Int) ≤ (c.colorize.score_table i l).coverage) ∧
    0 ≤ (c.colorize.score_table i l).coverage ∧
    (c.colorize.score_table i l).coverage ≤ l ∧
    ∀ a b, c.colorize.score_table a b ≠ Score.floor := by
  have hframe : ColFrame c c.colorize := by
    rw [colorize_eq]
    exact (init_spec c).1.cf_trans (clevels_frame _ 2 _)
  have hok : ScoresOk c.colorize := colorize_ok c (fun a b => by rw [hS]; exact zero_inv)
  have hlow : ∀ (L l i : Nat), l ≤ L → 1 ≤ l → i + l ≤ c.m →
      ∃ sp, c.Packing i l sp ∧
        ((total_length sp : Nat) : Int) = (c.colorize.score_table i l).coverage := by
    intro L
    induction L with
    | zero => intro l i h1 h2; omega
    | succ L ih =>
      intro l i hL hl1 hil
      obtain ⟨r1, r2, r3⟩ := coverage_rec c hlmax hS i l hl1 hil
      by_cases hcol : c.Colourable i l
      · refine ⟨[(i, l)], ⟨fun p hp => ?_, List.pairwise_singleton _ _⟩, ?_⟩
        · rw [List.mem_singleton] at hp
          subst hp
          exact ⟨hl1, le_refl _, le_refl _, hcol⟩
        · rw [r1 hcol]
          simp [total_length]
      · by_cases hone : l = 1
        · refine ⟨[], ⟨fun p hp => absurd hp (List.not_mem_nil _), List.Pairwise.nil⟩, ?_⟩
          rw [r2 hcol hone]
          rfl
        · obtain ⟨⟨k, hk1, hk2, hk3⟩, _⟩ := r3 hcol (by omega)
          obtain ⟨s1, p1, t1⟩ := ih k i (by omega) hk1 (by omega)
          obtain ⟨s2, p2, t2⟩ := ih (l - k) (i + k) (by omega) (by omega) (by omega)
          refine ⟨s1 ++ s2, ⟨fun p hp => ?_, ?_⟩, ?_⟩
          · rcases List.mem_append.1 hp with hp | hp
            · obtain ⟨m1, m2, m3, m4⟩ := p1.1 p hp
              exact ⟨m1, m2, by omega, m4⟩
            · obtain ⟨m1, m2, m3, m4⟩ := p2.1 p hp
              exact ⟨m1, by omega, by omega, m4⟩
          · rw [List.pairwise_append]
            refine ⟨p1.2, p2.2, fun a ha b hb => Or.inl ?_⟩
            have := (p1.1 a ha).2.2.1
            have := (p2.1 b hb).2.1
            omega
          · rw [hk3, ← t1, ← t2]
            simp [total_length]
  have hup : ∀ (L l i : Nat), l ≤ L → 1 ≤ l → i + l ≤ c.m →
      ∀ sp, c.Packing i l sp →
        ((total_length sp : Nat) : Int) ≤ (c.colorize.score_table i l).coverage := by
    intro L
    induction L with
    | zero => intro l i h1 h2; omega
    | succ L ih =>
      intro l i hL hl1 hil sp hsp
      obtain ⟨r1, r2, r3⟩ := coverage_rec c hlmax hS i l hl1 hil
      by_cases hcol : c.Colourable i l
      · rw [r1 hcol]
        exact_mod_cast packing_bound c l l i sp (le_refl _) hsp
      · cases l with
        | zero => omega
        | succ l0 =>
          by_cases hone : l0 = 0
          · subst hone
            rw [r2 hcol rfl]
            have hnil : sp = [] := by
              cases sp with
              | nil => rfl
              | cons p rest =>
                exfalso
                obtain ⟨m1, m2, m3, m4⟩ := hsp.1 p (List.mem_cons_self _ _)
                have e1 : p.1 = i := by omega
                have e2 : p.2 = 0 + 1 := by omega
                rw [e1, e2] at m4
                exact hcol m4
            rw [hnil]
            rfl
          · obtain ⟨_, hmax⟩ := r3 hcol (by omega)
            rcases packing_peel c i l0 sp hsp with h1 | ⟨p, _, hend, hp1, hge, hpc, hpk, htot⟩
            · have b1 := ih l0 i (by omega) (by omega) (by omega) sp h1
              have b2 := hmax l0 (by omega) (by omega)
              have b3 := (hok (i + l0) (l0 + 1 - l0)).1
              omega
            · have hgt : i < p.1 := by
                by_contra hc
                have e1 : p.1 = i := by omega
                have e2 : p.2 = l0 + 1 := by omega
                rw [e1, e2] at hpc
                exact hcol hpc
              have b1 := ih (p.1 - i) i (by omega) (by omega) (by omega) _ hpk
              have hsingle : c.Packing (i + (p.1 - i)) (l0 + 1 - (p.1 - i)) [p] :=
                ⟨fun q hq => by
                  rw [List.mem_singleton] at hq
                  subst hq
                  exact ⟨hp1, by omega, by omega, hpc⟩, List.pairwise_singleton _ _⟩
              have b2 := ih (l0 + 1 - (p.1 - i)) (i + (p.1 - i)) (by omega) (by omega) (by omega)
                [p] hsingle
              have b3 := hmax (p.1 - i) (by omega) (by omega)
              have e3 : total_length [p] = p.2 := by simp [total_length]
              rw [e3] at b2
              rw [htot]
              push_cast
              omega
  obtain ⟨sp0, hp0, ht0⟩ := hlow l l i (le_refl _) hl hi
  refine ⟨hframe.2.2.2.2.1, hframe.2.2.2.2.2, hframe.1, ⟨sp0, hp0, ht0⟩,
    hup l l i (le_refl _) hl hi, (hok i l).1, ?_, fun a b hc => ?_⟩
  · rw [← ht0]
    exact_mod_cast packing_bound c l l i sp0 (le_refl _) hp0
  · have := (hok a b).2.2
    rw [hc] at this
    have := (this rfl).2
    simp [Score.floor] at this

/-- C34 at scenario 3 (`S` ignored), span `(0, 2)`: the spans `(0, 1)` (by `A`)
and `(1, 1)` (by `B`) are a packing of total length 2, and the stored coverage
is 2. -/
theorem coverage_optimal_witness :
    scenario3.colorize.score_table 0 2 = { coverage := 2, largest := 1, num := -2 } ∧
    scenario3.Packing 0 2 [(0, 1), (1, 1)] ∧
    ((total_length [(0, 1), (1, 1)] : Nat) : Int)
      ≤ (scenario3.colorize.score_table 0 2).coverage := by
  have hp : scenario3.Packing 0 2 [(0, 1), (1, 1)] := by
    refine ⟨fun p hp => ?_, by decide⟩
    rcases List.mem_cons.1 hp with h | h
    · subst h
      exact ⟨by decide, by decide, by decide, 2, by decide, by decide, by decide, by decide⟩
    · rw [List.mem_singleton] at h
      subst h
      exact ⟨by decide, by decide, by decide, 3, by decide, by decide, by decide, by decide⟩
  exact ⟨by decide, hp,
    (coverage_optimal scenario3 rfl (fun _ _ => rfl) 0 2 (by decide) (by decide)).2.2.2.2.1 _ hp⟩

end Coverage

section Termination

/-- An insertion into a `std::set` adds the element or leaves the set as it
is. -/
theorem set_insert_perm {α : Type} (lt : α → α → Bool) (x : α) (l : List α) :
    set_insert lt x l = l ∨ (set_insert lt x l).Perm (x :: l) := by
  induction l with
  | nil => exact Or.inr (List.Perm.refl _)
  | cons y ys ih =>
    unfold set_insert
    split_ifs
    · exact Or.inr (List.Perm.refl _)
    · rcases ih with h | h
      · rw [h]; exact Or.inl rfl
      · exact Or.inr ((List.Perm.cons y h).trans (List.Perm.swap x y ys))
    · exact Or.inl rfl

/-- The working set after the body of the loops of `intersect_iterate`: as
before, or with the pair of the two targets added. -/
theorem edge_pair_worklist (c1 c2 : ConstraintState) (u v : Nat) (e1 e2 : Edge)
    (st : ConstraintState × List (Nat × Nat)) :
    (intersect_edge_pair c1 c2 u v e1 e2 st).2 = st.2 ∨
    (intersect_edge_pair c1 c2 u v e1 e2 st).2.Perm ((e1.tgt, e2.tgt) :: st.2) := by
  unfold intersect_edge_pair
  dsimp only
  split_ifs
  · exact Or.inl rfl
  · exact set_insert_perm pair_lt (e1.tgt, e2.tgt) st.2

/-- The working set after the inner loop of `intersect_iterate`. -/
theorem inner_worklist (c1 c2 : ConstraintState) (u v : Nat) (e1 : Edge) (L2 : List Edge) :
    ∀ st : ConstraintState × List (Nat × Nat),
      ∃ t : List (Nat × Nat), (∀ q ∈ t, q.1 = e1.tgt ∧ ∃ e2 ∈ L2, q.2 = e2.tgt) ∧
        (L2.foldl (fun st1 e2 => intersect_edge_pair c1 c2 u v e1 e2 st1) st).2.Perm (t ++ st.2) := by
  induction L2 with
  | nil => intro st; exact ⟨[], fun q hq => absurd hq (List.not_mem_nil _), List.Perm.refl _⟩
  | cons e2 rest ih =>
    intro st
    rw [List.foldl_cons]
    obtain ⟨t, ht1, ht2⟩ := ih (intersect_edge_pair c1 c2 u v e1 e2 st)
    rcases edge_pair_worklist c1 c2 u v e1 e2 st with h | h
    · refine ⟨t, fun q hq => ?_, by rw [h] at ht2; exact ht2⟩
      obtain ⟨k1, e, he, k2⟩ := ht1 q hq
      exact ⟨k1, e, List.mem_cons_of_mem _ he, k2⟩
    · refine ⟨t ++ [(e1.tgt, e2.tgt)], fun q hq => ?_, ?_⟩
      · rcases List.mem_append.1 hq with hq | hq
        · obtain ⟨k1, e, he, k2⟩ := ht1 q hq
          exact ⟨k1, e, List.mem_cons_of_mem _ he, k2⟩
        · rw [List.mem_singleton] at hq
          subst hq
          exact ⟨rfl, e2, List.mem_cons_self _ _, rfl⟩
      · refine ht2.trans ?_
        rw [List.append_assoc]
        exact List.Perm.append_left t h

/-- The working set after one call of `intersect_iterate` on a non-empty set:
the popped pair is gone, and pairs of successors of its two vertices have been
added. -/
theorem iterate_worklist (c1 c2 dest : ConstraintState) (u v : Nat) (rest : List (Nat × Nat)) :
    (intersect_iterate c1 c2 dest ((u, v) :: rest)).1 = true ∧
    ∃ t : List (Nat × Nat),
      (∀ q ∈ t, c1.table.HasEdge u q.1 ∧ c2.table.HasEdge v q.2) ∧
      (intersect_iterate c1 c2 dest ((u, v) :: rest)).2.2.Perm (t ++ rest) := by
  refine ⟨rfl, ?_⟩
  unfold intersect_iterate
  dsimp only
  have key : ∀ (L1 : List Edge) (st : ConstraintState × List (Nat × Nat)),
      ∃ t : List (Nat × Nat),
        (∀ q ∈ t, (∃ e1 ∈ L1, q.1 = e1.tgt) ∧ ∃ e2 ∈ c2.table.out_edges v, q.2 = e2.tgt) ∧
        (L1.foldl (fun st e1 => (c2.table.out_edges v).foldl
          (fun st1 e2 => intersect_edge_pair c1 c2 u v e1 e2 st1) st) st).2.Perm (t ++ st.2) := by
    intro L1
    induction L1 with
    | nil => intro st; exact ⟨[], fun q hq => absurd hq (List.not_mem_nil _), List.Perm.refl _⟩
    | cons e1 more ih =>
      intro st
      rw [List.foldl_cons]
      obtain ⟨t1, a1, a2⟩ := inner_worklist c1 c2 u v e1 (c2.table.out_edges v) st
      obtain ⟨t2, b1, b2⟩ := ih ((c2.table.out_edges v).foldl
        (fun st1 e2 => intersect_edge_pair c1 c2 u v e1 e2 st1) st)
      refine ⟨t2 ++ t1, fun q hq => ?_, ?_⟩
      · rcases List.mem_append.1 hq with hq | hq
        · obtain ⟨⟨e, he, k1⟩, k2⟩ := b1 q hq
          exact ⟨⟨e, List.mem_cons_of_mem _ he, k1⟩, k2⟩
        · obtain ⟨k1, k2⟩ := a1 q hq
          exact ⟨⟨e1, List.mem_cons_self _ _, k1⟩, k2⟩
      · refine b2.trans ?_
        rw [List.append_assoc]
        exact List.Perm.append_left t2 a2
  obtain ⟨t, ht1, ht2⟩ := key (c1.table.out_edges u) (dest, rest)
  refine ⟨t, fun q hq => ?_, ht2⟩
  obtain ⟨⟨e1, he1, k1⟩, e2, he2, k2⟩ := ht1 q hq
  rw [mem_out_edges] at he1 he2
  exact ⟨⟨e1, he1.1, he1.2, k1.symm⟩, ⟨e2, he2.1, he2.2, k2.symm⟩⟩

/-- The end points of the edges of a graph are bounded. -/
theorem edge_bound (g : Graph) : ∃ N, ∀ a b, g.HasEdge a b → a < N ∧ b < N := by
  have hl : ∀ l : List Edge, ∃ N, ∀ e ∈ l, e.src < N ∧ e.tgt < N := by
    intro l
    induction l with
    | nil => exact ⟨0, fun e he => absurd he (List.not_mem_nil _)⟩
    | cons x xs ih =>
      obtain ⟨N, hN⟩ := ih
      refine ⟨N + x.src + x.tgt + 1, fun e he => ?_⟩
      rcases List.mem_cons.1 he with h | h
      · rw [h]; omega
      · have := hN e h
        omega
  obtain ⟨N, hN⟩ := hl g.edges
  refine ⟨N, fun a b hab => ?_⟩
  obtain ⟨e, he, h1, h2⟩ := hab
  rw [← h1, ← h2]
  exact hN e he

/-- In an acyclic graph the successor relation is well founded: there is no
infinite walk, since the vertices with an edge are finitely many. -/
theorem acyclic_wf (g : Graph) (h : g.Acyclic) : WellFounded (fun b a => g.HasEdge a b) := by
  obtain ⟨N, hN⟩ := edge_bound g
  have htr : IsTrans (Fin N)
      (fun y x => Relation.TransGen (fun b a => g.HasEdge a b) y.val x.val) :=
    ⟨fun _ _ _ h1 h2 => Relation.TransGen.trans h1 h2⟩
  have hir : IsIrrefl (Fin N)
      (fun y x => Relation.TransGen (fun b a => g.HasEdge a b) y.val x.val) :=
    ⟨fun a ha => h a.val (Relation.transGen_swap.1 ha)⟩
  have hwf : WellFounded
      (fun (y x : Fin N) => Relation.TransGen (fun b a => g.HasEdge a b) y.val x.val) :=
    @Finite.wellFounded_of_trans_of_irrefl _ _ _ htr hir
  have hacc : ∀ x : Fin N, Acc (fun b a => g.HasEdge a b) x.val := by
    intro x
    induction x using hwf.induction with
    | _ x ih =>
      constructor
      intro b hb
      exact ih ⟨b, (hN _ _ hb).2⟩ (Relation.TransGen.single hb)
  constructor
  intro a
  constructor
  intro b hb
  exact hacc ⟨b, (hN _ _ hb).2⟩

/-- The successor relation on vertex pairs is well founded when one of the
two graphs is acyclic. -/
theorem pair_wf (c1 c2 : ConstraintState) (h : c1.table.Acyclic ∨ c2.table.Acyclic) :
    WellFounded (fun (q p : Nat × Nat) =>
      c1.table.HasEdge p.1 q.1 ∧ c2.table.HasEdge p.2 q.2) := by
  rcases h with h | h
  · exact Subrelation.wf (fun {q p} hqp => (hqp.1 : InvImage
      (fun b a => c1.table.HasEdge a b) Prod.fst q p)) (InvImage.wf Prod.fst (acyclic_wf _ h))
  · exact Subrelation.wf (fun {q p} hqp => (hqp.2 : InvImage
      (fun b a => c2.table.HasEdge a b) Prod.snd q p)) (InvImage.wf Prod.snd (acyclic_wf _ h))

/-- More calls allowed do not change the result of the working-set loop. -/
theorem intersect_loop_mono (c1 c2 : ConstraintState) :
    ∀ (f : Nat) (dest d : ConstraintState) (np : List (Nat × Nat)),
      intersect_loop c1 c2 f dest np = some d →
      ∀ f2, f ≤ f2 → intersect_loop c1 c2 f2 dest np = some d := by
  intro f
  induction f with
  | zero => intro dest d np h; simp [intersect_loop] at h
  | succ f ih =>
    intro dest d np h f2 hf
    cases f2 with
    | zero => omega
    | succ f2 =>
      rw [intersect_loop] at h ⊢
      split_ifs at h ⊢ with hb
      · exact ih _ _ _ h f2 (by omega)
      · exact h

/-- The working-set loop drains: with a well-founded successor relation on
vertex pairs, enough calls of `intersect_iterate` empty every working set. -/
theorem loop_drains (c1 c2 : ConstraintState)
    (hwf : WellFounded (fun (q p : Nat × Nat) =>
      c1.table.HasEdge p.1 q.1 ∧ c2.table.HasEdge p.2 q.2)) :
    ∀ (s : Multiset (Nat × Nat)) (np : List (Nat × Nat)) (dest : ConstraintState),
      (np : Multiset (Nat × Nat)) = s → ∃ f d, intersect_loop c1 c2 f dest np = some d := by
  intro s
  induction s using hwf.cutExpand.induction with
  | _ s ih =>
    intro np dest hs
    cases np with
    | nil => exact ⟨1, dest, rfl⟩
    | cons p rest =>
      obtain ⟨u, v⟩ := p
      obtain ⟨hb, t, ht1, ht2⟩ := iterate_worklist c1 c2 dest u v rest
      have hcut : Relation.CutExpand
          (fun (q p : Nat × Nat) => c1.table.HasEdge p.1 q.1 ∧ c2.table.HasEdge p.2 q.2)
          ((intersect_iterate c1 c2 dest ((u, v) :: rest)).2.2 : Multiset (Nat × Nat)) s := by
        refine ⟨(t : Multiset (Nat × Nat)), (u, v), fun q hq => ht1 q (Multiset.mem_coe.1 hq), ?_⟩
        rw [← hs, ← Multiset.coe_singleton, Multiset.coe_add, Multiset.coe_add,
          Multiset.coe_eq_coe]
        refine (List.Perm.append_right _ ht2).trans ?_
        refine List.perm_append_comm.trans ?_
        have hcomm : (t ++ rest).Perm (rest ++ t) := List.perm_append_comm
        exact List.Perm.cons _ hcomm
      obtain ⟨f, d, hfd⟩ := ih _ hcut _ (intersect_iterate c1 c2 dest ((u, v) :: rest)).2.1 rfl
      refine ⟨f + 1, d, ?_⟩
      rw [intersect_loop, if_pos hb]
      exact hfd

/-- A graph whose edges all increase a rank has no cycle. -/
theorem acyclic_of_rank (g : Graph) (rk : Nat → Nat)
    (h : ∀ e ∈ g.edges, rk e.src < rk e.tgt) : g.Acyclic := by
  intro v hv
  have hlt : ∀ a b, Relation.TransGen g.HasEdge a b → rk a < rk b := by
    intro a b hab
    induction hab with
    | single h1 =>
      obtain ⟨e, he, k1, k2⟩ := h1
      rw [← k1, ← k2]
      exact h e he
    | tail _ h2 ih =>
      obtain ⟨e, he, k1, k2⟩ := h2
      rw [← k2]
      rw [← k1] at ih
      exact lt_trans ih (h e he)
  exact lt_irrefl _ (hlt v v hv)

/-- Claim C32 (intersection terminates on acyclic inputs).  When the graph of
`c1` or the graph of `c2` is acyclic (so in particular when both are), the
working-set loop of `intersect` drains from every working set and every
`dest`: some number of calls of `intersect_iterate` ends it, and more calls
allowed give the same result; and for every well-formed `dest` whose vertex
map addresses every vertex (a fresh one in particular) the whole of
`intersect(c1, c2, dest)` returns. -/
theorem intersect_terminates (c1 c2 : ConstraintState)
    (h : c1.table.Acyclic ∨ c2.table.Acyclic) :
    (∀ (dest : ConstraintState) (np : List (Nat × Nat)),
      ∃ f d, intersect_loop c1 c2 f dest np = some d ∧
        ∀ f2, f ≤ f2 → intersect_loop c1 c2 f2 dest np = some d) ∧
    (∀ dest : ConstraintState, dest.WF → dest.Total →
      ∃ f d, intersect f c1 c2 dest = some d ∧
        ∀ f2, f ≤ f2 → intersect f2 c1 c2 dest = some d) := by
  have hloop : ∀ (dest : ConstraintState) (np : List (Nat × Nat)),
      ∃ f d, intersect_loop c1 c2 f dest np = some d ∧
        ∀ f2, f ≤ f2 → intersect_loop c1 c2 f2 dest np = some d := by
    intro dest np
    obtain ⟨f, d, hfd⟩ := loop_drains c1 c2 (pair_wf c1 c2 h) _ np dest rfl
    exact ⟨f, d, hfd, intersect_loop_mono c1 c2 f dest d np hfd⟩
  refine ⟨hloop, fun dest hw ht => ?_⟩
  obtain ⟨f, d0, h1, h2⟩ := hloop dest (init_node_pairs c1 c2 [])
  obtain ⟨_, p2, p3, _⟩ := intersect_provenance_spec c1 c2 d0
  obtain ⟨_, t2, t3, _⟩ :=
    intersect_terminal_set_spec c1 c2 (intersect_provenance c1 c2 d0)
  have hwf0 := intersect_loop_wf c1 c2 f dest d0 _ ⟨hw, ht⟩ h1
  have hwf1 := wf_of_same d0 (intersect_terminal_set c1 c2 (intersect_provenance c1 c2 d0))
    (t2.trans p2) (t3.trans p3) hwf0
  obtain ⟨d, e1, _⟩ := prune_spec _ hwf1.1 hwf1.2
  refine ⟨f, d, ?_, fun f2 hf => ?_⟩
  · unfold intersect
    rw [h1]
    exact e1
  · unfold intersect
    rw [h2 f2 hf]
    exact e1

/-- C32 at two acyclic states: the diamond built in two orders.  Both graphs
are acyclic, and `intersect` on a fresh `dest` returns. -/
theorem intersect_terminates_witness :
    diamond_state.table.Acyclic ∧ natural_diamond.table.Acyclic ∧
    ∃ f d, intersect f diamond_state natural_diamond ConstraintState.fresh = some d := by
  have a1 : diamond_state.table.Acyclic :=
    acyclic_of_rank _ (fun x => if x = 0 then 0 else if x = 2 then 1 else if x = 1 then 2 else 3)
      (by decide)
  have a2 : natural_diamond.table.Acyclic := acyclic_of_rank _ (fun x => x) (by decide)
  obtain ⟨f, d, hfd, _⟩ := (intersect_terminates diamond_state natural_diamond (Or.inl a1)).2
    ConstraintState.fresh fresh_wf.1 fresh_wf.2
  exact ⟨a1, a2, f, d, hfd⟩

end Termination

section ProductWalks

/-- In a well-formed graph an ordered pair of vertices has one edge at most. -/
theorem edge_unique (g : Graph) (hg : g.WF) (e e0 : Edge) (he : e ∈ g.edges) (he0 : e0 ∈ g.edges)
    (hs : e.src = e0.src) (ht : e.tgt = e0.tgt) : e = e0 := by
  by_contra hne
  have hsym : Symmetric (fun (e1 e2 : Edge) => ¬ (e1.src = e2.src ∧ e1.tgt = e2.tgt)) :=
    fun a b hab hc => hab ⟨hc.1.symm, hc.2.symm⟩
  exact hg.no_parallel.forall hsym he he0 hne ⟨hs, ht⟩

theorem add_sym_fold (l : List sym_t) (ei : EdgeInfo) :
    (l.foldl EdgeInfo.add_sym ei).syms = ei.syms ++ l := by
  induction l generalizing ei with
  | nil => simp
  | cons x xs ih =>
    rw [List.foldl_cons, ih]
    simp [EdgeInfo.add_sym]

/-- The labelled edges after `add_edge(x, y)` followed by the `add_sym`s of the
symbols `inter` on the returned edge: those from before, and the edge from `x`
to `y` with the symbols of `inter`. -/
theorem add_labelled_edge (g : Graph) (hg : g.WF) (x y : Nat) (inter : List sym_t) (a b : Nat)
    (z : sym_t) :
    ((g.add_edge x y).1.set_info x y
        (inter.foldl EdgeInfo.add_sym ((g.add_edge x y).1.info x y))).HasSym a b z
      ↔ (g.HasSym a b z ∨ (a = x ∧ b = y ∧ z ∈ inter)) := by
  unfold Graph.HasSym Graph.set_info
  dsimp only
  cases hl : g.lookup_edge x y with
  | some e0 =>
    obtain ⟨k1, k2, k3⟩ := lookup_edge_some g x y e0 hl
    have hadd : (g.add_edge x y).1.edges = g.edges := by
      unfold Graph.add_edge; rw [hl]
    have hinfo : (g.add_edge x y).1.info x y = e0.info := by
      unfold Graph.info
      have : (g.add_edge x y).1.lookup_edge x y = some e0 := by
        unfold Graph.lookup_edge; rw [hadd]; exact hl
      rw [this]
    rw [hadd, hinfo]
    constructor
    · rintro ⟨e1, he1, m1, m2, m3⟩
      rw [List.mem_map] at he1
      obtain ⟨e, he, hee⟩ := he1
      by_cases hc : e.src = x ∧ e.tgt = y
      · rw [if_pos hc] at hee
        have heq : e = e0 := edge_unique g hg e e0 he k1 (hc.1.trans k2.symm) (hc.2.trans k3.symm)
        rw [← hee] at m1 m2 m3
        dsimp only at m1 m2 m3
        rw [add_sym_fold, List.mem_append] at m3
        rcases m3 with m3 | m3
        · exact Or.inl ⟨e0, k1, by rw [← heq]; exact m1, by rw [← heq]; exact m2, m3⟩
        · exact Or.inr ⟨m1.symm.trans hc.1, m2.symm.trans hc.2, m3⟩
      · rw [if_neg hc] at hee
        rw [← hee] at m1 m2 m3
        exact Or.inl ⟨e, he, m1, m2, m3⟩
    · rintro (⟨e, he, m1, m2, m3⟩ | ⟨m1, m2, m3⟩)
      · by_cases hc : e.src = x ∧ e.tgt = y
        · refine ⟨{ e with info := inter.foldl EdgeInfo.add_sym e0.info },
            List.mem_map.2 ⟨e, he, by rw [if_pos hc]⟩, m1, m2, ?_⟩
          have heq : e = e0 :=
            edge_unique g hg e e0 he k1 (hc.1.trans k2.symm) (hc.2.trans k3.symm)
          dsimp only
          rw [add_sym_fold, List.mem_append]
          exact Or.inl (by rw [← heq]; exact m3)
        · exact ⟨e, List.mem_map.2 ⟨e, he, by rw [if_neg hc]⟩, m1, m2, m3⟩
      · refine ⟨{ e0 with info := inter.foldl EdgeInfo.add_sym e0.info },
          List.mem_map.2 ⟨e0, k1, by rw [if_pos ⟨k2, k3⟩]⟩, m1 ▸ k2, m2 ▸ k3, ?_⟩
        dsimp only
        rw [add_sym_fold, List.mem_append]
        exact Or.inr m3
  | none =>
    have hno := lookup_edge_none g x y hl
    have hadd : (g.add_edge x y).1.edges
        = g.edges ++ [{ src := x, tgt := y, info := { syms := [] } }] := by
      unfold Graph.add_edge; rw [hl]
    have hinfo : (g.add_edge x y).1.info x y = { syms := [] } := by
      unfold Graph.info Graph.lookup_edge
      rw [hadd, List.find?_append]
      have h1 : g.edges.find? (fun e => decide (e.src = x ∧ e.tgt = y)) = none := hl
      rw [h1]
      simp
    rw [hadd, hinfo]
    constructor
    · rintro ⟨e1, he1, m1, m2, m3⟩
      rw [List.mem_map] at he1
      obtain ⟨e, he, hee⟩ := he1
      rcases List.mem_append.1 he with he | he
      · have hc : ¬ (e.src = x ∧ e.tgt = y) := fun hc => hno ⟨e, he, hc.1, hc.2⟩
        rw [if_neg hc] at hee
        rw [← hee] at m1 m2 m3
        exact Or.inl ⟨e, he, m1, m2, m3⟩
      · rw [List.mem_singleton] at he
        subst he
        rw [if_pos ⟨rfl, rfl⟩] at hee
        rw [← hee] at m1 m2 m3
        dsimp only at m1 m2 m3
        rw [add_sym_fold] at m3
        exact Or.inr ⟨m1.symm, m2.symm, by simpa using m3⟩
    · rintro (⟨e, he, m1, m2, m3⟩ | ⟨m1, m2, m3⟩)
      · have hc : ¬ (e.src = x ∧ e.tgt = y) := fun hc => hno ⟨e, he, hc.1, hc.2⟩
        exact ⟨e, List.mem_map.2 ⟨e, List.mem_append_left _ he, by rw [if_neg hc]⟩, m1, m2, m3⟩
      · refine ⟨{ src := x, tgt := y, info := inter.foldl EdgeInfo.add_sym { syms := [] } },
          List.mem_map.2 ⟨{ src := x, tgt := y, info := { syms := [] } },
            List.mem_append_right _ (List.mem_singleton_self _), by rw [if_pos ⟨rfl, rfl⟩]⟩,
          m1.symm, m2.symm, ?_⟩
        dsimp only
        rw [add_sym_fold]
        simpa using m3

/-- The labelled edges between VertexInfos after `add_edge(x, y)` and the
`add_sym`s, for two vertices of the graph. -/
theorem labelled_graph (g : Graph) (hg : g.WF) (x y : Nat) (hx : x < g.verts.length)
    (hy : y < g.verts.length) (inter : List sym_t) (A B : VertexInfo) (z : sym_t) :
    (∃ a b, ((g.add_edge x y).1.set_info x y
          (inter.foldl EdgeInfo.add_sym ((g.add_edge x y).1.info x y))).HasSym a b z ∧
        ((g.add_edge x y).1.set_info x y
          (inter.foldl EdgeInfo.add_sym ((g.add_edge x y).1.info x y))).vinfo a = A ∧
        ((g.add_edge x y).1.set_info x y
          (inter.foldl EdgeInfo.add_sym ((g.add_edge x y).1.info x y))).vinfo b = B)
      ↔ ((∃ a b, g.HasSym a b z ∧ g.vinfo a = A ∧ g.vinfo b = B) ∨
          (g.vinfo x = A ∧ g.vinfo y = B ∧ z ∈ inter)) := by
  have hvi : ∀ a, ((g.add_edge x y).1.set_info x y
      (inter.foldl EdgeInfo.add_sym ((g.add_edge x y).1.info x y))).vinfo a = g.vinfo a := by
    intro a
    apply vinfo_congr
    exact (add_edge_in_range g hg x y hx hy).1
  constructor
  · rintro ⟨a, b, h1, h2, h3⟩
    rw [hvi] at h2 h3
    rcases (add_labelled_edge g hg x y inter a b z).1 h1 with h4 | ⟨h4, h5, h6⟩
    · exact Or.inl ⟨a, b, h4, h2, h3⟩
    · rw [h4] at h2
      rw [h5] at h3
      exact Or.inr ⟨h2, h3, h6⟩
  · rintro (⟨a, b, h1, h2, h3⟩ | ⟨h1, h2, h3⟩)
    · exact ⟨a, b, (add_labelled_edge g hg x y inter a b z).2 (Or.inl h1),
        by rw [hvi]; exact h2, by rw [hvi]; exact h3⟩
    · exact ⟨x, y, (add_labelled_edge g hg x y inter x y z).2 (Or.inr ⟨rfl, rfl, h3⟩),
        by rw [hvi]; exact h1, by rw [hvi]; exact h2⟩

/-- The labelled edges between VertexInfos after `dest._add_edge(A0, B0)` and
the `add_sym`s on the returned edge, in a well-formed state whose map addresses
every vertex. -/
theorem add_edge_has (cs : ConstraintState) (hw : cs.WF) (ht : cs.Total) (A0 B0 : VertexInfo)
    (inter : List sym_t) (A B : VertexInfo) (z : sym_t) :
    ({ (cs._add_edge A0 B0).1 with
        table := (cs._add_edge A0 B0).1.table.set_info (cs._add_edge A0 B0).2.1
          (cs._add_edge A0 B0).2.2
          (inter.foldl EdgeInfo.add_sym ((cs._add_edge A0 B0).1.table.info
            (cs._add_edge A0 B0).2.1 (cs._add_edge A0 B0).2.2)) } : ConstraintState).Has A B z
      ↔ (cs.Has A B z ∨ (A = A0 ∧ B = B0 ∧ z ∈ inter)) := by
  obtain ⟨w1, t1, ed1, l1, v1, _, p1⟩ := add_vertex_spec cs hw ht A0
  obtain ⟨w2, _, ed2, l2, v2, m2, p2⟩ := add_vertex_spec (cs._add_vertex A0).1 w1 t1 B0
  unfold ConstraintState._add_edge ConstraintState.Has
  dsimp only
  generalize cs._add_vertex A0 = r1 at *
  generalize r1.1._add_vertex B0 = r2 at *
  rw [labelled_graph r2.1.table w2.graph r1.2 r2.2 (by omega) l2 inter A B z,
    p2 r1.2 l1, v1, v2]
  have hold : ∀ a b, cs.table.HasSym a b z →
      r2.1.table.vinfo a = cs.table.vinfo a ∧ r2.1.table.vinfo b = cs.table.vinfo b := by
    rintro a b ⟨e, he, k1, k2, _⟩
    have ha : a < cs.table.verts.length := by rw [← k1]; exact hw.graph.src_lt e he
    have hb : b < cs.table.verts.length := by rw [← k2]; exact hw.graph.tgt_lt e he
    exact ⟨by rw [p2 a (by omega), p1 a ha], by rw [p2 b (by omega), p1 b hb]⟩
  have hsame : ∀ a b, r2.1.table.HasSym a b z ↔ cs.table.HasSym a b z := by
    intro a b
    unfold Graph.HasSym
    rw [ed2, ed1]
  constructor
  · rintro (⟨a, b, h1, h2, h3⟩ | ⟨h1, h2, h3⟩)
    · have h4 := (hsame a b).1 h1
      obtain ⟨q1, q2⟩ := hold a b h4
      exact Or.inl ⟨a, b, h4, by rw [← q1]; exact h2, by rw [← q2]; exact h3⟩
    · exact Or.inr ⟨h1.symm, h2.symm, h3⟩
  · rintro (⟨a, b, h1, h2, h3⟩ | ⟨h1, h2, h3⟩)
    · obtain ⟨q1, q2⟩ := hold a b h1
      exact Or.inl ⟨a, b, (hsame a b).2 h1, by rw [q1]; exact h2, by rw [q2]; exact h3⟩
    · exact Or.inr ⟨h1.symm, h2.symm, h3⟩

/-- What the body of the loops of `intersect_iterate` does to a well-formed
`dest` whose map addresses every vertex, in terms of labelled edges between
VertexInfos: the symbols of the intersection are put on the edge from the
VertexInfo of `(u, v)` to that of the pair of the targets, and this pair is
inserted into the working set, when the intersection is not empty. -/
theorem edge_pair_has (c1 c2 : ConstraintState) (u v : Nat) (e1 e2 : Edge)
    (st : ConstraintState × List (Nat × Nat)) (hw : st.1.WF ∧ st.1.Total) :
    (∀ A B z, (intersect_edge_pair c1 c2 u v e1 e2 st).1.Has A B z ↔
      (st.1.Has A B z ∨ (A = pair_key c1 c2 (u, v) ∧ B = pair_key c1 c2 (e1.tgt, e2.tgt) ∧
        z ∈ sym_intersection e1.info.syms e2.info.syms))) ∧
    (∀ q, q ∈ (intersect_edge_pair c1 c2 u v e1 e2 st).2 ↔
      (q ∈ st.2 ∨ (sym_intersection e1.info.syms e2.info.syms ≠ [] ∧ q = (e1.tgt, e2.tgt)))) := by
  unfold intersect_edge_pair
  dsimp only
  by_cases hI : (sym_intersection e1.info.syms e2.info.syms).isEmpty = true
  · rw [if_pos hI]
    have hnil : sym_intersection e1.info.syms e2.info.syms = [] := List.isEmpty_iff.1 hI
    rw [hnil]
    refine ⟨fun A B z => ⟨fun h => Or.inl h, ?_⟩, fun q => ⟨fun h => Or.inl h, ?_⟩⟩
    · rintro (h | ⟨_, _, h⟩)
      · exact h
      · exact absurd h (List.not_mem_nil _)
    · rintro (h | ⟨h, _⟩)
      · exact h
      · exact absurd rfl h
  · rw [if_neg hI]
    have hne : sym_intersection e1.info.syms e2.info.syms ≠ [] :=
      fun hc => hI (List.isEmpty_iff.2 hc)
    constructor
    · intro A B z
      exact add_edge_has st.1 hw.1 hw.2 (pair_key c1 c2 (u, v)) (pair_key c1 c2 (e1.tgt, e2.tgt))
        (sym_intersection e1.info.syms e2.info.syms) A B z
    · intro q
      rw [mem_set_insert pair_lt pair_lt_total]
      constructor
      · rintro (h | h)
        · exact Or.inr ⟨hne, h⟩
        · exact Or.inl h
      · rintro (h | ⟨_, h⟩)
        · exact Or.inr h
        · exact Or.inl h

/-- The inner loop of `intersect_iterate`, over a list of out-edges of `v`. -/
theorem inner_has (c1 c2 : ConstraintState) (u v : Nat) (e1 : Edge) (L2 : List Edge) :
    ∀ st : ConstraintState × List (Nat × Nat), (st.1.WF ∧ st.1.Total) →
      ((L2.foldl (fun st1 e2 => intersect_edge_pair c1 c2 u v e1 e2 st1) st).1.WF ∧
        (L2.foldl (fun st1 e2 => intersect_edge_pair c1 c2 u v e1 e2 st1) st).1.Total) ∧
      (∀ A B z, (L2.foldl (fun st1 e2 => intersect_edge_pair c1 c2 u v e1 e2 st1) st).1.Has A B z ↔
        (st.1.Has A B z ∨ ∃ e2 ∈ L2, A = pair_key c1 c2 (u, v) ∧
          B = pair_key c1 c2 (e1.tgt, e2.tgt) ∧
          z ∈ sym_intersection e1.info.syms e2.info.syms)) ∧
      (∀ q, q ∈ (L2.foldl (fun st1 e2 => intersect_edge_pair c1 c2 u v e1 e2 st1) st).2 ↔
        (q ∈ st.2 ∨ ∃ e2 ∈ L2, sym_intersection e1.info.syms e2.info.syms ≠ [] ∧
          q = (e1.tgt, e2.tgt))) := by
  induction L2 with
  | nil =>
    intro st hw
    refine ⟨hw, fun A B z => ⟨fun h => Or.inl h, ?_⟩, fun q => ⟨fun h => Or.inl h, ?_⟩⟩
    · rintro (h | ⟨e, he, _⟩)
      · exact h
      · exact absurd he (List.not_mem_nil _)
    · rintro (h | ⟨e, he, _⟩)
      · exact h
      · exact absurd he (List.not_mem_nil _)
  | cons e2 more ih =>
    intro st hw
    rw [List.foldl_cons]
    obtain ⟨s1, s2⟩ := edge_pair_has c1 c2 u v e1 e2 st hw
    obtain ⟨i1, i2, i3⟩ := ih _ (intersect_edge_pair_wf c1 c2 u v e1 e2 st hw)
    refine ⟨i1, fun A B z => ?_, fun q => ?_⟩
    · rw [i2, s1]
      constructor
      · rintro ((h | h) | ⟨e, he, h⟩)
        · exact Or.inl h
        · exact Or.inr ⟨e2, List.mem_cons_self _ _, h⟩
        · exact Or.inr ⟨e, List.mem_cons_of_mem _ he, h⟩
      · rintro (h | ⟨e, he, h⟩)
        · exact Or.inl (Or.inl h)
        · rcases List.mem_cons.1 he with he | he
          · subst he; exact Or.inl (Or.inr h)
          · exact Or.inr ⟨e, he, h⟩
    · rw [i3, s2]
      constructor
      · rintro ((h | h) | ⟨e, he, h⟩)
        · exact Or.inl h
        · exact Or.inr ⟨e2, List.mem_cons_self _ _, h⟩
        · exact Or.inr ⟨e, List.mem_cons_of_mem _ he, h⟩
      · rintro (h | ⟨e, he, h⟩)
        · exact Or.inl (Or.inl h)
        · rcases List.mem_cons.1 he with he | he
          · subst he; exact Or.inl (Or.inr h)
          · exact Or.inr ⟨e, he, h⟩

/-- The two loops of `intersect_iterate`, the outer one over a list of
out-edges of `u`. -/
theorem outer_has (c1 c2 : ConstraintState) (u v : Nat) (L2 : List Edge) (L1 : List Edge) :
    ∀ st : ConstraintState × List (Nat × Nat), (st.1.WF ∧ st.1.Total) →
      ((L1.foldl (fun st e1 => L2.foldl
          (fun st1 e2 => intersect_edge_pair c1 c2 u v e1 e2 st1) st) st).1.WF ∧
        (L1.foldl (fun st e1 => L2.foldl
          (fun st1 e2 => intersect_edge_pair c1 c2 u v e1 e2 st1) st) st).1.Total) ∧
      (∀ A B z, (L1.foldl (fun st e1 => L2.foldl
          (fun st1 e2 => intersect_edge_pair c1 c2 u v e1 e2 st1) st) st).1.Has A B z ↔
        (st.1.Has A B z ∨ ∃ e1 ∈ L1, ∃ e2 ∈ L2, A = pair_key c1 c2 (u, v) ∧
          B = pair_key c1 c2 (e1.tgt, e2.tgt) ∧
          z ∈ sym_intersection e1.info.syms e2.info.syms)) ∧
      (∀ q, q ∈ (L1.foldl (fun st e1 => L2.foldl
          (fun st1 e2 => intersect_edge_pair c1 c2 u v e1 e2 st1) st) st).2 ↔
        (q ∈ st.2 ∨ ∃ e1 ∈ L1, ∃ e2 ∈ L2,
          sym_intersection e1.info.syms e2.info.syms ≠ [] ∧ q = (e1.tgt, e2.tgt))) := by
  induction L1 with
  | nil =>
    intro st hw
    refine ⟨hw, fun A B z => ⟨fun h => Or.inl h, ?_⟩, fun q => ⟨fun h => Or.inl h, ?_⟩⟩
    · rintro (h | ⟨e, he, _⟩)
      · exact h
      · exact absurd he (List.not_mem_nil _)
    · rintro (h | ⟨e, he, _⟩)
      · exact h
      · exact absurd he (List.not_mem_nil _)
  | cons e1 more ih =>
    intro st hw
    rw [List.foldl_cons]
    obtain ⟨s0, s1, s2⟩ := inner_has c1 c2 u v e1 L2 st hw
    obtain ⟨i1, i2, i3⟩ := ih _ s0
    refine ⟨i1, fun A B z => ?_, fun q => ?_⟩
    · rw [i2, s1]
      constructor
      · rintro ((h | h) | ⟨e, he, h⟩)
        · exact Or.inl h
        · exact Or.inr ⟨e1, List.mem_cons_self _ _, h⟩
        · exact Or.inr ⟨e, List.mem_cons_of_mem _ he, h⟩
      · rintro (h | ⟨e, he, h⟩)
        · exact Or.inl (Or.inl h)
        · rcases List.mem_cons.1 he with he | he
          · subst he; exact Or.inl (Or.inr h)
          · exact Or.inr ⟨e, he, h⟩
    · rw [i3, s2]
      constructor
      · rintro ((h | h) | ⟨e, he, h⟩)
        · exact Or.inl h
        · exact Or.inr ⟨e1, List.mem_cons_self _ _, h⟩
        · exact Or.inr ⟨e, List.mem_cons_of_mem _ he, h⟩
      · rintro (h | ⟨e, he, h⟩)
        · exact Or.inl (Or.inl h)
        · rcases List.mem_cons.1 he with he | he
          · subst he; exact Or.inl (Or.inr h)
          · exact Or.inr ⟨e, he, h⟩

/-- One call of `intersect_iterate` on a non-empty working set, in terms of
labelled edges between VertexInfos. -/
theorem iterate_has (c1 c2 dest : ConstraintState) (u v : Nat) (rest : List (Nat × Nat))
    (hw : dest.WF ∧ dest.Total) :
    (∀ A B z, (intersect_iterate c1 c2 dest ((u, v) :: rest)).2.1.Has A B z ↔
      (dest.Has A B z ∨ ∃ e1 ∈ c1.table.out_edges u, ∃ e2 ∈ c2.table.out_edges v,
        A = pair_key c1 c2 (u, v) ∧ B = pair_key c1 c2 (e1.tgt, e2.tgt) ∧
        z ∈ sym_intersection e1.info.syms e2.info.syms)) ∧
    (∀ q, q ∈ (intersect_iterate c1 c2 dest ((u, v) :: rest)).2.2 ↔
      (q ∈ rest ∨ ∃ e1 ∈ c1.table.out_edges u, ∃ e2 ∈ c2.table.out_edges v,
        sym_intersection e1.info.syms e2.info.syms ≠ [] ∧ q = (e1.tgt, e2.tgt))) := by
  obtain ⟨_, h2, h3⟩ := outer_has c1 c2 u v (c2.table.out_edges v) (c1.table.out_edges u)
    (dest, rest) hw
  exact ⟨h2, h3⟩

/-- On two ascending ranges `std::set_intersection` yields the common
elements. -/
theorem mem_set_intersection_loop : ∀ (f : Nat) (as bs : List sym_t),
    as.Sorted (fun a b => a ≤ b) → bs.Sorted (fun a b => a ≤ b) → as.length + bs.length ≤ f →
    ∀ x, x ∈ set_intersection_loop f as bs ↔ (x ∈ as ∧ x ∈ bs) := by
  intro f
  induction f with
  | zero =>
    intro as bs _ _ hf x
    have h1 : as = [] := List.eq_nil_of_length_eq_zero (by omega)
    subst h1
    simp [set_intersection_loop]
  | succ f ih =>
    intro as bs ha hb hf x
    cases as with
    | nil => simp [set_intersection_loop]
    | cons a as1 =>
      cases bs with
      | nil => simp [set_intersection_loop]
      | cons b bs1 =>
        rw [set_intersection_loop]
        have ha1 := List.sorted_cons.1 ha
        have hb1 := List.sorted_cons.1 hb
        simp only [List.length_cons] at hf
        by_cases hab : a < b
        · rw [if_pos hab, ih as1 (b :: bs1) ha1.2 hb (by simp only [List.length_cons]; omega) x]
          constructor
          · rintro ⟨h1, h2⟩
            exact ⟨List.mem_cons_of_mem _ h1, h2⟩
          · rintro ⟨h1, h2⟩
            refine ⟨?_, h2⟩
            rcases List.mem_cons.1 h1 with h1 | h1
            · exfalso
              subst h1
              rcases List.mem_cons.1 h2 with h2 | h2
              · rw [h2] at hab
                exact lt_irrefl _ hab
              · exact absurd hab (not_lt.2 (hb1.1 x h2))
            · exact h1
        · rw [if_neg hab]
          by_cases hba : b < a
          · rw [if_pos hba, ih (a :: as1) bs1 ha hb1.2 (by simp only [List.length_cons]; omega) x]
            constructor
            · rintro ⟨h1, h2⟩
              exact ⟨h1, List.mem_cons_of_mem _ h2⟩
            · rintro ⟨h1, h2⟩
              refine ⟨h1, ?_⟩
              rcases List.mem_cons.1 h2 with h2 | h2
              · exfalso
                subst h2
                rcases List.mem_cons.1 h1 with h1 | h1
                · rw [h1] at hba
                  exact lt_irrefl _ hba
                · exact absurd hba (not_lt.2 (ha1.1 x h1))
              · exact h2
          · rw [if_neg hba]
            have hab2 : a = b := le_antisymm (not_lt.1 hba) (not_lt.1 hab)
            subst hab2
            rw [List.mem_cons, ih as1 bs1 ha1.2 hb1.2 (by omega) x, List.mem_cons, List.mem_cons]
            tauto

/-- The set `sym_intersection` of two ascending symbol lists holds their
common symbols. -/
theorem mem_sym_intersection (as bs : List sym_t) (ha : as.Sorted (fun a b => a ≤ b))
    (hb : bs.Sorted (fun a b => a ≤ b)) (x : sym_t) :
    x ∈ sym_intersection as bs ↔ (x ∈ as ∧ x ∈ bs) := by
  unfold sym_intersection
  have hfold : ∀ (l acc : List sym_t),
      x ∈ l.foldl (fun st y => set_insert int_lt y st) acc ↔ (x ∈ acc ∨ x ∈ l) := by
    intro l
    induction l with
    | nil => intro acc; simp
    | cons y ys ih =>
      intro acc
      simp only [List.foldl_cons, ih, mem_set_insert int_lt int_lt_total, List.mem_cons]
      tauto
  rw [hfold, mem_set_intersection_loop _ as bs ha hb (le_refl _) x]
  simp

/-- One call of `intersect_iterate` keeps the invariants of the working-set
loop; the popped pair is processed afterwards. -/
theorem iterate_invariant (c1 c2 dest : ConstraintState)
    (hs1 : ∀ e ∈ c1.table.edges, e.info.syms.Sorted (fun a b => a ≤ b))
    (hs2 : ∀ e ∈ c2.table.edges, e.info.syms.Sorted (fun a b => a ≤ b))
    (u v : Nat) (rest : List (Nat × Nat)) (D : Nat × Nat → Prop)
    (hw : dest.WF ∧ dest.Total) (hsound : ProductSound c1 c2 dest)
    (hclosed : ProductClosed c1 c2 dest ((u, v) :: rest) D) :
    ProductSound c1 c2 (intersect_iterate c1 c2 dest ((u, v) :: rest)).2.1 ∧
    ProductClosed c1 c2 (intersect_iterate c1 c2 dest ((u, v) :: rest)).2.1
      (intersect_iterate c1 c2 dest ((u, v) :: rest)).2.2 (fun p => D p ∨ p = (u, v)) := by
  obtain ⟨h1, h2⟩ := iterate_has c1 c2 dest u v rest hw
  have hinter : ∀ (e1 e2 : Edge), e1 ∈ c1.table.out_edges u → e2 ∈ c2.table.out_edges v →
      ∀ z, z ∈ sym_intersection e1.info.syms e2.info.syms ↔
        (z ∈ e1.info.syms ∧ z ∈ e2.info.syms) := by
    intro e1 e2 he1 he2 z
    rw [mem_out_edges] at he1 he2
    exact mem_sym_intersection _ _ (hs1 e1 he1.1) (hs2 e2 he2.1) z
  have hstep : ∀ q z, ProductEdge c1 c2 z (u, v) q →
      ∃ e1 ∈ c1.table.out_edges u, ∃ e2 ∈ c2.table.out_edges v,
        q = (e1.tgt, e2.tgt) ∧ z ∈ sym_intersection e1.info.syms e2.info.syms := by
    rintro q z ⟨⟨e1, he1, k1, k2, k3⟩, ⟨e2, he2, m1, m2, m3⟩⟩
    have g1 : e1 ∈ c1.table.out_edges u := (mem_out_edges _ _ _).2 ⟨he1, k1⟩
    have g2 : e2 ∈ c2.table.out_edges v := (mem_out_edges _ _ _).2 ⟨he2, m1⟩
    exact ⟨e1, g1, e2, g2, by rw [k2, m2], (hinter e1 e2 g1 g2 z).2 ⟨k3, m3⟩⟩
  constructor
  · intro A B z hz
    rcases (h1 A B z).1 hz with h | ⟨e1, he1, e2, he2, hA, hB, hI⟩
    · exact hsound A B z h
    · obtain ⟨m1, m2⟩ := (hinter e1 e2 he1 he2 z).1 hI
      rw [mem_out_edges] at he1 he2
      exact ⟨(u, v), (e1.tgt, e2.tgt), hA, hB, ⟨e1, he1.1, he1.2, rfl, m1⟩,
        ⟨e2, he2.1, he2.2, rfl, m2⟩⟩
  · obtain ⟨c0, c3⟩ := hclosed
    constructor
    · intro p hp
      rcases c0 p hp with h | h
      · rcases List.mem_cons.1 h with h | h
        · exact Or.inr (Or.inr h)
        · exact Or.inl ((h2 p).2 (Or.inl h))
      · exact Or.inr (Or.inl h)
    · intro p hp q z hpe
      rcases hp with hp | hp
      · obtain ⟨g1, g2⟩ := c3 p hp q z hpe
        refine ⟨(h1 _ _ z).2 (Or.inl g1), ?_⟩
        rcases g2 with g2 | g2
        · rcases List.mem_cons.1 g2 with g2 | g2
          · exact Or.inr (Or.inr g2)
          · exact Or.inl ((h2 q).2 (Or.inl g2))
        · exact Or.inr (Or.inl g2)
      · subst hp
        obtain ⟨e1, he1, e2, he2, hq, hI⟩ := hstep q z hpe
        refine ⟨(h1 _ _ z).2 (Or.inr ⟨e1, he1, e2, he2, rfl, by rw [hq], hI⟩), ?_⟩
        exact Or.inl ((h2 q).2 (Or.inr ⟨e1, he1, e2, he2, List.ne_nil_of_mem hI, hq⟩))

/-- The working-set loop of `intersect` keeps its invariants: when it has
drained, the labelled edges of `dest` come from the product, and the processed
pairs hold the initial pairs and are closed under the labelled product
edges, all of which are in `dest`. -/
theorem loop_invariant (c1 c2 : ConstraintState)
    (hs1 : ∀ e ∈ c1.table.edges, e.info.syms.Sorted (fun a b => a ≤ b))
    (hs2 : ∀ e ∈ c2.table.edges, e.info.syms.Sorted (fun a b => a ≤ b)) :
    ∀ (f : Nat) (dest d0 : ConstraintState) (np : List (Nat × Nat)) (D : Nat × Nat → Prop),
      (dest.WF ∧ dest.Total) → ProductSound c1 c2 dest → ProductClosed c1 c2 dest np D →
      intersect_loop c1 c2 f dest np = some d0 →
      ProductSound c1 c2 d0 ∧ ∃ D2, ProductClosed c1 c2 d0 [] D2 := by
  intro f
  induction f with
  | zero => intro dest d0 np D _ _ _ h; simp [intersect_loop] at h
  | succ f ih =>
    intro dest d0 np D hw hsound hclosed h
    rw [intersect_loop] at h
    cases np with
    | nil =>
      have hd : d0 = dest := by
        have : intersect_iterate c1 c2 dest [] = (false, dest, []) := rfl
        rw [this] at h
        exact (Option.some.inj h).symm
      rw [hd]
      exact ⟨hsound, D, hclosed⟩
    | cons p rest =>
      obtain ⟨u, v⟩ := p
      have hb : (intersect_iterate c1 c2 dest ((u, v) :: rest)).1 = true := rfl
      rw [if_pos hb] at h
      obtain ⟨k1, k2⟩ := iterate_invariant c1 c2 dest hs1 hs2 u v rest D hw hsound hclosed
      exact ih _ d0 _ _ (intersect_iterate_wf c1 c2 dest _ hw) k1 k2 h

theorem lwalk_reach (g : Graph) : ∀ (s : List sym_t) (a b : Nat), g.LWalk a s b → g.Reach a b := by
  intro s
  induction s with
  | nil =>
    intro a b h
    have hab : a = b := h
    rw [hab]
    exact Relation.ReflTransGen.refl
  | cons z s ih =>
    intro a b h
    obtain ⟨m, ⟨e, he, k1, k2, _⟩, h2⟩ := h
    exact Relation.ReflTransGen.head ⟨e, he, k1, k2⟩ (ih m b h2)

/-- A labelled walk with an edge at least ends with an edge. -/
theorem lwalk_last (g : Graph) : ∀ (s : List sym_t) (a b : Nat), s ≠ [] → g.LWalk a s b →
    ∃ m, g.Reach a m ∧ g.HasEdge m b := by
  intro s
  induction s with
  | nil => intro a b h; exact absurd rfl h
  | cons z s ih =>
    intro a b _ h
    obtain ⟨m, ⟨e, he, k1, k2, _⟩, h2⟩ := h
    cases s with
    | nil =>
      have hmb : m = b := h2
      rw [← hmb]
      exact ⟨a, Relation.ReflTransGen.refl, e, he, k1, k2⟩
    | cons z2 s2 =>
      obtain ⟨m2, g1, g2⟩ := ih m b (List.cons_ne_nil _ _) h2
      exact ⟨m2, Relation.ReflTransGen.head ⟨e, he, k1, k2⟩ g1, g2⟩

theorem lwalk_mono (g g2 : Graph) (hsub : ∀ a b z, g.HasSym a b z → g2.HasSym a b z) :
    ∀ (s : List sym_t) (a b : Nat), g.LWalk a s b → g2.LWalk a s b := by
  intro s
  induction s with
  | nil => intro a b h; exact h
  | cons z s ih =>
    intro a b h
    obtain ⟨m, h1, h2⟩ := h
    exact ⟨m, hsub a m z h1, ih m b h2⟩

/-- Pruning keeps the symbol sequences that label a walk with an edge at least
from the start vertex to the end vertex. -/
theorem prune_accepts (cs : ConstraintState) (hw : cs.WF) (ht : cs.Total) (d : ConstraintState)
    (h : cs.remove_non_solution_nodes = some d) (s : List sym_t) (hs : s ≠ []) :
    d.Accepts s ↔ cs.Accepts s := by
  obtain ⟨d1, a1, a2, _, _, a5, a6⟩ := prune_spec cs hw ht
  have hd : d1 = d := Option.some.inj (a1.symm.trans h)
  rw [hd] at a2 a5 a6
  have hsn : d.start_node = cs.start_node := by unfold ConstraintState.start_node; rw [a2]
  have hen : d.end_node = cs.end_node := by unfold ConstraintState.end_node; rw [a2]
  unfold ConstraintState.Accepts
  rw [hsn, hen]
  constructor
  · rintro ⟨u, v, hu, hv, hwalk⟩
    refine ⟨u, v, ((a5 _ u).1 hu).1, ((a5 _ v).1 hv).1, lwalk_mono d.table cs.table ?_ s u v hwalk⟩
    rintro a b z ⟨e, he, k⟩
    rw [a6] at he
    exact ⟨e, List.mem_of_mem_filter he, k⟩
  · rintro ⟨u, v, hu, hv, hwalk⟩
    have hpn : ∀ a b, cs.table.EdgeOnWalk u v a b →
        a ∈ cs.compute_all_path_nodes [] ∧ b ∈ cs.compute_all_path_nodes [] := by
      intro a b hab
      exact ⟨(path_nodes_spec cs hw a).2 ⟨u, v, hu, hv, a, b, hab, Or.inl rfl⟩,
        (path_nodes_spec cs hw b).2 ⟨u, v, hu, hv, a, b, hab, Or.inr rfl⟩⟩
    have hkeep : ∀ (s1 : List sym_t) (a : Nat), cs.table.Reach u a → cs.table.LWalk a s1 v →
        d.table.LWalk a s1 v := by
      intro s1
      induction s1 with
      | nil => intro a _ hl; exact hl
      | cons z s2 ih =>
        intro a hr hl
        obtain ⟨m, ⟨e, he, k1, k2, k3⟩, h2⟩ := hl
        have hedge : cs.table.HasEdge a m := ⟨e, he, k1, k2⟩
        obtain ⟨p1, p2⟩ := hpn a m ⟨hr, hedge, lwalk_reach _ _ _ _ h2⟩
        refine ⟨m, ⟨e, ?_, k1, k2, k3⟩, ih m (Relation.ReflTransGen.tail hr hedge) h2⟩
        rw [a6, List.mem_filter]
        refine ⟨he, ?_⟩
        rw [k1, k2]
        simpa using ⟨p1, p2⟩
    have hu2 : u ∈ cs.compute_all_path_nodes [] := by
      cases s with
      | nil => exact absurd rfl hs
      | cons z s2 =>
        obtain ⟨m, ⟨e, he, k1, k2, _⟩, h2⟩ := hwalk
        exact (hpn u m ⟨Relation.ReflTransGen.refl, ⟨e, he, k1, k2⟩, lwalk_reach _ _ _ _ h2⟩).1
    have hv2 : v ∈ cs.compute_all_path_nodes [] := by
      obtain ⟨m, g1, g2⟩ := lwalk_last cs.table s u v hs hwalk
      exact (hpn m v ⟨g1, g2, Relation.ReflTransGen.refl⟩).2
    exact ⟨u, v, (a5 _ u).2 ⟨hu, hu2⟩, (a5 _ v).2 ⟨hv, hv2⟩,
      hkeep s u Relation.ReflTransGen.refl hwalk⟩

/-- A labelled walk between vertices is a labelled walk between their
VertexInfos. -/
theorem kwalk_of_lwalk (cs : ConstraintState) : ∀ (s : List sym_t) (a b : Nat),
    cs.table.LWalk a s b → cs.KWalk (cs.table.vinfo a) s (cs.table.vinfo b) := by
  intro s
  induction s with
  | nil =>
    intro a b h
    have hab : a = b := h
    rw [hab]
    exact rfl
  | cons z s ih =>
    intro a b h
    obtain ⟨m, h1, h2⟩ := h
    exact ⟨cs.table.vinfo m, ⟨a, m, h1, rfl, rfl⟩, ih m b h2⟩

/-- In a well-formed state a labelled walk between VertexInfos with an edge at
least is a labelled walk between the vertices that the map gives for them. -/
theorem lwalk_of_kwalk (cs : ConstraintState) (hw : cs.WF) : ∀ (s : List sym_t)
    (A B : VertexInfo), s ≠ [] → cs.KWalk A s B →
    ∃ a b, map_find cs.vertex_map A = some a ∧ map_find cs.vertex_map B = some b ∧
      cs.table.LWalk a s b := by
  intro s
  induction s with
  | nil => intro A B h; exact absurd rfl h
  | cons z s ih =>
    intro A B _ h
    obtain ⟨M, ⟨a, m, ⟨e, he, k1, k2, k3⟩, hA, hM⟩, h2⟩ := h
    obtain ⟨l1, l2⟩ := hw.live e he
    rw [k1, hA] at l1
    rw [k2, hM] at l2
    cases s with
    | nil =>
      have hMB : M = B := h2
      rw [← hMB]
      exact ⟨a, m, l1, l2, m, ⟨e, he, k1, k2, k3⟩, rfl⟩
    | cons z2 s2 =>
      obtain ⟨m2, b, g1, g2, g3⟩ := ih M B (List.cons_ne_nil _ _) h2
      have hm : m2 = m := Option.some.inj (g1.symm.trans l2)
      rw [hm] at g3
      exact ⟨a, b, l1, g2, m, ⟨e, he, k1, k2, k3⟩, g3⟩

/-- Pairs of vertices that the maps address are told apart by their
VertexInfo in `dest`, when all position lists of one state have one length. -/
theorem pair_key_inj (c1 c2 : ConstraintState) (hw1 : c1.WF)
    (hlen1 : ∀ x, x < c1.table.verts.length →
      (c1.table.vinfo x).positions.length = c1.provenance.elems.length)
    (p q : Nat × Nat)
    (hp1 : map_find c1.vertex_map (c1.table.vinfo p.1) = some p.1)
    (hp2 : map_find c2.vertex_map (c2.table.vinfo p.2) = some p.2)
    (hq1 : map_find c1.vertex_map (c1.table.vinfo q.1) = some q.1)
    (hq2 : map_find c2.vertex_map (c2.table.vinfo q.2) = some q.2)
    (h : pair_key c1 c2 p = pair_key c1 c2 q) : p = q := by
  unfold pair_key at h
  have h2 : (c1.table.vinfo p.1).positions ++ (c2.table.vinfo p.2).positions
      = (c1.table.vinfo q.1).positions ++ (c2.table.vinfo q.2).positions := by
    injection h
  have hl : (c1.table.vinfo p.1).positions.length = (c1.table.vinfo q.1).positions.length := by
    rw [hlen1 _ (hw1.map_range _ _ hp1).1, hlen1 _ (hw1.map_range _ _ hq1).1]
  obtain ⟨e1, e2⟩ := List.append_inj h2 hl
  have v1 : c1.table.vinfo p.1 = c1.table.vinfo q.1 := by
    rw [← vinfo_eta (c1.table.vinfo p.1), ← vinfo_eta (c1.table.vinfo q.1), e1]
  have v2 : c2.table.vinfo p.2 = c2.table.vinfo q.2 := by
    rw [← vinfo_eta (c2.table.vinfo p.2), ← vinfo_eta (c2.table.vinfo q.2), e2]
  rw [v1] at hp1
  rw [v2] at hp2
  exact Prod.ext (Option.some.inj (hp1.symm.trans hq1)) (Option.some.inj (hp2.symm.trans hq2))

/-- A labelled walk of `dest` from the VertexInfo of an addressed pair splits
into a labelled walk of `c1` and one of `c2`. -/
theorem sound_walk (c1 c2 d0 : ConstraintState) (hw1 : c1.WF) (hw2 : c2.WF)
    (hlen1 : ∀ x, x < c1.table.verts.length →
      (c1.table.vinfo x).positions.length = c1.provenance.elems.length)
    (hsound : ProductSound c1 c2 d0) :
    ∀ (s : List sym_t) (p : Nat × Nat) (B : VertexInfo),
      map_find c1.vertex_map (c1.table.vinfo p.1) = some p.1 →
      map_find c2.vertex_map (c2.table.vinfo p.2) = some p.2 →
      d0.KWalk (pair_key c1 c2 p) s B →
      ∃ q, map_find c1.vertex_map (c1.table.vinfo q.1) = some q.1 ∧
        map_find c2.vertex_map (c2.table.vinfo q.2) = some q.2 ∧
        B = pair_key c1 c2 q ∧ c1.table.LWalk p.1 s q.1 ∧ c2.table.LWalk p.2 s q.2 := by
  intro s
  induction s with
  | nil =>
    intro p B hp1 hp2 h
    have hB : pair_key c1 c2 p = B := h
    exact ⟨p, hp1, hp2, hB.symm, rfl, rfl⟩
  | cons z s ih =>
    intro p B hp1 hp2 h
    obtain ⟨M, hM, h2⟩ := h
    obtain ⟨p2, q2, hA, hMq, ⟨e1, he1, k1, k2, k3⟩, ⟨e2, he2, m1, m2, m3⟩⟩ := hsound _ _ _ hM
    obtain ⟨a1, a2⟩ := hw1.live e1 he1
    obtain ⟨b1, b2⟩ := hw2.live e2 he2
    rw [k1] at a1
    rw [k2] at a2
    rw [m1] at b1
    rw [m2] at b2
    have hpp : p = p2 := pair_key_inj c1 c2 hw1 hlen1 p p2 hp1 hp2 a1 b1 hA
    rw [hMq] at h2
    obtain ⟨q, g1, g2, g3, g4, g5⟩ := ih q2 B a2 b2 h2
    refine ⟨q, g1, g2, g3, ⟨q2.1, ⟨e1, he1, ?_, k2, k3⟩, g4⟩, ⟨q2.2, ⟨e2, he2, ?_, m2, m3⟩, g5⟩⟩
    · rw [hpp]; exact k1
    · rw [hpp]; exact m1

/-- Two labelled walks of `c1` and `c2` with one symbol sequence, from a
processed pair, give a labelled walk of `dest` when the loop has drained. -/
theorem complete_walk (c1 c2 d0 : ConstraintState) (D : Nat × Nat → Prop)
    (hclosed : ProductClosed c1 c2 d0 [] D) :
    ∀ (s : List sym_t) (p : Nat × Nat) (t1 t2 : Nat), D p →
      c1.table.LWalk p.1 s t1 → c2.table.LWalk p.2 s t2 →
      d0.KWalk (pair_key c1 c2 p) s (pair_key c1 c2 (t1, t2)) := by
  intro s
  induction s with
  | nil =>
    intro p t1 t2 _ h1 h2
    have e1 : p.1 = t1 := h1
    have e2 : p.2 = t2 := h2
    rw [← e1, ← e2]
    exact rfl
  | cons z s ih =>
    intro p t1 t2 hD h1 h2
    obtain ⟨m1, g1, g2⟩ := h1
    obtain ⟨m2, k1, k2⟩ := h2
    obtain ⟨c3, c4⟩ := hclosed.2 p hD (m1, m2) z ⟨g1, k1⟩
    have hD2 : D (m1, m2) := by
      rcases c4 with c4 | c4
      · exact absurd c4 (List.not_mem_nil _)
      · exact c4
    exact ⟨pair_key c1 c2 (m1, m2), c3, ih (m1, m2) t1 t2 hD2 g2 k2⟩

/-- The initial working set holds the pairs of roots. -/
theorem mem_init_node_pairs (c1 c2 : ConstraintState) (a b : Nat) (ha : a ∈ c1.roots)
    (hb : b ∈ c2.roots) : (a, b) ∈ init_node_pairs c1 c2 [] := by
  unfold init_node_pairs
  have hin : ∀ (u : Nat) (L2 : List Nat) (acc : List (Nat × Nat)) (q : Nat × Nat),
      q ∈ L2.foldl (fun np1 v => set_insert pair_lt (u, v) np1) acc ↔
        (q ∈ acc ∨ ∃ v ∈ L2, q = (u, v)) := by
    intro u L2
    induction L2 with
    | nil => intro acc q; simp
    | cons y ys ih =>
      intro acc q
      rw [List.foldl_cons, ih, mem_set_insert pair_lt pair_lt_total]
      constructor
      · rintro ((h | h) | ⟨v, hv, h⟩)
        · exact Or.inr ⟨y, List.mem_cons_self _ _, h⟩
        · exact Or.inl h
        · exact Or.inr ⟨v, List.mem_cons_of_mem _ hv, h⟩
      · rintro (h | ⟨v, hv, h⟩)
        · exact Or.inl (Or.inr h)
        · rcases List.mem_cons.1 hv with hv | hv
          · subst hv; exact Or.inl (Or.inl h)
          · exact Or.inr ⟨v, hv, h⟩
  have hout : ∀ (L1 : List Nat) (acc : List (Nat × Nat)) (q : Nat × Nat),
      q ∈ L1.foldl (fun np u => c2.roots.foldl
          (fun np1 v => set_insert pair_lt (u, v) np1) np) acc ↔
        (q ∈ acc ∨ ∃ u ∈ L1, ∃ v ∈ c2.roots, q = (u, v)) := by
    intro L1
    induction L1 with
    | nil => intro acc q; simp
    | cons y ys ih =>
      intro acc q
      rw [List.foldl_cons, ih, hin]
      constructor
      · rintro ((h | ⟨v, hv, h⟩) | ⟨u, hu, h⟩)
        · exact Or.inl h
        · exact Or.inr ⟨y, List.mem_cons_self _ _, v, hv, h⟩
        · exact Or.inr ⟨u, List.mem_cons_of_mem _ hu, h⟩
      · rintro (h | ⟨u, hu, v, hv, h⟩)
        · exact Or.inl (Or.inl h)
        · rcases List.mem_cons.1 hu with hu | hu
          · subst hu; exact Or.inl (Or.inr ⟨v, hv, h⟩)
          · exact Or.inr ⟨u, hu, v, hv, h⟩
  exact (hout _ _ _).2 (Or.inr ⟨a, ha, b, hb, rfl⟩)

/-- A vertex without incoming edge is a root. -/
theorem mem_roots (cs : ConstraintState) (x : Nat) (hx : x < cs.table.verts.length)
    (hroot : ∀ a, ¬ cs.table.HasEdge a x) : x ∈ cs.roots := by
  unfold ConstraintState.roots Graph.vertices
  rw [List.mem_filter, List.mem_range]
  refine ⟨hx, ?_⟩
  rw [List.isEmpty_iff, List.eq_nil_iff_forall_not_mem]
  intro e he
  rw [mem_in_edges] at he
  exact hroot e.src ⟨e, he.1, rfl, he.2⟩

theorem kwalk_congr (a b : ConstraintState) (h : a.table = b.table) :
    ∀ (s : List sym_t) (A B : VertexInfo), a.KWalk A s B ↔ b.KWalk A s B := by
  intro s
  induction s with
  | nil => intro A B; exact Iff.rfl
  | cons z s ih =>
    intro A B
    constructor
    · rintro ⟨M, h1, h2⟩
      refine ⟨M, ?_, (ih M B).1 h2⟩
      unfold ConstraintState.Has at h1 ⊢
      rw [← h]; exact h1
    · rintro ⟨M, h1, h2⟩
      refine ⟨M, ?_, (ih M B).2 h2⟩
      unfold ConstraintState.Has at h1 ⊢
      rw [h]; exact h1

/-- Claim C33 (intersection computes the common labelled walks).  Let `c1` and
`c2` be well-formed states, one of them with an acyclic graph, with ascending
edge symbol lists, every VertexInfo having as many positions as the state has
provenance elements, and start nodes that are keys of the vertex maps for
vertices without incoming edge.  Then `intersect` on a fresh `dest` returns
(with every sufficient number of calls of `intersect_iterate`), and a symbol
sequence with one symbol at least labels a walk of `dest` from its start vertex
to its end vertex if and only if it labels such a walk of `c1` and such a walk
of `c2`. -/
theorem intersect_common_walks (c1 c2 : ConstraintState) (hw1 : c1.WF) (hw2 : c2.WF)
    (hac : c1.table.Acyclic ∨ c2.table.Acyclic)
    (hs1 : ∀ e ∈ c1.table.edges, e.info.syms.Sorted (fun a b => a ≤ b))
    (hs2 : ∀ e ∈ c2.table.edges, e.info.syms.Sorted (fun a b => a ≤ b))
    (hlen1 : ∀ x, x < c1.table.verts.length →
      (c1.table.vinfo x).positions.length = c1.provenance.elems.length)
    (_hlen2 : ∀ x, x < c2.table.verts.length →
      (c2.table.vinfo x).positions.length = c2.provenance.elems.length)
    (u1 u2 : Nat)
    (hu1 : map_find c1.vertex_map c1.start_node = some u1)
    (hr1 : ∀ a, ¬ c1.table.HasEdge a u1)
    (hu2 : map_find c2.vertex_map c2.start_node = some u2)
    (hr2 : ∀ a, ¬ c2.table.HasEdge a u2) :
    ∃ f d, intersect f c1 c2 ConstraintState.fresh = some d ∧
      (∀ f2, f ≤ f2 → intersect f2 c1 c2 ConstraintState.fresh = some d) ∧
      ∀ s, s ≠ [] → (d.Accepts s ↔ (c1.Accepts s ∧ c2.Accepts s)) := by
  obtain ⟨f, d0, hloop⟩ := loop_drains c1 c2 (pair_wf c1 c2 hac) _
    (init_node_pairs c1 c2 []) ConstraintState.fresh rfl
  have hmono := intersect_loop_mono c1 c2 f ConstraintState.fresh d0 _ hloop
  have hwf0 := intersect_loop_wf c1 c2 f ConstraintState.fresh d0 _ fresh_wf hloop
  obtain ⟨hsound, D, hclosed⟩ := loop_invariant c1 c2 hs1 hs2 f ConstraintState.fresh d0
    (init_node_pairs c1 c2 []) (fun _ => False) fresh_wf
    (by
      rintro A B z ⟨a, b, ⟨e, he, _⟩, _⟩
      exact absurd he (List.not_mem_nil _))
    ⟨fun p hp => Or.inl hp, fun p hp => hp.elim⟩ hloop
  obtain ⟨p1, p2, p3, _⟩ := intersect_provenance_spec c1 c2 d0
  obtain ⟨_, t2, t3, t4⟩ :=
    intersect_terminal_set_spec c1 c2 (intersect_provenance c1 c2 d0)
  have hwf1 := wf_of_same d0 (intersect_terminal_set c1 c2 (intersect_provenance c1 c2 d0))
    (t2.trans p2) (t3.trans p3) hwf0
  obtain ⟨d, e1, _⟩ := prune_spec _ hwf1.1 hwf1.2
  have helems : (intersect_terminal_set c1 c2 (intersect_provenance c1 c2 d0)).provenance.elems
      = c1.provenance.elems ++ c2.provenance.elems := by
    rw [t4, p1, (intersect_loop_prov c1 c2 f _ d0 _ hloop).1]
    rfl
  have hkey : ∀ (a b : Nat) (A1 A2 X : VertexInfo), c1.table.vinfo a = A1 →
      c2.table.vinfo b = A2 → X.positions = A1.positions ++ A2.positions →
      X = pair_key c1 c2 (a, b) := by
    intro a b A1 A2 X h1 h2 h3
    unfold pair_key
    rw [← vinfo_eta X, h3, h1, h2]
  have hstart : (intersect_terminal_set c1 c2 (intersect_provenance c1 c2 d0)).start_node
      = pair_key c1 c2 (u1, u2) := by
    apply hkey u1 u2 c1.start_node c2.start_node _ (hw1.map_range _ _ hu1).2
      (hw2.map_range _ _ hu2).2
    rw [start_node_positions, helems, List.map_append, start_node_positions,
      start_node_positions]
  have hendpos : (intersect_terminal_set c1 c2 (intersect_provenance c1 c2 d0)).end_node.positions
      = c1.end_node.positions ++ c2.end_node.positions := by
    rw [end_node_positions, helems, List.map_append, end_node_positions, end_node_positions]
  have hadd1 : map_find c1.vertex_map (c1.table.vinfo u1) = some u1 := by
    rw [(hw1.map_range _ _ hu1).2]; exact hu1
  have hadd2 : map_find c2.vertex_map (c2.table.vinfo u2) = some u2 := by
    rw [(hw2.map_range _ _ hu2).2]; exact hu2
  have hD : D (u1, u2) := by
    rcases hclosed.1 (u1, u2) (mem_init_node_pairs c1 c2 u1 u2
      (mem_roots c1 u1 (hw1.map_range _ _ hu1).1 hr1)
      (mem_roots c2 u2 (hw2.map_range _ _ hu2).1 hr2)) with h | h
    · exact absurd h (List.not_mem_nil _)
    · exact h
  refine ⟨f, d, ?_, fun f2 hf => ?_, fun s hs => ?_⟩
  · unfold intersect
    rw [hloop]
    exact e1
  · unfold intersect
    rw [hmono f2 hf]
    exact e1
  · rw [prune_accepts _ hwf1.1 hwf1.2 d e1 s hs]
    constructor
    · rintro ⟨u, v, hu, hv, hwalk⟩
      have hk := kwalk_of_lwalk _ s u v hwalk
      rw [(hwf1.1.map_range _ _ hu).2, (hwf1.1.map_range _ _ hv).2, hstart] at hk
      have hk0 := (kwalk_congr _ d0 (t2.trans p2) s _ _).1 hk
      obtain ⟨q, g1, g2, g3, g4, g5⟩ := sound_walk c1 c2 d0 hw1 hw2 hlen1 hsound s (u1, u2) _
        hadd1 hadd2 hk0
      have hpos : c1.end_node.positions ++ c2.end_node.positions
          = (c1.table.vinfo q.1).positions ++ (c2.table.vinfo q.2).positions := by
        rw [← hendpos, g3]
        rfl
      have hl : c1.end_node.positions.length = (c1.table.vinfo q.1).positions.length := by
        rw [hlen1 _ (hw1.map_range _ _ g1).1, end_node_positions, List.length_map]
      obtain ⟨x1, x2⟩ := List.append_inj hpos hl
      have y1 : c1.table.vinfo q.1 = c1.end_node := by
        rw [← vinfo_eta (c1.table.vinfo q.1), ← vinfo_eta c1.end_node, x1]
      have y2 : c2.table.vinfo q.2 = c2.end_node := by
        rw [← vinfo_eta (c2.table.vinfo q.2), ← vinfo_eta c2.end_node, x2]
      rw [y1] at g1
      rw [y2] at g2
      exact ⟨⟨u1, q.1, hu1, g1, g4⟩, ⟨u2, q.2, hu2, g2, g5⟩⟩
    · rintro ⟨⟨a1, v1, ha1, hv1, w1⟩, ⟨a2, v2, ha2, hv2, w2⟩⟩
      have ea1 : a1 = u1 := Option.some.inj (ha1.symm.trans hu1)
      have ea2 : a2 = u2 := Option.some.inj (ha2.symm.trans hu2)
      rw [ea1] at w1
      rw [ea2] at w2
      have hk0 := complete_walk c1 c2 d0 D hclosed s (u1, u2) v1 v2 hD w1 w2
      have hk := (kwalk_congr _ d0 (t2.trans p2) s _ _).2 hk0
      have hend : (intersect_terminal_set c1 c2 (intersect_provenance c1 c2 d0)).end_node
          = pair_key c1 c2 (v1, v2) :=
        hkey v1 v2 c1.end_node c2.end_node _ (hw1.map_range _ _ hv1).2
          (hw2.map_range _ _ hv2).2 hendpos
      rw [← hstart, ← hend] at hk
      obtain ⟨a, b, k1, k2, k3⟩ := lwalk_of_kwalk _ hwf1.1 s _ _ hs hk
      exact ⟨a, b, k1, k2, k3⟩

/-- The two diamond states are well formed. -/
theorem diamond_states_wf : diamond_state.WF ∧ natural_diamond.WF :=
  ⟨wf_of_entries diamond_state ⟨by decide, by decide, by decide⟩ (by decide) (by decide)
      (by decide),
   wf_of_entries natural_diamond ⟨by decide, by decide, by decide⟩ (by decide) (by decide)
      (by decide)⟩

/-- C33 at the diamond built in two orders: the sequence `7 7` labels the walk
`[0], [2], [3]` of both states, all hypotheses hold, `intersect` returns, and
`7 7` labels a walk of the result from its start vertex to its end vertex. -/
theorem intersect_common_walks_witness :
    diamond_state.Accepts [7, 7] ∧ natural_diamond.Accepts [7, 7] ∧
    ∃ f d, intersect f diamond_state natural_diamond ConstraintState.fresh = some d ∧
      d.Accepts [7, 7] := by
  have acc1 : diamond_state.Accepts [7, 7] :=
    ⟨0, 3, by decide, by decide, 1,
      ⟨{ src := 0, tgt := 1, info := { syms := [7] } }, by decide, rfl, rfl, by decide⟩, 3,
      ⟨{ src := 1, tgt := 3, info := { syms := [7] } }, by decide, rfl, rfl, by decide⟩, rfl⟩
  have acc2 : natural_diamond.Accepts [7, 7] :=
    ⟨0, 3, by decide, by decide, 2,
      ⟨{ src := 0, tgt := 2, info := { syms := [7] } }, by decide, rfl, rfl, by decide⟩, 3,
      ⟨{ src := 2, tgt := 3, info := { syms := [7] } }, by decide, rfl, rfl, by decide⟩, rfl⟩
  have t1 : ∀ e ∈ diamond_state.table.edges, e.tgt ≠ 0 := by decide
  have t2 : ∀ e ∈ natural_diamond.table.edges, e.tgt ≠ 0 := by decide
  obtain ⟨f, d, h1, _, h3⟩ := intersect_common_walks diamond_state natural_diamond
    diamond_states_wf.1 diamond_states_wf.2
    (Or.inl (acyclic_of_rank _
      (fun x => if x = 0 then 0 else if x = 2 then 1 else if x = 1 then 2 else 3) (by decide)))
    (by decide) (by decide) (by decide) (by decide) 0 0 (by decide)
    (by
      rintro a ⟨e, he, _, ht⟩
      exact t1 e he ht)
    (by decide)
    (by
      rintro a ⟨e, he, _, ht⟩
      exact t2 e he ht)
  exact ⟨acc1, acc2, f, d, h1, (h3 [7, 7] (by decide)).2 ⟨acc1, acc2⟩⟩

end ProductWalks

section ProductKeys

theorem map_set_keys (P : VertexInfo → Prop) (m : List (VertexInfo × Nat)) (k : VertexInfo)
    (v : Nat) (hm : ∀ q ∈ m, P q.1) (hk : P k) : ∀ q ∈ map_set m k v, P q.1 := by
  induction m with
  | nil =>
    intro q hq
    simp only [map_set, List.mem_singleton] at hq
    rw [hq]; exact hk
  | cons x xs ih =>
    obtain ⟨k1, v1⟩ := x
    intro q hq
    simp only [map_set] at hq
    by_cases h : k1 = k
    · rw [if_pos h] at hq
      rcases List.mem_cons.1 hq with h1 | h1
      · rw [h1]; exact hm (k1, v1) (List.mem_cons_self _ _)
      · exact hm q (List.mem_cons_of_mem _ h1)
    · rw [if_neg h] at hq
      rcases List.mem_cons.1 hq with h1 | h1
      · rw [h1]; exact hm (k1, v1) (List.mem_cons_self _ _)
      · exact ih (fun q hq => hm q (List.mem_cons_of_mem _ hq)) q h1

/-- The method `_add_vertex` with a key of `k` positions keeps the keys at `k`
positions. -/
theorem add_vertex_keylen (cs : ConstraintState) (k : Nat) (vi : VertexInfo)
    (hk : cs.KeyLen k) (hv : vi.positions.length = k) : (cs._add_vertex vi).1.KeyLen k := by
  unfold ConstraintState._add_vertex
  split_ifs
  · exact hk
  · exact map_set_keys (fun key => key.positions.length = k) _ _ _ hk hv

theorem add_edge_keylen (cs : ConstraintState) (k : Nat) (from_ to_ : VertexInfo)
    (hk : cs.KeyLen k) (h1 : from_.positions.length = k) (h2 : to_.positions.length = k) :
    (cs._add_edge from_ to_).1.KeyLen k := by
  unfold ConstraintState._add_edge
  exact add_vertex_keylen _ k to_ (add_vertex_keylen cs k from_ hk h1) h2

theorem edge_pair_keylen (c1 c2 : ConstraintState) (u v : Nat) (e1 e2 : Edge)
    (st : ConstraintState × List (Nat × Nat)) (k : Nat) (hk : st.1.KeyLen k)
    (h1 : (pair_key c1 c2 (u, v)).positions.length = k)
    (h2 : (pair_key c1 c2 (e1.tgt, e2.tgt)).positions.length = k) :
    (intersect_edge_pair c1 c2 u v e1 e2 st).1.KeyLen k := by
  unfold intersect_edge_pair
  dsimp only
  split_ifs
  · exact hk
  · exact add_edge_keylen st.1 k _ _ hk h1 h2

theorem foldl_preserves_mem {α β : Type} (P : α → Prop) (f : α → β → α) (l : List β) (a : α)
    (h0 : P a) (hstep : ∀ x, ∀ y ∈ l, P x → P (f x y)) : P (l.foldl f a) := by
  induction l generalizing a with
  | nil => exact h0
  | cons y ys ih =>
    exact ih _ (hstep _ y (List.mem_cons_self _ _) h0)
      (fun x z hz hx => hstep x z (List.mem_cons_of_mem _ hz) hx)

/-- One call of `intersect_iterate` on a working set of pairs of vertices keeps
the keys of `dest` at the length of the concatenated position lists. -/
theorem iterate_keylen (c1 c2 dest : ConstraintState) (hg1 : c1.table.WF) (hg2 : c2.table.WF)
    (n1 n2 : Nat)
    (hlen1 : ∀ x, x < c1.table.verts.length → (c1.table.vinfo x).positions.length = n1)
    (hlen2 : ∀ x, x < c2.table.verts.length → (c2.table.vinfo x).positions.length = n2)
    (np : List (Nat × Nat))
    (hnp : ∀ p ∈ np, p.1 < c1.table.verts.length ∧ p.2 < c2.table.verts.length)
    (hk : dest.KeyLen (n1 + n2)) :
    (intersect_iterate c1 c2 dest np).2.1.KeyLen (n1 + n2) := by
  cases np with
  | nil => exact hk
  | cons p rest =>
    obtain ⟨u, v⟩ := p
    obtain ⟨hu, hv⟩ := hnp (u, v) (List.mem_cons_self _ _)
    unfold intersect_iterate
    dsimp only
    apply foldl_preserves_mem (fun st : ConstraintState × List (Nat × Nat) => st.1.KeyLen (n1 + n2))
    · exact hk
    · intro st e1 he1 hst
      apply foldl_preserves_mem
        (fun st : ConstraintState × List (Nat × Nat) => st.1.KeyLen (n1 + n2))
      · exact hst
      · intro st1 e2 he2 hst1
        have t1 := hg1.tgt_lt e1 ((mem_out_edges _ _ _).1 he1).1
        have t2 := hg2.tgt_lt e2 ((mem_out_edges _ _ _).1 he2).1
        refine edge_pair_keylen c1 c2 u v e1 e2 st1 _ hst1 ?_ ?_
        · unfold pair_key
          rw [List.length_append, hlen1 u hu, hlen2 v hv]
        · unfold pair_key
          rw [List.length_append, hlen1 _ t1, hlen2 _ t2]

/-- The working-set loop keeps the keys of `dest` at the length of the
concatenated position lists. -/
theorem loop_keylen (c1 c2 : ConstraintState) (hg1 : c1.table.WF) (hg2 : c2.table.WF)
    (n1 n2 : Nat)
    (hlen1 : ∀ x, x < c1.table.verts.length → (c1.table.vinfo x).positions.length = n1)
    (hlen2 : ∀ x, x < c2.table.verts.length → (c2.table.vinfo x).positions.length = n2) :
    ∀ (f : Nat) (dest d : ConstraintState) (np : List (Nat × Nat)),
      dest.WF ∧ dest.Total → dest.KeyLen (n1 + n2) →
      (∀ p ∈ np, p.1 < c1.table.verts.length ∧ p.2 < c2.table.verts.length) →
      intersect_loop c1 c2 f dest np = some d → d.KeyLen (n1 + n2) := by
  intro f
  induction f with
  | zero => intro dest d np _ _ _ h; simp [intersect_loop] at h
  | succ f ih =>
    intro dest d np hw hk hnp h
    have hk1 := iterate_keylen c1 c2 dest hg1 hg2 n1 n2 hlen1 hlen2 np hnp hk
    have hw1 := intersect_iterate_wf c1 c2 dest np hw
    rw [intersect_loop] at h
    split_ifs at h with hb
    · refine ih _ d _ hw1 hk1 ?_ h
      cases np with
      | nil => exact absurd hb (by simp [intersect_iterate])
      | cons p rest =>
        obtain ⟨u, v⟩ := p
        intro q hq
        rcases ((iterate_has c1 c2 dest u v rest hw).2 q).1 hq with hq1 | ⟨e1, he1, e2, he2, _, hq2⟩
        · exact hnp q (List.mem_cons_of_mem _ hq1)
        · rw [hq2]
          exact ⟨hg1.tgt_lt e1 ((mem_out_edges _ _ _).1 he1).1,
            hg2.tgt_lt e2 ((mem_out_edges _ _ _).1 he2).1⟩
    · simp only [Option.some.injEq] at h
      rw [← h]
      exact hk1

/-- The initial working set holds pairs of vertices of the two graphs. -/
theorem init_node_pairs_range (c1 c2 : ConstraintState) :
    ∀ p ∈ init_node_pairs c1 c2 [],
      p.1 < c1.table.verts.length ∧ p.2 < c2.table.verts.length := by
  have hroot : ∀ (c : ConstraintState) (x : Nat), x ∈ c.roots → x < c.table.verts.length := by
    intro c x hx
    unfold ConstraintState.roots Graph.vertices at hx
    exact List.mem_range.1 (List.mem_of_mem_filter hx)
  unfold init_node_pairs
  apply foldl_preserves_mem (fun np : List (Nat × Nat) =>
    ∀ p ∈ np, p.1 < c1.table.verts.length ∧ p.2 < c2.table.verts.length)
  · intro p hp; exact absurd hp (List.not_mem_nil _)
  · intro np u hu hnp
    apply foldl_preserves_mem (fun np : List (Nat × Nat) =>
      ∀ p ∈ np, p.1 < c1.table.verts.length ∧ p.2 < c2.table.verts.length)
    · exact hnp
    · intro np1 v hv hnp1 p hp
      rw [mem_set_insert pair_lt pair_lt_total] at hp
      rcases hp with hp | hp
      · rw [hp]; exact ⟨hroot c1 u hu, hroot c2 v hv⟩
      · exact hnp1 p hp

/-- The keys of the product state and of the result of `intersect` on a fresh
`dest` are as long as the concatenated provenance, when the position lists of
`c1` and `c2` are as long as their provenances. -/
theorem intersect_keylen (c1 c2 : ConstraintState) (hw1 : c1.WF) (hw2 : c2.WF)
    (hlen1 : ∀ x, x < c1.table.verts.length →
      (c1.table.vinfo x).positions.length = c1.provenance.elems.length)
    (hlen2 : ∀ x, x < c2.table.verts.length →
      (c2.table.vinfo x).positions.length = c2.provenance.elems.length)
    (f : Nat) (d0 d : ConstraintState)
    (hloop : intersect_loop c1 c2 f ConstraintState.fresh (init_node_pairs c1 c2 []) = some d0)
    (hd : intersect f c1 c2 ConstraintState.fresh = some d) :
    d0.KeyLen (c1.provenance.elems.length + c2.provenance.elems.length) ∧
    d.KeyLen (c1.provenance.elems.length + c2.provenance.elems.length) := by
  have hk0 : d0.KeyLen (c1.provenance.elems.length + c2.provenance.elems.length) :=
    loop_keylen c1 c2 hw1.graph hw2.graph _ _ hlen1 hlen2 f ConstraintState.fresh d0 _ fresh_wf
      (fun q hq => absurd hq (List.not_mem_nil _)) (init_node_pairs_range c1 c2) hloop
  refine ⟨hk0, ?_⟩
  obtain ⟨_, p2, p3, _⟩ := intersect_provenance_spec c1 c2 d0
  obtain ⟨_, t2, t3, _⟩ :=
    intersect_terminal_set_spec c1 c2 (intersect_provenance c1 c2 d0)
  have hwf0 := intersect_loop_wf c1 c2 f _ d0 _ fresh_wf hloop
  have hwf1 := wf_of_same d0 (intersect_terminal_set c1 c2 (intersect_provenance c1 c2 d0))
    (t2.trans p2) (t3.trans p3) hwf0
  obtain ⟨d1, e1, _, _, _, e5, _⟩ := prune_spec _ hwf1.1 hwf1.2
  unfold intersect at hd
  rw [hloop] at hd
  dsimp only at hd
  have hdd : d1 = d := Option.some.inj (e1.symm.trans hd)
  rw [hdd] at e5
  intro q hq
  cases hf : map_find d.vertex_map q.1 with
  | none => exact absurd hf (map_find_ne_none_of_mem d.vertex_map q.1 q.2 hq)
  | some y =>
    have h1 := ((e5 q.1 y).1 hf).1
    rw [t3, p3] at h1
    obtain ⟨q1, hq1, hq2⟩ := List.mem_map.1 (map_find_some_mem d0.vertex_map q.1 y h1)
    rw [← hq2]
    exact hk0 q1 hq1

end ProductKeys

section ProductResult

/-- The working-set loop never drains when some set of vertex pairs, one of
them in the working set, is closed under a successor with common symbols: the
pair met is replaced by such a successor, whatever the number of calls. -/
theorem loop_stuck (c1 c2 : ConstraintState) (S : Nat × Nat → Prop)
    (hS : ∀ p, S p → ∃ e1 ∈ c1.table.out_edges p.1, ∃ e2 ∈ c2.table.out_edges p.2,
      sym_intersection e1.info.syms e2.info.syms ≠ [] ∧ S (e1.tgt, e2.tgt)) :
    ∀ (f : Nat) (dest : ConstraintState) (np : List (Nat × Nat)), dest.WF ∧ dest.Total →
      (∃ p ∈ np, S p) → intersect_loop c1 c2 f dest np = none := by
  intro f
  induction f with
  | zero => intro dest np _ _; rfl
  | succ f ih =>
    intro dest np hw hex
    obtain ⟨p, hp, hsp⟩ := hex
    cases np with
    | nil => exact absurd hp (List.not_mem_nil _)
    | cons q rest =>
      obtain ⟨u, v⟩ := q
      have hmem := (iterate_has c1 c2 dest u v rest hw).2
      have hwf := intersect_iterate_wf c1 c2 dest ((u, v) :: rest) hw
      have h1 : (intersect_iterate c1 c2 dest ((u, v) :: rest)).1 = true := rfl
      rw [intersect_loop, if_pos h1]
      apply ih _ _ hwf
      rcases List.mem_cons.1 hp with hpq | hpr
      · rw [hpq] at hsp
        obtain ⟨e1, he1, e2, he2, hne, hs⟩ := hS _ hsp
        exact ⟨(e1.tgt, e2.tgt), (hmem _).2 (Or.inr ⟨e1, he1, e2, he2, hne, rfl⟩), hs⟩
      · exact ⟨p, (hmem _).2 (Or.inl hpr), hsp⟩

/-- The chain states of scenarios 4 and 5 are well formed, their graphs are
acyclic, and their position lists have one position, as many as there are
provenance elements. -/
theorem chain_state_domain (c : ConstraintState)
    (hc : c = chain_state 7 8 ∨ c = chain_state 9 8 ∨ c = chain_state 7 7) :
    c.WF ∧ c.table.Acyclic ∧
    (∀ a, a < c.table.verts.length →
      (c.table.vinfo a).positions.length = c.provenance.elems.length) := by
  rcases hc with hc | hc | hc <;> rw [hc] <;>
  exact ⟨wf_of_entries _ ⟨by decide, by decide, by decide⟩ (by decide) (by decide) (by decide),
    acyclic_of_rank _ (fun x => x) (by decide), by decide⟩

/-- Claim C6, amended (result of `intersect` is pruned or empty).  For all
well-formed states `c1`, `c2`, one of them with an acyclic graph, every
VertexInfo having as many positions as its state has provenance elements, and
a fresh `dest`: the loop over the vertex pairs drains with a product state
`d0`, and `intersect` returns (with every sufficient number of calls of
`intersect_iterate`) a state `d` in which every vertex that remains in the
vertex map lies on a walk of `d` from the start vertex to the end vertex, and
both end points of every remaining edge do, the edge being on that walk; and
when the start node and the end node of the concatenated provenance are not
both vertices of the product graph with the end reachable from the start, `d`
has no edge and `d.empty()` is true.  The keys of `d0` and of `d`, the start
node and the end node all have as many positions as `d` has provenance
elements, so every lookup made is one among keys of one length. -/
theorem intersect_pruned_or_empty (c1 c2 : ConstraintState) (hw1 : c1.WF) (hw2 : c2.WF)
    (hac : c1.table.Acyclic ∨ c2.table.Acyclic)
    (hlen1 : ∀ x, x < c1.table.verts.length →
      (c1.table.vinfo x).positions.length = c1.provenance.elems.length)
    (hlen2 : ∀ x, x < c2.table.verts.length →
      (c2.table.vinfo x).positions.length = c2.provenance.elems.length) :
    ∃ f d0 d,
      intersect_loop c1 c2 f ConstraintState.fresh (init_node_pairs c1 c2 []) = some d0 ∧
      (∀ f2, f ≤ f2 → intersect f2 c1 c2 ConstraintState.fresh = some d) ∧
      (∀ k x, map_find d.vertex_map k = some x →
        ∃ u v, map_find d.vertex_map d.start_node = some u ∧
          map_find d.vertex_map d.end_node = some v ∧
          d.table.Reach u x ∧ d.table.Reach x v) ∧
      (∀ e ∈ d.table.edges,
        ∃ u v, map_find d.vertex_map d.start_node = some u ∧
          map_find d.vertex_map d.end_node = some v ∧
          d.table.Reach u e.src ∧ d.table.Reach e.tgt v) ∧
      (¬ (∃ u v, map_find d0.vertex_map d.start_node = some u ∧
            map_find d0.vertex_map d.end_node = some v ∧ d0.table.Reach u v) →
        d.table.edges = [] ∧ d.empty = true) ∧
      d0.KeyLen d.provenance.elems.length ∧ d.KeyLen d.provenance.elems.length ∧
      d.start_node.positions.length = d.provenance.elems.length ∧
      d.end_node.positions.length = d.provenance.elems.length := by
  obtain ⟨f, d0, hloop⟩ := loop_drains c1 c2 (pair_wf c1 c2 hac) _
    (init_node_pairs c1 c2 []) ConstraintState.fresh rfl
  have hmono := intersect_loop_mono c1 c2 f ConstraintState.fresh d0 _ hloop
  obtain ⟨d, h1, h2, _, h4, h5, h6⟩ := intersect_spec c1 c2 f d0 hloop
  have hk := intersect_keylen c1 c2 hw1 hw2 hlen1 hlen2 f d0 d hloop h1
  have hp : d.provenance.elems.length
      = c1.provenance.elems.length + c2.provenance.elems.length := by
    rw [h2, List.length_append]
  refine ⟨f, d0, d, hloop, fun f2 hf => ?_, h5, fun e he => ?_, ⟨fun hno => ?_, ?_, ?_, ?_, ?_⟩⟩
  rotate_left 3
  · rw [hp]; exact hk.1
  · rw [hp]; exact hk.2
  · rw [start_node_positions, List.length_map]
  · rw [end_node_positions, List.length_map]
  · rw [← h1]
    unfold intersect
    rw [hmono f2 hf, hloop]
  · obtain ⟨u, v, hu, hv, w1, _, w3⟩ := h6 e.src e.tgt ⟨e, he, rfl, rfl⟩
    exact ⟨u, v, hu, hv, w1, w3⟩
  · have hnil : d.table.edges = [] := by
      rw [List.eq_nil_iff_forall_not_mem]
      intro e he
      obtain ⟨u, v, hu, hv, w1, w2, w3⟩ := (h4 e.src e.tgt).1 ⟨e, he, rfl, rfl⟩
      exact hno ⟨u, v, hu, hv, w1.trans (Relation.ReflTransGen.head w2 w3)⟩
    refine ⟨hnil, ?_⟩
    unfold ConstraintState.empty Graph.num_edges
    rw [hnil]
    rfl

/-- Scenario 5: two chains whose first labels 7 and 9 are disjoint; the
hypotheses hold, the loop leaves `dest` fresh and `intersect` returns a state
whose `empty()` is true. -/
theorem intersect_pruned_or_empty_witness :
    ∃ f d, intersect f (chain_state 7 8) (chain_state 9 8) ConstraintState.fresh = some d ∧
      d.table.edges = [] ∧ d.empty = true := by
  obtain ⟨f, d0, d, hloop, hall, _, _, hempty, _⟩ :=
    intersect_pruned_or_empty (chain_state 7 8) (chain_state 9 8)
      (chain_state_domain _ (Or.inl rfl)).1 (chain_state_domain _ (Or.inr (Or.inl rfl))).1
      (Or.inl (chain_state_domain _ (Or.inl rfl)).2.1)
      (chain_state_domain _ (Or.inl rfl)).2.2 (chain_state_domain _ (Or.inr (Or.inl rfl))).2.2
  have h10 : intersect_loop (chain_state 7 8) (chain_state 9 8) 10 ConstraintState.fresh
      (init_node_pairs (chain_state 7 8) (chain_state 9 8) []) = some ConstraintState.fresh := by
    decide
  have e1 := intersect_loop_mono _ _ f _ d0 _ hloop (max f 10) (le_max_left _ _)
  have e2 := intersect_loop_mono _ _ 10 _ _ _ h10 (max f 10) (le_max_right _ _)
  have hd0 : d0 = ConstraintState.fresh := Option.some.inj (e1.symm.trans e2)
  have h5 := hempty (by
    rintro ⟨u, v, hu, _⟩
    rw [hd0] at hu
    simp [ConstraintState.fresh, map_find] at hu)
  exact ⟨f, d, hall f (le_refl _), h5.1, h5.2⟩

/-- C6 as stated fails at the state with the provenance `(0, 1, 0, 2)` and the
edges `[0] -> [1]`, `[1] -> [1]`, `[1] -> [2]` labelled `[7]`, intersected with
itself: the state is well formed with keys of one position, the working set
starts as the pair of the two start vertices, and the pair `(1, 1)` of the
self-loop is inserted again whenever it is taken, so the loop never drains and
`intersect` yields no `dest`, whatever the number of calls of
`intersect_iterate`. -/
theorem intersect_pruned_or_empty_counterexample :
    cyclic_state.WF ∧ cyclic_state.KeyLen cyclic_state.provenance.elems.length ∧
    cyclic_state.table.HasEdge 1 1 ∧
    init_node_pairs cyclic_state cyclic_state [] = [(0, 0)] ∧
    (∀ f, intersect_loop cyclic_state cyclic_state f ConstraintState.fresh
      (init_node_pairs cyclic_state cyclic_state []) = none) ∧
    ∀ f, intersect f cyclic_state cyclic_state ConstraintState.fresh = none := by
  have hstuck : ∀ f, intersect_loop cyclic_state cyclic_state f ConstraintState.fresh
      (init_node_pairs cyclic_state cyclic_state []) = none := by
    intro f
    refine loop_stuck cyclic_state cyclic_state (fun p => p = (0, 0) ∨ p = (1, 1)) ?_ f _ _
      fresh_wf ⟨(0, 0), by decide, Or.inl rfl⟩
    rintro p (hp | hp)
    · rw [hp]
      exact ⟨{ src := 0, tgt := 1, info := { syms := [7] } }, by decide,
        { src := 0, tgt := 1, info := { syms := [7] } }, by decide, by decide, Or.inr rfl⟩
    · rw [hp]
      exact ⟨{ src := 1, tgt := 1, info := { syms := [7] } }, by decide,
        { src := 1, tgt := 1, info := { syms := [7] } }, by decide, by decide, Or.inr rfl⟩
  refine ⟨wf_of_entries cyclic_state ⟨by decide, by decide, by decide⟩
      (by decide) (by decide) (by decide), by unfold ConstraintState.KeyLen; decide,
    ⟨{ src := 1, tgt := 1, info := { syms := [7] } }, by decide, rfl, rfl⟩, by decide,
    hstuck, fun f => ?_⟩
  unfold intersect
  rw [hstuck f]

/-- Claim C7, amended (provenance and terminal sets under intersection).  For
all well-formed states `c1`, `c2`, one of them with an acyclic graph, every
VertexInfo having as many positions as its state has provenance elements, and
a fresh `dest`: `intersect` returns (with every sufficient number of calls of
`intersect_iterate`) a state whose provenance is the sequence of `c1` followed
by that of `c2`, with as many elements as both together, whose start node and
end node are those of `c1` followed by those of `c2`, whose terminal set
holds exactly the symbols of the two terminal sets, and whose keys all have as
many positions as there are provenance elements. -/
theorem intersect_provenance_terminals (c1 c2 : ConstraintState) (hw1 : c1.WF) (hw2 : c2.WF)
    (hac : c1.table.Acyclic ∨ c2.table.Acyclic)
    (hlen1 : ∀ x, x < c1.table.verts.length →
      (c1.table.vinfo x).positions.length = c1.provenance.elems.length)
    (hlen2 : ∀ x, x < c2.table.verts.length →
      (c2.table.vinfo x).positions.length = c2.provenance.elems.length) :
    ∃ f d, (∀ f2, f ≤ f2 → intersect f2 c1 c2 ConstraintState.fresh = some d) ∧
      d.provenance.elems = c1.provenance.elems ++ c2.provenance.elems ∧
      d.num_provenance_elements = c1.num_provenance_elements + c2.num_provenance_elements ∧
      d.start_node.positions = c1.start_node.positions ++ c2.start_node.positions ∧
      d.end_node.positions = c1.end_node.positions ++ c2.end_node.positions ∧
      (∀ x, x ∈ d.terminal_set ↔ x ∈ c1.terminal_set ∨ x ∈ c2.terminal_set) ∧
      d.KeyLen d.provenance.elems.length := by
  obtain ⟨f, d0, hloop⟩ := loop_drains c1 c2 (pair_wf c1 c2 hac) _
    (init_node_pairs c1 c2 []) ConstraintState.fresh rfl
  have hmono := intersect_loop_mono c1 c2 f ConstraintState.fresh d0 _ hloop
  obtain ⟨d, h1, h2, h3, _⟩ := intersect_spec c1 c2 f d0 hloop
  have hk := intersect_keylen c1 c2 hw1 hw2 hlen1 hlen2 f d0 d hloop h1
  refine ⟨f, d, fun f2 hf => ?_, h2, ?_, ?_, ?_, h3, ?_⟩
  rotate_left 4
  · rw [h2, List.length_append]; exact hk.2
  · rw [← h1]
    unfold intersect
    rw [hmono f2 hf, hloop]
  · unfold ConstraintState.num_provenance_elements
    rw [h2, List.length_append]
  · rw [start_node_positions, start_node_positions, start_node_positions, h2, List.map_append]
  · rw [end_node_positions, end_node_positions, end_node_positions, h2, List.map_append]

/-- Scenario 4: two chains with the labels 7 and 7; the hypotheses hold, and
the result has two provenance elements and start and end nodes with two
positions each. -/
theorem intersect_provenance_terminals_witness :
    ∃ f d, intersect f (chain_state 7 7) (chain_state 7 7) ConstraintState.fresh = some d ∧
      d.num_provenance_elements = 2 ∧ d.start_node.positions = [0, 0] ∧
      d.end_node.positions = [2, 2] := by
  obtain ⟨f, d, h1, _, h3, h4, h5, _⟩ :=
    intersect_provenance_terminals (chain_state 7 7) (chain_state 7 7)
      (chain_state_domain _ (Or.inr (Or.inr rfl))).1
      (chain_state_domain _ (Or.inr (Or.inr rfl))).1
      (Or.inl (chain_state_domain _ (Or.inr (Or.inr rfl))).2.1)
      (chain_state_domain _ (Or.inr (Or.inr rfl))).2.2
      (chain_state_domain _ (Or.inr (Or.inr rfl))).2.2
  exact ⟨f, d, h1 f (le_refl _), h3, h4, h5⟩

/-- C7 as stated fails at the state with the provenance `(0, 1, 0, 1)` and the
edges `[0] -> [1]` and `[1] -> [1]` labelled `[7]`, intersected with itself:
the state is well formed with keys of one position, the pair `(1, 1)` of the
self-loop is inserted again whenever it is taken, so the loop never drains,
`intersect_provenance` and `intersect_terminal_set` are never reached, and
`intersect` yields no `dest`, whatever the number of calls of
`intersect_iterate`. -/
theorem intersect_provenance_terminals_counterexample :
    lasso_state.WF ∧ lasso_state.KeyLen lasso_state.provenance.elems.length ∧
    lasso_state.table.HasEdge 1 1 ∧
    init_node_pairs lasso_state lasso_state [] = [(0, 0)] ∧
    (∀ f, intersect_loop lasso_state lasso_state f ConstraintState.fresh
      (init_node_pairs lasso_state lasso_state []) = none) ∧
    ∀ f, intersect f lasso_state lasso_state ConstraintState.fresh = none := by
  have hstuck : ∀ f, intersect_loop lasso_state lasso_state f ConstraintState.fresh
      (init_node_pairs lasso_state lasso_state []) = none := by
    intro f
    refine loop_stuck lasso_state lasso_state (fun p => p = (0, 0) ∨ p = (1, 1)) ?_ f _ _
      fresh_wf ⟨(0, 0), by decide, Or.inl rfl⟩
    rintro p (hp | hp)
    · rw [hp]
      exact ⟨{ src := 0, tgt := 1, info := { syms := [7] } }, by decide,
        { src := 0, tgt := 1, info := { syms := [7] } }, by decide, by decide, Or.inr rfl⟩
    · rw [hp]
      exact ⟨{ src := 1, tgt := 1, info := { syms := [7] } }, by decide,
        { src := 1, tgt := 1, info := { syms := [7] } }, by decide, by decide, Or.inr rfl⟩
  refine ⟨wf_of_entries lasso_state ⟨by decide, by decide, by decide⟩
      (by decide) (by decide) (by decide), by unfold ConstraintState.KeyLen; decide,
    ⟨{ src := 1, tgt := 1, info := { syms := [7] } }, by decide, rfl, rfl⟩, by decide,
    hstuck, fun f => ?_⟩
  unfold intersect
  rw [hstuck f]

end ProductResult

end Parsimony
